import Mathlib

/-!
# Verification development for `tdtsp` (time-dependent travelling salesman)

A shallow embedding of `src/main.cpp`.

* Cities and days are natural numbers; a tour is a list of city indexes.
* The table `flightCosts(day, from, to)` is a function into `Int`; an entry that
  is not positive means that the flight does not exist.
* Sums of prices are modelled twice. The functions of the first sections add in
  `Int`, without a bound. The sections on 32-bit sums repeat the functions that
  add prices (`evalTourCost32`, `perform2Opt32`, `perform2OptWithDLBs32`,
  `solveBruteForce32`, `makeNNTourWithLookAhead32`) with every sum kept as a C++
  `int` of 32 bits that wraps around. Both agree on every table whose entries
  are small enough for no sum to leave the range of `int`
  (`evalTourCost32_eq_of_range`, `perform2Opt32_eq`, `perform2OptWithDLBs32_eq`,
  `solveBruteForce32_eq`, `makeNNTourWithLookAhead32_eq`); on other tables they
  differ, and the statements about the functions that add in `Int` describe the
  program on the tables on which both agree.
* `std::sort` is specified by what it promises (`IsOutboundIndex`), with insertion
  sort as one instance; the section on libstdc++ gives the implementation of GCC.
* The deadline (`checkTimeOut`) is modelled as never firing.
* Loops with a statically known trip count are recursions on the number of
  remaining iterations; the `while(1)` loops carry an explicit fuel and return
  `none` when the fuel runs out.
-/

namespace TDTSP

/-- A tour is a sequence of city indexes in visiting order (`typedef std::vector<int> Tour`). -/
abbrev Tour := List Nat

/-- The table `flightCosts(onDay, fromCity, toCity)`. -/
abbrev FlightCosts := Nat → Nat → Nat → Int

/-- The constant `COST_MAX` of the source, `500 * 65535`. -/
def COST_MAX : Int := 32767500

/-- Reading `tour[i]`. -/
def at_ (tour : Tour) (i : Nat) : Nat := tour.getD i 0

/-- The price of the leg flown on day `day` of `tour`:
`flightCosts(day, tour[day], tour[day+1])`. -/
def leg (fc : FlightCosts) (tour : Tour) (day : Nat) : Int :=
  fc day (at_ tour day) (at_ tour (day + 1))

/-- The body of the `for` loop of `evalTourCost`; `k` is the number of days that
remain, `day` the loop counter and `tourCost` the accumulator. -/
def evalLoop (fc : FlightCosts) (tour : Tour) : Nat → Nat → Int → Int
  | 0, _, tourCost => tourCost
  | k + 1, day, tourCost =>
    let cost := fc day (at_ tour day) (at_ tour (day + 1))
    if cost > 0 then evalLoop fc tour k (day + 1) (tourCost + cost) else -1

/-- The function `evalTourCost` with the sum taken in `Int`: the sum of the leg
prices, or `-1` when a leg is missing (`evalTourCost32` keeps the sum in 32
bits; `evalTourCost32_eq` states when both agree). The loop runs over
`day < tour.size() - 1`; the program calls it on non-empty tours only (for an
empty tour the unsigned bound wraps around in C++, here the loop is empty). -/
def evalTourCost (fc : FlightCosts) (tour : Tour) : Int :=
  evalLoop fc tour (tour.length - 1) 0 0

/-- The sum of the raw table entries of the legs of a tour. -/
def rawSum (fc : FlightCosts) (tour : Tour) : Int :=
  ∑ d in Finset.range (tour.length - 1), leg fc tour d

/-- Every leg of the tour is a priced flight. -/
def Feasible (fc : FlightCosts) (tour : Tour) : Prop :=
  ∀ d, d < tour.length - 1 → 0 < leg fc tour d

instance (fc : FlightCosts) (tour : Tour) : Decidable (Feasible fc tour) := by
  unfold Feasible; infer_instance


/-! ## Moves of the local search -/

/-- The result of one pass of a scan that may jump back to `from_scratch`:
`restart r` is the `goto from_scratch` with the new search state, `next s` is
normal completion with the loop state `s`. -/
inductive Step (ρ σ : Type) where
  | restart : ρ → Step ρ σ
  | next : σ → Step ρ σ

/-- The effect of `std::swap(tour[i], tour[j])`. -/
def swapAt (tour : Tour) (i j : Nat) : Tour :=
  (tour.set i (at_ tour j)).set j (at_ tour i)

/-- The flip loop `for(i=0;i<day2-day1+1;i++) tour[day1+i] = bestTour[day2-i];`. -/
def flipInto (tour bestTour : Tour) (day1 day2 : Nat) : Tour :=
  (List.range (day2 - day1 + 1)).foldl
    (fun tr i => tr.set (day1 + i) (at_ bestTour (day2 - i))) tour

/-- The tour with the segment of positions `day1 .. day2` (both included) reversed. -/
def reverseSeg (tour : Tour) (day1 day2 : Nat) : Tour :=
  tour.take day1 ++ ((tour.drop day1).take (day2 - day1 + 1)).reverse ++ tour.drop (day2 + 1)

/-- The price computed for a non-adjacent swap from `bestCost` and eight table
entries (the delta formula of `perform2Opt`). -/
def swapDeltaCost (fc : FlightCosts) (bestTour : Tour) (bestCost : Int)
    (day1 day2 city1 : Nat) (costFromTo1 : Int) : Int :=
  let city2 := at_ bestTour day2
  bestCost - (costFromTo1 +
      fc (day2 - 1) (at_ bestTour (day2 - 1)) city2 +
      fc day2 city2 (at_ bestTour (day2 + 1)))
    + (fc (day1 - 1) (at_ bestTour (day1 - 1)) city2 +
      fc day1 city2 (at_ bestTour (day1 + 1)) +
      fc (day2 - 1) (at_ bestTour (day2 - 1)) city1 +
      fc day2 city1 (at_ bestTour (day2 + 1)))

/-- The feasibility test made before a non-adjacent swap is priced. -/
def swapLegsOk (fc : FlightCosts) (bestTour : Tour) (day1 day2 city1 : Nat) : Prop :=
  let city2 := at_ bestTour day2
  fc (day1 - 1) (at_ bestTour (day1 - 1)) city2 > 0 ∧
  fc day1 city2 (at_ bestTour (day1 + 1)) > 0 ∧
  fc (day2 - 1) (at_ bestTour (day2 - 1)) city1 > 0 ∧
  fc day2 city1 (at_ bestTour (day2 + 1)) > 0

instance (fc : FlightCosts) (bestTour : Tour) (day1 day2 city1 : Nat) :
    Decidable (swapLegsOk fc bestTour day1 day2 city1) := by
  unfold swapLegsOk; infer_instance

/-! ## `perform2Opt` -/

/-- The `// swap` block of `perform2Opt` for one pair `(day1, day2)`: an adjacent
pair is swapped in place in `bestTour`, priced by `evalTourCost` and swapped
back when it does not improve; a non-adjacent pair is priced by the delta
formula and swapped only when accepted. -/
def opt2Swap (fc : FlightCosts) (bestCost : Int) (day1 city1 : Nat) (costFromTo1 : Int)
    (day2 : Nat) (bestTour : Tour) : Step (Tour × Int) Tour :=
  if day2 = day1 + 1 then
    let swapped := swapAt bestTour day1 day2
    let cost := evalTourCost fc swapped
    if cost > 0 ∧ cost < bestCost then .restart (swapped, cost)
    else .next (swapAt swapped day1 day2)
  else
    if swapLegsOk fc bestTour day1 day2 city1 then
      let cost := swapDeltaCost fc bestTour bestCost day1 day2 city1 costFromTo1
      if cost < bestCost then .restart (swapAt bestTour day1 day2, cost)
      else .next bestTour
    else .next bestTour

/-- The `// flip` block of `perform2Opt`: the scratch copy `tour` (not reset
between iterations) receives the reversed segment and is priced by
`evalTourCost`. -/
def opt2Flip (fc : FlightCosts) (bestCost : Int) (day1 day2 : Nat) (bestTour tour : Tour) :
    Step (Tour × Int) (Tour × Tour) :=
  let tour1 := flipInto tour bestTour day1 day2
  let cost := evalTourCost fc tour1
  if cost > 0 ∧ cost < bestCost then .restart (tour1, cost)
  else .next (bestTour, tour1)

/-- The body of the `day2` loop of `perform2Opt`: the swap block, then the flip
block. -/
def opt2Body (fc : FlightCosts) (bestCost : Int) (day1 city1 : Nat) (costFromTo1 : Int)
    (day2 : Nat) (bestTour tour : Tour) : Step (Tour × Int) (Tour × Tour) :=
  match opt2Swap fc bestCost day1 city1 costFromTo1 day2 bestTour with
  | .restart r => .restart r
  | .next bestTour1 => opt2Flip fc bestCost day1 day2 bestTour1 tour

/-- The loop `for(int day2=day1+1;day2<bestTour.size()-1;day2++)`; `k` counts the
iterations that remain. -/
def opt2Day2 (fc : FlightCosts) (bestCost : Int) (day1 city1 : Nat) (costFromTo1 : Int) :
    Nat → Nat → Tour → Tour → Step (Tour × Int) (Tour × Tour)
  | 0, _, bestTour, tour => .next (bestTour, tour)
  | k + 1, day2, bestTour, tour =>
    match opt2Body fc bestCost day1 city1 costFromTo1 day2 bestTour tour with
    | .restart r => .restart r
    | .next (bestTour1, tour1) =>
      opt2Day2 fc bestCost day1 city1 costFromTo1 k (day2 + 1) bestTour1 tour1

/-- The loop `for(int day1=1;day1<bestTour.size()-2;day1++)`; `k` counts the
iterations that remain. -/
def opt2Day1 (fc : FlightCosts) (bestCost : Int) : Nat → Nat → Tour → Step (Tour × Int) Tour
  | 0, _, bestTour => .next bestTour
  | k + 1, day1, bestTour =>
    let tour := bestTour
    let city1 := at_ bestTour day1
    let costFromTo1 := fc (day1 - 1) (at_ bestTour (day1 - 1)) city1 +
                       fc day1 city1 (at_ bestTour (day1 + 1))
    match opt2Day2 fc bestCost day1 city1 costFromTo1
        (bestTour.length - 1 - (day1 + 1)) (day1 + 1) bestTour tour with
    | .restart r => .restart r
    | .next (bestTour1, _) => opt2Day1 fc bestCost k (day1 + 1) bestTour1

/-- The `while(1)` loop of `perform2Opt`; every `goto from_scratch` uses one unit
of fuel. -/
def perform2OptLoop (fc : FlightCosts) : Nat → Tour → Int → Option Tour
  | 0, _, _ => none
  | fuel + 1, bestTour, bestCost =>
    match opt2Day1 fc bestCost (bestTour.length - 2 - 1) 1 bestTour with
    | .restart (t, c) => perform2OptLoop fc fuel t c
    | .next t => some t

/-- The function `perform2Opt`. -/
def perform2Opt (fc : FlightCosts) (fuel : Nat) (initialTour : Tour) : Option Tour :=
  perform2OptLoop fc fuel initialTour (evalTourCost fc initialTour)

/-! ## `perform2OptWithDLBs` -/

/-- The first slot of `tour` that holds `city`, or `-1`
(`for(slot...) if(tour[slot]==city) { ...; break; }`). -/
def findSlot (tour : Tour) (city : Nat) : Nat → Nat → Int
  | 0, _ => -1
  | k + 1, slot => if at_ tour slot = city then (slot : Int) else findSlot tour city k (slot + 1)

/-- The window loop `for(offset=-resetDepth;offset<=+resetDepth;offset++)`; its
counter `j` stands for `offset + resetDepth`. -/
def clearWindow (oldTour newTour : Tour) (oldTourSlot : Int) :
    Nat → Nat → List Nat → List Nat
  | 0, _, bits => bits
  | k + 1, j, bits =>
    let target : Int := oldTourSlot + ((j : Int) - 3)
    let bits1 :=
      if target ≥ 0 ∧ target < newTour.length then bits.set (at_ oldTour target.toNat) 0
      else bits
    clearWindow oldTour newTour oldTourSlot k (j + 1) bits1

/-- The test of `updateDontLookBits`: the left or the right neighbour of the city
differs between the two tours. A slot of `-1` fails the comparison with the
unsigned `size()-1`. -/
def neighbourChanged (oldTour newTour : Tour) (oldTourSlot newTourSlot : Int) : Prop :=
  (oldTourSlot > 0 ∧ newTourSlot > 0 ∧
      at_ oldTour (oldTourSlot - 1).toNat ≠ at_ newTour (newTourSlot - 1).toNat) ∨
  ((0 ≤ oldTourSlot ∧ oldTourSlot < (oldTour.length : Int) - 1) ∧
    (0 ≤ newTourSlot ∧ newTourSlot < (newTour.length : Int) - 1) ∧
      at_ oldTour (oldTourSlot + 1).toNat ≠ at_ newTour (newTourSlot + 1).toNat)

instance (oldTour newTour : Tour) (oldTourSlot newTourSlot : Int) :
    Decidable (neighbourChanged oldTour newTour oldTourSlot newTourSlot) := by
  unfold neighbourChanged; infer_instance

/-- The loop over `city` of `updateDontLookBits`. -/
def updateLoop (oldTour newTour : Tour) : Nat → Nat → List Nat → List Nat
  | 0, _, bits => bits
  | k + 1, city, bits =>
    let oldTourSlot := findSlot oldTour city oldTour.length 0
    let newTourSlot := findSlot newTour city newTour.length 0
    let bits1 :=
      if neighbourChanged oldTour newTour oldTourSlot newTourSlot then
        clearWindow oldTour newTour oldTourSlot 7 0 bits
      else bits
    updateLoop oldTour newTour k (city + 1) bits1

/-- The function `updateDontLookBits`. -/
def updateDontLookBits (oldTour newTour : Tour) (dontLookBits : List Nat) : List Nat :=
  updateLoop oldTour newTour (oldTour.length - 1) 0 dontLookBits

/-- The `// swap` block of `perform2OptWithDLBs`: as in `perform2Opt`, but the
swap is made on a copy and an accepted move updates the bits. -/
def dlbSwap (fc : FlightCosts) (bestTour : Tour) (bestCost : Int) (dontLookBits : List Nat)
    (day1 city1 : Nat) (costFromTo1 : Int) (day2 : Nat) :
    Step (Tour × Int × List Nat) Unit :=
  if day2 = day1 + 1 then
    let tour := swapAt bestTour day1 day2
    let cost := evalTourCost fc tour
    if cost > 0 ∧ cost < bestCost then
      .restart (tour, cost, updateDontLookBits bestTour tour dontLookBits)
    else .next ()
  else
    if swapLegsOk fc bestTour day1 day2 city1 then
      let cost := swapDeltaCost fc bestTour bestCost day1 day2 city1 costFromTo1
      if cost < bestCost then
        let tour := swapAt bestTour day1 day2
        .restart (tour, cost, updateDontLookBits bestTour tour dontLookBits)
      else .next ()
    else .next ()

/-- The `// flip` block of `perform2OptWithDLBs`. -/
def dlbFlip (fc : FlightCosts) (bestTour : Tour) (bestCost : Int) (dontLookBits : List Nat)
    (day1 day2 : Nat) (tour : Tour) : Step (Tour × Int × List Nat) Tour :=
  let tour1 := flipInto tour bestTour day1 day2
  let cost := evalTourCost fc tour1
  if cost > 0 ∧ cost < bestCost then
    .restart (tour1, cost, updateDontLookBits bestTour tour1 dontLookBits)
  else .next tour1

/-- The body of the `day2` loop of `perform2OptWithDLBs`; the state is the
scratch copy `tour` of the flip. -/
def dlbBody (fc : FlightCosts) (bestTour : Tour) (bestCost : Int) (dontLookBits : List Nat)
    (day1 city1 : Nat) (costFromTo1 : Int) (day2 : Nat) (tour : Tour) :
    Step (Tour × Int × List Nat) Tour :=
  match dlbSwap fc bestTour bestCost dontLookBits day1 city1 costFromTo1 day2 with
  | .restart r => .restart r
  | .next _ => dlbFlip fc bestTour bestCost dontLookBits day1 day2 tour

/-- The `day2` loop of `perform2OptWithDLBs`. -/
def dlbDay2 (fc : FlightCosts) (bestTour : Tour) (bestCost : Int) (dontLookBits : List Nat)
    (day1 city1 : Nat) (costFromTo1 : Int) :
    Nat → Nat → Tour → Step (Tour × Int × List Nat) Tour
  | 0, _, tour => .next tour
  | k + 1, day2, tour =>
    match dlbBody fc bestTour bestCost dontLookBits day1 city1 costFromTo1 day2 tour with
    | .restart r => .restart r
    | .next tour1 =>
      dlbDay2 fc bestTour bestCost dontLookBits day1 city1 costFromTo1 k (day2 + 1) tour1

/-- The `day1` loop of `perform2OptWithDLBs`: a position whose preceding city has
its bit set is skipped; a position scanned without success sets that bit. -/
def dlbDay1 (fc : FlightCosts) (bestTour : Tour) (bestCost : Int) :
    Nat → Nat → List Nat → Step (Tour × Int × List Nat) (List Nat)
  | 0, _, dontLookBits => .next dontLookBits
  | k + 1, day1, dontLookBits =>
    if dontLookBits.getD (at_ bestTour (day1 - 1)) 0 = 1 then
      dlbDay1 fc bestTour bestCost k (day1 + 1) dontLookBits
    else
      let tour := bestTour
      let city1 := at_ bestTour day1
      let costFromTo1 := fc (day1 - 1) (at_ bestTour (day1 - 1)) city1 +
                         fc day1 city1 (at_ bestTour (day1 + 1))
      match dlbDay2 fc bestTour bestCost dontLookBits day1 city1 costFromTo1
          (bestTour.length - 1 - (day1 + 1)) (day1 + 1) tour with
      | .restart r => .restart r
      | .next _ =>
        dlbDay1 fc bestTour bestCost k (day1 + 1)
          (dontLookBits.set (at_ bestTour (day1 - 1)) 1)

/-- The `while(1)` loop of `perform2OptWithDLBs`. Next to the returned
`bestTour` the result records the bits as they were at the start of the last
pass, the one that accepted no move. -/
def perform2OptWithDLBsLoop (fc : FlightCosts) :
    Nat → Tour → Int → List Nat → Option (Tour × List Nat)
  | 0, _, _, _ => none
  | fuel + 1, bestTour, bestCost, dontLookBits =>
    match dlbDay1 fc bestTour bestCost (bestTour.length - 2 - 1) 1 dontLookBits with
    | .restart (t, c, bits) => perform2OptWithDLBsLoop fc fuel t c bits
    | .next _ => some (bestTour, dontLookBits)

/-- The function `perform2OptWithDLBs`; `numCities` is `flightCosts.width()`. -/
def perform2OptWithDLBs (fc : FlightCosts) (numCities : Nat) (fuel : Nat)
    (initialTour : Tour) : Option Tour :=
  (perform2OptWithDLBsLoop fc fuel initialTour (evalTourCost fc initialTour)
    (List.replicate numCities 0)).map Prod.fst

/-- The table of a hand-made instance with eight cities: the legs of three tours
are priced, every other flight is missing. -/
def dlbTable : FlightCosts := fun d a b =>
  match d, a, b with
  | 0, 0, 1 => 10 | 1, 1, 2 => 10 | 2, 2, 3 => 10 | 3, 3, 4 => 10
  | 4, 4, 5 => 10 | 5, 5, 6 => 10 | 6, 6, 7 => 10 | 7, 7, 0 => 10
  | 5, 5, 7 => 10 | 6, 7, 6 => 10 | 7, 6, 0 => 5
  | 1, 1, 5 => 10 | 2, 5, 3 => 10 | 4, 4, 2 => 10 | 5, 2, 7 => 5
  | _, _, _ => -1

/-! ## Properties stated about the local search -/

/-- The candidate tour is feasible and strictly cheaper than `bestCost`. -/
def Improves (fc : FlightCosts) (bestCost : Int) (cand : Tour) : Prop :=
  0 < evalTourCost fc cand ∧ evalTourCost fc cand < bestCost

/-- Neither the swap of positions `d1`, `d2` nor the reversal of the segment
`d1 .. d2` gives a feasible tour strictly cheaper than `t`. -/
def NoBetterMove (fc : FlightCosts) (t : Tour) (d1 d2 : Nat) : Prop :=
  ¬ Improves fc (evalTourCost fc t) (swapAt t d1 d2) ∧
  ¬ Improves fc (evalTourCost fc t) (reverseSeg t d1 d2)

/-- Local optimality: no move with `1 ≤ d1 < d2 < N` improves the tour, where
`N = t.length - 1`. -/
def TwoOpt (fc : FlightCosts) (t : Tour) : Prop :=
  ∀ d1 d2, 1 ≤ d1 → d1 < d2 → d2 < t.length - 1 → NoBetterMove fc t d1 d2

/-- The tour `r` has the length of `t`, the same first and last entry, and the
positions strictly between hold a permutation of those of `t`. -/
def SameCities (t r : Tour) : Prop :=
  r.length = t.length ∧ at_ r 0 = at_ t 0 ∧
  at_ r (t.length - 1) = at_ t (t.length - 1) ∧
  ((r.drop 1).take (t.length - 2)).Perm ((t.drop 1).take (t.length - 2))

/-- A valid tour for `N` cities from `start`: length `N + 1`, `start` at both
ends, and positions `1 .. N-1` hold every other city exactly once. -/
def ValidTour (N start : Nat) (t : Tour) : Prop :=
  t.length = N + 1 ∧ at_ t 0 = start ∧ at_ t N = start ∧
  ((t.drop 1).take (N - 1)).Perm ((List.range N).filter (fun c => c ≠ start))

instance (N start : Nat) (t : Tour) : Decidable (ValidTour N start t) := by
  unfold ValidTour; infer_instance

/-- The tour `r` is a rearrangement of `b` that keeps the length and both ends. -/
def Rearranged (b r : Tour) : Prop :=
  r.length = b.length ∧ r.Perm b ∧ at_ r 0 = at_ b 0 ∧
  at_ r (b.length - 1) = at_ b (b.length - 1)

/-- The scratch copy used by the flip agrees with `b` outside the positions
`d1 .. d2-1` written so far. -/
def Scratch (b : Tour) (d1 d2 : Nat) (tour : Tour) : Prop :=
  tour.length = b.length ∧ ∀ p, p < d1 ∨ d2 ≤ p → at_ tour p = at_ b p

/-- What holds of an accepted move `r = (tour, cost)` made from `(b, bc)`: the
tour is a rearrangement of `b`, the cost went down, the recorded cost is the
evaluated cost of a feasible tour when `(b, bc)` was so, and a move accepted at a
non-positive `bc` changes the recorded cost by the change of the raw sum. -/
def GoodRestart (fc : FlightCosts) (b : Tour) (bc : Int) (r : Tour × Int) : Prop :=
  Rearranged b r.1 ∧ r.2 < bc ∧
  (Feasible fc b → bc = evalTourCost fc b → r.2 = evalTourCost fc r.1 ∧ 0 < r.2) ∧
  (bc ≤ 0 → r.2 - rawSum fc r.1 = bc - rawSum fc b)

/-- The cities at positions `0 .. length-2` of the tour are pairwise different. -/
def DistinctCities (b : Tour) : Prop := b.dropLast.Nodup

instance (b : Tour) : Decidable (DistinctCities b) := by
  unfold DistinctCities; infer_instance

/-! ## `solveBruteForce` -/

/-- Part of `std::next_permutation` (library code, modelled from the C++
standard's description by the usual algorithm): the range `xs` behind the pivot
`x` has no ascent; the rightmost entry of `xs` that is greater than `x` is
exchanged with `x`. The result is that entry and the range after the exchange,
or `none` when no entry is greater than `x`. -/
def swapPivot (x : Nat) : List Nat → Option (Nat × List Nat)
  | [] => none
  | y :: ys =>
    match swapPivot x ys with
    | some (z, ys1) => some (z, y :: ys1)
    | none => if x < y then some (y, x :: ys) else none

/-- The call `std::next_permutation(first, last)` on a range: `some` of the
lexicographically next arrangement when there is one (the function returns
`true`), `none` when the range is the last arrangement (the function returns
`false`). The pivot is the rightmost position followed by a greater entry; it is
exchanged with the rightmost greater entry and the range behind it is reversed. -/
def nextPerm : List Nat → Option (List Nat)
  | [] => none
  | x :: xs =>
    match nextPerm xs with
    | some ys => some (x :: ys)
    | none =>
      match swapPivot x xs with
      | some (y, xs1) => some (y :: xs1.reverse)
      | none => none

/-- The call `std::next_permutation(tour.begin()+1, tour.end()-1)`: the first and
the last entry of the tour stay. -/
def nextTour (tour : Tour) : Option Tour :=
  match tour with
  | [] => none
  | s :: rest =>
    (nextPerm rest.dropLast).map (fun m => s :: (m ++ rest.drop (rest.length - 1)))

/-- The tour that `solveBruteForce` starts from: `startCity`, the other cities in
increasing order, `startCity`. -/
def firstTour (numCities startCity : Nat) : Tour :=
  startCity :: ((List.range numCities).filter (fun i => i ≠ startCity) ++ [startCity])

/-- The `while(1)` loop of `solveBruteForce`; the state is the current `tour` and
the pair `(globalBestTour, globalBestCost)`. One unit of fuel is used per
evaluated tour. -/
def bruteLoop (fc : FlightCosts) : Nat → Tour → Tour × Int → Option (Tour × Int)
  | 0, _, _ => none
  | fuel + 1, tour, (globalBestTour, globalBestCost) =>
    let cost := evalTourCost fc tour
    let best := if cost > 0 ∧ cost < globalBestCost then (tour, cost)
                else (globalBestTour, globalBestCost)
    match nextTour tour with
    | some tour1 => bruteLoop fc fuel tour1 best
    | none => some best

/-- The function `solveBruteForce`, entered with an empty `globalBestTour`: the
final pair `(globalBestTour, globalBestCost)`. -/
def solveBruteForce (fc : FlightCosts) (numCities startCity : Nat) (fuel : Nat) :
    Option (Tour × Int) :=
  bruteLoop fc fuel (firstTour numCities startCity) ([], COST_MAX)

/-- What `solveBruteForce` prints: the best tour, unless it is empty. -/
def emitted (globalBestTour : Tour) : Option Tour :=
  if globalBestTour.isEmpty then none else some globalBestTour

/-- Lexicographic comparison `l ≤ p` of two ranges, the order in which
`std::next_permutation` steps. -/
def lexLe : List Nat → List Nat → Bool
  | [], _ => true
  | _ :: _, [] => false
  | a :: as, b :: bs => decide (a < b) || (decide (a = b) && lexLe as bs)

/-- A table with two cities whose two flights cost 20 000 000 each. -/
def dearTable : FlightCosts := fun d a b =>
  match d, a, b with
  | 0, 0, 1 => 20000000
  | 1, 1, 0 => 20000000
  | _, _, _ => -1

/-- The table of scenario A of the specification: three cities, three flights of
price 10. -/
def scenarioA : FlightCosts := fun d a b =>
  match d, a, b with
  | 0, 0, 1 => 10
  | 1, 1, 2 => 10
  | 2, 2, 0 => 10
  | _, _, _ => -1

/-- The closed tour through the day order `m`: `s`, then `m`, then `s`. -/
def closeTour (s : Nat) (m : List Nat) : Tour := s :: (m ++ [s])

/-- The state `g = (globalBestTour, globalBestCost)` is the best among the day
orders in `S`: either nothing was recorded yet, or a closed tour of cost below
`COST_MAX` is recorded with its evaluated cost; and no feasible closed tour of
`S` is cheaper than the recorded cost. -/
def BestOf (fc : FlightCosts) (s : Nat) (m0 : List Nat) (S : List Nat → Prop)
    (g : Tour × Int) : Prop :=
  ((g.1 = [] ∧ g.2 = COST_MAX) ∨
    (∃ q, q.Perm m0 ∧ g.1 = closeTour s q ∧ g.2 = evalTourCost fc g.1 ∧
      0 < g.2 ∧ g.2 < COST_MAX)) ∧
  ∀ p, p.Perm m0 → S p → 0 < evalTourCost fc (closeTour s p) →
    g.2 ≤ evalTourCost fc (closeTour s p)

/-! ## Flight indexes -/

/-- A flight in a sorted list (`struct CityCost`): the other city and the price. -/
structure CityCost where
  city : Nat
  cost : Int
  deriving DecidableEq

/-- The flights collected for `(fromCity, day)` before sorting, in the order of
the `push_back` loop of `sortOutboundFlights`. -/
def outboundCandidates (fc : FlightCosts) (numCities fromCity day : Nat) : List CityCost :=
  (List.range numCities).filterMap (fun toCity =>
    if fc day fromCity toCity > 0 then some ⟨toCity, fc day fromCity toCity⟩ else none)

/-- The flights collected for `(toCity, day)` before sorting, in the order of the
`push_back` loop of `sortInboundFlights`. -/
def inboundCandidates (fc : FlightCosts) (numCities toCity day : Nat) : List CityCost :=
  (List.range numCities).filterMap (fun fromCity =>
    if fc day fromCity toCity > 0 then some ⟨fromCity, fc day fromCity toCity⟩ else none)

/-- What `std::sort` with `CityCost::operator<` guarantees of its result: no
entry is followed by a strictly cheaper one. -/
def SortedByCost (l : List CityCost) : Prop :=
  l.Pairwise (fun a b => ¬ b.cost < a.cost)

/-- The table `out` is a possible result of `sortOutboundFlights`: each list is a
rearrangement of the collected flights, sorted by price. The order among flights
of equal price is not fixed by `std::sort`. -/
def IsOutboundIndex (fc : FlightCosts) (numCities : Nat)
    (out : Nat → Nat → List CityCost) : Prop :=
  ∀ city day, city < numCities → day < numCities →
    (out city day).Perm (outboundCandidates fc numCities city day) ∧
    SortedByCost (out city day)

/-- The table `inb` is a possible result of `sortInboundFlights`. -/
def IsInboundIndex (fc : FlightCosts) (numCities : Nat)
    (inb : Nat → Nat → List CityCost) : Prop :=
  ∀ city day, city < numCities → day < numCities →
    (inb city day).Perm (inboundCandidates fc numCities city day) ∧
    SortedByCost (inb city day)

/-- The function `sortOutboundFlights`, with `std::sort` modelled by insertion
sort on the price (one of the orders `std::sort` may produce). -/
def sortOutboundFlights (fc : FlightCosts) (numCities : Nat) : Nat → Nat → List CityCost :=
  fun city day =>
    if city < numCities ∧ day < numCities then
      (outboundCandidates fc numCities city day).insertionSort (fun a b => a.cost ≤ b.cost)
    else []

/-- The function `sortInboundFlights`, with `std::sort` modelled by insertion
sort on the price. -/
def sortInboundFlights (fc : FlightCosts) (numCities : Nat) : Nat → Nat → List CityCost :=
  fun city day =>
    if city < numCities ∧ day < numCities then
      (inboundCandidates fc numCities city day).insertionSort (fun a b => a.cost ≤ b.cost)
    else []

/-! ## `makeNNTourWithLookAhead` -/

/-- The scan `for(i...) if(citiesToVisit[nextCity]) { ...; break; }` of
`evalGreedyNNTourCost`: the first flight to a city not visited yet. -/
def firstUnvisited : List CityCost → List Nat → Option CityCost
  | [], _ => none
  | f :: rest, citiesToVisit =>
    if citiesToVisit.getD f.city 0 ≠ 0 then some f else firstUnvisited rest citiesToVisit

/-- The `day` loop of `evalGreedyNNTourCost`; `k` counts the days that remain. -/
def greedyLoop (fc : FlightCosts) (numCities toCity : Nat)
    (out : Nat → Nat → List CityCost) : Nat → Nat → Nat → List Nat → Int → Int
  | 0, _, _, _, flightsCost => flightsCost
  | k + 1, day, currCity, citiesToVisit, flightsCost =>
    if day = numCities - 1 then
      if fc day currCity toCity > 0 then
        greedyLoop fc numCities toCity out k (day + 1) currCity citiesToVisit
          (flightsCost + fc day currCity toCity)
      else COST_MAX
    else
      match firstUnvisited (out currCity day) citiesToVisit with
      | some f =>
        greedyLoop fc numCities toCity out k (day + 1) f.city (citiesToVisit.set f.city 0)
          (flightsCost + f.cost)
      | none => COST_MAX

/-- The function `evalGreedyNNTourCost`. -/
def evalGreedyNNTourCost (startDay numCities fromCity toCity : Nat)
    (citiesNotVisitedYet : List Nat) (fc : FlightCosts)
    (out : Nat → Nat → List CityCost) : Int :=
  greedyLoop fc numCities toCity out (numCities - startDay) startDay fromCity
    (citiesNotVisitedYet.set fromCity 0) 0

/-- The scan of `makeNNTourWithLookAhead` over the flights of the day; the state
is `(bestNextCity, bestTotalCost)`, with `none` for the placeholder `-1`. -/
def lookAheadScan (fc : FlightCosts) (numCities startCity day : Nat)
    (out : Nat → Nat → List CityCost) (citiesToVisit : List Nat) :
    List CityCost → Option Nat × Int → Option Nat × Int
  | [], s => s
  | f :: rest, (bestNextCity, bestTotalCost) =>
    if citiesToVisit.getD f.city 0 ≠ 0 then
      let totalCost := f.cost +
        evalGreedyNNTourCost (day + 1) numCities f.city startCity citiesToVisit fc out
      if totalCost < bestTotalCost then
        lookAheadScan fc numCities startCity day out citiesToVisit rest (some f.city, totalCost)
      else
        lookAheadScan fc numCities startCity day out citiesToVisit rest
          (bestNextCity, bestTotalCost)
    else
      lookAheadScan fc numCities startCity day out citiesToVisit rest
        (bestNextCity, bestTotalCost)

/-- The `day` loop of `makeNNTourWithLookAhead`; `k` counts the days that remain. -/
def lookAheadLoop (fc : FlightCosts) (numCities startCity : Nat)
    (out : Nat → Nat → List CityCost) : Nat → Nat → Tour → List Nat → Nat → Tour
  | 0, _, tour, _, _ => tour
  | k + 1, day, tour, citiesToVisit, currCity =>
    if day = numCities - 1 then
      if fc day currCity startCity > 0 then
        lookAheadLoop fc numCities startCity out k (day + 1) (tour ++ [startCity])
          citiesToVisit currCity
      else []
    else
      match lookAheadScan fc numCities startCity day out citiesToVisit (out currCity day)
          (none, COST_MAX) with
      | (some bestNextCity, _) =>
        lookAheadLoop fc numCities startCity out k (day + 1) (tour ++ [bestNextCity])
          (citiesToVisit.set bestNextCity 0) bestNextCity
      | (none, _) => []

/-- The function `makeNNTourWithLookAhead`. -/
def makeNNTourWithLookAhead (startCity numCities : Nat) (fc : FlightCosts)
    (out : Nat → Nat → List CityCost) : Tour :=
  lookAheadLoop fc numCities startCity out numCities 0 [startCity]
    ((List.replicate numCities 1).set startCity 0) startCity

/-! ## `makeDoubleEndedNNTour` -/

/-- The scans of `makeDoubleEndedNNTour`: the first flight to (from) a city not
visited yet whose price is below `bound`; flights that fail either test are
passed over. -/
def firstCheaper : List CityCost → List Nat → Int → Option CityCost
  | [], _, _ => none
  | f :: rest, citiesToVisit, bound =>
    if citiesToVisit.getD f.city 0 ≠ 0 then
      if f.cost < bound then some f else firstCheaper rest citiesToVisit bound
    else firstCheaper rest citiesToVisit bound

/-- The variables of the `while(1)` loop of `makeDoubleEndedNNTour`. -/
structure DENNState where
  citiesToVisit : List Nat
  tour : Tour
  currTourEndDay : Nat
  currTourStartDay : Nat
  currTourEndCity : Nat
  currTourStartCity : Nat

/-- How a run of `makeDoubleEndedNNTour` ends: it returns a tour (possibly the
empty one), or it would write the placeholder `-1` as a city, or the fuel of the
model ran out. -/
inductive DENNResult where
  | returned (tour : Tour)
  | placeholder
  | outOfFuel
  deriving DecidableEq

/-- The `while(1)` loop of `makeDoubleEndedNNTour`; every extension uses one unit
of fuel. -/
def dennLoop (fc : FlightCosts) (startCity numCities : Nat)
    (out inb : Nat → Nat → List CityCost) : Nat → DENNState → DENNResult
  | 0, _ => .outOfFuel
  | fuel + 1, s =>
    if s.currTourEndDay = numCities - 1 ∧
        fc s.currTourEndDay s.currTourEndCity startCity < 0 then .returned []
    else
      let bestOut : Option CityCost :=
        if s.currTourEndDay = numCities - 1 then none
        else firstCheaper (out s.currTourEndCity s.currTourEndDay) s.citiesToVisit COST_MAX
      if s.currTourStartDay = 0 ∧ fc 0 startCity s.currTourStartCity < 0 then .returned []
      else
        let bestIn : Option CityCost :=
          if s.currTourStartDay = 0 then none
          else firstCheaper (inb s.currTourStartCity s.currTourStartDay) s.citiesToVisit
            COST_MAX
        let bestOutCost : Int := match bestOut with
          | some f => f.cost
          | none => COST_MAX
        let bestInCost : Int := match bestIn with
          | some f => f.cost
          | none => COST_MAX
        if s.currTourEndDay = numCities - 1 ∧ s.currTourStartDay = 0 then .returned s.tour
        else if bestOut = none ∧ bestIn = none then .returned []
        else if bestOutCost < bestInCost then
          match bestOut with
          | some f =>
            dennLoop fc startCity numCities out inb fuel
              { s with
                currTourEndDay := s.currTourEndDay + 1
                currTourEndCity := f.city
                citiesToVisit := s.citiesToVisit.set f.city 0
                tour := s.tour.set (s.currTourEndDay + 1) f.city }
          | none => .placeholder
        else
          match bestIn with
          | some f =>
            dennLoop fc startCity numCities out inb fuel
              { s with
                currTourStartCity := f.city
                citiesToVisit := s.citiesToVisit.set f.city 0
                tour := s.tour.set s.currTourStartDay f.city
                currTourStartDay := s.currTourStartDay - 1 }
          | none => .placeholder

/-- The function `makeDoubleEndedNNTour`. -/
def makeDoubleEndedNNTour (fromCity fromDay startCity numCities : Nat) (fc : FlightCosts)
    (out inb : Nat → Nat → List CityCost) (fuel : Nat) : DENNResult :=
  dennLoop fc startCity numCities out inb fuel
    { citiesToVisit := ((List.replicate numCities 1).set startCity 0).set fromCity 0
      tour := (((List.replicate (numCities + 1) 0).set fromDay fromCity).set
        numCities startCity).set 0 startCity
      currTourEndDay := fromDay
      currTourStartDay := fromDay - 1
      currTourEndCity := fromCity
      currTourStartCity := fromCity }

/-! ## `makeRandomTour` -/

/-- The `day` loop of one attempt of `makeRandomTour`. The state is the tour, the
list `citiesToVisit`, the current city and the number `n` of calls of `rand()`
made so far; `rand n` is the value of call number `n`. The result is the tour
returned by `return tour`, or `none` when the loop runs to its end. -/
def randomDayLoop (fc : FlightCosts) (startCity numCities : Nat) (rand : Nat → Nat) :
    Nat → Nat → Tour → List Nat → Nat → Nat → Option Tour × Nat
  | 0, _, _, _, _, n => (none, n)
  | k + 1, day, tour, citiesToVisit, currCity, n =>
    if day = numCities - 1 then
      if fc day currCity startCity > 0 then (some (tour ++ [startCity]), n)
      else randomDayLoop fc startCity numCities rand k (day + 1) tour citiesToVisit currCity n
    else
      let reachableCities := citiesToVisit.filter (fun c => fc day currCity c > 0)
      if reachableCities.length > 0 then
        let nextCity := reachableCities.getD (rand n % reachableCities.length) 0
        randomDayLoop fc startCity numCities rand k (day + 1) (tour ++ [nextCity])
          (citiesToVisit.erase nextCity) nextCity (n + 1)
      else
        randomDayLoop fc startCity numCities rand k (day + 1) tour citiesToVisit currCity n

/-- The `iter` loop of `makeRandomTour`. -/
def randomIterLoop (fc : FlightCosts) (startCity numCities : Nat) (rand : Nat → Nat) :
    Nat → Nat → Tour
  | 0, _ => []
  | k + 1, n =>
    match randomDayLoop fc startCity numCities rand numCities 0 [startCity]
        ((List.range numCities).eraseIdx startCity) startCity n with
    | (some tour, _) => tour
    | (none, n1) => randomIterLoop fc startCity numCities rand k n1

/-- The function `makeRandomTour`; `rand` is the sequence of values of `rand()`. -/
def makeRandomTour (startCity numCities : Nat) (fc : FlightCosts) (maxIters : Nat)
    (rand : Nat → Nat) : Tour :=
  randomIterLoop fc startCity numCities rand maxIters 0

/-! ## The main loop -/

/-- The function `doubleBridge`: five `push_back` loops. -/
def doubleBridge (tour : Tour) (day1 day2 day3 day4 : Nat) : Tour :=
  (List.range' 0 day1).map (at_ tour) ++
  (List.range' day3 (day4 - day3)).map (at_ tour) ++
  (List.range' day2 (day3 - day2)).map (at_ tour) ++
  (List.range' day1 (day2 - day1)).map (at_ tour) ++
  (List.range' day4 (tour.length - day4)).map (at_ tour)

/-- The values that `restrictedDoubleBridgeKick(tour, ...)` can return: the empty
tour, or `doubleBridge` of the tour at four sorted days drawn from
`1 .. tour.size()-1` with a free day between consecutive ones, when that tour has
a positive cost. (The further test against the cost ratio is left out: it only
removes values.) -/
def KickOutcome (fc : FlightCosts) (tour kick : Tour) : Prop :=
  kick = [] ∨
  ∃ d1 d2 d3 d4, 1 ≤ d1 ∧ d1 + 1 < d2 ∧ d2 + 1 < d3 ∧ d3 + 1 < d4 ∧ d4 ≤ tour.length - 1 ∧
    kick = doubleBridge tour d1 d2 d3 d4 ∧ 0 < evalTourCost fc kick

/-- The variables of the main loop: the working tour with its cost and the global
best with its cost. -/
structure ILSState where
  tour : Tour
  cost : Int
  globalBestTour : Tour
  globalBestCost : Int

/-- The part of an iteration of the main loop before the kick: when the search is
stale (`numCities<100` and more than four seconds without improvement) and the
restart kick of the global best gave a tour, that tour becomes the working
tour. -/
def ilsRestart (fc : FlightCosts) (stale : Bool) (restartTour : Tour) (s : ILSState) :
    Tour × Int :=
  if stale = true ∧ restartTour ≠ [] then (restartTour, evalTourCost fc restartTour)
  else (s.tour, s.cost)

/-- The end of an iteration of the main loop: `if(cost<globalBestCost)`. -/
def ilsRecord (s : ILSState) (tour : Tour) (cost : Int) : ILSState :=
  if cost < s.globalBestCost then
    { tour := tour, cost := cost, globalBestTour := tour, globalBestCost := cost }
  else
    { tour := tour, cost := cost, globalBestTour := s.globalBestTour,
      globalBestCost := s.globalBestCost }

/-- One iteration of the `while(1)` loop of `main` (deadline not firing).
`stale` is the outcome of the test on the elapsed time, `restartTour` and
`kickTour` are the values returned by the two calls of
`restrictedDoubleBridgeKick`; `fuel` is handed to `perform2OptWithDLBs`. -/
def ilsStep (fc : FlightCosts) (numCities fuel : Nat) (stale : Bool)
    (restartTour kickTour : Tour) (s : ILSState) : Option ILSState :=
  let w := ilsRestart fc stale restartTour s
  if kickTour = [] then some (ilsRecord s w.1 w.2)
  else
    match perform2OptWithDLBs fc numCities fuel kickTour with
    | none => none
    | some kt =>
      let kickCost := evalTourCost fc kt
      if kickCost < w.2 then some (ilsRecord s kt kickCost)
      else some (ilsRecord s w.1 w.2)

/-- The state of `main` on entry to its loop. -/
def ilsInit (fc : FlightCosts) (initTour : Tour) : ILSState :=
  { tour := initTour, cost := evalTourCost fc initTour,
    globalBestTour := initTour, globalBestCost := evalTourCost fc initTour }

/-- A table with three cities in which city 0 has no flight on day 0. -/
def stuckTable : FlightCosts := fun d a b =>
  match d, a, b with
  | 1, 0, 1 => 1
  | 2, 1, 0 => 1
  | _, _, _ => -1

/-- A table with two cities in which both flights have the entry `0`. -/
def zeroTable : FlightCosts := fun d a b =>
  match d, a, b with
  | 0, 0, 1 => 0
  | 1, 1, 0 => 0
  | _, _, _ => -1

/-- The invariant of the main loop: the working tour and the global best are
valid feasible tours recorded with their evaluated costs, and the global best is
not dearer than the working tour. -/
def ILSInv (fc : FlightCosts) (N start : Nat) (s : ILSState) : Prop :=
  ValidTour N start s.tour ∧ Feasible fc s.tour ∧ s.cost = evalTourCost fc s.tour ∧
  ValidTour N start s.globalBestTour ∧ Feasible fc s.globalBestTour ∧
  s.globalBestCost = evalTourCost fc s.globalBestTour ∧
  s.globalBestCost ≤ s.cost

instance (fc : FlightCosts) (N start : Nat) (s : ILSState) :
    Decidable (ILSInv fc N start s) := by
  unfold ILSInv; infer_instance

/-- A table in which every flight is priced, between 1 and 5. -/
def fullTable : FlightCosts := fun d a b => ((d + a * b) % 5 : Nat) + 1

/-! ## Scan order of `perform2Opt` -/

/-- The accepted move `r = (tour, cost)` of a pass over `b` is the move at the
pair `(d1, d2)`: the recorded cost is the evaluated cost, the tour is feasible
and strictly cheaper than `b`, and it is the swap, or it is the flip and the
swap at the same pair does not improve. -/
def AcceptedAt (fc : FlightCosts) (b : Tour) (d1 d2 : Nat) (r : Tour × Int) : Prop :=
  r.2 = evalTourCost fc r.1 ∧ Improves fc (evalTourCost fc b) r.1 ∧
  (r.1 = swapAt b d1 d2 ∨
    (r.1 = reverseSeg b d1 d2 ∧ ¬ Improves fc (evalTourCost fc b) (swapAt b d1 d2)))

instance (fc : FlightCosts) (bestCost : Int) (cand : Tour) :
    Decidable (Improves fc bestCost cand) := by
  unfold Improves; infer_instance

instance (fc : FlightCosts) (t : Tour) (d1 d2 : Nat) :
    Decidable (NoBetterMove fc t d1 d2) := by
  unfold NoBetterMove; infer_instance

/-- During a pass of `perform2OptWithDLBs` that has reached position `d`, every
bit that is set belongs to a city at one of the positions `0 .. d-2` of `b`. -/
def BitsBehind (b : Tour) (d : Nat) (bits : List Nat) : Prop :=
  ∀ c, bits.getD c 0 ≠ 0 → ∃ p, p + 1 < d ∧ c = at_ b p

/-! ## Days reached by `makeNNTourWithLookAhead` -/

/-- The states `(day, currCity, citiesToVisit)` at the top of the iterations of
the `day` loop of `makeNNTourWithLookAhead` that are executed: the recursion of
`lookAheadLoop` without the tour. -/
def lookAheadStates (fc : FlightCosts) (numCities startCity : Nat)
    (out : Nat → Nat → List CityCost) : Nat → Nat → List Nat → Nat →
    List (Nat × Nat × List Nat)
  | 0, _, _, _ => []
  | k + 1, day, citiesToVisit, currCity =>
    (day, currCity, citiesToVisit) ::
      (if day = numCities - 1 then
        if fc day currCity startCity > 0 then
          lookAheadStates fc numCities startCity out k (day + 1) citiesToVisit currCity
        else []
      else
        match lookAheadScan fc numCities startCity day out citiesToVisit (out currCity day)
            (none, COST_MAX) with
        | (some bestNextCity, _) =>
          lookAheadStates fc numCities startCity out k (day + 1)
            (citiesToVisit.set bestNextCity 0) bestNextCity
        | (none, _) => [])

/-- The value `totalCost` that `makeNNTourWithLookAhead` gives on day `day` to the
flight from `currCity` to `c`: its price plus `evalGreedyNNTourCost` from `c` on
the next day. -/
def lookAheadTotal (fc : FlightCosts) (numCities startCity : Nat)
    (out : Nat → Nat → List CityCost) (day currCity : Nat) (citiesToVisit : List Nat)
    (c : Nat) : Int :=
  fc day currCity c +
    evalGreedyNNTourCost (day + 1) numCities c startCity citiesToVisit fc out

/-- The vector `citiesToVisit` after the cities of `visited` were marked. -/
def flagsAfter (numCities : Nat) (visited : List Nat) : List Nat :=
  visited.foldl (fun flags c => flags.set c 0) (List.replicate numCities 1)

/-- Four cities; city 0 can fly only to city 1 on day 0, and the greedy
completion from city 1 takes the cheap flight to city 2, from where city 3
cannot be reached on day 2. The tour `0, 1, 3, 2, 0` is feasible. -/
def trapTable : FlightCosts := fun d a b =>
  match d, a, b with
  | 0, 0, 1 => 1
  | 1, 1, 2 => 1
  | 1, 1, 3 => 5
  | 2, 3, 2 => 1
  | 3, 2, 0 => 1
  | _, _, _ => -1

/-- Scenario C of the specification: from city 0 on day 0 the flights to city 1
and to city 2 both cost 1, and only city 1 leads to a tour that can be
completed. -/
def scenarioC : FlightCosts := fun d a b =>
  match d, a, b with
  | 0, 0, 1 => 1
  | 0, 0, 2 => 1
  | 1, 1, 2 => 1
  | 2, 2, 3 => 1
  | 3, 3, 0 => 1
  | _, _, _ => -1

/-- The `day` loop of `evalGreedyNNTourCost`, recording only whether the
exit `if(!connectionFound) return COST_MAX` is taken. -/
def greedyStuck (fc : FlightCosts) (numCities toCity : Nat)
    (out : Nat → Nat → List CityCost) : Nat → Nat → Nat → List Nat → Bool
  | 0, _, _, _ => false
  | k + 1, day, currCity, citiesToVisit =>
    if day = numCities - 1 then
      if fc day currCity toCity > 0 then
        greedyStuck fc numCities toCity out k (day + 1) currCity citiesToVisit
      else true
    else
      match firstUnvisited (out currCity day) citiesToVisit with
      | some f =>
        greedyStuck fc numCities toCity out k (day + 1) f.city (citiesToVisit.set f.city 0)
      | none => true

/-- Whether the greedy completion of `evalGreedyNNTourCost` gets stuck. -/
def completionStuck (startDay numCities fromCity toCity : Nat)
    (citiesNotVisitedYet : List Nat) (fc : FlightCosts)
    (out : Nat → Nat → List CityCost) : Bool :=
  greedyStuck fc numCities toCity out (numCities - startDay) startDay fromCity
    (citiesNotVisitedYet.set fromCity 0)

/-- The choice made on day `d` of a tour `T` of `makeNNTourWithLookAhead`:
the city `T[d+1]` is unvisited and priced, its greedy completion is not stuck,
its total is below `COST_MAX`, and no unvisited priced city has a smaller
total. -/
def LookAheadChoice (fc : FlightCosts) (numCities startCity : Nat)
    (out : Nat → Nat → List CityCost) (T : Tour) (d : Nat) : Prop :=
  at_ T (d + 1) < numCities ∧
  (flagsAfter numCities (T.take (d + 1))).getD (at_ T (d + 1)) 0 ≠ 0 ∧
  0 < fc d (at_ T d) (at_ T (d + 1)) ∧
  completionStuck (d + 1) numCities (at_ T (d + 1)) startCity
    (flagsAfter numCities (T.take (d + 1))) fc out = false ∧
  lookAheadTotal fc numCities startCity out d (at_ T d)
    (flagsAfter numCities (T.take (d + 1))) (at_ T (d + 1)) < COST_MAX ∧
  ∀ c, c < numCities → (flagsAfter numCities (T.take (d + 1))).getD c 0 ≠ 0 →
    0 < fc d (at_ T d) c →
    lookAheadTotal fc numCities startCity out d (at_ T d)
        (flagsAfter numCities (T.take (d + 1))) (at_ T (d + 1)) ≤
      lookAheadTotal fc numCities startCity out d (at_ T d)
        (flagsAfter numCities (T.take (d + 1))) c

/-! ## One step of `makeDoubleEndedNNTour` -/

/-- The state of `makeDoubleEndedNNTour` on entry to its `while(1)` loop. -/
def dennInit (fromCity fromDay startCity numCities : Nat) : DENNState :=
  { citiesToVisit := ((List.replicate numCities 1).set startCity 0).set fromCity 0
    tour := (((List.replicate (numCities + 1) 0).set fromDay fromCity).set
      numCities startCity).set 0 startCity
    currTourEndDay := fromDay
    currTourStartDay := fromDay - 1
    currTourEndCity := fromCity
    currTourStartCity := fromCity }

/-- The flight found by the forward scan of one pass of the loop (`none` for
`bestNextCity == -1`; no scan is made on day `numCities - 1`). -/
def dennBestOut (numCities : Nat) (out : Nat → Nat → List CityCost) (s : DENNState) :
    Option CityCost :=
  if s.currTourEndDay = numCities - 1 then none
  else firstCheaper (out s.currTourEndCity s.currTourEndDay) s.citiesToVisit COST_MAX

/-- The flight found by the backward scan of one pass of the loop (`none` for
`bestPrevCity == -1`; no scan is made on day 0). -/
def dennBestIn (inb : Nat → Nat → List CityCost) (s : DENNState) : Option CityCost :=
  if s.currTourStartDay = 0 then none
  else firstCheaper (inb s.currTourStartCity s.currTourStartDay) s.citiesToVisit COST_MAX

/-- The branch `currTourEndDay++; ...` of the loop: the tour grows forward. -/
def dennForward (s : DENNState) (f : CityCost) : DENNState :=
  { s with
    currTourEndDay := s.currTourEndDay + 1
    currTourEndCity := f.city
    citiesToVisit := s.citiesToVisit.set f.city 0
    tour := s.tour.set (s.currTourEndDay + 1) f.city }

/-- The branch `currTourStartCity = bestPrevCity; ...` of the loop: the tour
grows backward. -/
def dennBackward (s : DENNState) (f : CityCost) : DENNState :=
  { s with
    currTourStartCity := f.city
    citiesToVisit := s.citiesToVisit.set f.city 0
    tour := s.tour.set s.currTourStartDay f.city
    currTourStartDay := s.currTourStartDay - 1 }

/-- One of the two tests of a pinned leg fails: the forward frontier is on day
`numCities - 1` and the entry of the flight back to the start is negative, or
the backward frontier is on day 0 and the entry of the flight out of the start
is negative. -/
def PinnedLegMissing (fc : FlightCosts) (startCity numCities : Nat) (s : DENNState) : Prop :=
  (s.currTourEndDay = numCities - 1 ∧
    fc s.currTourEndDay s.currTourEndCity startCity < 0) ∨
  (s.currTourStartDay = 0 ∧ fc 0 startCity s.currTourStartCity < 0)

/-- Both frontiers have reached their pinned day. -/
def DENNComplete (numCities : Nat) (s : DENNState) : Prop :=
  s.currTourEndDay = numCities - 1 ∧ s.currTourStartDay = 0

/-- The frontier cities and days are inside the table. -/
def DENNBounds (numCities : Nat) (s : DENNState) : Prop :=
  s.currTourEndCity < numCities ∧ s.currTourStartCity < numCities ∧
  s.currTourEndDay < numCities ∧ s.currTourStartDay < numCities

/-- The flight `f` is a cheapest flight priced below `COST_MAX` from the
forward frontier to a city not visited yet. -/
def CheapestOut (fc : FlightCosts) (numCities : Nat) (s : DENNState) (f : CityCost) : Prop :=
  f.city < numCities ∧ s.citiesToVisit.getD f.city 0 ≠ 0 ∧
  fc s.currTourEndDay s.currTourEndCity f.city = f.cost ∧ 0 < f.cost ∧ f.cost < COST_MAX ∧
  ∀ c, c < numCities → s.citiesToVisit.getD c 0 ≠ 0 →
    0 < fc s.currTourEndDay s.currTourEndCity c →
    f.cost ≤ fc s.currTourEndDay s.currTourEndCity c

/-- The forward frontier cannot extend: it is on day `numCities - 1`, or no
city not visited yet has a flight from it priced below `COST_MAX`. -/
def NoOut (fc : FlightCosts) (numCities : Nat) (s : DENNState) : Prop :=
  s.currTourEndDay = numCities - 1 ∨
  ∀ c, c < numCities → s.citiesToVisit.getD c 0 ≠ 0 →
    0 < fc s.currTourEndDay s.currTourEndCity c →
    COST_MAX ≤ fc s.currTourEndDay s.currTourEndCity c

/-- The flight `f` is a cheapest flight priced below `COST_MAX` from a city not
visited yet into the backward frontier. -/
def CheapestIn (fc : FlightCosts) (numCities : Nat) (s : DENNState) (f : CityCost) : Prop :=
  f.city < numCities ∧ s.citiesToVisit.getD f.city 0 ≠ 0 ∧
  fc s.currTourStartDay f.city s.currTourStartCity = f.cost ∧ 0 < f.cost ∧
  f.cost < COST_MAX ∧
  ∀ c, c < numCities → s.citiesToVisit.getD c 0 ≠ 0 →
    0 < fc s.currTourStartDay c s.currTourStartCity →
    f.cost ≤ fc s.currTourStartDay c s.currTourStartCity

/-- The backward frontier cannot extend: it is on day 0, or no city not visited
yet has a flight into it priced below `COST_MAX`. -/
def NoIn (fc : FlightCosts) (numCities : Nat) (s : DENNState) : Prop :=
  s.currTourStartDay = 0 ∨
  ∀ c, c < numCities → s.citiesToVisit.getD c 0 ≠ 0 →
    0 < fc s.currTourStartDay c s.currTourStartCity →
    COST_MAX ≤ fc s.currTourStartDay c s.currTourStartCity

/-- Three cities; the only flight is from city 2 to city 1 on day 1. -/
def pinTable : FlightCosts := fun d a b =>
  match d, a, b with
  | 1, 2, 1 => 5
  | _, _, _ => -1

/-- Three cities; the tour `0, 1, 2, 0` is feasible, with the flight from city 1
to city 2 on day 1 priced `COST_MAX`. -/
def capTable : FlightCosts := fun d a b =>
  match d, a, b with
  | 0, 0, 1 => 1
  | 1, 1, 2 => 32767500
  | 2, 2, 0 => 1
  | _, _, _ => -1

/-- Four cities; every flight of the tour `0, 1, 2, 3, 0` costs 1 and the
flight from city 3 to city 1 on day 1 costs 2. -/
def ringTable : FlightCosts := fun d a b =>
  match d, a, b with
  | 0, 0, 1 => 1
  | 0, 0, 3 => 1
  | 1, 1, 2 => 1
  | 1, 3, 1 => 2
  | 2, 2, 3 => 1
  | 2, 1, 2 => 1
  | 3, 3, 0 => 1
  | 3, 2, 0 => 1
  | _, _, _ => -1

/-! ## `restrictedDoubleBridgeKick` -/

/-- The `retry:` loop of `restrictedDoubleBridgeKick`: a day is drawn until it
differs from the days drawn so far. `rand n` is the value of call number `n`
of `rand()`, `size` is `tour.size()`; the result is the day and the number of
calls made. Every draw uses one unit of fuel. -/
def drawDay (rand : Nat → Nat) (size : Nat) : Nat → List Nat → Nat → Option (Nat × Nat)
  | 0, _, _ => none
  | fuel + 1, days, n =>
    let d := 1 + rand n % (size - 1)
    if d ∈ days then drawDay rand size fuel days (n + 1) else some (d, n + 1)

/-- The loop `for(int i=0;i<4;i++)` that fills `days`; `k` counts the entries
that remain. -/
def drawDays (rand : Nat → Nat) (size fuel : Nat) :
    Nat → List Nat → Nat → Option (List Nat × Nat)
  | 0, days, n => some (days, n)
  | k + 1, days, n =>
    match drawDay rand size fuel days n with
    | none => none
    | some (d, n1) => drawDays rand size fuel k (days ++ [d]) n1

/-- The `while(1)` loop of `restrictedDoubleBridgeKick`: four days are drawn and
sorted until consecutive days have a free day between them. -/
def drawTuple (rand : Nat → Nat) (size : Nat) : Nat → Nat → Option (List Nat × Nat)
  | 0, _ => none
  | fuel + 1, n =>
    match drawDays rand size (fuel + 1) 4 [] n with
    | none => none
    | some (days, n1) =>
      let sorted := days.insertionSort (fun a b => a ≤ b)
      if sorted.getD 1 0 > sorted.getD 0 0 + 1 ∧
          sorted.getD 2 0 > sorted.getD 1 0 + 1 ∧
          sorted.getD 3 0 > sorted.getD 2 0 + 1 then some (sorted, n1)
      else drawTuple rand size fuel n1

/-- The loop `for(int iter=0;iter<maxIters;iter++)` of
`restrictedDoubleBridgeKick`; `k` counts the iterations that remain. The
product `maxAllowedCostIncrease*originalCost` of type `double` is the rounding
`fl` of the exact product. -/
def kickLoop (fc : FlightCosts) (tour : Tour) (maxAllowedCostIncrease : ℚ) (fl : ℚ → ℚ)
    (rand : Nat → Nat) (fuel : Nat) : Nat → Nat → Option Tour
  | 0, _ => some []
  | k + 1, n =>
    match drawTuple rand tour.length fuel n with
    | none => none
    | some (days, n1) =>
      let newTour := doubleBridge tour (days.getD 0 0) (days.getD 1 0) (days.getD 2 0)
        (days.getD 3 0)
      let cost := evalTourCost fc newTour
      if cost > 0 ∧ (cost : ℚ) < fl (maxAllowedCostIncrease * (evalTourCost fc tour : ℚ)) then
        some newTour
      else kickLoop fc tour maxAllowedCostIncrease fl rand fuel k n1

/-- The function `restrictedDoubleBridgeKick`; `none` when a loop of the model
ran out of fuel. -/
def restrictedDoubleBridgeKick (tour : Tour) (fc : FlightCosts)
    (maxAllowedCostIncrease : ℚ) (fl : ℚ → ℚ) (maxIters : Nat) (rand : Nat → Nat)
    (fuel : Nat) : Option Tour :=
  kickLoop fc tour maxAllowedCostIncrease fl rand fuel maxIters 0

/-- Every flight costs 1. -/
def unitTable : FlightCosts := fun _ _ _ => 1

/-- The tour `0, 1, ..., 10, 0` of eleven cities. -/
def elevenTour : Tour := [0, 1, 2, 3, 4, 5, 6, 7, 8, 9, 10, 0]

/-! ## Counting the restarts of the local search -/

/-- The `while(1)` loop of `perform2Opt`, recording only how often
`goto from_scratch` is taken before the pass that returns. -/
def perform2OptRestarts (fc : FlightCosts) : Nat → Tour → Int → Option Nat
  | 0, _, _ => none
  | fuel + 1, bestTour, bestCost =>
    match opt2Day1 fc bestCost (bestTour.length - 2 - 1) 1 bestTour with
    | .restart (t, c) => (perform2OptRestarts fc fuel t c).map (fun n => n + 1)
    | .next _ => some 0

/-- The `while(1)` loop of `perform2OptWithDLBs`, recording only how often
`goto from_scratch` is taken before the pass that returns. -/
def perform2OptWithDLBsRestarts (fc : FlightCosts) :
    Nat → Tour → Int → List Nat → Option Nat
  | 0, _, _, _ => none
  | fuel + 1, bestTour, bestCost, dontLookBits =>
    match dlbDay1 fc bestTour bestCost (bestTour.length - 2 - 1) 1 dontLookBits with
    | .restart (t, c, bits) => (perform2OptWithDLBsRestarts fc fuel t c bits).map (fun n => n + 1)
    | .next _ => some 0

/-! ## The reset window of `updateDontLookBits`, as the specification words it -/

/-- The city `c` lies in a reset window: some non-start city sits at position
`p` of the old tour and at position `q` of the new tour, its left or its right
neighbour differs between the two tours, and `c` sits at a position `t` of
the old tour with `|t - p| ≤ 3`. -/
def ResetWindow (numCities : Nat) (oldTour newTour : Tour) (c : Nat) : Prop :=
  ∃ p q t, 1 ≤ p ∧ p < numCities ∧ 1 ≤ q ∧ q < numCities ∧
    at_ newTour q = at_ oldTour p ∧
    (at_ oldTour (p - 1) ≠ at_ newTour (q - 1) ∨ at_ oldTour (p + 1) ≠ at_ newTour (q + 1)) ∧
    t ≤ numCities ∧ t ≤ p + 3 ∧ p ≤ t + 3 ∧ c = at_ oldTour t

/-! ## Flights of equal price in the flight indexes -/

/-- Among the flights of a list, whenever two have the same price the one with
the smaller city index comes first. -/
def TieBreakByCity (l : List CityCost) : Prop :=
  l.Pairwise (fun a b => a.cost = b.cost → a.city < b.city)

instance (l : List CityCost) : Decidable (TieBreakByCity l) := by
  unfold TieBreakByCity; infer_instance

/-- Three cities; city 0 has two flights of the same price on day 0. -/
def tieTable : FlightCosts := fun d a b =>
  match d, a, b with
  | 0, 0, 1 => 5
  | 0, 0, 2 => 5
  | _, _, _ => -1

/-- A table of lists for `tieTable`: the two flights of equal price of city 0
on day 0 stand with the larger destination first, every other list is the one
of `sortOutboundFlights`. -/
def tieOut : Nat → Nat → List CityCost := fun city day =>
  if city = 0 ∧ day = 0 then [⟨2, 5⟩, ⟨1, 5⟩] else sortOutboundFlights tieTable 3 city day

/-! ## The lookahead against the plain greedy tour -/

/-- The total of the city taken on day `d` in the run of
`makeNNTourWithLookAhead` that returns `T`: the best total found on that day. -/
def bestTotalAt (fc : FlightCosts) (numCities startCity : Nat)
    (out : Nat → Nat → List CityCost) (T : Tour) (d : Nat) : Int :=
  lookAheadTotal fc numCities startCity out d (at_ T d)
    (flagsAfter numCities (T.take (d + 1))) (at_ T (d + 1))

/-! ## 32-bit arithmetic

The definitions above compute in `Int`. The definitions of this section repeat
the functions that add prices with every sum kept as a C++ `int` of 32 bits
(two's complement wrap-around). Theorems below show that both agree when the
prices are small enough for no sum to leave the range of `int`. -/

/-- The largest value of a C++ `int` of 32 bits. -/
def INT_MAX : Int := 2147483647

/-- The value a 32-bit `int` holds for the exact result `x` (wrap-around). -/
def wrap32 (x : Int) : Int := (x + 2147483648) % 4294967296 - 2147483648

/-- The `for` loop of `evalTourCost` with `tourCost` a 32-bit `int`. -/
def evalLoop32 (fc : FlightCosts) (tour : Tour) : Nat → Nat → Int → Int
  | 0, _, tourCost => tourCost
  | k + 1, day, tourCost =>
    let cost := fc day (at_ tour day) (at_ tour (day + 1))
    if cost > 0 then evalLoop32 fc tour k (day + 1) (wrap32 (tourCost + cost)) else -1

/-- The function `evalTourCost` with `tourCost` a 32-bit `int`. -/
def evalTourCost32 (fc : FlightCosts) (tour : Tour) : Int :=
  evalLoop32 fc tour (tour.length - 1) 0 0

/-- The delta formula of `perform2Opt` with every sum a 32-bit `int`, in the
order in which the expression is evaluated. -/
def swapDeltaCost32 (fc : FlightCosts) (bestTour : Tour) (bestCost : Int)
    (day1 day2 city1 : Nat) (costFromTo1 : Int) : Int :=
  let city2 := at_ bestTour day2
  wrap32 (wrap32 (bestCost - wrap32 (wrap32 (costFromTo1 +
      fc (day2 - 1) (at_ bestTour (day2 - 1)) city2) +
      fc day2 city2 (at_ bestTour (day2 + 1))))
    + wrap32 (wrap32 (wrap32 (fc (day1 - 1) (at_ bestTour (day1 - 1)) city2 +
      fc day1 city2 (at_ bestTour (day1 + 1))) +
      fc (day2 - 1) (at_ bestTour (day2 - 1)) city1) +
      fc day2 city1 (at_ bestTour (day2 + 1))))

/-- The `// swap` block of `perform2Opt` with 32-bit sums. -/
def opt2Swap32 (fc : FlightCosts) (bestCost : Int) (day1 city1 : Nat) (costFromTo1 : Int)
    (day2 : Nat) (bestTour : Tour) : Step (Tour × Int) Tour :=
  if day2 = day1 + 1 then
    let swapped := swapAt bestTour day1 day2
    let cost := evalTourCost32 fc swapped
    if cost > 0 ∧ cost < bestCost then .restart (swapped, cost)
    else .next (swapAt swapped day1 day2)
  else
    if swapLegsOk fc bestTour day1 day2 city1 then
      let cost := swapDeltaCost32 fc bestTour bestCost day1 day2 city1 costFromTo1
      if cost < bestCost then .restart (swapAt bestTour day1 day2, cost)
      else .next bestTour
    else .next bestTour

/-- The `// flip` block of `perform2Opt` with 32-bit sums. -/
def opt2Flip32 (fc : FlightCosts) (bestCost : Int) (day1 day2 : Nat) (bestTour tour : Tour) :
    Step (Tour × Int) (Tour × Tour) :=
  let tour1 := flipInto tour bestTour day1 day2
  let cost := evalTourCost32 fc tour1
  if cost > 0 ∧ cost < bestCost then .restart (tour1, cost)
  else .next (bestTour, tour1)

/-- The body of the `day2` loop of `perform2Opt` with 32-bit sums. -/
def opt2Body32 (fc : FlightCosts) (bestCost : Int) (day1 city1 : Nat) (costFromTo1 : Int)
    (day2 : Nat) (bestTour tour : Tour) : Step (Tour × Int) (Tour × Tour) :=
  match opt2Swap32 fc bestCost day1 city1 costFromTo1 day2 bestTour with
  | .restart r => .restart r
  | .next bestTour1 => opt2Flip32 fc bestCost day1 day2 bestTour1 tour

/-- The `day2` loop of `perform2Opt` with 32-bit sums. -/
def opt2Day2_32 (fc : FlightCosts) (bestCost : Int) (day1 city1 : Nat) (costFromTo1 : Int) :
    Nat → Nat → Tour → Tour → Step (Tour × Int) (Tour × Tour)
  | 0, _, bestTour, tour => .next (bestTour, tour)
  | k + 1, day2, bestTour, tour =>
    match opt2Body32 fc bestCost day1 city1 costFromTo1 day2 bestTour tour with
    | .restart r => .restart r
    | .next (bestTour1, tour1) =>
      opt2Day2_32 fc bestCost day1 city1 costFromTo1 k (day2 + 1) bestTour1 tour1

/-- The `day1` loop of `perform2Opt` with 32-bit sums. -/
def opt2Day1_32 (fc : FlightCosts) (bestCost : Int) :
    Nat → Nat → Tour → Step (Tour × Int) Tour
  | 0, _, bestTour => .next bestTour
  | k + 1, day1, bestTour =>
    let tour := bestTour
    let city1 := at_ bestTour day1
    let costFromTo1 := wrap32 (fc (day1 - 1) (at_ bestTour (day1 - 1)) city1 +
                       fc day1 city1 (at_ bestTour (day1 + 1)))
    match opt2Day2_32 fc bestCost day1 city1 costFromTo1
        (bestTour.length - 1 - (day1 + 1)) (day1 + 1) bestTour tour with
    | .restart r => .restart r
    | .next (bestTour1, _) => opt2Day1_32 fc bestCost k (day1 + 1) bestTour1

/-- The `while(1)` loop of `perform2Opt` with 32-bit sums; the result is the
returned tour and the number of times `goto from_scratch` was taken. -/
def perform2OptLoop32 (fc : FlightCosts) : Nat → Tour → Int → Option (Tour × Nat)
  | 0, _, _ => none
  | fuel + 1, bestTour, bestCost =>
    match opt2Day1_32 fc bestCost (bestTour.length - 2 - 1) 1 bestTour with
    | .restart (t, c) => (perform2OptLoop32 fc fuel t c).map (fun r => (r.1, r.2 + 1))
    | .next t => some (t, 0)

/-- The function `perform2Opt` with 32-bit sums, with the number of restarts. -/
def perform2Opt32 (fc : FlightCosts) (fuel : Nat) (initialTour : Tour) : Option (Tour × Nat) :=
  perform2OptLoop32 fc fuel initialTour (evalTourCost32 fc initialTour)

/-- The `// swap` block of `perform2OptWithDLBs` with 32-bit sums. -/
def dlbSwap32 (fc : FlightCosts) (bestTour : Tour) (bestCost : Int) (dontLookBits : List Nat)
    (day1 city1 : Nat) (costFromTo1 : Int) (day2 : Nat) :
    Step (Tour × Int × List Nat) Unit :=
  if day2 = day1 + 1 then
    let tour := swapAt bestTour day1 day2
    let cost := evalTourCost32 fc tour
    if cost > 0 ∧ cost < bestCost then
      .restart (tour, cost, updateDontLookBits bestTour tour dontLookBits)
    else .next ()
  else
    if swapLegsOk fc bestTour day1 day2 city1 then
      let cost := swapDeltaCost32 fc bestTour bestCost day1 day2 city1 costFromTo1
      if cost < bestCost then
        let tour := swapAt bestTour day1 day2
        .restart (tour, cost, updateDontLookBits bestTour tour dontLookBits)
      else .next ()
    else .next ()

/-- The `// flip` block of `perform2OptWithDLBs` with 32-bit sums. -/
def dlbFlip32 (fc : FlightCosts) (bestTour : Tour) (bestCost : Int) (dontLookBits : List Nat)
    (day1 day2 : Nat) (tour : Tour) : Step (Tour × Int × List Nat) Tour :=
  let tour1 := flipInto tour bestTour day1 day2
  let cost := evalTourCost32 fc tour1
  if cost > 0 ∧ cost < bestCost then
    .restart (tour1, cost, updateDontLookBits bestTour tour1 dontLookBits)
  else .next tour1

/-- The body of the `day2` loop of `perform2OptWithDLBs` with 32-bit sums. -/
def dlbBody32 (fc : FlightCosts) (bestTour : Tour) (bestCost : Int) (dontLookBits : List Nat)
    (day1 city1 : Nat) (costFromTo1 : Int) (day2 : Nat) (tour : Tour) :
    Step (Tour × Int × List Nat) Tour :=
  match dlbSwap32 fc bestTour bestCost dontLookBits day1 city1 costFromTo1 day2 with
  | .restart r => .restart r
  | .next _ => dlbFlip32 fc bestTour bestCost dontLookBits day1 day2 tour

/-- The `day2` loop of `perform2OptWithDLBs` with 32-bit sums. -/
def dlbDay2_32 (fc : FlightCosts) (bestTour : Tour) (bestCost : Int) (dontLookBits : List Nat)
    (day1 city1 : Nat) (costFromTo1 : Int) :
    Nat → Nat → Tour → Step (Tour × Int × List Nat) Tour
  | 0, _, tour => .next tour
  | k + 1, day2, tour =>
    match dlbBody32 fc bestTour bestCost dontLookBits day1 city1 costFromTo1 day2 tour with
    | .restart r => .restart r
    | .next tour1 =>
      dlbDay2_32 fc bestTour bestCost dontLookBits day1 city1 costFromTo1 k (day2 + 1) tour1

/-- The `day1` loop of `perform2OptWithDLBs` with 32-bit sums. -/
def dlbDay1_32 (fc : FlightCosts) (bestTour : Tour) (bestCost : Int) :
    Nat → Nat → List Nat → Step (Tour × Int × List Nat) (List Nat)
  | 0, _, dontLookBits => .next dontLookBits
  | k + 1, day1, dontLookBits =>
    if dontLookBits.getD (at_ bestTour (day1 - 1)) 0 = 1 then
      dlbDay1_32 fc bestTour bestCost k (day1 + 1) dontLookBits
    else
      let tour := bestTour
      let city1 := at_ bestTour day1
      let costFromTo1 := wrap32 (fc (day1 - 1) (at_ bestTour (day1 - 1)) city1 +
                         fc day1 city1 (at_ bestTour (day1 + 1)))
      match dlbDay2_32 fc bestTour bestCost dontLookBits day1 city1 costFromTo1
          (bestTour.length - 1 - (day1 + 1)) (day1 + 1) tour with
      | .restart r => .restart r
      | .next _ =>
        dlbDay1_32 fc bestTour bestCost k (day1 + 1)
          (dontLookBits.set (at_ bestTour (day1 - 1)) 1)

/-- The `while(1)` loop of `perform2OptWithDLBs` with 32-bit sums; the result
is the returned tour and the number of times `goto from_scratch` was taken. -/
def perform2OptWithDLBsLoop32 (fc : FlightCosts) :
    Nat → Tour → Int → List Nat → Option (Tour × Nat)
  | 0, _, _, _ => none
  | fuel + 1, bestTour, bestCost, dontLookBits =>
    match dlbDay1_32 fc bestTour bestCost (bestTour.length - 2 - 1) 1 dontLookBits with
    | .restart (t, c, bits) =>
      (perform2OptWithDLBsLoop32 fc fuel t c bits).map (fun r => (r.1, r.2 + 1))
    | .next _ => some (bestTour, 0)

/-- The function `perform2OptWithDLBs` with 32-bit sums, with the number of
restarts. -/
def perform2OptWithDLBs32 (fc : FlightCosts) (numCities : Nat) (fuel : Nat)
    (initialTour : Tour) : Option (Tour × Nat) :=
  perform2OptWithDLBsLoop32 fc fuel initialTour (evalTourCost32 fc initialTour)
    (List.replicate numCities 0)

/-- The `while(1)` loop of `solveBruteForce` with the 32-bit `evalTourCost`. -/
def bruteLoop32 (fc : FlightCosts) : Nat → Tour → Tour × Int → Option (Tour × Int)
  | 0, _, _ => none
  | fuel + 1, tour, (globalBestTour, globalBestCost) =>
    let cost := evalTourCost32 fc tour
    let best := if cost > 0 ∧ cost < globalBestCost then (tour, cost)
                else (globalBestTour, globalBestCost)
    match nextTour tour with
    | some tour1 => bruteLoop32 fc fuel tour1 best
    | none => some best

/-- The function `solveBruteForce` with the 32-bit `evalTourCost`. -/
def solveBruteForce32 (fc : FlightCosts) (numCities startCity : Nat) (fuel : Nat) :
    Option (Tour × Int) :=
  bruteLoop32 fc fuel (firstTour numCities startCity) ([], COST_MAX)

/-- Every entry of the table is `-1` or more and at most `P`. -/
def PriceRange (fc : FlightCosts) (P : Int) : Prop :=
  ∀ d a b, -1 ≤ fc d a b ∧ fc d a b ≤ P

/-- Three cities; each of the three flights of the tour `0, 1, 2, 0` costs
1431655765, a third of `2^32 - 1`. -/
def wrapTable : FlightCosts := fun d a b =>
  match d, a, b with
  | 0, 0, 1 => 1431655765
  | 1, 1, 2 => 1431655765
  | 2, 2, 0 => 1431655765
  | _, _, _ => -1

/-- Four cities; the flights of the tour `0, 1, 2, 3, 0` cost 1 each, the
flights of the tour `0, 3, 2, 1, 0` cost 600 000 000 each. -/
def bigSwapTable : FlightCosts := fun d a b =>
  match d, a, b with
  | 0, 0, 1 => 1
  | 1, 1, 2 => 1
  | 2, 2, 3 => 1
  | 3, 3, 0 => 1
  | 0, 0, 3 => 600000000
  | 1, 3, 2 => 600000000
  | 2, 2, 1 => 600000000
  | 3, 1, 0 => 600000000
  | _, _, _ => -1

/-- The tour `0, 1, ..., 5, 0` of six cities. -/
def sixTour : Tour := [0, 1, 2, 3, 4, 5, 0]

/-- Every generation of a 4-tuple of days that the call of
`restrictedDoubleBridgeKick` starts comes to an end: with `k` iterations of the
`for` loop left and `n` calls of `rand()` made, the `while(1)` loop ends (with
some budget) in a tuple `days` after `n1` calls, and either the tour of that
tuple passes the acceptance test or the same holds for the `k - 1` iterations
that follow from call `n1` on. -/
def KickEnds (fc : FlightCosts) (tour : Tour) (maxAllowedCostIncrease : ℚ) (fl : ℚ → ℚ)
    (rand : Nat → Nat) : Nat → Nat → Prop
  | 0, _ => True
  | k + 1, n =>
    ∃ (fuel : Nat) (days : List Nat) (n1 : Nat),
      drawTuple rand tour.length fuel n = some (days, n1) ∧
      ((evalTourCost fc (doubleBridge tour (days.getD 0 0) (days.getD 1 0) (days.getD 2 0)
            (days.getD 3 0)) > 0 ∧
          (evalTourCost fc (doubleBridge tour (days.getD 0 0) (days.getD 1 0) (days.getD 2 0)
            (days.getD 3 0)) : ℚ) <
            fl (maxAllowedCostIncrease * (evalTourCost fc tour : ℚ))) ∨
        KickEnds fc tour maxAllowedCostIncrease fl rand k n1)

/-! ## The invariant of `makeDoubleEndedNNTour` -/

/-- The invariant of the `while(1)` loop of `makeDoubleEndedNNTour`: the tour
has `numCities + 1` entries with the start city at both ends; the days
`currTourStartDay + 1 .. currTourEndDay` are filled, with the frontier cities
at their ends and the anchor city on the anchor day; consecutive filled days
are joined by priced flights; the filled days hold pairwise different cities
other than the start city, all of them marked as visited. -/
structure DENNInv (fc : FlightCosts) (startCity numCities fromCity fromDay : Nat)
    (s : DENNState) : Prop where
  len : s.tour.length = numCities + 1
  first : at_ s.tour 0 = startCity
  last : at_ s.tour numCities = startCity
  lt : s.currTourStartDay < s.currTourEndDay
  le : s.currTourEndDay ≤ numCities - 1
  atStart : at_ s.tour (s.currTourStartDay + 1) = s.currTourStartCity
  atEnd : at_ s.tour s.currTourEndDay = s.currTourEndCity
  anchorLo : s.currTourStartDay < fromDay
  anchorHi : fromDay ≤ s.currTourEndDay
  anchor : at_ s.tour fromDay = fromCity
  legs : ∀ d, s.currTourStartDay < d → d < s.currTourEndDay → 0 < leg fc s.tour d
  filled : ∀ d, s.currTourStartDay < d → d ≤ s.currTourEndDay →
    at_ s.tour d < numCities ∧ at_ s.tour d ≠ startCity ∧
      s.citiesToVisit.getD (at_ s.tour d) 0 = 0
  distinct : ∀ d1 d2, s.currTourStartDay < d1 → d1 < d2 → d2 ≤ s.currTourEndDay →
    at_ s.tour d1 ≠ at_ s.tour d2
  startDone : s.citiesToVisit.getD startCity 0 = 0

/-! ## `std::sort` as implemented in libstdc++

The index builders call `std::sort`, whose code is not part of the program. The
definitions below follow the implementation of GCC's libstdc++
(`bits/stl_algo.h` and `bits/stl_heap.h`): an introsort, that is quicksort
with a median-of-three pivot on ranges of more than 16 elements, heap sort
when the depth limit is used up, and a final insertion sort. A vector is a
list, an iterator is an index into it; `none` stands for a loop that ran out
of the fuel of the model or would step out of the vector. -/

/-- The element `*(begin + i)`. -/
def ccAt (v : List CityCost) (i : Nat) : CityCost := v.getD i ⟨0, 0⟩

/-- The comparison `CityCost::operator<`: the price alone is compared. -/
def ccLess (a b : CityCost) : Bool := decide (a.cost < b.cost)

/-- The call `std::iter_swap(begin + i, begin + j)`. -/
def iterSwap (v : List CityCost) (i j : Nat) : List CityCost :=
  (v.set i (ccAt v j)).set j (ccAt v i)

/-- The function `__move_median_to_first`. -/
def moveMedianToFirst (v : List CityCost) (result a b c : Nat) : List CityCost :=
  if ccLess (ccAt v a) (ccAt v b) then
    if ccLess (ccAt v b) (ccAt v c) then iterSwap v result b
    else if ccLess (ccAt v a) (ccAt v c) then iterSwap v result c
    else iterSwap v result a
  else if ccLess (ccAt v a) (ccAt v c) then iterSwap v result a
  else if ccLess (ccAt v b) (ccAt v c) then iterSwap v result c
  else iterSwap v result b

/-- The loop `while (__comp(__first, __pivot)) ++__first;` of
`__unguarded_partition`; the fuel is the distance to the end of the vector. -/
def scanUp (v : List CityCost) (pivot : Nat) : Nat → Nat → Option Nat
  | 0, _ => none
  | k + 1, first =>
    if ccLess (ccAt v first) (ccAt v pivot) then scanUp v pivot k (first + 1) else some first

/-- The loop `while (__comp(__pivot, __last)) --__last;` of
`__unguarded_partition`. -/
def scanDown (v : List CityCost) (pivot : Nat) : Nat → Nat → Option Nat
  | 0, _ => none
  | k + 1, last =>
    if ccLess (ccAt v pivot) (ccAt v last) then
      if last = 0 then none else scanDown v pivot k (last - 1)
    else some last

/-- The function `__unguarded_partition`: the vector after the swaps and the
cut. -/
def unguardedPartition (pivot : Nat) :
    Nat → List CityCost → Nat → Nat → Option (List CityCost × Nat)
  | 0, _, _, _ => none
  | fuel + 1, v, first, last =>
    match scanUp v pivot (v.length - first) first with
    | none => none
    | some first1 =>
      if last = 0 then none
      else
        match scanDown v pivot last (last - 1) with
        | none => none
        | some last1 =>
          if first1 < last1 then
            unguardedPartition pivot fuel (iterSwap v first1 last1) (first1 + 1) last1
          else some (v, first1)

/-- The function `__unguarded_partition_pivot`. -/
def unguardedPartitionPivot (v : List CityCost) (first last : Nat) :
    Option (List CityCost × Nat) :=
  let mid := first + (last - first) / 2
  unguardedPartition first v.length (moveMedianToFirst v first (first + 1) mid (last - 1))
    (first + 1) last

/-- The function `__push_heap`; the fuel is `holeIndex + 1`. -/
def pushHeap (first topIndex : Nat) (value : CityCost) :
    Nat → List CityCost → Nat → Option (List CityCost)
  | 0, _, _ => none
  | fuel + 1, v, holeIndex =>
    let parent := (holeIndex - 1) / 2
    if holeIndex > topIndex ∧ ccLess (ccAt v (first + parent)) value = true then
      pushHeap first topIndex value fuel (v.set (first + holeIndex) (ccAt v (first + parent)))
        parent
    else some (v.set (first + holeIndex) value)

/-- The `while` loop of `__adjust_heap`: the vector, `holeIndex` and
`secondChild` after it. -/
def adjustHeapLoop (first len : Nat) :
    Nat → List CityCost → Nat → Nat → Option (List CityCost × Nat × Nat)
  | 0, _, _, _ => none
  | fuel + 1, v, holeIndex, secondChild =>
    if secondChild < (len - 1) / 2 then
      let c := 2 * (secondChild + 1)
      let c1 := if ccLess (ccAt v (first + c)) (ccAt v (first + (c - 1))) then c - 1 else c
      adjustHeapLoop first len fuel (v.set (first + holeIndex) (ccAt v (first + c1))) c1 c1
    else some (v, holeIndex, secondChild)

/-- The function `__adjust_heap`. -/
def adjustHeap (v : List CityCost) (first holeIndex len : Nat) (value : CityCost) :
    Option (List CityCost) :=
  match adjustHeapLoop first len (len + 1) v holeIndex holeIndex with
  | none => none
  | some (v1, hole1, secondChild) =>
    if len % 2 = 0 ∧ secondChild = (len - 2) / 2 then
      let c := 2 * (secondChild + 1)
      pushHeap first holeIndex value (c - 1 + 1) (v1.set (first + hole1) (ccAt v1 (first + (c - 1))))
        (c - 1)
    else pushHeap first holeIndex value (hole1 + 1) v1 hole1

/-- The function `__pop_heap`. -/
def popHeap (v : List CityCost) (first last result : Nat) : Option (List CityCost) :=
  adjustHeap (v.set result (ccAt v first)) first 0 (last - first) (ccAt v result)

/-- The `while(true)` loop of `__make_heap`; the fuel is `parent + 1`. -/
def makeHeapLoop (first len : Nat) : Nat → List CityCost → Nat → Option (List CityCost)
  | 0, _, _ => none
  | fuel + 1, v, parent =>
    match adjustHeap v first parent len (ccAt v (first + parent)) with
    | none => none
    | some v1 => if parent = 0 then some v1 else makeHeapLoop first len fuel v1 (parent - 1)

/-- The function `__make_heap`. -/
def makeHeap (v : List CityCost) (first last : Nat) : Option (List CityCost) :=
  if last - first < 2 then some v
  else makeHeapLoop first (last - first) ((last - first - 2) / 2 + 1) v ((last - first - 2) / 2)

/-- The `for` loop of `__heap_select`; `k` counts the elements that remain. -/
def heapSelectLoop (first middle : Nat) : Nat → List CityCost → Nat → Option (List CityCost)
  | 0, v, _ => some v
  | k + 1, v, i =>
    if ccLess (ccAt v i) (ccAt v first) then
      match popHeap v first middle i with
      | none => none
      | some v1 => heapSelectLoop first middle k v1 (i + 1)
    else heapSelectLoop first middle k v (i + 1)

/-- The function `__heap_select`. -/
def heapSelect (v : List CityCost) (first middle last : Nat) : Option (List CityCost) :=
  match makeHeap v first middle with
  | none => none
  | some v1 => heapSelectLoop first middle (last - middle) v1 middle

/-- The function `__sort_heap`; the fuel is the length of the range. -/
def sortHeap (first : Nat) : Nat → List CityCost → Nat → Option (List CityCost)
  | 0, _, _ => none
  | fuel + 1, v, last =>
    if last - first > 1 then
      match popHeap v first (last - 1) (last - 1) with
      | none => none
      | some v1 => sortHeap first fuel v1 (last - 1)
    else some v

/-- The function `__partial_sort`. -/
def partialSort (v : List CityCost) (first middle last : Nat) : Option (List CityCost) :=
  match heapSelect v first middle last with
  | none => none
  | some v1 => sortHeap first (middle - first + 1) v1 middle

/-- The function `__introsort_loop`; the fuel is the length of the range. -/
def introsortLoop : Nat → List CityCost → Nat → Nat → Nat → Option (List CityCost)
  | 0, _, _, _, _ => none
  | fuel + 1, v, first, last, depthLimit =>
    if last - first > 16 then
      if depthLimit = 0 then partialSort v first last last
      else
        match unguardedPartitionPivot v first last with
        | none => none
        | some (v1, cut) =>
          match introsortLoop fuel v1 cut last (depthLimit - 1) with
          | none => none
          | some v2 => introsortLoop fuel v2 first cut (depthLimit - 1)
    else some v

/-- The function `__unguarded_linear_insert`; the fuel is `last + 1`. -/
def unguardedLinearInsert (val : CityCost) : Nat → List CityCost → Nat → Option (List CityCost)
  | 0, _, _ => none
  | fuel + 1, v, last =>
    if last = 0 then none
    else if ccLess val (ccAt v (last - 1)) then
      unguardedLinearInsert val fuel (v.set last (ccAt v (last - 1))) (last - 1)
    else some (v.set last val)

/-- The call `std::move_backward(begin + first, begin + i, begin + i + 1)`;
`k` counts the elements that remain, `d` is the destination. -/
def moveBackward : Nat → List CityCost → Nat → List CityCost
  | 0, v, _ => v
  | k + 1, v, d => moveBackward k (v.set d (ccAt v (d - 1))) (d - 1)

/-- The `for` loop of `__insertion_sort`; `k` counts the elements that remain. -/
def insertionSortLoop (first : Nat) : Nat → List CityCost → Nat → Option (List CityCost)
  | 0, v, _ => some v
  | k + 1, v, i =>
    if ccLess (ccAt v i) (ccAt v first) then
      insertionSortLoop first k ((moveBackward (i - first) v i).set first (ccAt v i)) (i + 1)
    else
      match unguardedLinearInsert (ccAt v i) (i + 1) v i with
      | none => none
      | some v1 => insertionSortLoop first k v1 (i + 1)

/-- The function `__insertion_sort`. -/
def stdInsertionSort (v : List CityCost) (first last : Nat) : Option (List CityCost) :=
  if first = last then some v else insertionSortLoop first (last - (first + 1)) v (first + 1)

/-- The function `__unguarded_insertion_sort`; `k` counts the elements that
remain. -/
def unguardedInsertionSort : Nat → List CityCost → Nat → Option (List CityCost)
  | 0, v, _ => some v
  | k + 1, v, i =>
    match unguardedLinearInsert (ccAt v i) (i + 1) v i with
    | none => none
    | some v1 => unguardedInsertionSort k v1 (i + 1)

/-- The function `__final_insertion_sort`. -/
def finalInsertionSort (v : List CityCost) (first last : Nat) : Option (List CityCost) :=
  if last - first > 16 then
    match stdInsertionSort v first (first + 16) with
    | none => none
    | some v1 => unguardedInsertionSort (last - (first + 16)) v1 (first + 16)
  else stdInsertionSort v first last

/-- The function `std::__lg`: the position of the highest bit that is set. -/
def stdLg : Nat → Nat → Nat
  | 0, _ => 0
  | fuel + 1, n => if n ≤ 1 then 0 else stdLg fuel (n / 2) + 1

/-- The function `std::sort` on a whole vector of `CityCost`. -/
def stdSort (v : List CityCost) : Option (List CityCost) :=
  if v.length = 0 then some v
  else
    match introsortLoop v.length v 0 v.length (stdLg v.length v.length * 2) with
    | none => none
    | some v1 => finalInsertionSort v1 0 v.length

/-- The function `sortOutboundFlights` with the `std::sort` of libstdc++. -/
def sortOutboundFlightsStd (fc : FlightCosts) (numCities : Nat) :
    Nat → Nat → Option (List CityCost) :=
  fun city day =>
    if city < numCities ∧ day < numCities then
      stdSort (outboundCandidates fc numCities city day)
    else some []

/-- The function `sortInboundFlights` with the `std::sort` of libstdc++. -/
def sortInboundFlightsStd (fc : FlightCosts) (numCities : Nat) :
    Nat → Nat → Option (List CityCost) :=
  fun city day =>
    if city < numCities ∧ day < numCities then
      stdSort (inboundCandidates fc numCities city day)
    else some []

/-- Every flight between two different cities costs 5 on every day. -/
def flatTable : FlightCosts := fun _ a b => if a = b then -1 else 5

/-- Three cities; the flights of the tour `0, 1, 2, 0` cost 10 each, the
flights of the tour `0, 2, 1, 0` cost 1431655765, 1431655765 and 1431655761,
which add up to `2^32 - 5`. -/
def mixTable : FlightCosts := fun d a b =>
  match d, a, b with
  | 0, 0, 1 => 10
  | 1, 1, 2 => 10
  | 2, 2, 0 => 10
  | 0, 0, 2 => 1431655765
  | 1, 2, 1 => 1431655765
  | 2, 1, 0 => 1431655761
  | _, _, _ => -1

/-! ## The lookahead constructor with 32-bit sums -/

/-- The `day` loop of `evalGreedyNNTourCost` with `flightsCost` a 32-bit `int`. -/
def greedyLoop32 (fc : FlightCosts) (numCities toCity : Nat)
    (out : Nat → Nat → List CityCost) : Nat → Nat → Nat → List Nat → Int → Int
  | 0, _, _, _, flightsCost => flightsCost
  | k + 1, day, currCity, citiesToVisit, flightsCost =>
    if day = numCities - 1 then
      if fc day currCity toCity > 0 then
        greedyLoop32 fc numCities toCity out k (day + 1) currCity citiesToVisit
          (wrap32 (flightsCost + fc day currCity toCity))
      else COST_MAX
    else
      match firstUnvisited (out currCity day) citiesToVisit with
      | some f =>
        greedyLoop32 fc numCities toCity out k (day + 1) f.city (citiesToVisit.set f.city 0)
          (wrap32 (flightsCost + f.cost))
      | none => COST_MAX

/-- The function `evalGreedyNNTourCost` with 32-bit sums. -/
def evalGreedyNNTourCost32 (startDay numCities fromCity toCity : Nat)
    (citiesNotVisitedYet : List Nat) (fc : FlightCosts)
    (out : Nat → Nat → List CityCost) : Int :=
  greedyLoop32 fc numCities toCity out (numCities - startDay) startDay fromCity
    (citiesNotVisitedYet.set fromCity 0) 0

/-- The scan of `makeNNTourWithLookAhead` with `totalCost` a 32-bit `int`. -/
def lookAheadScan32 (fc : FlightCosts) (numCities startCity day : Nat)
    (out : Nat → Nat → List CityCost) (citiesToVisit : List Nat) :
    List CityCost → Option Nat × Int → Option Nat × Int
  | [], s => s
  | f :: rest, (bestNextCity, bestTotalCost) =>
    if citiesToVisit.getD f.city 0 ≠ 0 then
      let totalCost := wrap32 (f.cost +
        evalGreedyNNTourCost32 (day + 1) numCities f.city startCity citiesToVisit fc out)
      if totalCost < bestTotalCost then
        lookAheadScan32 fc numCities startCity day out citiesToVisit rest
          (some f.city, totalCost)
      else
        lookAheadScan32 fc numCities startCity day out citiesToVisit rest
          (bestNextCity, bestTotalCost)
    else
      lookAheadScan32 fc numCities startCity day out citiesToVisit rest
        (bestNextCity, bestTotalCost)

/-- The `day` loop of `makeNNTourWithLookAhead` with 32-bit sums. -/
def lookAheadLoop32 (fc : FlightCosts) (numCities startCity : Nat)
    (out : Nat → Nat → List CityCost) : Nat → Nat → Tour → List Nat → Nat → Tour
  | 0, _, tour, _, _ => tour
  | k + 1, day, tour, citiesToVisit, currCity =>
    if day = numCities - 1 then
      if fc day currCity startCity > 0 then
        lookAheadLoop32 fc numCities startCity out k (day + 1) (tour ++ [startCity])
          citiesToVisit currCity
      else []
    else
      match lookAheadScan32 fc numCities startCity day out citiesToVisit (out currCity day)
          (none, COST_MAX) with
      | (some bestNextCity, _) =>
        lookAheadLoop32 fc numCities startCity out k (day + 1) (tour ++ [bestNextCity])
          (citiesToVisit.set bestNextCity 0) bestNextCity
      | (none, _) => []

/-- The function `makeNNTourWithLookAhead` with 32-bit sums. -/
def makeNNTourWithLookAhead32 (startCity numCities : Nat) (fc : FlightCosts)
    (out : Nat → Nat → List CityCost) : Tour :=
  lookAheadLoop32 fc numCities startCity out numCities 0 [startCity]
    ((List.replicate numCities 1).set startCity 0) startCity

/-- Every flight of the index `out` has a price between 0 and `P`. -/
def IndexRange (out : Nat → Nat → List CityCost) (P : Int) : Prop :=
  ∀ city day f, f ∈ out city day → 0 ≤ f.cost ∧ f.cost ≤ P

/-- The list `pre`, sorted by price, with `x` put in behind the entries that are
not dearer than `x`: what one step of the insertion sort of libstdc++ does. -/
def insertStable (x : CityCost) (pre : List CityCost) : List CityCost :=
  pre.takeWhile (fun a => !ccLess x a) ++ x :: pre.dropWhile (fun a => !ccLess x a)

/-! # Theorems -/

/-! ## The tour evaluator -/

theorem evalLoop_pos (fc : FlightCosts) (tour : Tour) :
    ∀ (k day : Nat) (acc : Int), (∀ i, i < k → 0 < leg fc tour (day + i)) →
      evalLoop fc tour k day acc = acc + ∑ i in Finset.range k, leg fc tour (day + i) := by
  intro k
  induction k with
  | zero => intro day acc _; simp [evalLoop]
  | succ k ih =>
    intro day acc h
    have h0 : 0 < leg fc tour day := by simpa using h 0 (Nat.succ_pos k)
    have hrest : ∀ i, i < k → 0 < leg fc tour (day + 1 + i) := by
      intro i hi
      have := h (i + 1) (by omega)
      rwa [show day + (i + 1) = day + 1 + i by omega] at this
    have hstep : evalLoop fc tour (k + 1) day acc
        = evalLoop fc tour k (day + 1) (acc + leg fc tour day) := by
      simp only [evalLoop]
      rw [if_pos (by simpa [leg] using h0)]
      rfl
    rw [hstep, ih (day + 1) _ hrest, Finset.sum_range_succ']
    have : ∀ i, leg fc tour (day + 1 + i) = leg fc tour (day + (i + 1)) := by
      intro i; rw [show day + 1 + i = day + (i + 1) by omega]
    simp only [this, Nat.add_zero]
    ring

theorem evalLoop_neg (fc : FlightCosts) (tour : Tour) :
    ∀ (k day : Nat) (acc : Int), (∃ i, i < k ∧ leg fc tour (day + i) ≤ 0) →
      evalLoop fc tour k day acc = -1 := by
  intro k
  induction k with
  | zero => intro day acc h; obtain ⟨i, hi, _⟩ := h; omega
  | succ k ih =>
    intro day acc h
    obtain ⟨i, hi, hle⟩ := h
    by_cases h0 : 0 < leg fc tour day
    · have hstep : evalLoop fc tour (k + 1) day acc
          = evalLoop fc tour k (day + 1) (acc + leg fc tour day) := by
        simp only [evalLoop]
        rw [if_pos (by simpa [leg] using h0)]
        rfl
      rw [hstep]
      apply ih
      cases i with
      | zero => simp at hle; omega
      | succ j =>
        refine ⟨j, by omega, ?_⟩
        rwa [show day + 1 + j = day + (j + 1) by omega]
    · simp only [evalLoop]
      rw [if_neg (by simpa [leg] using h0)]

theorem evalTourCost_of_feasible (fc : FlightCosts) (tour : Tour) (h : Feasible fc tour) :
    evalTourCost fc tour = rawSum fc tour := by
  unfold evalTourCost rawSum
  rw [evalLoop_pos fc tour _ 0 0 (by intro i hi; simpa using h i hi)]
  simp

theorem evalTourCost_of_not_feasible (fc : FlightCosts) (tour : Tour) (h : ¬ Feasible fc tour) :
    evalTourCost fc tour = -1 := by
  unfold evalTourCost
  apply evalLoop_neg
  unfold Feasible at h
  push_neg at h
  obtain ⟨d, hd, hle⟩ := h
  exact ⟨d, hd, by simpa using hle⟩

theorem rawSum_pos (fc : FlightCosts) (tour : Tour) (hlen : 2 ≤ tour.length)
    (h : Feasible fc tour) : 0 < rawSum fc tour := by
  unfold rawSum
  apply Finset.sum_pos
  · intro d hd
    exact h d (Finset.mem_range.mp hd)
  · exact ⟨0, Finset.mem_range.mpr (by omega)⟩

theorem evalTourCost_pos_iff (fc : FlightCosts) (tour : Tour) (hlen : 2 ≤ tour.length) :
    0 < evalTourCost fc tour ↔ Feasible fc tour := by
  constructor
  · intro h
    by_contra hn
    rw [evalTourCost_of_not_feasible fc tour hn] at h
    omega
  · intro h
    rw [evalTourCost_of_feasible fc tour h]
    exact rawSum_pos fc tour hlen h

/-- With the sum taken in `Int`: for a tour of length `N + 1` with `N ≥ 1`,
`evalTourCost` is the sum of
the `N` leg prices when every leg is positive and `-1` otherwise; so the result
is `-1` exactly when some leg is not positive, and any other result is positive. -/
theorem evalTourCost_spec (fc : FlightCosts) (N : Nat) (tour : Tour)
    (hN : 1 ≤ N) (hlen : tour.length = N + 1) :
    ((∀ d, d < N → 0 < fc d (at_ tour d) (at_ tour (d + 1))) →
        evalTourCost fc tour
          = ∑ d in Finset.range N, fc d (at_ tour d) (at_ tour (d + 1))) ∧
    ((∃ d, d < N ∧ fc d (at_ tour d) (at_ tour (d + 1)) ≤ 0) →
        evalTourCost fc tour = -1) ∧
    (evalTourCost fc tour = -1 ↔
        ∃ d, d < N ∧ fc d (at_ tour d) (at_ tour (d + 1)) ≤ 0) ∧
    (evalTourCost fc tour ≠ -1 → 0 < evalTourCost fc tour) := by
  have hN' : tour.length - 1 = N := by omega
  have hfeas : Feasible fc tour ↔ ∀ d, d < N → 0 < fc d (at_ tour d) (at_ tour (d + 1)) := by
    unfold Feasible; rw [hN']; rfl
  have hneg : (∃ d, d < N ∧ fc d (at_ tour d) (at_ tour (d + 1)) ≤ 0) → ¬ Feasible fc tour := by
    rintro ⟨d, hd, hle⟩ hf
    have := hfeas.mp hf d hd
    omega
  refine ⟨?_, ?_, ?_, ?_⟩
  · intro h
    rw [evalTourCost_of_feasible fc tour (hfeas.mpr h)]
    unfold rawSum; rw [hN']; rfl
  · intro h
    exact evalTourCost_of_not_feasible fc tour (hneg h)
  · constructor
    · intro h
      by_contra hn
      push_neg at hn
      have hf : Feasible fc tour := hfeas.mpr hn
      have := (evalTourCost_pos_iff fc tour (by omega)).mpr hf
      omega
    · intro h
      exact evalTourCost_of_not_feasible fc tour (hneg h)
  · intro h
    by_cases hf : Feasible fc tour
    · exact (evalTourCost_pos_iff fc tour (by omega)).mpr hf
    · exact absurd (evalTourCost_of_not_feasible fc tour hf) h


/-! ## Reading and writing tour positions -/

theorem at_eq (t : Tour) (i : Nat) : at_ t i = (t[i]?).getD 0 := by
  simp [at_]

theorem at_of_le (t : Tour) (i : Nat) (h : t.length ≤ i) : at_ t i = 0 := by
  simp [at_, List.getElem?_eq_none h]

theorem at_set (t : Tour) (i p v : Nat) (hi : i < t.length) :
    at_ (t.set i v) p = if p = i then v else at_ t p := by
  simp only [at_eq, List.getElem?_set]
  by_cases h : i = p
  · subst h; simp [hi]
  · have h2 : ¬ p = i := fun e => h e.symm
    simp [h, h2]

theorem tour_ext (t r : Tour) (hlen : t.length = r.length)
    (h : ∀ p, p < t.length → at_ t p = at_ r p) : t = r := by
  apply List.ext_getElem hlen
  intro n h1 h2
  have := h n h1
  simp only [at_eq, List.getElem?_eq_getElem h1, List.getElem?_eq_getElem h2,
    Option.getD_some] at this
  exact this

theorem length_swapAt (t : Tour) (i j : Nat) : (swapAt t i j).length = t.length := by
  simp [swapAt]

theorem at_swapAt (t : Tour) (i j p : Nat) (hi : i < t.length) (hj : j < t.length) :
    at_ (swapAt t i j) p = if p = j then at_ t i else if p = i then at_ t j else at_ t p := by
  unfold swapAt
  rw [at_set _ _ _ _ (by simpa using hj), at_set _ _ _ _ hi]

theorem swapAt_swapAt (t : Tour) (i j : Nat) (hi : i < t.length) (hj : j < t.length) :
    swapAt (swapAt t i j) i j = t := by
  apply tour_ext
  · simp [length_swapAt]
  · intro p _
    rw [at_swapAt _ _ _ _ (by simpa [length_swapAt] using hi)
        (by simpa [length_swapAt] using hj)]
    rw [at_swapAt _ _ _ _ hi hj, at_swapAt _ _ _ _ hi hj, at_swapAt _ _ _ _ hi hj]
    by_cases h1 : p = j
    · subst h1
      simp only [if_true]
      by_cases h3 : i = p
      · subst h3; simp
      · simp [h3]
    · by_cases h2 : p = i
      · subst h2; simp [h1]
      · simp [h1, h2]

theorem length_flipFold (best : Tour) (day1 day2 : Nat) (l : List Nat) (tour : Tour) :
    (l.foldl (fun tr i => tr.set (day1 + i) (at_ best (day2 - i))) tour).length
      = tour.length := by
  induction l generalizing tour with
  | nil => rfl
  | cons a l ih => simp [List.foldl_cons, ih]

theorem length_flipInto (tour best : Tour) (day1 day2 : Nat) :
    (flipInto tour best day1 day2).length = tour.length :=
  length_flipFold best day1 day2 _ tour

theorem at_flipFold (best : Tour) (day1 day2 : Nat) (n : Nat) (tour : Tour) (p : Nat)
    (hn : day1 + n ≤ tour.length) :
    at_ ((List.range n).foldl (fun tr i => tr.set (day1 + i) (at_ best (day2 - i))) tour) p
      = if day1 ≤ p ∧ p < day1 + n then at_ best (day2 - (p - day1)) else at_ tour p := by
  induction n with
  | zero =>
    simp only [List.range_zero, List.foldl_nil]
    rw [if_neg (by omega)]
  | succ n ih =>
    rw [List.range_succ, List.foldl_append]
    simp only [List.foldl_cons, List.foldl_nil]
    rw [at_set _ _ _ _ (by rw [length_flipFold]; omega), ih (by omega)]
    by_cases h : p = day1 + n
    · subst h
      rw [if_pos rfl, if_pos (by omega)]
      congr 2
      omega
    · rw [if_neg h]
      by_cases h2 : day1 ≤ p ∧ p < day1 + n
      · rw [if_pos h2, if_pos (by omega)]
      · rw [if_neg h2, if_neg (by omega)]

theorem at_flipInto (tour best : Tour) (day1 day2 p : Nat) (h12 : day1 ≤ day2)
    (h2 : day2 < tour.length) :
    at_ (flipInto tour best day1 day2) p
      = if day1 ≤ p ∧ p ≤ day2 then at_ best (day1 + day2 - p) else at_ tour p := by
  unfold flipInto
  rw [at_flipFold best day1 day2 _ tour p (by omega)]
  by_cases h : day1 ≤ p ∧ p ≤ day2
  · rw [if_pos (by omega), if_pos h]
    congr 1
    omega
  · rw [if_neg (by omega), if_neg h]

theorem length_reverseSeg (t : Tour) (day1 day2 : Nat) (h12 : day1 ≤ day2)
    (h2 : day2 < t.length) : (reverseSeg t day1 day2).length = t.length := by
  simp only [reverseSeg, List.length_append, List.length_take, List.length_reverse,
    List.length_drop]
  omega

theorem at_reverseSeg (t : Tour) (day1 day2 p : Nat) (h12 : day1 ≤ day2)
    (h2 : day2 < t.length) :
    at_ (reverseSeg t day1 day2) p
      = if day1 ≤ p ∧ p ≤ day2 then at_ t (day1 + day2 - p) else at_ t p := by
  by_cases hp : p < t.length
  swap
  · rw [at_of_le _ _ (by rw [length_reverseSeg t day1 day2 h12 h2]; omega)]
    rw [if_neg (by omega), at_of_le _ _ (by omega)]
  simp only [at_eq, reverseSeg]
  by_cases hA : p < day1
  · rw [if_neg (by omega), List.append_assoc, List.getElem?_append_left (by simp; omega)]
    rw [List.getElem?_take_of_lt hA]
  · by_cases hB : p ≤ day2
    · rw [if_pos (by omega), List.append_assoc,
        List.getElem?_append_right (by simp; omega),
        List.getElem?_append_left (by simp; omega)]
      rw [List.getElem?_reverse (by simp; omega)]
      simp only [List.length_take, List.length_drop]
      rw [List.getElem?_take_of_lt (by omega), List.getElem?_drop]
      congr 2
      omega
    · rw [if_neg (by omega), List.getElem?_append_right (by simp; omega)]
      rw [List.getElem?_drop]
      congr 2
      simp only [List.length_append, List.length_take, List.length_reverse, List.length_drop]
      omega

theorem flipInto_eq_reverseSeg (tour best : Tour) (day1 day2 : Nat) (h12 : day1 ≤ day2)
    (h2 : day2 < best.length) (hlen : tour.length = best.length)
    (hout : ∀ p, p < day1 ∨ day2 < p → at_ tour p = at_ best p) :
    flipInto tour best day1 day2 = reverseSeg best day1 day2 := by
  apply tour_ext
  · rw [length_flipInto, length_reverseSeg best day1 day2 h12 h2, hlen]
  · intro p _
    rw [at_flipInto tour best day1 day2 p h12 (by omega), at_reverseSeg best day1 day2 p h12 h2]
    by_cases h : day1 ≤ p ∧ p ≤ day2
    · rw [if_pos h, if_pos h]
    · rw [if_neg h, if_neg h]
      exact hout p (by omega)

theorem reverseSeg_perm (t : Tour) (day1 day2 : Nat) (h : day1 ≤ day2) :
    (reverseSeg t day1 day2).Perm t := by
  unfold reverseSeg
  have h1 : (t.take day1 ++ ((t.drop day1).take (day2 - day1 + 1)).reverse
      ++ t.drop (day2 + 1)).Perm
      (t.take day1 ++ ((t.drop day1).take (day2 - day1 + 1)) ++ t.drop (day2 + 1)) := by
    apply List.Perm.append_right
    apply List.Perm.append_left
    exact List.reverse_perm _
  have h2 : t.take day1 ++ ((t.drop day1).take (day2 - day1 + 1)) ++ t.drop (day2 + 1) = t := by
    have e : t.drop (day2 + 1) = (t.drop day1).drop (day2 - day1 + 1) := by
      rw [List.drop_drop]; congr 1; omega
    rw [e, List.append_assoc, List.take_append_drop, List.take_append_drop]
  rw [h2] at h1
  exact h1

/-! ## Moves keep the cities of a tour -/

theorem at_map_range (n : Nat) (f : Nat → Nat) (p : Nat) (hp : p < n) :
    at_ ((List.range n).map f) p = f p := by
  simp [at_eq, List.getElem?_map, List.getElem?_range hp]

theorem perm_of_reindex (t r : Tour) (σ : Nat → Nat) (hlen : r.length = t.length)
    (hσ : ∀ p, p < t.length → σ p < t.length)
    (hinv : ∀ p, p < t.length → σ (σ p) = p)
    (h : ∀ p, p < t.length → at_ r p = at_ t (σ p)) : r.Perm t := by
  have hr : r = ((List.range t.length).map σ).map (at_ t) := by
    apply tour_ext
    · simp [hlen]
    · intro p hp
      rw [List.map_map, at_map_range _ _ _ (by omega)]
      exact h p (by omega)
  have ht : t = (List.range t.length).map (at_ t) := by
    apply tour_ext
    · simp
    · intro p hp
      rw [at_map_range _ _ _ hp]
  have hnd : ((List.range t.length).map σ).Nodup := by
    apply List.Nodup.map_on _ (List.nodup_range _)
    intro x hx y hy hxy
    rw [← hinv x (List.mem_range.mp hx), ← hinv y (List.mem_range.mp hy), hxy]
  have hperm : ((List.range t.length).map σ).Perm (List.range t.length) := by
    apply (List.perm_ext_iff_of_nodup hnd (List.nodup_range _)).mpr
    intro a
    simp only [List.mem_map, List.mem_range]
    constructor
    · rintro ⟨x, hx, rfl⟩
      exact hσ x hx
    · intro ha
      exact ⟨σ a, hσ a ha, hinv a ha⟩
  rw [hr]
  conv_rhs => rw [ht]
  exact hperm.map _

theorem swapAt_perm (t : Tour) (i j : Nat) (hi : i < t.length) (hj : j < t.length) :
    (swapAt t i j).Perm t := by
  apply perm_of_reindex t _ (fun p => if p = j then i else if p = i then j else p)
    (length_swapAt t i j)
  · intro p hp
    split_ifs <;> omega
  · intro p _
    split_ifs <;> omega
  · intro p _
    rw [at_swapAt t i j p hi hj]
    split_ifs <;> rfl

/-! ## The delta formula of the non-adjacent swap -/

theorem leg_swapAt_other (fc : FlightCosts) (t : Tour) (d1 d2 d : Nat)
    (h1 : d1 < t.length) (h2 : d2 < t.length)
    (hd : d ≠ d1 ∧ d ≠ d2 ∧ d + 1 ≠ d1 ∧ d + 1 ≠ d2) :
    leg fc (swapAt t d1 d2) d = leg fc t d := by
  unfold leg
  rw [at_swapAt t d1 d2 d h1 h2, at_swapAt t d1 d2 (d + 1) h1 h2]
  rw [if_neg hd.2.1, if_neg hd.1, if_neg hd.2.2.2, if_neg hd.2.2.1]

theorem leg_swapAt_four (fc : FlightCosts) (t : Tour) (d1 d2 : Nat)
    (h0 : 1 ≤ d1) (h12 : d1 + 1 < d2) (h2 : d2 < t.length) :
    leg fc (swapAt t d1 d2) (d1 - 1) = fc (d1 - 1) (at_ t (d1 - 1)) (at_ t d2) ∧
    leg fc (swapAt t d1 d2) d1 = fc d1 (at_ t d2) (at_ t (d1 + 1)) ∧
    leg fc (swapAt t d1 d2) (d2 - 1) = fc (d2 - 1) (at_ t (d2 - 1)) (at_ t d1) ∧
    leg fc (swapAt t d1 d2) d2 = fc d2 (at_ t d1) (at_ t (d2 + 1)) := by
  have h1 : d1 < t.length := by omega
  unfold leg
  refine ⟨?_, ?_, ?_, ?_⟩
  · rw [at_swapAt t d1 d2 _ h1 h2, at_swapAt t d1 d2 _ h1 h2]
    rw [if_neg (by omega), if_neg (by omega), if_neg (by omega), if_pos (by omega)]
  · rw [at_swapAt t d1 d2 _ h1 h2, at_swapAt t d1 d2 _ h1 h2]
    rw [if_neg (by omega), if_pos rfl, if_neg (by omega), if_neg (by omega)]
  · rw [at_swapAt t d1 d2 _ h1 h2, at_swapAt t d1 d2 _ h1 h2]
    rw [if_neg (by omega), if_neg (by omega), if_pos (by omega)]
  · rw [at_swapAt t d1 d2 _ h1 h2, at_swapAt t d1 d2 _ h1 h2]
    rw [if_pos rfl, if_neg (by omega), if_neg (by omega)]

theorem rawSum_swapAt (fc : FlightCosts) (t : Tour) (d1 d2 : Nat)
    (h0 : 1 ≤ d1) (h12 : d1 + 1 < d2) (h2 : d2 + 1 < t.length) :
    rawSum fc (swapAt t d1 d2)
      = swapDeltaCost fc t (rawSum fc t) d1 d2 (at_ t d1)
          (fc (d1 - 1) (at_ t (d1 - 1)) (at_ t d1) + fc d1 (at_ t d1) (at_ t (d1 + 1))) := by
  obtain ⟨e1, e2, e3, e4⟩ := leg_swapAt_four fc t d1 d2 h0 h12 (by omega)
  have hS : ({d1 - 1, d1, d2 - 1, d2} : Finset Nat) ⊆ Finset.range (t.length - 1) := by
    intro x hx
    simp only [Finset.mem_insert, Finset.mem_singleton] at hx
    rw [Finset.mem_range]
    omega
  have hdiff : ∑ d in Finset.range (t.length - 1), (leg fc (swapAt t d1 d2) d - leg fc t d)
      = ∑ d in ({d1 - 1, d1, d2 - 1, d2} : Finset Nat),
          (leg fc (swapAt t d1 d2) d - leg fc t d) := by
    symm
    apply Finset.sum_subset hS
    intro x _ hx
    simp only [Finset.mem_insert, Finset.mem_singleton, not_or] at hx
    rw [leg_swapAt_other fc t d1 d2 x (by omega) (by omega) (by omega)]
    simp
  have hfour : ∑ d in ({d1 - 1, d1, d2 - 1, d2} : Finset Nat),
      (leg fc (swapAt t d1 d2) d - leg fc t d)
      = (leg fc (swapAt t d1 d2) (d1 - 1) - leg fc t (d1 - 1))
        + ((leg fc (swapAt t d1 d2) d1 - leg fc t d1)
        + ((leg fc (swapAt t d1 d2) (d2 - 1) - leg fc t (d2 - 1))
        + (leg fc (swapAt t d1 d2) d2 - leg fc t d2))) := by
    rw [Finset.sum_insert (by simp; omega), Finset.sum_insert (by simp; omega),
      Finset.sum_insert (by simp; omega), Finset.sum_singleton]
  have hsub : rawSum fc (swapAt t d1 d2) - rawSum fc t
      = ∑ d in Finset.range (t.length - 1), (leg fc (swapAt t d1 d2) d - leg fc t d) := by
    unfold rawSum
    rw [length_swapAt, Finset.sum_sub_distrib]
  rw [hdiff, hfour, e1, e2, e3, e4] at hsub
  have l1 : leg fc t (d1 - 1) = fc (d1 - 1) (at_ t (d1 - 1)) (at_ t d1) := by
    unfold leg; rw [show d1 - 1 + 1 = d1 by omega]
  have l3 : leg fc t (d2 - 1) = fc (d2 - 1) (at_ t (d2 - 1)) (at_ t d2) := by
    unfold leg; rw [show d2 - 1 + 1 = d2 by omega]
  rw [l1, l3] at hsub
  unfold swapDeltaCost
  simp only [leg] at hsub ⊢
  linarith

theorem feasible_swapAt_iff (fc : FlightCosts) (t : Tour) (d1 d2 : Nat)
    (h0 : 1 ≤ d1) (h12 : d1 + 1 < d2) (h2 : d2 + 1 < t.length) (hf : Feasible fc t) :
    Feasible fc (swapAt t d1 d2) ↔ swapLegsOk fc t d1 d2 (at_ t d1) := by
  obtain ⟨e1, e2, e3, e4⟩ := leg_swapAt_four fc t d1 d2 h0 h12 (by omega)
  unfold swapLegsOk
  dsimp only
  rw [← e1, ← e2, ← e3, ← e4]
  constructor
  · intro h
    have hl : (swapAt t d1 d2).length = t.length := length_swapAt t d1 d2
    exact ⟨h _ (by omega), h _ (by omega), h _ (by omega), h _ (by omega)⟩
  · rintro ⟨a1, a2, a3, a4⟩ d hd
    rw [length_swapAt] at hd
    by_cases hc : d ≠ d1 ∧ d ≠ d2 ∧ d + 1 ≠ d1 ∧ d + 1 ≠ d2
    · rw [leg_swapAt_other fc t d1 d2 d (by omega) (by omega) hc]
      exact hf d hd
    · have : d = d1 - 1 ∨ d = d1 ∨ d = d2 - 1 ∨ d = d2 := by omega
      rcases this with h | h | h | h <;> (rw [h]; assumption)

/-! ## One pair `(day1, day2)` of `perform2Opt` -/

theorem Rearranged.refl (b : Tour) : Rearranged b b :=
  ⟨rfl, List.Perm.refl _, rfl, rfl⟩

theorem Rearranged.trans {a b c : Tour} (h1 : Rearranged a b) (h2 : Rearranged b c) :
    Rearranged a c := by
  obtain ⟨l1, p1, z1, e1⟩ := h1
  obtain ⟨l2, p2, z2, e2⟩ := h2
  refine ⟨l2.trans l1, p2.trans p1, z2.trans z1, ?_⟩
  rw [l1] at e2
  exact e2.trans e1

theorem rearranged_swapAt (b : Tour) (d1 d2 : Nat) (h0 : 1 ≤ d1) (h12 : d1 < d2)
    (h2 : d2 + 1 < b.length) : Rearranged b (swapAt b d1 d2) := by
  refine ⟨length_swapAt b d1 d2, swapAt_perm b d1 d2 (by omega) (by omega), ?_, ?_⟩
  · rw [at_swapAt b d1 d2 0 (by omega) (by omega), if_neg (by omega), if_neg (by omega)]
  · rw [at_swapAt b d1 d2 _ (by omega) (by omega), if_neg (by omega), if_neg (by omega)]

theorem rearranged_reverseSeg (b : Tour) (d1 d2 : Nat) (h0 : 1 ≤ d1) (h12 : d1 < d2)
    (h2 : d2 + 1 < b.length) : Rearranged b (reverseSeg b d1 d2) := by
  refine ⟨length_reverseSeg b d1 d2 (by omega) (by omega),
    reverseSeg_perm b d1 d2 (by omega), ?_, ?_⟩
  · rw [at_reverseSeg b d1 d2 0 (by omega) (by omega), if_neg (by omega)]
  · rw [at_reverseSeg b d1 d2 _ (by omega) (by omega), if_neg (by omega)]

theorem opt2Swap_restart_struct (fc : FlightCosts) (bc : Int) (d1 c1 : Nat) (cft : Int)
    (d2 : Nat) (b : Tour) (h0 : 1 ≤ d1) (h12 : d1 < d2) (h2 : d2 + 1 < b.length)
    (r : Tour × Int) (h : opt2Swap fc bc d1 c1 cft d2 b = .restart r) :
    r.1 = swapAt b d1 d2 ∧ Rearranged b r.1 := by
  have hR := rearranged_swapAt b d1 d2 h0 h12 h2
  unfold opt2Swap at h
  dsimp only at h
  split_ifs at h <;> (injection h with h; subst h; exact ⟨rfl, hR⟩)

theorem opt2Swap_next_struct (fc : FlightCosts) (bc : Int) (d1 c1 : Nat) (cft : Int)
    (d2 : Nat) (b : Tour) (h12 : d1 < d2) (h2 : d2 + 1 < b.length)
    (b1 : Tour) (h : opt2Swap fc bc d1 c1 cft d2 b = .next b1) : b1 = b := by
  unfold opt2Swap at h
  dsimp only at h
  split_ifs at h <;> (injection h with h; subst h; first
    | rfl
    | exact swapAt_swapAt b d1 d2 (by omega) (by omega))

theorem opt2Swap_restart_cost (fc : FlightCosts) (bc : Int) (d1 : Nat)
    (d2 : Nat) (b : Tour) (h0 : 1 ≤ d1) (h12 : d1 < d2) (h2 : d2 + 1 < b.length)
    (hf : Feasible fc b) (hbc : bc = evalTourCost fc b)
    (r : Tour × Int)
    (h : opt2Swap fc bc d1 (at_ b d1)
        (fc (d1 - 1) (at_ b (d1 - 1)) (at_ b d1) + fc d1 (at_ b d1) (at_ b (d1 + 1)))
        d2 b = .restart r) :
    r.2 = evalTourCost fc r.1 ∧ 0 < r.2 ∧ r.2 < bc := by
  unfold opt2Swap at h
  dsimp only at h
  split_ifs at h with hadj hacc hlegs hlt
  · injection h with h; subst h
    exact ⟨rfl, hacc.1, hacc.2⟩
  · have hfs : Feasible fc (swapAt b d1 d2) :=
      (feasible_swapAt_iff fc b d1 d2 h0 (by omega) h2 hf).mpr hlegs
    have hraw := rawSum_swapAt fc b d1 d2 h0 (by omega) h2
    rw [← evalTourCost_of_feasible fc _ hfs, ← evalTourCost_of_feasible fc b hf, ← hbc] at hraw
    injection h with h; subst h
    dsimp only
    rw [hraw]
    refine ⟨rfl, ?_, hlt⟩
    rw [← hraw]
    exact (evalTourCost_pos_iff fc _ (by rw [length_swapAt]; omega)).mpr hfs

theorem opt2Swap_next_cost (fc : FlightCosts) (bc : Int) (d1 : Nat)
    (d2 : Nat) (b : Tour) (h0 : 1 ≤ d1) (h12 : d1 < d2) (h2 : d2 + 1 < b.length)
    (hf : Feasible fc b) (hbc : bc = evalTourCost fc b)
    (b1 : Tour)
    (h : opt2Swap fc bc d1 (at_ b d1)
        (fc (d1 - 1) (at_ b (d1 - 1)) (at_ b d1) + fc d1 (at_ b d1) (at_ b (d1 + 1)))
        d2 b = .next b1) :
    ¬ Improves fc bc (swapAt b d1 d2) := by
  unfold opt2Swap at h
  dsimp only at h
  intro himp
  have hfs : Feasible fc (swapAt b d1 d2) :=
    (evalTourCost_pos_iff fc _ (by rw [length_swapAt]; omega)).mp himp.1
  split_ifs at h with hadj hacc hlegs hlt
  · exact hacc himp
  · have hraw := rawSum_swapAt fc b d1 d2 h0 (by omega) h2
    rw [← evalTourCost_of_feasible fc _ hfs, ← evalTourCost_of_feasible fc b hf, ← hbc] at hraw
    rw [← hraw] at hlt
    exact hlt himp.2
  · exact hlegs ((feasible_swapAt_iff fc b d1 d2 h0 (by omega) h2 hf).mp hfs)

theorem opt2Flip_restart (fc : FlightCosts) (bc : Int) (d1 d2 : Nat) (b tour : Tour)
    (r : Tour × Int) (h : opt2Flip fc bc d1 d2 b tour = .restart r) :
    r.1 = flipInto tour b d1 d2 ∧ r.2 = evalTourCost fc r.1 ∧ 0 < r.2 ∧ r.2 < bc := by
  unfold opt2Flip at h
  dsimp only at h
  split_ifs at h with hacc
  injection h with h; subst h
  exact ⟨rfl, rfl, hacc.1, hacc.2⟩

theorem opt2Flip_next (fc : FlightCosts) (bc : Int) (d1 d2 : Nat) (b tour : Tour)
    (s : Tour × Tour) (h : opt2Flip fc bc d1 d2 b tour = .next s) :
    s = (b, flipInto tour b d1 d2) ∧ ¬ Improves fc bc (flipInto tour b d1 d2) := by
  unfold opt2Flip at h
  dsimp only at h
  split_ifs at h with hacc
  injection h with h; subst h
  exact ⟨rfl, hacc⟩

theorem opt2Swap_restart_raw (fc : FlightCosts) (bc : Int) (d1 : Nat)
    (d2 : Nat) (b : Tour) (h0 : 1 ≤ d1) (h12 : d1 < d2) (h2 : d2 + 1 < b.length)
    (r : Tour × Int)
    (h : opt2Swap fc bc d1 (at_ b d1)
        (fc (d1 - 1) (at_ b (d1 - 1)) (at_ b d1) + fc d1 (at_ b d1) (at_ b (d1 + 1)))
        d2 b = .restart r) :
    r.2 < bc ∧ (bc ≤ 0 → r.2 - rawSum fc r.1 = bc - rawSum fc b) := by
  unfold opt2Swap at h
  dsimp only at h
  split_ifs at h with hadj hacc hlegs hlt
  · injection h with h; subst h
    exact ⟨hacc.2, fun hle => by have := hacc.1; have := hacc.2; omega⟩
  · injection h with h; subst h
    refine ⟨hlt, fun _ => ?_⟩
    dsimp only
    rw [rawSum_swapAt fc b d1 d2 h0 (by omega) h2]
    unfold swapDeltaCost
    ring

theorem opt2Body_restart (fc : FlightCosts) (bc : Int) (d1 d2 : Nat) (b tour : Tour)
    (h0 : 1 ≤ d1) (h12 : d1 < d2) (h2 : d2 + 1 < b.length) (hs : Scratch b d1 d2 tour)
    (r : Tour × Int)
    (h : opt2Body fc bc d1 (at_ b d1)
        (fc (d1 - 1) (at_ b (d1 - 1)) (at_ b d1) + fc d1 (at_ b d1) (at_ b (d1 + 1)))
        d2 b tour = .restart r) :
    GoodRestart fc b bc r := by
  unfold opt2Body at h
  split at h
  · rename_i r0 hsw
    injection h with h; subst h
    obtain ⟨_, hR⟩ := opt2Swap_restart_struct fc bc d1 _ _ d2 b h0 h12 h2 _ hsw
    obtain ⟨hlt, hraw⟩ := opt2Swap_restart_raw fc bc d1 d2 b h0 h12 h2 _ hsw
    refine ⟨hR, hlt, fun hf hbc => ?_, hraw⟩
    obtain ⟨e, hp, _⟩ := opt2Swap_restart_cost fc bc d1 d2 b h0 h12 h2 hf hbc _ hsw
    exact ⟨e, hp⟩
  · rename_i b1 hsw
    have hb1 : b1 = b := opt2Swap_next_struct fc bc d1 _ _ d2 b h12 h2 _ hsw
    subst hb1
    obtain ⟨e1, e2, hp, hlt⟩ := opt2Flip_restart fc bc d1 d2 b1 tour r h
    have hfl : flipInto tour b1 d1 d2 = reverseSeg b1 d1 d2 :=
      flipInto_eq_reverseSeg tour b1 d1 d2 (by omega) (by omega) hs.1
        (fun p hp => hs.2 p (by omega))
    rw [hfl] at e1
    refine ⟨?_, hlt, fun _ _ => ⟨e2, hp⟩, fun hle => by omega⟩
    rw [e1]
    exact rearranged_reverseSeg b1 d1 d2 h0 h12 h2

theorem opt2Body_next (fc : FlightCosts) (bc : Int) (d1 d2 : Nat) (b tour : Tour)
    (h0 : 1 ≤ d1) (h12 : d1 < d2) (h2 : d2 + 1 < b.length) (hs : Scratch b d1 d2 tour)
    (s : Tour × Tour)
    (h : opt2Body fc bc d1 (at_ b d1)
        (fc (d1 - 1) (at_ b (d1 - 1)) (at_ b d1) + fc d1 (at_ b d1) (at_ b (d1 + 1)))
        d2 b tour = .next s) :
    s.1 = b ∧ Scratch b d1 (d2 + 1) s.2 ∧
    (Feasible fc b → bc = evalTourCost fc b →
      ¬ Improves fc bc (swapAt b d1 d2) ∧ ¬ Improves fc bc (reverseSeg b d1 d2)) := by
  unfold opt2Body at h
  split at h
  · exact absurd h (by simp)
  · rename_i b1 hsw
    have hb1 : b1 = b := opt2Swap_next_struct fc bc d1 _ _ d2 b h12 h2 _ hsw
    rw [hb1] at h
    obtain ⟨e, hni⟩ := opt2Flip_next fc bc d1 d2 b tour s h
    have hfl : flipInto tour b d1 d2 = reverseSeg b d1 d2 :=
      flipInto_eq_reverseSeg tour b d1 d2 (by omega) (by omega) hs.1
        (fun p hp => hs.2 p (by omega))
    rw [hfl] at e hni
    subst e
    refine ⟨rfl, ⟨length_reverseSeg b d1 d2 (by omega) (by omega), ?_⟩, fun hf hbc => ⟨?_, hni⟩⟩
    · intro p hp
      rw [at_reverseSeg b d1 d2 p (by omega) (by omega), if_neg (by omega)]
    · exact opt2Swap_next_cost fc bc d1 d2 b h0 h12 h2 hf hbc _ hsw

/-! ## The loops of `perform2Opt` -/

theorem opt2Day2_spec (fc : FlightCosts) (bc : Int) (d1 : Nat) (b : Tour) (h0 : 1 ≤ d1) :
    ∀ (k d2 : Nat) (tour : Tour), d1 < d2 → d2 + k + 1 ≤ b.length → Scratch b d1 d2 tour →
      (∀ r, opt2Day2 fc bc d1 (at_ b d1)
          (fc (d1 - 1) (at_ b (d1 - 1)) (at_ b d1) + fc d1 (at_ b d1) (at_ b (d1 + 1)))
          k d2 b tour = .restart r → GoodRestart fc b bc r) ∧
      (∀ s, opt2Day2 fc bc d1 (at_ b d1)
          (fc (d1 - 1) (at_ b (d1 - 1)) (at_ b d1) + fc d1 (at_ b d1) (at_ b (d1 + 1)))
          k d2 b tour = .next s →
        s.1 = b ∧ (Feasible fc b → bc = evalTourCost fc b →
          ∀ d, d2 ≤ d → d < d2 + k →
            ¬ Improves fc bc (swapAt b d1 d) ∧ ¬ Improves fc bc (reverseSeg b d1 d))) := by
  intro k
  induction k with
  | zero =>
    intro d2 tour _ _ _
    refine ⟨fun r h => ?_, fun s h => ?_⟩
    · simp [opt2Day2] at h
    · simp only [opt2Day2] at h
      injection h with h; subst h
      exact ⟨rfl, fun _ _ d hd1 hd2 => by omega⟩
  | succ k ih =>
    intro d2 tour h12 hk hs
    refine ⟨fun r h => ?_, fun s h => ?_⟩
    · simp only [opt2Day2] at h
      split at h
      · rename_i r0 hb
        injection h with h; subst h
        exact opt2Body_restart fc bc d1 d2 b tour h0 h12 (by omega) hs _ hb
      · rename_i b1 tour1 hb
        obtain ⟨e, hs1, _⟩ := opt2Body_next fc bc d1 d2 b tour h0 h12 (by omega) hs _ hb
        dsimp only at e hs1
        subst e
        exact (ih (d2 + 1) tour1 (by omega) (by omega) hs1).1 r h
    · simp only [opt2Day2] at h
      split at h
      · exact absurd h (by simp)
      · rename_i b1 tour1 hb
        obtain ⟨e, hs1, hno⟩ := opt2Body_next fc bc d1 d2 b tour h0 h12 (by omega) hs _ hb
        dsimp only at e hs1
        subst e
        obtain ⟨e2, hrest⟩ := (ih (d2 + 1) tour1 (by omega) (by omega) hs1).2 s h
        refine ⟨e2, fun hf hbc d hd1 hd2 => ?_⟩
        by_cases hd : d = d2
        · subst hd; exact hno hf hbc
        · exact hrest hf hbc d (by omega) (by omega)

theorem opt2Day1_spec (fc : FlightCosts) (bc : Int) (b : Tour) :
    ∀ (k d1 : Nat), 1 ≤ d1 → (k ≠ 0 → d1 + k + 2 ≤ b.length) →
      (∀ r, opt2Day1 fc bc k d1 b = .restart r → GoodRestart fc b bc r) ∧
      (∀ b1, opt2Day1 fc bc k d1 b = .next b1 →
        b1 = b ∧ (Feasible fc b → bc = evalTourCost fc b →
          ∀ d d2, d1 ≤ d → d < d1 + k → d < d2 → d2 < b.length - 1 →
            ¬ Improves fc bc (swapAt b d d2) ∧ ¬ Improves fc bc (reverseSeg b d d2))) := by
  intro k
  induction k with
  | zero =>
    intro d1 _ _
    refine ⟨fun r h => ?_, fun s h => ?_⟩
    · simp [opt2Day1] at h
    · simp only [opt2Day1] at h
      injection h with h; subst h
      exact ⟨rfl, fun _ _ d d2 hd1 hd2 => by omega⟩
  | succ k ih =>
    intro d1 h0 hk0
    have hk : d1 + (k + 1) + 2 ≤ b.length := hk0 (Nat.succ_ne_zero k)
    have hsc : Scratch b d1 (d1 + 1) b := ⟨rfl, fun _ _ => rfl⟩
    have hday2 := opt2Day2_spec fc bc d1 b h0 (b.length - 1 - (d1 + 1)) (d1 + 1) b
      (by omega) (by omega) hsc
    refine ⟨fun r h => ?_, fun s h => ?_⟩
    · simp only [opt2Day1] at h
      split at h
      · rename_i r0 hb
        injection h with h; subst h
        exact hday2.1 _ hb
      · rename_i b1 tour1 hb
        obtain ⟨e, _⟩ := hday2.2 _ hb
        dsimp only at e
        subst e
        exact (ih (d1 + 1) (by omega) (fun _ => by omega)).1 r h
    · simp only [opt2Day1] at h
      split at h
      · exact absurd h (by simp)
      · rename_i b1 tour1 hb
        obtain ⟨e, hno⟩ := hday2.2 _ hb
        dsimp only at e
        subst e
        obtain ⟨e2, hrest⟩ := (ih (d1 + 1) (by omega) (fun _ => by omega)).2 s h
        refine ⟨e2, fun hf hbc d d2 hd1 hd2 hdd hN => ?_⟩
        by_cases hd : d = d1
        · subst hd; exact hno hf hbc d2 (by omega) (by omega)
        · exact hrest hf hbc d d2 (by omega) (by omega) hdd hN

theorem feasible_of_goodRestart (fc : FlightCosts) (b : Tour) (bc : Int) (r : Tour × Int)
    (hlen : 2 ≤ b.length) (hf : Feasible fc b) (hbc : bc = evalTourCost fc b)
    (h : GoodRestart fc b bc r) :
    r.1.length = b.length ∧ Feasible fc r.1 ∧ r.2 = evalTourCost fc r.1 ∧ r.2 < bc := by
  obtain ⟨hR, hlt, hc, _⟩ := h
  obtain ⟨e, hp⟩ := hc hf hbc
  refine ⟨hR.1, ?_, e, hlt⟩
  rw [e] at hp
  exact (evalTourCost_pos_iff fc _ (by rw [hR.1]; exact hlen)).mp hp

theorem perform2OptLoop_spec (fc : FlightCosts) :
    ∀ (fuel : Nat) (b : Tour) (bc : Int), 2 ≤ b.length → Feasible fc b →
      bc = evalTourCost fc b → bc < fuel →
      ∃ T, perform2OptLoop fc fuel b bc = some T ∧ Rearranged b T ∧ Feasible fc T ∧
        evalTourCost fc T ≤ bc ∧ (evalTourCost fc T = bc → T = b) ∧ TwoOpt fc T := by
  intro fuel
  induction fuel with
  | zero =>
    intro b bc hlen hf hbc hfuel
    have := (evalTourCost_pos_iff fc b hlen).mpr hf
    simp at hfuel
    omega
  | succ fuel ih =>
    intro b bc hlen hf hbc hfuel
    have hspec := opt2Day1_spec fc bc b (b.length - 2 - 1) 1 (le_refl 1) (fun h => by omega)
    simp only [perform2OptLoop]
    split
    · rename_i t c hres
      obtain ⟨hl, hft, hc, hlt⟩ :=
        feasible_of_goodRestart fc b bc (t, c) hlen hf hbc (hspec.1 _ hres)
      have hR : Rearranged b t := (hspec.1 _ hres).1
      dsimp only at hl hft hc hlt hR
      obtain ⟨T, hT, hRT, hfT, hle, _, h2⟩ :=
        ih t c (by omega) hft hc (by push_cast at hfuel; omega)
      exact ⟨T, hT, hR.trans hRT, hfT, by omega, fun h => by omega, h2⟩
    · rename_i t hres
      obtain ⟨e, hno⟩ := hspec.2 _ hres
      subst e
      refine ⟨t, rfl, Rearranged.refl t, hf, by omega, fun _ => rfl, ?_⟩
      intro d1 d2 h1 h12 h2
      have := hno hf hbc d1 d2 h1 (by omega) h12 h2
      rw [hbc] at this
      exact this

/-! ## `perform2OptWithDLBs` makes the moves of `perform2Opt` -/

theorem dlbSwap_restart (fc : FlightCosts) (b : Tour) (bc : Int) (bits : List Nat)
    (d1 c1 : Nat) (cft : Int) (d2 : Nat) (r : Tour × Int × List Nat)
    (h : dlbSwap fc b bc bits d1 c1 cft d2 = .restart r) :
    opt2Swap fc bc d1 c1 cft d2 b = .restart (r.1, r.2.1) ∧
    r.2.2 = updateDontLookBits b r.1 bits := by
  unfold dlbSwap at h
  unfold opt2Swap
  dsimp only at h ⊢
  split_ifs at h ⊢ with hadj hacc hlegs hlt <;>
    (injection h with h; subst h; exact ⟨rfl, rfl⟩)

theorem dlbSwap_next (fc : FlightCosts) (b : Tour) (bc : Int) (bits : List Nat)
    (d1 c1 : Nat) (cft : Int) (d2 : Nat) (u : Unit)
    (h : dlbSwap fc b bc bits d1 c1 cft d2 = .next u) :
    ∃ b1, opt2Swap fc bc d1 c1 cft d2 b = .next b1 := by
  unfold dlbSwap at h
  unfold opt2Swap
  dsimp only at h ⊢
  split_ifs at h ⊢ with hadj hacc hlegs hlt <;> exact ⟨_, rfl⟩

theorem dlbFlip_restart (fc : FlightCosts) (b : Tour) (bc : Int) (bits : List Nat)
    (d1 d2 : Nat) (tour : Tour) (r : Tour × Int × List Nat)
    (h : dlbFlip fc b bc bits d1 d2 tour = .restart r) :
    opt2Flip fc bc d1 d2 b tour = .restart (r.1, r.2.1) ∧
    r.2.2 = updateDontLookBits b r.1 bits := by
  unfold dlbFlip at h
  unfold opt2Flip
  dsimp only at h ⊢
  split_ifs at h ⊢ with hacc
  injection h with h; subst h; exact ⟨rfl, rfl⟩

theorem dlbFlip_next (fc : FlightCosts) (b : Tour) (bc : Int) (bits : List Nat)
    (d1 d2 : Nat) (tour tour1 : Tour)
    (h : dlbFlip fc b bc bits d1 d2 tour = .next tour1) :
    opt2Flip fc bc d1 d2 b tour = .next (b, tour1) := by
  unfold dlbFlip at h
  unfold opt2Flip
  dsimp only at h ⊢
  split_ifs at h ⊢ with hacc
  injection h with h; subst h; rfl

theorem dlbBody_restart (fc : FlightCosts) (b : Tour) (bc : Int) (bits : List Nat)
    (d1 c1 : Nat) (cft : Int) (d2 : Nat) (tour : Tour)
    (h12 : d1 < d2) (h2 : d2 + 1 < b.length) (r : Tour × Int × List Nat)
    (h : dlbBody fc b bc bits d1 c1 cft d2 tour = .restart r) :
    opt2Body fc bc d1 c1 cft d2 b tour = .restart (r.1, r.2.1) ∧
    r.2.2 = updateDontLookBits b r.1 bits := by
  unfold dlbBody at h
  unfold opt2Body
  split at h
  · rename_i r0 hsw
    injection h with h; subst h
    obtain ⟨e, hb⟩ := dlbSwap_restart fc b bc bits d1 c1 cft d2 _ hsw
    rw [e]
    exact ⟨rfl, hb⟩
  · rename_i u hsw
    obtain ⟨b1, e⟩ := dlbSwap_next fc b bc bits d1 c1 cft d2 _ hsw
    have hb1 : b1 = b := opt2Swap_next_struct fc bc d1 c1 cft d2 b h12 h2 _ e
    subst hb1
    rw [e]
    exact dlbFlip_restart fc b1 bc bits d1 d2 tour r h

theorem dlbBody_next (fc : FlightCosts) (b : Tour) (bc : Int) (bits : List Nat)
    (d1 c1 : Nat) (cft : Int) (d2 : Nat) (tour : Tour)
    (h12 : d1 < d2) (h2 : d2 + 1 < b.length) (tour1 : Tour)
    (h : dlbBody fc b bc bits d1 c1 cft d2 tour = .next tour1) :
    opt2Body fc bc d1 c1 cft d2 b tour = .next (b, tour1) := by
  unfold dlbBody at h
  unfold opt2Body
  split at h
  · exact absurd h (by simp)
  · rename_i u hsw
    obtain ⟨b1, e⟩ := dlbSwap_next fc b bc bits d1 c1 cft d2 _ hsw
    have hb1 : b1 = b := opt2Swap_next_struct fc bc d1 c1 cft d2 b h12 h2 _ e
    subst hb1
    rw [e]
    exact dlbFlip_next fc b1 bc bits d1 d2 tour tour1 h

theorem dlbDay2_mirror (fc : FlightCosts) (b : Tour) (bc : Int) (bits : List Nat)
    (d1 c1 : Nat) (cft : Int) :
    ∀ (k d2 : Nat) (tour : Tour), d1 < d2 → d2 + k + 1 ≤ b.length →
      (∀ r, dlbDay2 fc b bc bits d1 c1 cft k d2 tour = .restart r →
        opt2Day2 fc bc d1 c1 cft k d2 b tour = .restart (r.1, r.2.1) ∧
        r.2.2 = updateDontLookBits b r.1 bits) ∧
      (∀ tour1, dlbDay2 fc b bc bits d1 c1 cft k d2 tour = .next tour1 →
        opt2Day2 fc bc d1 c1 cft k d2 b tour = .next (b, tour1)) := by
  intro k
  induction k with
  | zero =>
    intro d2 tour _ _
    refine ⟨fun r h => ?_, fun s h => ?_⟩
    · simp [dlbDay2] at h
    · simp only [dlbDay2] at h
      injection h with h; subst h
      rfl
  | succ k ih =>
    intro d2 tour h12 hk
    refine ⟨fun r h => ?_, fun s h => ?_⟩
    · simp only [dlbDay2] at h
      simp only [opt2Day2]
      split at h
      · rename_i r0 hb
        injection h with h; subst h
        obtain ⟨e, hbits⟩ := dlbBody_restart fc b bc bits d1 c1 cft d2 tour h12 (by omega) _ hb
        rw [e]
        exact ⟨rfl, hbits⟩
      · rename_i tour1 hb
        rw [dlbBody_next fc b bc bits d1 c1 cft d2 tour h12 (by omega) _ hb]
        exact (ih (d2 + 1) tour1 (by omega) (by omega)).1 r h
    · simp only [dlbDay2] at h
      simp only [opt2Day2]
      split at h
      · exact absurd h (by simp)
      · rename_i tour1 hb
        rw [dlbBody_next fc b bc bits d1 c1 cft d2 tour h12 (by omega) _ hb]
        exact (ih (d2 + 1) tour1 (by omega) (by omega)).2 s h

theorem getD_set_ne (bits : List Nat) (i j v : Nat) (h : i ≠ j) :
    (bits.set i v).getD j 0 = bits.getD j 0 := by
  simp [List.getD_eq_getElem?_getD, List.getElem?_set_ne h]

theorem dlbDay1_spec (fc : FlightCosts) (bc : Int) (b : Tour)
    (hdist : ∀ i j, i < j → j < b.length - 1 → at_ b i ≠ at_ b j) :
    ∀ (k d1 : Nat) (bits : List Nat), 1 ≤ d1 → (k ≠ 0 → d1 + k + 2 ≤ b.length) →
      (∀ r, dlbDay1 fc b bc k d1 bits = .restart r → GoodRestart fc b bc (r.1, r.2.1)) ∧
      (∀ bits1, dlbDay1 fc b bc k d1 bits = .next bits1 →
        (Feasible fc b → bc = evalTourCost fc b →
          ∀ d d2, d1 ≤ d → d < d1 + k → bits.getD (at_ b (d - 1)) 0 ≠ 1 →
            d < d2 → d2 < b.length - 1 →
            ¬ Improves fc bc (swapAt b d d2) ∧ ¬ Improves fc bc (reverseSeg b d d2))) := by
  intro k
  induction k with
  | zero =>
    intro d1 bits _ _
    refine ⟨fun r h => ?_, fun s h => ?_⟩
    · simp [dlbDay1] at h
    · exact fun _ _ d d2 hd1 hd2 => by omega
  | succ k ih =>
    intro d1 bits h0 hk0
    have hk : d1 + (k + 1) + 2 ≤ b.length := hk0 (Nat.succ_ne_zero k)
    have hsc : Scratch b d1 (d1 + 1) b := ⟨rfl, fun _ _ => rfl⟩
    have hday2 := opt2Day2_spec fc bc d1 b h0 (b.length - 1 - (d1 + 1)) (d1 + 1) b
      (by omega) (by omega) hsc
    have hmir := dlbDay2_mirror fc b bc bits d1 (at_ b d1)
      (fc (d1 - 1) (at_ b (d1 - 1)) (at_ b d1) + fc d1 (at_ b d1) (at_ b (d1 + 1)))
      (b.length - 1 - (d1 + 1)) (d1 + 1) b (by omega) (by omega)
    refine ⟨fun r h => ?_, fun s h => ?_⟩
    · simp only [dlbDay1] at h
      split_ifs at h with hbit
      · exact (ih (d1 + 1) bits (by omega) (fun _ => by omega)).1 r h
      · split at h
        · rename_i r0 hb
          injection h with h; subst h
          exact hday2.1 _ (hmir.1 _ hb).1
        · rename_i tour1 hb
          exact (ih (d1 + 1) _ (by omega) (fun _ => by omega)).1 r h
    · simp only [dlbDay1] at h
      intro hf hbc d d2 hd1 hd2 hclear hdd hN
      split_ifs at h with hbit
      · by_cases hd : d = d1
        · subst hd; exact absurd hbit hclear
        · exact (ih (d1 + 1) bits (by omega) (fun _ => by omega)).2 s h hf hbc d d2
            (by omega) (by omega) hclear hdd hN
      · split at h
        · exact absurd h (by simp)
        · rename_i tour1 hb
          by_cases hd : d = d1
          · subst hd
            exact (hday2.2 _ (hmir.2 _ hb)).2 hf hbc d2 (by omega) (by omega)
          · refine (ih (d1 + 1) _ (by omega) (fun _ => by omega)).2 s h hf hbc d d2
              (by omega) (by omega) ?_ hdd hN
            rw [getD_set_ne _ _ _ _ (hdist (d1 - 1) (d - 1) (by omega) (by omega))]
            exact hclear

theorem dlbDay1_restart (fc : FlightCosts) (bc : Int) (b : Tour) :
    ∀ (k d1 : Nat) (bits : List Nat), 1 ≤ d1 → (k ≠ 0 → d1 + k + 2 ≤ b.length) →
      ∀ r, dlbDay1 fc b bc k d1 bits = .restart r → GoodRestart fc b bc (r.1, r.2.1) := by
  intro k
  induction k with
  | zero =>
    intro d1 bits _ _ r h
    simp [dlbDay1] at h
  | succ k ih =>
    intro d1 bits h0 hk0 r h
    have hk : d1 + (k + 1) + 2 ≤ b.length := hk0 (Nat.succ_ne_zero k)
    have hsc : Scratch b d1 (d1 + 1) b := ⟨rfl, fun _ _ => rfl⟩
    have hday2 := opt2Day2_spec fc bc d1 b h0 (b.length - 1 - (d1 + 1)) (d1 + 1) b
      (by omega) (by omega) hsc
    have hmir := dlbDay2_mirror fc b bc bits d1 (at_ b d1)
      (fc (d1 - 1) (at_ b (d1 - 1)) (at_ b d1) + fc d1 (at_ b d1) (at_ b (d1 + 1)))
      (b.length - 1 - (d1 + 1)) (d1 + 1) b (by omega) (by omega)
    simp only [dlbDay1] at h
    split_ifs at h with hbit
    · exact ih (d1 + 1) bits (by omega) (fun _ => by omega) r h
    · split at h
      · rename_i r0 hb
        injection h with h; subst h
        exact hday2.1 _ (hmir.1 _ hb).1
      · rename_i tour1 hb
        exact ih (d1 + 1) _ (by omega) (fun _ => by omega) r h

/-! ## Rearrangements and valid tours -/

theorem tour_decomp (t : Tour) (h : 2 ≤ t.length) :
    t = at_ t 0 :: ((t.drop 1).take (t.length - 2)) ++ [at_ t (t.length - 1)] := by
  cases t with
  | nil => simp at h
  | cons a rest =>
    have hne : rest ≠ [] := by
      intro e; subst e; simp at h
    have h0 : at_ (a :: rest) 0 = a := by simp [at_]
    have hl : at_ (a :: rest) ((a :: rest).length - 1) = rest.getLast hne := by
      rw [List.getLast_eq_getElem]
      have hpos : 0 < rest.length := List.length_pos.mpr hne
      simp only [at_eq, List.length_cons, Nat.add_sub_cancel]
      rw [List.getElem?_cons, if_neg (by omega),
        List.getElem?_eq_getElem (by omega)]
      rfl
    have hm : ((a :: rest).drop 1).take ((a :: rest).length - 2) = rest.dropLast := by
      rw [List.dropLast_eq_take]
      simp
    rw [h0, hl, hm, List.cons_append, List.dropLast_append_getLast hne]

theorem dropLast_decomp (t : Tour) (h : 2 ≤ t.length) :
    t.dropLast = at_ t 0 :: ((t.drop 1).take (t.length - 2)) := by
  conv_lhs => rw [tour_decomp t h]
  exact List.dropLast_concat

theorem sameCities_of_rearranged (t r : Tour) (h2 : 2 ≤ t.length) (h : Rearranged t r) :
    SameCities t r := by
  obtain ⟨hl, hp, h0, hN⟩ := h
  refine ⟨hl, h0, hN, ?_⟩
  have e1 := tour_decomp t h2
  have e2 := tour_decomp r (by omega)
  rw [hl, h0, hN] at e2
  rw [e1] at hp
  rw [e2] at hp
  have hp2 := (List.perm_append_right_iff _).mp hp
  have hp3 := (List.perm_cons _).mp hp2
  simpa [hl] using hp3

theorem distinct_of_rearranged (t r : Tour) (h2 : 2 ≤ t.length) (h : Rearranged t r)
    (hd : DistinctCities t) : DistinctCities r := by
  obtain ⟨hl, h0, _, hm⟩ := sameCities_of_rearranged t r h2 h
  unfold DistinctCities at hd ⊢
  rw [dropLast_decomp t h2] at hd
  rw [dropLast_decomp r (by omega), hl, h0]
  exact ((List.perm_cons _).mpr hm).nodup_iff.mpr hd

theorem distinct_index (b : Tour) (hd : DistinctCities b) :
    ∀ i j, i < j → j < b.length - 1 → at_ b i ≠ at_ b j := by
  intro i j hij hj heq
  unfold DistinctCities at hd
  have hlen : b.dropLast.length = b.length - 1 := by simp
  have hi' : i < b.dropLast.length := by omega
  have hj' : j < b.dropLast.length := by omega
  have e : b.dropLast[i] = b.dropLast[j] := by
    rw [List.getElem_dropLast, List.getElem_dropLast]
    simp only [at_eq] at heq
    rw [List.getElem?_eq_getElem (show i < b.length by omega),
      List.getElem?_eq_getElem (show j < b.length by omega)] at heq
    simpa using heq
  have := (hd.getElem_inj_iff).mp e
  omega

theorem validTour_distinct (N start : Nat) (t : Tour) (hN : 1 ≤ N)
    (h : ValidTour N start t) : DistinctCities t := by
  obtain ⟨hl, h0, _, hm⟩ := h
  unfold DistinctCities
  rw [dropLast_decomp t (by omega), h0, show t.length - 2 = N - 1 by omega]
  rw [List.nodup_cons]
  constructor
  · intro hmem
    have := hm.subset hmem
    simp at this
  · exact hm.nodup_iff.mpr ((List.nodup_range N).filter _)

theorem validTour_of_rearranged (N start : Nat) (t r : Tour) (hN : 1 ≤ N)
    (hv : ValidTour N start t) (h : Rearranged t r) : ValidTour N start r := by
  obtain ⟨hl, h0, hE, hm⟩ := hv
  obtain ⟨hl2, h02, hE2, hm2⟩ := sameCities_of_rearranged t r (by omega) h
  rw [show t.length - 1 = N by omega] at hE2
  rw [show t.length - 2 = N - 1 by omega] at hm2
  exact ⟨hl2.trans hl, h02.trans h0, hE2.trans hE, hm2.trans hm⟩

/-! ## The outer loop of `perform2OptWithDLBs` -/

theorem perform2OptWithDLBsLoop_spec (fc : FlightCosts) :
    ∀ (fuel : Nat) (b : Tour) (bc : Int) (bits : List Nat), 2 ≤ b.length → Feasible fc b →
      bc = evalTourCost fc b → bc < fuel →
      ∃ T bitsF, perform2OptWithDLBsLoop fc fuel b bc bits = some (T, bitsF) ∧
        Rearranged b T ∧ Feasible fc T ∧
        evalTourCost fc T ≤ bc ∧ (evalTourCost fc T = bc → T = b) ∧
        (DistinctCities b → ∀ d1 d2, 1 ≤ d1 → d1 < d2 → d2 < T.length - 1 →
          bitsF.getD (at_ T (d1 - 1)) 0 ≠ 1 → NoBetterMove fc T d1 d2) := by
  intro fuel
  induction fuel with
  | zero =>
    intro b bc bits hlen hf hbc hfuel
    have := (evalTourCost_pos_iff fc b hlen).mpr hf
    simp at hfuel
    omega
  | succ fuel ih =>
    intro b bc bits hlen hf hbc hfuel
    simp only [perform2OptWithDLBsLoop]
    split
    · rename_i t c bits1 hres
      have hgood := dlbDay1_restart fc bc b (b.length - 2 - 1) 1 bits (le_refl 1)
        (fun h => by omega) _ hres
      obtain ⟨hl, hft, hc, hlt⟩ := feasible_of_goodRestart fc b bc (t, c) hlen hf hbc hgood
      have hR : Rearranged b t := hgood.1
      dsimp only at hl hft hc hlt hR
      obtain ⟨T, bitsF, hT, hRT, hfT, hle, _, h2⟩ :=
        ih t c bits1 (by omega) hft hc (by push_cast at hfuel; omega)
      exact ⟨T, bitsF, hT, hR.trans hRT, hfT, by omega, fun h => by omega,
        fun hd => h2 (distinct_of_rearranged b t hlen hR hd)⟩
    · rename_i bits1 hres
      refine ⟨b, bits, rfl, Rearranged.refl b, hf, by omega, fun _ => rfl, ?_⟩
      intro hd d1 d2 h1 h12 h2 hclear
      have hspec := dlbDay1_spec fc bc b (distinct_index b hd) (b.length - 2 - 1) 1 bits
        (le_refl 1) (fun h => by omega)
      have := hspec.2 _ hres hf hbc d1 d2 h1 (by omega) hclear h12 h2
      rw [hbc] at this
      exact this

/-! ## Local search without the feasibility assumption -/

theorem exists_lower_bound (f : Tour → Int) (l : List Tour) :
    ∃ L : Int, ∀ x, x ∈ l → L ≤ f x := by
  induction l with
  | nil => exact ⟨0, fun x hx => by simp at hx⟩
  | cons a l ih =>
    obtain ⟨L, hL⟩ := ih
    refine ⟨min L (f a), fun x hx => ?_⟩
    rcases List.mem_cons.mp hx with h | h
    · subst h; exact min_le_right _ _
    · exact le_trans (min_le_left _ _) (hL x h)

theorem rawSum_lower_bound (fc : FlightCosts) (t : Tour) :
    ∃ L : Int, ∀ b, Rearranged t b → L ≤ rawSum fc b := by
  obtain ⟨L, hL⟩ := exists_lower_bound (rawSum fc) t.permutations
  exact ⟨L, fun b hb => hL b (List.mem_permutations.mpr hb.2.1)⟩

theorem perform2OptLoop_rearranged (fc : FlightCosts) :
    ∀ (fuel : Nat) (b : Tour) (bc : Int) (T : Tour),
      perform2OptLoop fc fuel b bc = some T → Rearranged b T := by
  intro fuel
  induction fuel with
  | zero => intro b bc T h; simp [perform2OptLoop] at h
  | succ fuel ih =>
    intro b bc T h
    have hspec := opt2Day1_spec fc bc b (b.length - 2 - 1) 1 (le_refl 1) (fun h => by omega)
    simp only [perform2OptLoop] at h
    split at h
    · rename_i t c hres
      exact (hspec.1 _ hres).1.trans (ih t c T h)
    · rename_i t hres
      injection h with h; subst h
      rw [(hspec.2 _ hres).1]
      exact Rearranged.refl b

theorem perform2OptWithDLBsLoop_rearranged (fc : FlightCosts) :
    ∀ (fuel : Nat) (b : Tour) (bc : Int) (bits : List Nat) (R : Tour × List Nat),
      perform2OptWithDLBsLoop fc fuel b bc bits = some R → Rearranged b R.1 := by
  intro fuel
  induction fuel with
  | zero => intro b bc bits R h; simp [perform2OptWithDLBsLoop] at h
  | succ fuel ih =>
    intro b bc bits R h
    simp only [perform2OptWithDLBsLoop] at h
    split at h
    · rename_i t c bits1 hres
      have hgood := dlbDay1_restart fc bc b (b.length - 2 - 1) 1 bits (le_refl 1)
        (fun h => by omega) _ hres
      exact hgood.1.trans (ih t c bits1 R h)
    · injection h with h; subst h
      exact Rearranged.refl b

theorem perform2OptLoop_terminates_neg (fc : FlightCosts) (t0 : Tour) (L D0 : Int)
    (hL : ∀ b, Rearranged t0 b → L ≤ rawSum fc b) :
    ∀ (fuel : Nat) (b : Tour) (bc : Int), Rearranged t0 b → bc ≤ 0 →
      bc - rawSum fc b = D0 → bc - (L + D0) < fuel →
      ∃ T, perform2OptLoop fc fuel b bc = some T := by
  intro fuel
  induction fuel with
  | zero =>
    intro b bc hR _ hD hfuel
    have := hL b hR
    simp at hfuel
    omega
  | succ fuel ih =>
    intro b bc hR hle hD hfuel
    have hspec := opt2Day1_spec fc bc b (b.length - 2 - 1) 1 (le_refl 1) (fun h => by omega)
    simp only [perform2OptLoop]
    split
    · rename_i t c hres
      obtain ⟨hRt, hlt, _, hraw⟩ := hspec.1 _ hres
      dsimp only at hRt hlt hraw
      have := hraw hle
      exact ih t c (hR.trans hRt) (by omega) (by omega) (by push_cast at hfuel; omega)
    · exact ⟨_, rfl⟩

theorem perform2OptWithDLBsLoop_terminates_neg (fc : FlightCosts) (t0 : Tour) (L D0 : Int)
    (hL : ∀ b, Rearranged t0 b → L ≤ rawSum fc b) :
    ∀ (fuel : Nat) (b : Tour) (bc : Int) (bits : List Nat), Rearranged t0 b → bc ≤ 0 →
      bc - rawSum fc b = D0 → bc - (L + D0) < fuel →
      ∃ R, perform2OptWithDLBsLoop fc fuel b bc bits = some R := by
  intro fuel
  induction fuel with
  | zero =>
    intro b bc bits hR _ hD hfuel
    have := hL b hR
    simp at hfuel
    omega
  | succ fuel ih =>
    intro b bc bits hR hle hD hfuel
    simp only [perform2OptWithDLBsLoop]
    split
    · rename_i t c bits1 hres
      obtain ⟨hRt, hlt, _, hraw⟩ := dlbDay1_restart fc bc b (b.length - 2 - 1) 1 bits
        (le_refl 1) (fun h => by omega) _ hres
      dsimp only at hRt hlt hraw
      have := hraw hle
      exact ih t c bits1 (hR.trans hRt) (by omega) (by omega) (by push_cast at hfuel; omega)
    · exact ⟨_, rfl⟩

/-- Both engines return a tour once the fuel exceeds a bound that depends only
on the table and the initial tour. -/
theorem localSearch_terminates (fc : FlightCosts) (numCities : Nat) (t : Tour)
    (hlen : 2 ≤ t.length) :
    ∃ fuel0 : Nat, ∀ fuel, fuel0 ≤ fuel →
      (∃ r, perform2Opt fc fuel t = some r) ∧
      (∃ r, perform2OptWithDLBs fc numCities fuel t = some r) := by
  by_cases hf : Feasible fc t
  · refine ⟨(evalTourCost fc t).toNat + 1, fun fuel hfuel => ?_⟩
    have hlt : evalTourCost fc t < fuel := by
      have := Int.self_le_toNat (evalTourCost fc t)
      omega
    obtain ⟨T, hT, _⟩ := perform2OptLoop_spec fc fuel t _ hlen hf rfl hlt
    obtain ⟨T2, bitsF, hT2, _⟩ := perform2OptWithDLBsLoop_spec fc fuel t _
      (List.replicate numCities 0) hlen hf rfl hlt
    exact ⟨⟨T, hT⟩, ⟨T2, by simp [perform2OptWithDLBs, hT2]⟩⟩
  · obtain ⟨L, hL⟩ := rawSum_lower_bound fc t
    have hneg := evalTourCost_of_not_feasible fc t hf
    refine ⟨(-1 - (L + (-1 - rawSum fc t))).toNat + 1, fun fuel hfuel => ?_⟩
    have hlt : -1 - (L + (-1 - rawSum fc t)) < fuel := by
      have := Int.self_le_toNat (-1 - (L + (-1 - rawSum fc t)))
      omega
    obtain ⟨T, hT⟩ := perform2OptLoop_terminates_neg fc t L (-1 - rawSum fc t) hL fuel t (-1)
      (Rearranged.refl t) (by omega) rfl hlt
    obtain ⟨R, hR⟩ := perform2OptWithDLBsLoop_terminates_neg fc t L (-1 - rawSum fc t) hL
      fuel t (-1) (List.replicate numCities 0) (Rearranged.refl t) (by omega) rfl hlt
    refine ⟨⟨T, ?_⟩, ⟨R.1, ?_⟩⟩
    · unfold perform2Opt; rw [hneg]; exact hT
    · unfold perform2OptWithDLBs; rw [hneg, hR]; rfl

/-! ## Claims about the local search -/

/-- C5: for a valid input tour (length `N + 1`, `start` at both ends, positions
`1 .. N-1` a permutation of the other cities), `perform2Opt` and
`perform2OptWithDLBs` return a tour once the fuel is large enough, and every
tour they return has length `N + 1`, still has `start` at positions `0` and `N`,
and its positions `1 .. N-1` are a permutation of those of the input. -/
theorem localSearch_preserves_validity (fc : FlightCosts) (N start numCities : Nat)
    (t : Tour) (hN : 1 ≤ N) (hv : ValidTour N start t) :
    (∃ fuel0 : Nat, ∀ fuel, fuel0 ≤ fuel →
      (∃ r, perform2Opt fc fuel t = some r) ∧
      (∃ r, perform2OptWithDLBs fc numCities fuel t = some r)) ∧
    (∀ fuel r, (perform2Opt fc fuel t = some r ∨
        perform2OptWithDLBs fc numCities fuel t = some r) →
      r.length = N + 1 ∧ at_ r 0 = start ∧ at_ r N = start ∧
      ((r.drop 1).take (N - 1)).Perm ((t.drop 1).take (N - 1))) := by
  have hlen : t.length = N + 1 := hv.1
  refine ⟨localSearch_terminates fc numCities t (by omega), fun fuel r h => ?_⟩
  have hR : Rearranged t r := by
    rcases h with h | h
    · exact perform2OptLoop_rearranged fc fuel t _ r h
    · unfold perform2OptWithDLBs at h
      obtain ⟨R, hR, e⟩ := Option.map_eq_some'.mp h
      subst e
      exact perform2OptWithDLBsLoop_rearranged fc fuel t _ _ R hR
  obtain ⟨h1, h2, h3, h4⟩ := sameCities_of_rearranged t r (by omega) hR
  rw [show t.length - 1 = N by omega] at h3
  rw [show t.length - 2 = N - 1 by omega] at h4
  exact ⟨h1.trans hlen, h2.trans hv.2.1, h3.trans hv.2.2.1, h4⟩

/-- Witness for C5 on the eight-city instance `dlbTable`. -/
theorem localSearch_preserves_validity_witness :
    (1 ≤ 8 ∧ ValidTour 8 0 [0, 1, 2, 3, 4, 5, 6, 7, 0]) ∧
    ((∃ fuel0 : Nat, ∀ fuel, fuel0 ≤ fuel →
      (∃ r, perform2Opt dlbTable fuel [0, 1, 2, 3, 4, 5, 6, 7, 0] = some r) ∧
      (∃ r, perform2OptWithDLBs dlbTable 8 fuel [0, 1, 2, 3, 4, 5, 6, 7, 0] = some r)) ∧
    (∀ fuel r, (perform2Opt dlbTable fuel [0, 1, 2, 3, 4, 5, 6, 7, 0] = some r ∨
        perform2OptWithDLBs dlbTable 8 fuel [0, 1, 2, 3, 4, 5, 6, 7, 0] = some r) →
      r.length = 8 + 1 ∧ at_ r 0 = 0 ∧ at_ r 8 = 0 ∧
      ((r.drop 1).take (8 - 1)).Perm
        (([0, 1, 2, 3, 4, 5, 6, 7, 0].drop 1).take (8 - 1)))) :=
  ⟨⟨by decide, by decide⟩,
    localSearch_preserves_validity dlbTable 8 0 8 [0, 1, 2, 3, 4, 5, 6, 7, 0]
      (by decide) (by decide)⟩

/-- The statement `evalTourCost_spec` on the eight-city instance `dlbTable`. -/
theorem evalTourCost_spec_witness :
    (1 ≤ 8 ∧ [0, 1, 2, 3, 4, 5, 6, 7, 0].length = 8 + 1) ∧
    (((∀ d, d < 8 → 0 < dlbTable d (at_ [0, 1, 2, 3, 4, 5, 6, 7, 0] d)
          (at_ [0, 1, 2, 3, 4, 5, 6, 7, 0] (d + 1))) →
        evalTourCost dlbTable [0, 1, 2, 3, 4, 5, 6, 7, 0]
          = ∑ d in Finset.range 8, dlbTable d (at_ [0, 1, 2, 3, 4, 5, 6, 7, 0] d)
              (at_ [0, 1, 2, 3, 4, 5, 6, 7, 0] (d + 1))) ∧
    ((∃ d, d < 8 ∧ dlbTable d (at_ [0, 1, 2, 3, 4, 5, 6, 7, 0] d)
          (at_ [0, 1, 2, 3, 4, 5, 6, 7, 0] (d + 1)) ≤ 0) →
        evalTourCost dlbTable [0, 1, 2, 3, 4, 5, 6, 7, 0] = -1) ∧
    (evalTourCost dlbTable [0, 1, 2, 3, 4, 5, 6, 7, 0] = -1 ↔
        ∃ d, d < 8 ∧ dlbTable d (at_ [0, 1, 2, 3, 4, 5, 6, 7, 0] d)
          (at_ [0, 1, 2, 3, 4, 5, 6, 7, 0] (d + 1)) ≤ 0) ∧
    (evalTourCost dlbTable [0, 1, 2, 3, 4, 5, 6, 7, 0] ≠ -1 →
        0 < evalTourCost dlbTable [0, 1, 2, 3, 4, 5, 6, 7, 0])) :=
  ⟨⟨by decide, rfl⟩, evalTourCost_spec dlbTable 8 [0, 1, 2, 3, 4, 5, 6, 7, 0] (by decide) rfl⟩

theorem lexLe_cons (a b : Nat) (as bs : List Nat) :
    lexLe (a :: as) (b :: bs) = true ↔ a < b ∨ (a = b ∧ lexLe as bs = true) := by
  simp [lexLe]

theorem lexLe_refl (l : List Nat) : lexLe l l = true := by
  induction l with
  | nil => rfl
  | cons a as ih => rw [lexLe_cons]; exact Or.inr ⟨rfl, ih⟩

theorem lexLe_antisymm : ∀ (l p : List Nat), lexLe l p = true → lexLe p l = true → l = p
  | [], [], _, _ => rfl
  | [], _ :: _, _, h => by simp [lexLe] at h
  | _ :: _, [], h, _ => by simp [lexLe] at h
  | a :: as, b :: bs, h1, h2 => by
    rw [lexLe_cons] at h1 h2
    rcases h1 with h1 | ⟨e1, h1⟩
    · rcases h2 with h2 | ⟨e2, _⟩ <;> omega
    · rcases h2 with h2 | ⟨_, h2⟩
      · omega
      · rw [e1, lexLe_antisymm as bs h1 h2]

theorem lexLe_trans : ∀ (a b c : List Nat), lexLe a b = true → lexLe b c = true →
    lexLe a c = true
  | [], _, _, _, _ => rfl
  | _ :: _, [], _, h, _ => by simp [lexLe] at h
  | _ :: _, _ :: _, [], _, h => by simp [lexLe] at h
  | x :: xs, y :: ys, z :: zs, h1, h2 => by
    rw [lexLe_cons] at h1 h2 ⊢
    rcases h1 with h1 | ⟨e1, h1⟩
    · rcases h2 with h2 | ⟨e2, _⟩
      · left; omega
      · left; omega
    · rcases h2 with h2 | ⟨e2, h2⟩
      · left; omega
      · right; exact ⟨e1.trans e2, lexLe_trans xs ys zs h1 h2⟩

theorem lexLe_of_sorted_asc : ∀ (l p : List Nat), l.Pairwise (· ≤ ·) → p.Perm l →
    lexLe l p = true
  | [], _, _, _ => rfl
  | a :: as, [], _, hp => by simpa using hp.length_eq
  | a :: as, b :: bs, hs, hp => by
    rw [lexLe_cons]
    have hb : b ∈ a :: as := hp.subset (List.mem_cons_self b bs)
    rw [List.pairwise_cons] at hs
    rcases List.mem_cons.mp hb with e | hmem
    · right
      subst e
      exact ⟨rfl, lexLe_of_sorted_asc as bs hs.2 hp.cons_inv⟩
    · have hle := hs.1 b hmem
      by_cases e : a = b
      · right
        subst e
        exact ⟨rfl, lexLe_of_sorted_asc as bs hs.2 hp.cons_inv⟩
      · left; omega

theorem lexLe_of_sorted_desc : ∀ (l p : List Nat), l.Pairwise (· ≥ ·) → p.Perm l →
    lexLe p l = true
  | [], p, _, hp => by rw [hp.eq_nil]; rfl
  | a :: as, [], _, _ => rfl
  | a :: as, b :: bs, hs, hp => by
    rw [lexLe_cons]
    have hb : b ∈ a :: as := hp.subset (List.mem_cons_self b bs)
    rw [List.pairwise_cons] at hs
    rcases List.mem_cons.mp hb with e | hmem
    · right
      subst e
      exact ⟨rfl, lexLe_of_sorted_desc as bs hs.2 hp.cons_inv⟩
    · have hle := hs.1 b hmem
      by_cases e : b = a
      · right
        subst e
        exact ⟨rfl, lexLe_of_sorted_desc as bs hs.2 hp.cons_inv⟩
      · left; omega

theorem swapPivot_none (x : Nat) : ∀ (xs : List Nat), swapPivot x xs = none →
    ∀ z, z ∈ xs → z ≤ x
  | [], _, z, hz => by simp at hz
  | y :: ys, h, z, hz => by
    simp only [swapPivot] at h
    split at h
    · simp at h
    · rename_i hn
      split_ifs at h with hxy
      rcases List.mem_cons.mp hz with e | hmem
      · subst e; omega
      · exact swapPivot_none x ys hn z hmem

theorem swapPivot_some (x : Nat) : ∀ (xs : List Nat) (y : Nat) (xs1 : List Nat),
    swapPivot x xs = some (y, xs1) →
    x < y ∧ y ∈ xs ∧ (y :: xs1).Perm (x :: xs)
  | [], _, _, h => by simp [swapPivot] at h
  | w :: ws, y, xs1, h => by
    simp only [swapPivot] at h
    split at h
    · rename_i z ws1 hs
      obtain ⟨h1, h2, h3⟩ := swapPivot_some x ws z ws1 hs
      simp only [Option.some.injEq, Prod.mk.injEq] at h
      obtain ⟨e1, e2⟩ := h
      subst e1; subst e2
      refine ⟨h1, List.mem_cons_of_mem _ h2, ?_⟩
      exact (List.Perm.swap w z ws1).trans (((List.perm_cons w).mpr h3).trans
        (List.Perm.swap x w ws))
    · split_ifs at h with hxw
      simp only [Option.some.injEq, Prod.mk.injEq] at h
      obtain ⟨e1, e2⟩ := h
      subst e1; subst e2
      exact ⟨hxw, List.mem_cons_self _ _, List.Perm.swap x w ws⟩

theorem swapPivot_sorted (x : Nat) : ∀ (xs : List Nat) (y : Nat) (xs1 : List Nat),
    xs.Pairwise (· ≥ ·) → swapPivot x xs = some (y, xs1) →
    xs1.Pairwise (· ≥ ·) ∧ ∀ z, z ∈ xs → x < z → y ≤ z
  | [], _, _, _, h => by simp [swapPivot] at h
  | w :: ws, y, xs1, hs, h => by
    rw [List.pairwise_cons] at hs
    simp only [swapPivot] at h
    split at h
    · rename_i z ws1 hsw
      obtain ⟨h1, h2, h3⟩ := swapPivot_some x ws z ws1 hsw
      obtain ⟨ih1, ih2⟩ := swapPivot_sorted x ws z ws1 hs.2 hsw
      simp only [Option.some.injEq, Prod.mk.injEq] at h
      obtain ⟨e1, e2⟩ := h
      subst e1; subst e2
      have hwz : z ≤ w := hs.1 z h2
      refine ⟨?_, ?_⟩
      · rw [List.pairwise_cons]
        refine ⟨fun u hu => ?_, ih1⟩
        have hu2 : u ∈ x :: ws := h3.subset (List.mem_cons_of_mem _ hu)
        rcases List.mem_cons.mp hu2 with e | hmem
        · subst e; show u ≤ w; omega
        · exact hs.1 u hmem
      · intro u hu hxu
        rcases List.mem_cons.mp hu with e | hmem
        · subst e; exact hwz
        · exact ih2 u hmem hxu
    · rename_i hn
      split_ifs at h with hxw
      simp only [Option.some.injEq, Prod.mk.injEq] at h
      obtain ⟨e1, e2⟩ := h
      subst e1; subst e2
      have hall := swapPivot_none x ws hn
      refine ⟨?_, ?_⟩
      · rw [List.pairwise_cons]
        exact ⟨fun u hu => hall u hu, hs.2⟩
      · intro u hu hxu
        rcases List.mem_cons.mp hu with e | hmem
        · subst e; exact le_refl _
        · have := hall u hmem; omega

theorem nextPerm_none : ∀ (l : List Nat), nextPerm l = none → l.Pairwise (· ≥ ·)
  | [], _ => List.Pairwise.nil
  | x :: xs, h => by
    simp only [nextPerm] at h
    split at h
    · simp at h
    · rename_i hn
      split at h
      · simp at h
      · rename_i hp
        rw [List.pairwise_cons]
        exact ⟨fun z hz => swapPivot_none x xs hp z hz, nextPerm_none xs hn⟩

theorem nextPerm_perm : ∀ (l l1 : List Nat), nextPerm l = some l1 → l1.Perm l
  | [], _, h => by simp [nextPerm] at h
  | x :: xs, l1, h => by
    simp only [nextPerm] at h
    split at h
    · rename_i ys hs
      simp only [Option.some.injEq] at h
      subst h
      exact (List.perm_cons x).mpr (nextPerm_perm xs ys hs)
    · split at h
      · rename_i y xs1 hp
        simp only [Option.some.injEq] at h
        subst h
        obtain ⟨_, _, h3⟩ := swapPivot_some x xs y xs1 hp
        exact ((List.perm_cons y).mpr (List.reverse_perm xs1)).trans h3
      · simp at h

theorem nextPerm_gt : ∀ (l l1 : List Nat), nextPerm l = some l1 →
    lexLe l l1 = true ∧ l1 ≠ l
  | [], _, h => by simp [nextPerm] at h
  | x :: xs, l1, h => by
    simp only [nextPerm] at h
    split at h
    · rename_i ys hs
      simp only [Option.some.injEq] at h
      subst h
      obtain ⟨h1, h2⟩ := nextPerm_gt xs ys hs
      refine ⟨by rw [lexLe_cons]; exact Or.inr ⟨rfl, h1⟩, ?_⟩
      intro e
      injection e with _ e2
      exact h2 e2
    · split at h
      · rename_i y xs1 hp
        simp only [Option.some.injEq] at h
        subst h
        obtain ⟨h1, _, _⟩ := swapPivot_some x xs y xs1 hp
        refine ⟨by rw [lexLe_cons]; exact Or.inl h1, ?_⟩
        intro e
        injection e with e1 _
        omega
      · simp at h

theorem nextPerm_least : ∀ (l l1 p : List Nat), nextPerm l = some l1 → p.Perm l →
    lexLe l p = true → p ≠ l → lexLe l1 p = true
  | [], _, _, h, _, _, _ => by simp [nextPerm] at h
  | x :: xs, l1, [], _, hp, _, _ => by simpa using hp.length_eq
  | x :: xs, l1, a :: ps, h, hp, hle, hne => by
    rw [lexLe_cons] at hle
    simp only [nextPerm] at h
    split at h
    · rename_i ys hs
      simp only [Option.some.injEq] at h
      subst h
      rw [lexLe_cons]
      rcases hle with hlt | ⟨e, hle⟩
      · exact Or.inl hlt
      · right
        subst e
        refine ⟨rfl, nextPerm_least xs ys ps hs hp.cons_inv hle ?_⟩
        intro e2
        exact hne (by rw [e2])
    · rename_i hn
      split at h
      · rename_i y xs1 hpv
        simp only [Option.some.injEq] at h
        subst h
        obtain ⟨h1, h2, h3⟩ := swapPivot_some x xs y xs1 hpv
        have hdesc := nextPerm_none xs hn
        obtain ⟨hs1, hmin⟩ := swapPivot_sorted x xs y xs1 hdesc hpv
        rw [lexLe_cons]
        rcases hle with hlt | ⟨e, hle⟩
        · have ha : a ∈ x :: xs := hp.subset (List.mem_cons_self a ps)
          have ha2 : a ∈ xs := by
            rcases List.mem_cons.mp ha with e | hmem
            · omega
            · exact hmem
          have hya := hmin a ha2 hlt
          by_cases e : y = a
          · right
            subst e
            refine ⟨rfl, ?_⟩
            have hps : ps.Perm xs1 := (hp.trans h3.symm).cons_inv
            have hasc : xs1.reverse.Pairwise (· ≤ ·) := by
              rw [List.pairwise_reverse]
              exact hs1
            exact lexLe_of_sorted_asc xs1.reverse ps hasc
              (hps.trans (List.reverse_perm xs1).symm)
          · left; omega
        · subst e
          have hps : ps.Perm xs := hp.cons_inv
          have := lexLe_antisymm xs ps hle (lexLe_of_sorted_desc xs ps hdesc hps)
          exact absurd (by rw [this]) hne
      · simp at h

/-! ## The loop of `solveBruteForce` -/

theorem nextTour_closeTour (s : Nat) (m : List Nat) :
    nextTour (closeTour s m) = (nextPerm m).map (closeTour s) := by
  unfold nextTour closeTour
  simp only [List.dropLast_concat, List.length_append, List.length_singleton,
    Nat.add_sub_cancel, List.drop_left]

theorem countP_lt_of {α : Type} (p q : α → Bool) :
    ∀ (l : List α), (∀ x, x ∈ l → p x = true → q x = true) →
      ∀ x, x ∈ l → q x = true → p x = false → l.countP p < l.countP q
  | [], _, x, hx, _, _ => by simp at hx
  | a :: l, hpq, x, hx, hq, hp => by
    rw [List.countP_cons, List.countP_cons]
    have hmono : l.countP p ≤ l.countP q :=
      List.countP_mono_left (fun y hy h => hpq y (List.mem_cons_of_mem _ hy) h)
    rcases List.mem_cons.mp hx with e | hmem
    · subst e
      rw [hq, hp]
      simp
      omega
    · have ih := countP_lt_of p q l (fun y hy h => hpq y (List.mem_cons_of_mem _ hy) h)
        x hmem hq hp
      by_cases hpa : p a = true
      · rw [hpa, hpq a (List.mem_cons_self _ _) hpa]
        simp
        omega
      · have : p a = false := by simpa using hpa
        rw [this]
        cases hqa : q a <;> simp <;> omega

theorem bruteLoop_spec (fc : FlightCosts) (s : Nat) (m0 : List Nat) :
    ∀ (fuel : Nat) (m : List Nat) (g : Tour × Int), m.Perm m0 →
      m0.permutations.countP (fun p => lexLe m p && decide (p ≠ m)) < fuel →
      BestOf fc s m0 (fun p => lexLe m p = false) g →
      ∃ g1, bruteLoop fc fuel (closeTour s m) g = some g1 ∧
        BestOf fc s m0 (fun _ => True) g1 := by
  intro fuel
  induction fuel with
  | zero => intro m g _ h _; omega
  | succ fuel ih =>
    intro m g hm hfuel hbest
    obtain ⟨gt, gc⟩ := g
    simp only [bruteLoop, nextTour_closeTour]
    -- the state after the tour of `m` was priced
    have hstep : BestOf fc s m0 (fun p => lexLe m p = false ∨ p = m)
        (if evalTourCost fc (closeTour s m) > 0 ∧ evalTourCost fc (closeTour s m) < gc
          then (closeTour s m, evalTourCost fc (closeTour s m)) else (gt, gc)) := by
      obtain ⟨hrec, hmin⟩ := hbest
      dsimp only at hrec hmin
      have hgc : gc ≤ COST_MAX := by
        rcases hrec with ⟨_, e⟩ | ⟨q, _, _, _, _, hlt⟩
        · omega
        · omega
      split_ifs with hacc
      · refine ⟨Or.inr ⟨m, hm, rfl, rfl, hacc.1, by dsimp only; omega⟩, ?_⟩
        intro p hp hS hpos
        dsimp only
        rcases hS with hS | hS
        · have := hmin p hp hS hpos; omega
        · subst hS; exact le_refl _
      · refine ⟨hrec, ?_⟩
        intro p hp hS hpos
        dsimp only
        rcases hS with hS | hS
        · exact hmin p hp hS hpos
        · subst hS
          by_contra hc
          exact hacc ⟨hpos, by omega⟩
    cases hnext : nextPerm m with
    | none =>
      simp only [Option.map_none']
      refine ⟨_, rfl, hstep.1, ?_⟩
      intro p hp _ hpos
      apply hstep.2 p hp _ hpos
      have hdesc := nextPerm_none m hnext
      have hle := lexLe_of_sorted_desc m p hdesc (hp.trans hm.symm)
      by_cases hc : lexLe m p = true
      · exact Or.inr (lexLe_antisymm p m hle hc)
      · left; simpa using hc
    | some m1 =>
      simp only [Option.map_some']
      have hm1 : m1.Perm m0 := (nextPerm_perm m m1 hnext).trans hm
      obtain ⟨hgt, hne⟩ := nextPerm_gt m m1 hnext
      apply ih m1 _ hm1
      · have hlt : m0.permutations.countP (fun p => lexLe m1 p && decide (p ≠ m1))
            < m0.permutations.countP (fun p => lexLe m p && decide (p ≠ m)) := by
          apply countP_lt_of _ _ _ _ m1 (List.mem_permutations.mpr hm1)
          · simp [hgt, hne]
          · simp
          · intro x _ hx
            simp only [Bool.and_eq_true, decide_eq_true_eq] at hx ⊢
            refine ⟨lexLe_trans m m1 x hgt hx.1, ?_⟩
            intro e
            subst e
            exact hne (lexLe_antisymm m1 x hx.1 hgt)
        omega
      · refine ⟨hstep.1, ?_⟩
        intro p hp hS hpos
        apply hstep.2 p hp _ hpos
        by_cases hc : lexLe m p = true
        · right
          by_contra hpm
          have := nextPerm_least m m1 p hnext (hp.trans hm.symm) hc hpm
          rw [this] at hS
          exact absurd hS (by simp)
        · left; simpa using hc

theorem length_nonStart (N start : Nat) (hs : start < N) :
    ((List.range N).filter (fun i => i ≠ start)).length = N - 1 := by
  have h := (List.nodup_range N).erase_eq_filter start
  have e : (List.range N).filter (fun i => i ≠ start)
      = (List.range N).filter (fun x => x != start) := by
    apply List.filter_congr
    intro x _
    by_cases hx : x = start <;> simp [hx]
  rw [e, ← h, List.length_erase_of_mem (List.mem_range.mpr hs), List.length_range]

theorem validTour_closeTour (N start : Nat) (q : List Nat) (hN : 1 ≤ N) (hs : start < N)
    (hq : q.Perm ((List.range N).filter (fun i => i ≠ start))) :
    ValidTour N start (closeTour start q) := by
  have hlen : q.length = N - 1 := by rw [hq.length_eq, length_nonStart N start hs]
  unfold ValidTour closeTour
  refine ⟨by simp; omega, by simp [at_], ?_, ?_⟩
  · simp only [at_eq]
    rw [List.getElem?_cons, if_neg (by omega), List.getElem?_append_right (by omega)]
    rw [show N - 1 - q.length = 0 by omega]
    rfl
  · simp only [List.drop_succ_cons, List.drop_zero]
    rw [List.take_append_of_le_length (by omega), List.take_of_length_le (by omega)]
    exact hq

theorem closeTour_of_validTour (N start : Nat) (t : Tour) (hN : 1 ≤ N)
    (hv : ValidTour N start t) :
    t = closeTour start ((t.drop 1).take (N - 1)) := by
  obtain ⟨hl, h0, hE, _⟩ := hv
  have := tour_decomp t (by omega)
  rw [h0, show t.length - 1 = N by omega, hE, show t.length - 2 = N - 1 by omega] at this
  exact this

/-- With the sums taken in `Int` as well: with two cities and two flights of
price 20 000 000 the closed tour `[0, 1, 0]` is valid and feasible (cost 40 000 000), yet
`solveBruteForce` ends with an empty `globalBestTour` and prints nothing, because
a tour is recorded only when its cost is below `COST_MAX = 32 767 500`. -/
theorem solveBruteForce_misses_dear_tour :
    2 ≤ 10 ∧ ValidTour 2 0 [0, 1, 0] ∧ Feasible dearTable [0, 1, 0] ∧
    evalTourCost dearTable [0, 1, 0] = 40000000 ∧
    solveBruteForce dearTable 2 0 (Nat.factorial (2 - 1)) = some ([], COST_MAX) ∧
    emitted [] = none := by
  refine ⟨by decide, by decide, by decide, by decide, by decide, by decide⟩

/-- With the sums taken in `Int`: for `N ≥ 1` cities and every table,
`solveBruteForce` ends after
pricing at most `(N-1)!` tours. If some valid tour is feasible with a cost below
`COST_MAX`, then `globalBestTour` is a valid feasible tour, `globalBestCost` is
its evaluated cost, no valid feasible tour is cheaper, and the tour is printed.
If no valid tour is feasible with a cost below `COST_MAX`, `globalBestTour` stays
empty and nothing is printed. -/
theorem solveBruteForce_optimal (fc : FlightCosts) (N start fuel : Nat)
    (hN : 1 ≤ N) (hs : start < N) (hfuel : Nat.factorial (N - 1) ≤ fuel) :
    ∃ gbt gbc, solveBruteForce fc N start fuel = some (gbt, gbc) ∧
      ((∃ t, ValidTour N start t ∧ 0 < evalTourCost fc t ∧ evalTourCost fc t < COST_MAX) →
        ValidTour N start gbt ∧ Feasible fc gbt ∧ gbc = evalTourCost fc gbt ∧
        (∀ t, ValidTour N start t → Feasible fc t → gbc ≤ evalTourCost fc t) ∧
        emitted gbt = some gbt) ∧
      ((¬ ∃ t, ValidTour N start t ∧ 0 < evalTourCost fc t ∧ evalTourCost fc t < COST_MAX) →
        gbt = [] ∧ emitted gbt = none) := by
  have hsorted : ((List.range N).filter (fun i => i ≠ start)).Pairwise (· ≤ ·) :=
    ((List.pairwise_lt_range N).imp (fun h => Nat.le_of_lt h)).filter _
  have hmem : (List.range N).filter (fun i => i ≠ start)
      ∈ ((List.range N).filter (fun i => i ≠ start)).permutations :=
    List.mem_permutations.mpr (List.Perm.refl _)
  have hcount : ((List.range N).filter (fun i => i ≠ start)).permutations.countP
      (fun p => lexLe ((List.range N).filter (fun i => i ≠ start)) p
        && decide (p ≠ (List.range N).filter (fun i => i ≠ start))) < fuel := by
    have h1 := countP_lt_of
      (fun p => lexLe ((List.range N).filter (fun i => i ≠ start)) p
        && decide (p ≠ (List.range N).filter (fun i => i ≠ start)))
      (fun _ => true) _ (fun _ _ _ => rfl) _ hmem rfl (by simp)
    rw [List.countP_eq_length.mpr (fun _ _ => rfl), List.length_permutations,
      length_nonStart N start hs] at h1
    omega
  have hinit : BestOf fc start ((List.range N).filter (fun i => i ≠ start))
      (fun p => lexLe ((List.range N).filter (fun i => i ≠ start)) p = false)
      ([], COST_MAX) := by
    refine ⟨Or.inl ⟨rfl, rfl⟩, fun p hp hS _ => ?_⟩
    dsimp only at hS
    rw [lexLe_of_sorted_asc _ p hsorted hp] at hS
    exact absurd hS (by simp)
  obtain ⟨⟨gbt, gbc⟩, hrun, hrec, hmin⟩ :=
    bruteLoop_spec fc start _ fuel _ ([], COST_MAX) (List.Perm.refl _) hcount hinit
  dsimp only at hrec hmin
  refine ⟨gbt, gbc, hrun, ?_, ?_⟩
  · rintro ⟨t, hv, hpos, hlt⟩
    have ht := closeTour_of_validTour N start t hN hv
    have hbound := hmin _ hv.2.2.2 trivial (by rw [← ht]; exact hpos)
    rw [← ht] at hbound
    rcases hrec with ⟨_, e⟩ | ⟨q, hq, e1, e2, hp, _⟩
    · omega
    · have hvq := validTour_closeTour N start q hN hs hq
      rw [← e1] at hvq
      have hfq : Feasible fc gbt :=
        (evalTourCost_pos_iff fc gbt (by rw [hvq.1]; omega)).mp (by rw [← e2]; exact hp)
      refine ⟨hvq, hfq, e2, ?_, ?_⟩
      · intro t1 hv1 hf1
        have ht1 := closeTour_of_validTour N start t1 hN hv1
        have hpos1 := (evalTourCost_pos_iff fc t1 (by rw [hv1.1]; omega)).mpr hf1
        have := hmin _ hv1.2.2.2 trivial (by rw [← ht1]; exact hpos1)
        rw [← ht1] at this
        exact this
      · rw [e1]; rfl
  · intro hnone
    rcases hrec with ⟨e, _⟩ | ⟨q, hq, e1, e2, hp, hlt⟩
    · subst e; exact ⟨rfl, rfl⟩
    · exfalso
      apply hnone
      have hvq := validTour_closeTour N start q hN hs hq
      rw [← e1] at hvq
      exact ⟨gbt, hvq, by rw [← e2]; exact hp, by rw [← e2]; exact hlt⟩

/-- The statement `solveBruteForce_optimal` on scenario A of the specification. -/
theorem solveBruteForce_optimal_witness :
    (1 ≤ 3 ∧ 0 < 3 ∧ Nat.factorial (3 - 1) ≤ 2) ∧
    ∃ gbt gbc, solveBruteForce scenarioA 3 0 2 = some (gbt, gbc) ∧
      ((∃ t, ValidTour 3 0 t ∧ 0 < evalTourCost scenarioA t ∧
          evalTourCost scenarioA t < COST_MAX) →
        ValidTour 3 0 gbt ∧ Feasible scenarioA gbt ∧ gbc = evalTourCost scenarioA gbt ∧
        (∀ t, ValidTour 3 0 t → Feasible scenarioA t → gbc ≤ evalTourCost scenarioA t) ∧
        emitted gbt = some gbt) ∧
      ((¬ ∃ t, ValidTour 3 0 t ∧ 0 < evalTourCost scenarioA t ∧
          evalTourCost scenarioA t < COST_MAX) →
        gbt = [] ∧ emitted gbt = none) :=
  ⟨⟨by decide, by decide, by decide⟩,
    solveBruteForce_optimal scenarioA 3 0 2 (by decide) (by decide) (by decide)⟩

/-! ## `makeNNTourWithLookAhead` returns valid feasible tours -/

theorem getD_set_zero (l : List Nat) (i : Nat) : (l.set i 0).getD i 0 = 0 := by
  by_cases h : i < l.length
  · simp [List.getD_eq_getElem?_getD, List.getElem?_set, h]
  · have hn : (l.set i 0)[i]? = none := List.getElem?_eq_none (by simp; omega)
    simp [List.getD_eq_getElem?_getD, hn]

theorem mem_outboundIndex (fc : FlightCosts) (N : Nat) (out : Nat → Nat → List CityCost)
    (hout : IsOutboundIndex fc N out) (city day : Nat) (hc : city < N) (hd : day < N)
    (f : CityCost) (hf : f ∈ out city day) :
    f.city < N ∧ f.cost = fc day city f.city ∧ 0 < fc day city f.city := by
  have hmem := (hout city day hc hd).1.subset hf
  unfold outboundCandidates at hmem
  rw [List.mem_filterMap] at hmem
  obtain ⟨toCity, hr, hsome⟩ := hmem
  split_ifs at hsome with hpos
  simp only [Option.some.injEq] at hsome
  subst hsome
  exact ⟨List.mem_range.mp hr, rfl, hpos⟩

theorem lookAheadScan_some (fc : FlightCosts) (N start day : Nat)
    (out : Nat → Nat → List CityCost) (ctv : List Nat) :
    ∀ (flights : List CityCost) (s : Option Nat × Int) (c : Nat),
      (lookAheadScan fc N start day out ctv flights s).1 = some c →
      s.1 = some c ∨ ∃ f, f ∈ flights ∧ f.city = c ∧ ctv.getD f.city 0 ≠ 0
  | [], s, c, h => Or.inl h
  | f :: rest, (b, bt), c, h => by
    simp only [lookAheadScan] at h
    split_ifs at h with hv hlt
    · rcases lookAheadScan_some fc N start day out ctv rest _ c h with h1 | ⟨g, hg, h2⟩
      · right
        simp only [Option.some.injEq] at h1
        exact ⟨f, List.mem_cons_self _ _, h1, hv⟩
      · exact Or.inr ⟨g, List.mem_cons_of_mem _ hg, h2⟩
    · rcases lookAheadScan_some fc N start day out ctv rest _ c h with h1 | ⟨g, hg, h2⟩
      · exact Or.inl h1
      · exact Or.inr ⟨g, List.mem_cons_of_mem _ hg, h2⟩
    · rcases lookAheadScan_some fc N start day out ctv rest _ c h with h1 | ⟨g, hg, h2⟩
      · exact Or.inl h1
      · exact Or.inr ⟨g, List.mem_cons_of_mem _ hg, h2⟩

theorem at_append_left (tour : Tour) (c i : Nat) (h : i < tour.length) :
    at_ (tour ++ [c]) i = at_ tour i := by
  simp only [at_eq, List.getElem?_append_left h]

theorem at_append_last (tour : Tour) (c : Nat) : at_ (tour ++ [c]) tour.length = c := by
  simp [at_eq]

theorem at_mem (tour : Tour) (i : Nat) (h : i < tour.length) : at_ tour i ∈ tour := by
  simp only [at_eq, List.getElem?_eq_getElem h, Option.getD_some]
  exact List.getElem_mem h

theorem feasible_append (fc : FlightCosts) (tour : Tour) (c : Nat) (hne : 1 ≤ tour.length)
    (hf : Feasible fc tour)
    (hleg : 0 < fc (tour.length - 1) (at_ tour (tour.length - 1)) c) :
    Feasible fc (tour ++ [c]) := by
  intro d hd
  simp only [List.length_append, List.length_singleton, Nat.add_sub_cancel] at hd
  unfold leg
  by_cases h : d < tour.length - 1
  · rw [at_append_left tour c d (by omega), at_append_left tour c (d + 1) (by omega)]
    exact hf d h
  · have e : d = tour.length - 1 := by omega
    rw [at_append_left tour c d (by omega), e, show tour.length - 1 + 1 = tour.length by omega,
      at_append_last]
    exact hleg

theorem validTour_of_complete (N start : Nat) (r : Tour) (hN : 1 ≤ N) (hs : start < N)
    (hlen : r.length = N + 1) (h0 : at_ r 0 = start) (hE : at_ r N = start)
    (hnd : r.dropLast.Nodup) (hlt : ∀ c, c ∈ r.dropLast → c < N) :
    ValidTour N start r := by
  refine ⟨hlen, h0, hE, ?_⟩
  have hdec := dropLast_decomp r (by omega)
  rw [h0, show r.length - 2 = N - 1 by omega] at hdec
  rw [hdec] at hnd hlt
  rw [List.nodup_cons] at hnd
  have hsub : (r.drop 1).take (N - 1) ⊆ (List.range N).filter (fun c => c ≠ start) := by
    intro c hc
    rw [List.mem_filter]
    refine ⟨List.mem_range.mpr (hlt c (List.mem_cons_of_mem _ hc)), ?_⟩
    simp only [ne_eq, decide_not, Bool.not_eq_true', decide_eq_false_iff_not]
    intro e
    subst e
    exact hnd.1 hc
  apply (hnd.2.subperm hsub).perm_of_length_le
  rw [length_nonStart N start hs]
  simp only [List.length_take, List.length_drop]
  omega

theorem lookAheadLoop_spec (fc : FlightCosts) (N start : Nat)
    (out : Nat → Nat → List CityCost) (hN : 1 ≤ N) (hs : start < N)
    (hout : IsOutboundIndex fc N out) :
    ∀ (k day : Nat) (tour ctv : List Nat) (curr : Nat), 1 ≤ k → day + k = N →
      tour.length = day + 1 → at_ tour 0 = start → at_ tour day = curr →
      Feasible fc tour → tour.Nodup → (∀ c, c ∈ tour → c < N) →
      (∀ c, ctv.getD c 0 ≠ 0 → c ∉ tour) →
      lookAheadLoop fc N start out k day tour ctv curr = [] ∨
      (ValidTour N start (lookAheadLoop fc N start out k day tour ctv curr) ∧
        Feasible fc (lookAheadLoop fc N start out k day tour ctv curr)) := by
  intro k
  induction k with
  | zero => intro day tour ctv curr hk; omega
  | succ k ih =>
    intro day tour ctv curr _ hday hlen h0 hcur hf hnd hlt hctv
    have hcurN : curr < N := by
      rw [← hcur]; exact hlt _ (at_mem tour day (by omega))
    simp only [lookAheadLoop]
    by_cases hlast : day = N - 1
    · rw [if_pos hlast]
      have hk0 : k = 0 := by omega
      subst hk0
      split_ifs with hpos
      · right
        simp only [lookAheadLoop]
        have hleg : 0 < fc (tour.length - 1) (at_ tour (tour.length - 1)) start := by
          rw [hlen, Nat.add_sub_cancel, hcur]; exact hpos
        refine ⟨?_, feasible_append fc tour start (by omega) hf hleg⟩
        apply validTour_of_complete N start _ hN hs
        · simp [hlen]; omega
        · rw [at_append_left tour start 0 (by omega)]; exact h0
        · have : N = tour.length := by omega
          rw [this]; exact at_append_last tour start
        · rw [List.dropLast_concat]; exact hnd
        · rw [List.dropLast_concat]; exact hlt
      · left; rfl
    · rw [if_neg hlast]
      split
      · rename_i best bt hscan
        have hsome : (lookAheadScan fc N start day out ctv (out curr day) (none, COST_MAX)).1
            = some best := by rw [hscan]
        rcases lookAheadScan_some fc N start day out ctv _ _ best hsome with h1 | ⟨f, hfm, hfc, hv⟩
        · simp at h1
        · obtain ⟨hcN, _, hpos⟩ := mem_outboundIndex fc N out hout curr day hcurN (by omega) f hfm
          rw [hfc] at hcN hpos hv
          have hnot : best ∉ tour := hctv best hv
          apply ih (day + 1) (tour ++ [best]) (ctv.set best 0) best (by omega) (by omega)
          · simp [hlen]
          · rw [at_append_left tour best 0 (by omega)]; exact h0
          · have : day + 1 = tour.length := by omega
            rw [this]; exact at_append_last tour best
          · apply feasible_append fc tour best (by omega) hf
            rw [hlen, Nat.add_sub_cancel, hcur]; exact hpos
          · rw [List.nodup_append]
            refine ⟨hnd, List.nodup_singleton _, ?_⟩
            intro a ha hb
            rw [List.mem_singleton] at hb
            subst hb
            exact hnot ha
          · intro c hc
            rcases List.mem_append.mp hc with h | h
            · exact hlt c h
            · rw [List.mem_singleton] at h; subst h; exact hcN
          · intro c hc hmem
            by_cases e : c = best
            · subst e
              exact hc (getD_set_zero ctv c)
            · rw [getD_set_ne ctv best c 0 (fun h => e h.symm)] at hc
              rcases List.mem_append.mp hmem with h | h
              · exact hctv c hc h
              · rw [List.mem_singleton] at h; exact e h
      · left; rfl

/-- C8: for every table, every start city below `N ≥ 1` and every outbound index
of the table, `makeNNTourWithLookAhead` returns either the empty tour or a tour
of length `N + 1` with `start` at both ends whose positions `1 .. N-1` hold every
other city exactly once and whose every leg is priced. -/
theorem makeNNTourWithLookAhead_valid (fc : FlightCosts) (N start : Nat)
    (out : Nat → Nat → List CityCost) (hN : 1 ≤ N) (hs : start < N)
    (hout : IsOutboundIndex fc N out) :
    makeNNTourWithLookAhead start N fc out = [] ∨
    ((makeNNTourWithLookAhead start N fc out).length = N + 1 ∧
      at_ (makeNNTourWithLookAhead start N fc out) 0 = start ∧
      at_ (makeNNTourWithLookAhead start N fc out) N = start ∧
      (((makeNNTourWithLookAhead start N fc out).drop 1).take (N - 1)).Perm
        ((List.range N).filter (fun c => c ≠ start)) ∧
      ∀ d, d < N → 0 < fc d (at_ (makeNNTourWithLookAhead start N fc out) d)
        (at_ (makeNNTourWithLookAhead start N fc out) (d + 1))) := by
  unfold makeNNTourWithLookAhead
  rcases lookAheadLoop_spec fc N start out hN hs hout N 0 [start]
      ((List.replicate N 1).set start 0) start hN (by omega) rfl rfl rfl
      (by intro d hd; simp at hd) (List.nodup_singleton _)
      (by intro c hc; rw [List.mem_singleton] at hc; omega)
      (by
        intro c hc hmem
        rw [List.mem_singleton] at hmem
        subst hmem
        exact hc (getD_set_zero _ _)) with h | ⟨hv, hf⟩
  · exact Or.inl h
  · right
    obtain ⟨h1, h2, h3, h4⟩ := hv
    refine ⟨h1, h2, h3, h4, fun d hd => ?_⟩
    exact hf d (by rw [h1]; omega)

/-! ## The double bridge rearranges a tour -/

theorem map_range'_eq (t : Tour) (a n : Nat) (h : a + n ≤ t.length) :
    (List.range' a n).map (at_ t) = (t.drop a).take n := by
  apply tour_ext
  · simp; omega
  · intro p hp
    simp only [List.length_map, List.length_range'] at hp
    simp only [at_eq, List.getElem?_map, List.getElem?_range' _ _ hp, Option.map_some',
      Option.getD_some, Nat.one_mul]
    rw [List.getElem?_take_of_lt hp, List.getElem?_drop]

theorem take_drop_append (t : Tour) (a b : Nat) (h : a ≤ b) :
    (t.drop a).take (b - a) ++ t.drop b = t.drop a := by
  have e : t.drop b = (t.drop a).drop (b - a) := by
    rw [List.drop_drop]; congr 1; omega
  rw [e, List.take_append_drop]

theorem doubleBridge_eq (t : Tour) (d1 d2 d3 d4 : Nat) (h12 : d1 ≤ d2) (h23 : d2 ≤ d3)
    (h34 : d3 ≤ d4) (h4 : d4 ≤ t.length) :
    doubleBridge t d1 d2 d3 d4
      = t.take d1 ++ (t.drop d3).take (d4 - d3) ++ (t.drop d2).take (d3 - d2)
        ++ (t.drop d1).take (d2 - d1) ++ t.drop d4 := by
  unfold doubleBridge
  rw [map_range'_eq t 0 d1 (by omega), map_range'_eq t d3 _ (by omega),
    map_range'_eq t d2 _ (by omega), map_range'_eq t d1 _ (by omega),
    map_range'_eq t d4 _ (by omega)]
  simp

theorem rearranged_doubleBridge (t : Tour) (d1 d2 d3 d4 : Nat) (h1 : 1 ≤ d1) (h12 : d1 ≤ d2)
    (h23 : d2 ≤ d3) (h34 : d3 ≤ d4) (h4 : d4 + 1 ≤ t.length) :
    Rearranged t (doubleBridge t d1 d2 d3 d4) := by
  rw [doubleBridge_eq t d1 d2 d3 d4 h12 h23 h34 (by omega)]
  have hsplit : t = t.take d1 ++ ((t.drop d1).take (d2 - d1) ++ ((t.drop d2).take (d3 - d2)
      ++ ((t.drop d3).take (d4 - d3) ++ t.drop d4))) := by
    rw [take_drop_append t d3 d4 h34, take_drop_append t d2 d3 h23,
      take_drop_append t d1 d2 h12, List.take_append_drop]
  have hlen : (t.take d1 ++ (t.drop d3).take (d4 - d3) ++ (t.drop d2).take (d3 - d2)
      ++ (t.drop d1).take (d2 - d1) ++ t.drop d4).length = t.length := by
    simp only [List.length_append, List.length_take, List.length_drop]
    omega
  refine ⟨hlen, ?_, ?_, ?_⟩
  · conv_rhs => rw [hsplit]
    rw [List.perm_iff_count]
    intro a
    simp only [List.count_append]
    omega
  · simp only [at_eq, List.append_assoc]
    rw [List.getElem?_append_left (by simp; omega), List.getElem?_take_of_lt (by omega)]
  · simp only [at_eq]
    rw [List.getElem?_append_right (by
      simp only [List.length_append, List.length_take, List.length_drop]; omega)]
    rw [List.getElem?_drop]
    congr 2
    simp only [List.length_append, List.length_take, List.length_drop]
    omega

/-! ## The main loop keeps the global best -/

theorem kickOutcome_valid (fc : FlightCosts) (N start : Nat) (t k : Tour) (hN : 1 ≤ N)
    (hv : ValidTour N start t) (hk : KickOutcome fc t k) (hne : k ≠ []) :
    ValidTour N start k ∧ Feasible fc k := by
  rcases hk with e | ⟨d1, d2, d3, d4, h1, h12, h23, h34, h4, e, hpos⟩
  · exact absurd e hne
  · have hlen : t.length = N + 1 := hv.1
    have hR := rearranged_doubleBridge t d1 d2 d3 d4 h1 (by omega) (by omega) (by omega)
      (by omega)
    rw [← e] at hR
    have hvk := validTour_of_rearranged N start t k hN hv hR
    exact ⟨hvk, (evalTourCost_pos_iff fc k (by rw [hvk.1]; omega)).mp hpos⟩

theorem ilsRecord_inv (fc : FlightCosts) (N start : Nat) (s : ILSState) (tour : Tour)
    (cost : Int) (hinv : ILSInv fc N start s) (hv : ValidTour N start tour)
    (hf : Feasible fc tour) (hc : cost = evalTourCost fc tour) :
    (ilsRecord s tour cost).globalBestCost ≤ s.globalBestCost ∧
    ILSInv fc N start (ilsRecord s tour cost) := by
  obtain ⟨_, _, _, hgv, hgf, hgc, _⟩ := hinv
  unfold ilsRecord
  split_ifs with hlt
  · exact ⟨by dsimp only; omega, hv, hf, hc, hv, hf, hc, le_refl _⟩
  · exact ⟨le_refl _, hv, hf, hc, hgv, hgf, hgc, by dsimp only; omega⟩

theorem ilsRestart_inv (fc : FlightCosts) (N start : Nat) (s : ILSState) (stale : Bool)
    (restartTour : Tour) (hN : 1 ≤ N) (hinv : ILSInv fc N start s)
    (hr : KickOutcome fc s.globalBestTour restartTour) :
    ValidTour N start (ilsRestart fc stale restartTour s).1 ∧
    Feasible fc (ilsRestart fc stale restartTour s).1 ∧
    (ilsRestart fc stale restartTour s).2
      = evalTourCost fc (ilsRestart fc stale restartTour s).1 := by
  obtain ⟨hv, hf, hc, hgv, _, _, _⟩ := hinv
  unfold ilsRestart
  split_ifs with h
  · obtain ⟨hvr, hfr⟩ := kickOutcome_valid fc N start _ restartTour hN hgv hr h.2
    exact ⟨hvr, hfr, rfl⟩
  · exact ⟨hv, hf, hc⟩

theorem sortedByCost_insertionSort (l : List CityCost) :
    SortedByCost (l.insertionSort (fun a b => a.cost ≤ b.cost)) := by
  haveI : IsTotal CityCost (fun a b => a.cost ≤ b.cost) := ⟨fun a b => le_total a.cost b.cost⟩
  haveI : IsTrans CityCost (fun a b => a.cost ≤ b.cost) :=
    ⟨fun a b c h1 h2 => le_trans h1 h2⟩
  have h := List.sorted_insertionSort (fun a b : CityCost => a.cost ≤ b.cost) l
  unfold SortedByCost
  exact List.Pairwise.imp (fun {a b} hab => not_lt.mpr hab) h

theorem sortOutboundFlights_isIndex (fc : FlightCosts) (N : Nat) :
    IsOutboundIndex fc N (sortOutboundFlights fc N) := by
  intro city day hc hd
  unfold sortOutboundFlights
  rw [if_pos ⟨hc, hd⟩]
  exact ⟨List.perm_insertionSort _ _, sortedByCost_insertionSort _⟩

theorem sortInboundFlights_isIndex (fc : FlightCosts) (N : Nat) :
    IsInboundIndex fc N (sortInboundFlights fc N) := by
  intro city day hc hd
  unfold sortInboundFlights
  rw [if_pos ⟨hc, hd⟩]
  exact ⟨List.perm_insertionSort _ _, sortedByCost_insertionSort _⟩

/-- Witness for C8 on scenario A of the specification. -/
theorem makeNNTourWithLookAhead_valid_witness :
    (1 ≤ 3 ∧ 0 < 3 ∧ IsOutboundIndex scenarioA 3 (sortOutboundFlights scenarioA 3)) ∧
    (makeNNTourWithLookAhead 0 3 scenarioA (sortOutboundFlights scenarioA 3) = [] ∨
    ((makeNNTourWithLookAhead 0 3 scenarioA (sortOutboundFlights scenarioA 3)).length = 3 + 1 ∧
      at_ (makeNNTourWithLookAhead 0 3 scenarioA (sortOutboundFlights scenarioA 3)) 0 = 0 ∧
      at_ (makeNNTourWithLookAhead 0 3 scenarioA (sortOutboundFlights scenarioA 3)) 3 = 0 ∧
      (((makeNNTourWithLookAhead 0 3 scenarioA (sortOutboundFlights scenarioA 3)).drop 1).take
        (3 - 1)).Perm ((List.range 3).filter (fun c => c ≠ 0)) ∧
      ∀ d, d < 3 → 0 < scenarioA d
        (at_ (makeNNTourWithLookAhead 0 3 scenarioA (sortOutboundFlights scenarioA 3)) d)
        (at_ (makeNNTourWithLookAhead 0 3 scenarioA (sortOutboundFlights scenarioA 3))
          (d + 1)))) :=
  ⟨⟨by decide, by decide, sortOutboundFlights_isIndex scenarioA 3⟩,
    makeNNTourWithLookAhead_valid scenarioA 3 0 (sortOutboundFlights scenarioA 3)
      (by decide) (by decide) (sortOutboundFlights_isIndex scenarioA 3)⟩

/-- The two legs pinned to the start city are tested with `< 0`, every other
leg comes from an index of positive prices. On a table that holds the entry
`0`, which is neither a price nor the value `-1` of an absent flight, the two
tests differ from `> 0`: with two cities, anchor city 1 on day 1 and the entry
`0` for both flights, `makeDoubleEndedNNTour` returns `[0, 1, 0]`, which
`evalTourCost` rejects. -/
theorem makeDoubleEndedNNTour_zero_entry :
    IsOutboundIndex zeroTable 2 (sortOutboundFlights zeroTable 2) ∧
    IsInboundIndex zeroTable 2 (sortInboundFlights zeroTable 2) ∧
    makeDoubleEndedNNTour 1 1 0 2 zeroTable (sortOutboundFlights zeroTable 2)
      (sortInboundFlights zeroTable 2) 2 = .returned [0, 1, 0] ∧
    zeroTable 0 0 1 = 0 ∧ zeroTable 1 1 0 = 0 ∧
    ¬ Feasible zeroTable [0, 1, 0] ∧ evalTourCost zeroTable [0, 1, 0] = -1 :=
  ⟨sortOutboundFlights_isIndex zeroTable 2, sortInboundFlights_isIndex zeroTable 2,
    by decide, by decide, by decide, by decide, by decide⟩

/-- C10 at a failing input: three cities, start city 0 without a flight on day
0. Whatever `rand()` gives, `makeRandomTour` stays in city 0 on day 0, flies to
city 1 on day 1 and back on day 2, and returns `[0, 1, 0]`: a tour that is not
empty, has three entries and not four, and never visits city 2. -/
theorem makeRandomTour_incomplete :
    (∀ rand : Nat → Nat, makeRandomTour 0 3 stuckTable 1000 rand = [0, 1, 0]) ∧
    ([0, 1, 0] : Tour) ≠ [] ∧ ([0, 1, 0] : Tour).length ≠ 3 + 1 ∧
    2 ∉ ([0, 1, 0] : Tour) ∧ ¬ ValidTour 3 0 [0, 1, 0] := by
  refine ⟨fun rand => ?_, by decide, by decide, by decide, by decide⟩
  have key : ∀ n, randomDayLoop stuckTable 0 3 rand 3 0 [0] ((List.range 3).eraseIdx 0) 0 n
      = (some [0, 1, 0], n + 1) := by
    intro n
    have h1 : ((List.range 3).eraseIdx 0).filter (fun c => decide (stuckTable 0 0 c > 0))
        = [] := by decide
    have h2 : ((List.range 3).eraseIdx 0).filter (fun c => decide (stuckTable 1 0 c > 0))
        = [1] := by decide
    simp only [randomDayLoop, h1, h2]
    simp [Nat.mod_one, stuckTable]
  unfold makeRandomTour
  rw [show (1000 : Nat) = 999 + 1 from rfl]
  simp only [randomIterLoop, key]

/-! ## Claims about the double bridge and the delta formula -/

/-- C12: for a tour `t` of length `N + 1` and cut points
`1 ≤ d1 < d2 < d3 < d4 ≤ N`, `doubleBridge t d1 d2 d3 d4` is
`t[0..d1) ++ t[d3..d4) ++ t[d2..d3) ++ t[d1..d2) ++ t[d4..N+1)`, has the length
of `t`, is a permutation of `t`, and keeps `t[0]` at position `0` and `t[N]` at
position `N`. -/
theorem doubleBridge_permutation (t : Tour) (N d1 d2 d3 d4 : Nat)
    (hlen : t.length = N + 1) (h1 : 1 ≤ d1) (h12 : d1 < d2) (h23 : d2 < d3)
    (h34 : d3 < d4) (h4 : d4 ≤ N) :
    doubleBridge t d1 d2 d3 d4
      = t.take d1 ++ (t.drop d3).take (d4 - d3) ++ (t.drop d2).take (d3 - d2)
        ++ (t.drop d1).take (d2 - d1) ++ t.drop d4 ∧
    (doubleBridge t d1 d2 d3 d4).length = t.length ∧
    (doubleBridge t d1 d2 d3 d4).Perm t ∧
    at_ (doubleBridge t d1 d2 d3 d4) 0 = at_ t 0 ∧
    at_ (doubleBridge t d1 d2 d3 d4) N = at_ t N := by
  obtain ⟨hl, hp, h0, hN⟩ := rearranged_doubleBridge t d1 d2 d3 d4 h1 (by omega) (by omega)
    (by omega) (by omega)
  rw [show t.length - 1 = N by omega] at hN
  exact ⟨doubleBridge_eq t d1 d2 d3 d4 (by omega) (by omega) (by omega) (by omega),
    hl, hp, h0, hN⟩

/-- Witness for C12: ten cities, cut points 1, 3, 5, 7. -/
theorem doubleBridge_permutation_witness :
    (([0, 1, 2, 3, 4, 5, 6, 7, 8, 9, 0] : Tour).length = 10 + 1 ∧ 1 ≤ 1 ∧ 1 < 3 ∧ 3 < 5 ∧
      5 < 7 ∧ 7 ≤ 10) ∧
    (doubleBridge [0, 1, 2, 3, 4, 5, 6, 7, 8, 9, 0] 1 3 5 7
      = ([0, 1, 2, 3, 4, 5, 6, 7, 8, 9, 0] : Tour).take 1
        ++ (([0, 1, 2, 3, 4, 5, 6, 7, 8, 9, 0] : Tour).drop 5).take (7 - 5)
        ++ (([0, 1, 2, 3, 4, 5, 6, 7, 8, 9, 0] : Tour).drop 3).take (5 - 3)
        ++ (([0, 1, 2, 3, 4, 5, 6, 7, 8, 9, 0] : Tour).drop 1).take (3 - 1)
        ++ ([0, 1, 2, 3, 4, 5, 6, 7, 8, 9, 0] : Tour).drop 7 ∧
    (doubleBridge [0, 1, 2, 3, 4, 5, 6, 7, 8, 9, 0] 1 3 5 7).length
      = ([0, 1, 2, 3, 4, 5, 6, 7, 8, 9, 0] : Tour).length ∧
    (doubleBridge [0, 1, 2, 3, 4, 5, 6, 7, 8, 9, 0] 1 3 5 7).Perm
      [0, 1, 2, 3, 4, 5, 6, 7, 8, 9, 0] ∧
    at_ (doubleBridge [0, 1, 2, 3, 4, 5, 6, 7, 8, 9, 0] 1 3 5 7) 0
      = at_ [0, 1, 2, 3, 4, 5, 6, 7, 8, 9, 0] 0 ∧
    at_ (doubleBridge [0, 1, 2, 3, 4, 5, 6, 7, 8, 9, 0] 1 3 5 7) 10
      = at_ [0, 1, 2, 3, 4, 5, 6, 7, 8, 9, 0] 10) :=
  ⟨⟨rfl, by decide, by decide, by decide, by decide, by decide⟩,
    doubleBridge_permutation [0, 1, 2, 3, 4, 5, 6, 7, 8, 9, 0] 10 1 3 5 7 rfl
      (by decide) (by decide) (by decide) (by decide) (by decide)⟩

/-- C13: for a feasible tour `t` of length `N + 1` and `1 ≤ d1`, `d1 + 1 < d2 < N`
such that the tour `t'` with `t[d1]` and `t[d2]` exchanged is feasible, the
price that `perform2Opt` and `perform2OptWithDLBs` compute for the swap from
`bestCost = evalTourCost t` (minus the four old legs of days `d1-1, d1, d2-1,
d2`, plus the four new legs) equals `evalTourCost t'`; so the difference of the
two evaluated costs is the new legs minus the old legs. The case `d2 = d1 + 2`
is included. -/
theorem swapDeltaCost_exact (fc : FlightCosts) (t : Tour) (N d1 d2 : Nat)
    (hlen : t.length = N + 1) (h1 : 1 ≤ d1) (h12 : d1 + 1 < d2) (h2 : d2 < N)
    (hf : Feasible fc t) (hf1 : Feasible fc (swapAt t d1 d2)) :
    swapDeltaCost fc t (evalTourCost fc t) d1 d2 (at_ t d1)
        (fc (d1 - 1) (at_ t (d1 - 1)) (at_ t d1) + fc d1 (at_ t d1) (at_ t (d1 + 1)))
      = evalTourCost fc (swapAt t d1 d2) ∧
    evalTourCost fc (swapAt t d1 d2) - evalTourCost fc t
      = (fc (d1 - 1) (at_ t (d1 - 1)) (at_ t d2) + fc d1 (at_ t d2) (at_ t (d1 + 1)) +
          fc (d2 - 1) (at_ t (d2 - 1)) (at_ t d1) + fc d2 (at_ t d1) (at_ t (d2 + 1)))
        - (fc (d1 - 1) (at_ t (d1 - 1)) (at_ t d1) + fc d1 (at_ t d1) (at_ t (d1 + 1)) +
          fc (d2 - 1) (at_ t (d2 - 1)) (at_ t d2) + fc d2 (at_ t d2) (at_ t (d2 + 1))) := by
  have hraw := rawSum_swapAt fc t d1 d2 h1 h12 (by omega)
  rw [← evalTourCost_of_feasible fc _ hf1, ← evalTourCost_of_feasible fc t hf] at hraw
  refine ⟨hraw.symm, ?_⟩
  rw [hraw]
  unfold swapDeltaCost
  ring

/-- Witness for C13 on the eight-city instance `dlbTable`: the swap of positions
2 and 5 of the tour of cost 75. -/
theorem swapDeltaCost_exact_witness :
    (([0, 1, 2, 3, 4, 5, 7, 6, 0] : Tour).length = 8 + 1 ∧ 1 ≤ 2 ∧ 2 + 1 < 5 ∧ 5 < 8 ∧
      Feasible dlbTable [0, 1, 2, 3, 4, 5, 7, 6, 0] ∧
      Feasible dlbTable (swapAt [0, 1, 2, 3, 4, 5, 7, 6, 0] 2 5)) ∧
    swapDeltaCost dlbTable [0, 1, 2, 3, 4, 5, 7, 6, 0]
        (evalTourCost dlbTable [0, 1, 2, 3, 4, 5, 7, 6, 0]) 2 5
        (at_ [0, 1, 2, 3, 4, 5, 7, 6, 0] 2)
        (dlbTable (2 - 1) (at_ [0, 1, 2, 3, 4, 5, 7, 6, 0] (2 - 1))
            (at_ [0, 1, 2, 3, 4, 5, 7, 6, 0] 2)
          + dlbTable 2 (at_ [0, 1, 2, 3, 4, 5, 7, 6, 0] 2)
            (at_ [0, 1, 2, 3, 4, 5, 7, 6, 0] (2 + 1)))
      = evalTourCost dlbTable (swapAt [0, 1, 2, 3, 4, 5, 7, 6, 0] 2 5) :=
  ⟨⟨rfl, by decide, by decide, by decide, by decide, by decide⟩,
    (swapDeltaCost_exact dlbTable [0, 1, 2, 3, 4, 5, 7, 6, 0] 8 2 5 rfl (by decide)
      (by decide) (by decide) (by decide) (by decide)).1⟩

/-! ## The flight indexes -/

theorem mem_outboundCandidates (fc : FlightCosts) (N city day dst : Nat) (p : Int) :
    (⟨dst, p⟩ : CityCost) ∈ outboundCandidates fc N city day
      ↔ dst < N ∧ fc day city dst = p ∧ 0 < p := by
  unfold outboundCandidates
  rw [List.mem_filterMap]
  constructor
  · rintro ⟨x, hx, hsome⟩
    split_ifs at hsome with hpos
    simp only [Option.some.injEq, CityCost.mk.injEq] at hsome
    obtain ⟨e1, e2⟩ := hsome
    subst e1
    exact ⟨List.mem_range.mp hx, e2, by rw [← e2]; exact hpos⟩
  · rintro ⟨hlt, he, hpos⟩
    refine ⟨dst, List.mem_range.mpr hlt, ?_⟩
    rw [if_pos (by rw [he]; exact hpos), he]

theorem mem_inboundCandidates (fc : FlightCosts) (N city day frm : Nat) (p : Int) :
    (⟨frm, p⟩ : CityCost) ∈ inboundCandidates fc N city day
      ↔ frm < N ∧ fc day frm city = p ∧ 0 < p := by
  unfold inboundCandidates
  rw [List.mem_filterMap]
  constructor
  · rintro ⟨x, hx, hsome⟩
    split_ifs at hsome with hpos
    simp only [Option.some.injEq, CityCost.mk.injEq] at hsome
    obtain ⟨e1, e2⟩ := hsome
    subst e1
    exact ⟨List.mem_range.mp hx, e2, by rw [← e2]; exact hpos⟩
  · rintro ⟨hlt, he, hpos⟩
    refine ⟨frm, List.mem_range.mpr hlt, ?_⟩
    rw [if_pos (by rw [he]; exact hpos), he]

theorem map_city_filterMap (N : Nat) (g : Nat → Int) :
    ((List.range N).filterMap (fun x =>
        if g x > 0 then some (⟨x, g x⟩ : CityCost) else none)).map CityCost.city
      = (List.range N).filter (fun x => decide (g x > 0)) := by
  induction (List.range N) with
  | nil => rfl
  | cons a l ih =>
    by_cases h : g a > 0
    · rw [List.filterMap_cons_some (by rw [if_pos h]), List.map_cons, ih,
        List.filter_cons_of_pos (by simpa using h)]
    · rw [List.filterMap_cons_none (by rw [if_neg h]), ih,
        List.filter_cons_of_neg (by simpa using h)]

theorem nodup_city_outboundCandidates (fc : FlightCosts) (N city day : Nat) :
    ((outboundCandidates fc N city day).map CityCost.city).Nodup := by
  unfold outboundCandidates
  rw [map_city_filterMap N (fun x => fc day city x)]
  exact (List.nodup_range N).filter _

theorem nodup_city_inboundCandidates (fc : FlightCosts) (N city day : Nat) :
    ((inboundCandidates fc N city day).map CityCost.city).Nodup := by
  unfold inboundCandidates
  rw [map_city_filterMap N (fun x => fc day x city)]
  exact (List.nodup_range N).filter _

theorem sortedByCost_le (l : List CityCost) (h : SortedByCost l) :
    l.Pairwise (fun a b => a.cost ≤ b.cost) :=
  List.Pairwise.imp (fun {a b} hab => not_lt.mp hab) h

/-- C15: for every table and every `(city, day)` with `city, day < N`, the list
`sortOutboundFlights(city, day)` holds a pair `(to, p)` exactly when
`flightCosts(day, city, to) = p > 0` with `to < N`, holds no destination twice,
and is in non-decreasing order of price; `sortInboundFlights(city, day)` holds
exactly the pairs `(from, p)` with `flightCosts(day, from, city) = p > 0`, no
origin twice, in non-decreasing order of price; so `(to, p)` is in
`outbound(from, day)` exactly when `(from, p)` is in `inbound(to, day)`. The same
holds of every pair of indexes that `std::sort` may produce. -/
theorem flightIndexes_exact (fc : FlightCosts) (N city day : Nat)
    (hc : city < N) (hd : day < N) :
    (IsOutboundIndex fc N (sortOutboundFlights fc N) ∧
      IsInboundIndex fc N (sortInboundFlights fc N)) ∧
    ∀ out inb, IsOutboundIndex fc N out → IsInboundIndex fc N inb →
      (∀ dst p, (⟨dst, p⟩ : CityCost) ∈ out city day ↔ dst < N ∧ fc day city dst = p ∧ 0 < p) ∧
      ((out city day).map CityCost.city).Nodup ∧
      (out city day).Pairwise (fun a b => a.cost ≤ b.cost) ∧
      (∀ frm p, (⟨frm, p⟩ : CityCost) ∈ inb city day
        ↔ frm < N ∧ fc day frm city = p ∧ 0 < p) ∧
      ((inb city day).map CityCost.city).Nodup ∧
      (inb city day).Pairwise (fun a b => a.cost ≤ b.cost) ∧
      (∀ other p, other < N →
        ((⟨other, p⟩ : CityCost) ∈ out city day ↔ (⟨city, p⟩ : CityCost) ∈ inb other day)) := by
  refine ⟨⟨sortOutboundFlights_isIndex fc N, sortInboundFlights_isIndex fc N⟩, ?_⟩
  intro out inb hout hinb
  obtain ⟨hpo, hso⟩ := hout city day hc hd
  obtain ⟨hpi, hsi⟩ := hinb city day hc hd
  refine ⟨?_, ?_, sortedByCost_le _ hso, ?_, ?_, sortedByCost_le _ hsi, ?_⟩
  · intro dst p
    rw [hpo.mem_iff, mem_outboundCandidates]
  · exact (hpo.map CityCost.city).nodup_iff.mpr (nodup_city_outboundCandidates fc N city day)
  · intro frm p
    rw [hpi.mem_iff, mem_inboundCandidates]
  · exact (hpi.map CityCost.city).nodup_iff.mpr (nodup_city_inboundCandidates fc N city day)
  · intro other p ho
    rw [hpo.mem_iff, mem_outboundCandidates, (hinb other day ho hd).1.mem_iff,
      mem_inboundCandidates]
    constructor
    · rintro ⟨_, h2, h3⟩; exact ⟨hc, h2, h3⟩
    · rintro ⟨_, h2, h3⟩; exact ⟨ho, h2, h3⟩

/-- Witness for C15 on scenario A of the specification. -/
theorem flightIndexes_exact_witness :
    (0 < 3 ∧ 0 < 3) ∧
    (∀ dst p, (⟨dst, p⟩ : CityCost) ∈ sortOutboundFlights scenarioA 3 0 0
      ↔ dst < 3 ∧ scenarioA 0 0 dst = p ∧ 0 < p) ∧
    sortOutboundFlights scenarioA 3 0 0 = [⟨1, 10⟩] :=
  ⟨⟨by decide, by decide⟩,
    ((flightIndexes_exact scenarioA 3 0 0 (by decide) (by decide)).2 _ _
      (sortOutboundFlights_isIndex scenarioA 3) (sortInboundFlights_isIndex scenarioA 3)).1,
    by decide⟩

/-! ## The accepted move is the first improving move -/

theorem opt2Body_restart_at (fc : FlightCosts) (d1 d2 : Nat) (b tour : Tour)
    (h0 : 1 ≤ d1) (h12 : d1 < d2) (h2 : d2 + 1 < b.length) (hs : Scratch b d1 d2 tour)
    (hf : Feasible fc b) (r : Tour × Int)
    (h : opt2Body fc (evalTourCost fc b) d1 (at_ b d1)
        (fc (d1 - 1) (at_ b (d1 - 1)) (at_ b d1) + fc d1 (at_ b d1) (at_ b (d1 + 1)))
        d2 b tour = .restart r) :
    AcceptedAt fc b d1 d2 r := by
  unfold opt2Body at h
  split at h
  · rename_i r0 hsw
    injection h with h; subst h
    obtain ⟨e, _⟩ := opt2Swap_restart_struct fc _ d1 _ _ d2 b h0 h12 h2 _ hsw
    obtain ⟨hc, hp, hlt⟩ := opt2Swap_restart_cost fc _ d1 d2 b h0 h12 h2 hf rfl _ hsw
    exact ⟨hc, ⟨by rw [← hc]; exact hp, by rw [← hc]; exact hlt⟩, Or.inl e⟩
  · rename_i b1 hsw
    have hb1 : b1 = b := opt2Swap_next_struct fc _ d1 _ _ d2 b h12 h2 _ hsw
    subst hb1
    obtain ⟨e1, e2, hp, hlt⟩ := opt2Flip_restart fc _ d1 d2 b1 tour r h
    have hfl : flipInto tour b1 d1 d2 = reverseSeg b1 d1 d2 :=
      flipInto_eq_reverseSeg tour b1 d1 d2 (by omega) (by omega) hs.1
        (fun p hp => hs.2 p (by omega))
    rw [hfl] at e1
    have hns := opt2Swap_next_cost fc _ d1 d2 b1 h0 h12 h2 hf rfl _ hsw
    exact ⟨e2, ⟨by rw [← e2]; exact hp, by rw [← e2]; exact hlt⟩, Or.inr ⟨e1, hns⟩⟩

theorem opt2Day2_first (fc : FlightCosts) (d1 : Nat) (b : Tour) (h0 : 1 ≤ d1)
    (hf : Feasible fc b) :
    ∀ (k d2 : Nat) (tour : Tour), d1 < d2 → d2 + k + 1 ≤ b.length → Scratch b d1 d2 tour →
      ∀ r, opt2Day2 fc (evalTourCost fc b) d1 (at_ b d1)
          (fc (d1 - 1) (at_ b (d1 - 1)) (at_ b d1) + fc d1 (at_ b d1) (at_ b (d1 + 1)))
          k d2 b tour = .restart r →
        ∃ d, d2 ≤ d ∧ d < d2 + k ∧ AcceptedAt fc b d1 d r ∧
          ∀ c, d2 ≤ c → c < d → NoBetterMove fc b d1 c := by
  intro k
  induction k with
  | zero =>
    intro d2 tour _ _ _ r h
    simp [opt2Day2] at h
  | succ k ih =>
    intro d2 tour h12 hk hs r h
    simp only [opt2Day2] at h
    split at h
    · rename_i r0 hb
      injection h with h; subst h
      exact ⟨d2, le_refl _, by omega,
        opt2Body_restart_at fc d1 d2 b tour h0 h12 (by omega) hs hf _ hb,
        fun c hc1 hc2 => by omega⟩
    · rename_i b1 tour1 hb
      obtain ⟨e, hs1, hno⟩ := opt2Body_next fc _ d1 d2 b tour h0 h12 (by omega) hs _ hb
      dsimp only at e hs1
      subst e
      obtain ⟨d, hd1, hd2, hacc, hearlier⟩ := ih (d2 + 1) tour1 (by omega) (by omega) hs1 r h
      refine ⟨d, by omega, by omega, hacc, fun c hc1 hc2 => ?_⟩
      by_cases hc : c = d2
      · subst hc; exact hno hf rfl
      · exact hearlier c (by omega) hc2

theorem opt2Day1_first (fc : FlightCosts) (b : Tour) (hf : Feasible fc b) :
    ∀ (k d1 : Nat), 1 ≤ d1 → (k ≠ 0 → d1 + k + 2 ≤ b.length) →
      ∀ r, opt2Day1 fc (evalTourCost fc b) k d1 b = .restart r →
        ∃ a d, d1 ≤ a ∧ a < d ∧ d < b.length - 1 ∧ AcceptedAt fc b a d r ∧
          ∀ a1 c, d1 ≤ a1 → a1 < c → c < b.length - 1 → (a1 < a ∨ (a1 = a ∧ c < d)) →
            NoBetterMove fc b a1 c := by
  intro k
  induction k with
  | zero =>
    intro d1 _ _ r h
    simp [opt2Day1] at h
  | succ k ih =>
    intro d1 h0 hk0 r h
    have hk : d1 + (k + 1) + 2 ≤ b.length := hk0 (Nat.succ_ne_zero k)
    have hsc : Scratch b d1 (d1 + 1) b := ⟨rfl, fun _ _ => rfl⟩
    simp only [opt2Day1] at h
    split at h
    · rename_i r0 hb
      injection h with h; subst h
      obtain ⟨d, hd1, hd2, hacc, hearlier⟩ := opt2Day2_first fc d1 b h0 hf
        (b.length - 1 - (d1 + 1)) (d1 + 1) b (by omega) (by omega) hsc _ hb
      refine ⟨d1, d, le_refl _, by omega, by omega, hacc, fun a1 c ha1 hac hc hord => ?_⟩
      rcases hord with hlt | ⟨e, hcd⟩
      · omega
      · subst e; exact hearlier c (by omega) hcd
    · rename_i b1 tour1 hb
      obtain ⟨e, hno⟩ := (opt2Day2_spec fc _ d1 b h0 (b.length - 1 - (d1 + 1)) (d1 + 1) b
        (by omega) (by omega) hsc).2 _ hb
      dsimp only at e
      subst e
      obtain ⟨a, d, ha, had, hd, hacc, hearlier⟩ :=
        ih (d1 + 1) (by omega) (fun _ => by omega) r h
      refine ⟨a, d, by omega, had, hd, hacc, fun a1 c ha1 hac hc hord => ?_⟩
      by_cases e : a1 = d1
      · subst e
        exact hno hf rfl c (by omega) (by omega)
      · exact hearlier a1 c (by omega) hac hc hord

theorem opt2Day1_accepts (fc : FlightCosts) (b : Tour) (hf : Feasible fc b)
    (d1 d2 : Nat) (h1 : 1 ≤ d1) (h12 : d1 < d2) (h2 : d2 < b.length - 1)
    (himp : ¬ NoBetterMove fc b d1 d2) :
    ∃ r, opt2Day1 fc (evalTourCost fc b) (b.length - 2 - 1) 1 b = .restart r := by
  cases hres : opt2Day1 fc (evalTourCost fc b) (b.length - 2 - 1) 1 b with
  | restart r => exact ⟨r, rfl⟩
  | next b1 =>
    exfalso
    have hno := ((opt2Day1_spec fc _ b (b.length - 2 - 1) 1 (le_refl 1)
      (fun h => by omega)).2 _ hres).2 hf rfl d1 d2 h1 (by omega) h12 h2
    exact himp hno

theorem opt2Day1_of_twoOpt (fc : FlightCosts) (b : Tour) (hf : Feasible fc b)
    (h2 : TwoOpt fc b) :
    opt2Day1 fc (evalTourCost fc b) (b.length - 2 - 1) 1 b = .next b := by
  cases hres : opt2Day1 fc (evalTourCost fc b) (b.length - 2 - 1) 1 b with
  | restart r =>
    exfalso
    obtain ⟨a, d, ha, had, hd, ⟨_, himp, hkind⟩, _⟩ :=
      opt2Day1_first fc b hf (b.length - 2 - 1) 1 (le_refl 1) (fun h => by omega) _ hres
    obtain ⟨hs, hfl⟩ := h2 a d ha had hd
    rcases hkind with e | ⟨e, _⟩
    · rw [e] at himp; exact hs himp
    · rw [e] at himp; exact hfl himp
  | next b1 =>
    rw [((opt2Day1_spec fc _ b (b.length - 2 - 1) 1 (le_refl 1) (fun h => by omega)).2 _
      hres).1]

theorem perform2Opt_of_twoOpt (fc : FlightCosts) (b : Tour) (hf : Feasible fc b)
    (h2 : TwoOpt fc b) (fuel : Nat) : perform2Opt fc (fuel + 1) b = some b := by
  unfold perform2Opt
  simp only [perform2OptLoop, opt2Day1_of_twoOpt fc b hf h2]

theorem getD_set0 (bits : List Nat) (i c : Nat) :
    (bits.set i 0).getD c 0 = if c = i then 0 else bits.getD c 0 := by
  by_cases h : c = i
  · subst h; rw [if_pos rfl]; exact getD_set_zero bits c
  · rw [if_neg h]; exact getD_set_ne bits i c 0 (fun e => h e.symm)

theorem length_clearWindow (old new : Tour) (s : Int) :
    ∀ (k j : Nat) (bits : List Nat), (clearWindow old new s k j bits).length = bits.length := by
  intro k
  induction k with
  | zero => intro j bits; rfl
  | succ k ih =>
    intro j bits
    simp only [clearWindow]
    rw [ih]
    split_ifs <;> simp

theorem clearWindow_mono (old new : Tour) (s : Int) (c : Nat) :
    ∀ (k j : Nat) (bits : List Nat),
      (clearWindow old new s k j bits).getD c 0 = bits.getD c 0 ∨
      (clearWindow old new s k j bits).getD c 0 = 0 := by
  intro k
  induction k with
  | zero => intro j bits; exact Or.inl rfl
  | succ k ih =>
    intro j bits
    simp only [clearWindow]
    split_ifs with h
    · rcases ih (j + 1) (bits.set (at_ old (s + ((j : Int) - 3)).toNat) 0) with e | e
      · rw [e, getD_set0]
        split_ifs
        · exact Or.inr rfl
        · exact Or.inl rfl
      · exact Or.inr e
    · exact ih (j + 1) bits

theorem clearWindow_clears (old new : Tour) (s : Int) :
    ∀ (k j : Nat) (bits : List Nat) (j1 : Nat), j ≤ j1 → j1 < j + k →
      s + ((j1 : Int) - 3) ≥ 0 → s + ((j1 : Int) - 3) < new.length →
      (clearWindow old new s k j bits).getD (at_ old (s + ((j1 : Int) - 3)).toNat) 0 = 0 := by
  intro k
  induction k with
  | zero => intro j bits j1 h1 h2; omega
  | succ k ih =>
    intro j bits j1 h1 h2 h3 h4
    simp only [clearWindow]
    by_cases e : j1 = j
    · subst e
      rw [if_pos ⟨h3, h4⟩]
      rcases clearWindow_mono old new s (at_ old (s + ((j1 : Int) - 3)).toNat) k (j1 + 1)
          (bits.set (at_ old (s + ((j1 : Int) - 3)).toNat) 0) with e | e
      · rw [e, getD_set0, if_pos rfl]
      · exact e
    · exact ih (j + 1) _ j1 (by omega) (by omega) h3 h4

theorem length_updateLoop (old new : Tour) :
    ∀ (k city : Nat) (bits : List Nat), (updateLoop old new k city bits).length = bits.length := by
  intro k
  induction k with
  | zero => intro city bits; rfl
  | succ k ih =>
    intro city bits
    simp only [updateLoop]
    rw [ih]
    split_ifs
    · exact length_clearWindow old new _ 7 0 bits
    · rfl

theorem updateLoop_mono (old new : Tour) (c : Nat) :
    ∀ (k city : Nat) (bits : List Nat),
      (updateLoop old new k city bits).getD c 0 = bits.getD c 0 ∨
      (updateLoop old new k city bits).getD c 0 = 0 := by
  intro k
  induction k with
  | zero => intro city bits; exact Or.inl rfl
  | succ k ih =>
    intro city bits
    simp only [updateLoop]
    split_ifs with h
    · rcases ih (city + 1) (clearWindow old new (findSlot old city old.length 0) 7 0 bits)
        with e | e
      · rw [e]
        exact clearWindow_mono old new _ c 7 0 bits
      · exact Or.inr e
    · exact ih (city + 1) bits

theorem updateLoop_clears (old new : Tour) :
    ∀ (k city : Nat) (bits : List Nat) (x j1 : Nat), city ≤ x → x < city + k →
      neighbourChanged old new (findSlot old x old.length 0) (findSlot new x new.length 0) →
      j1 < 7 →
      findSlot old x old.length 0 + ((j1 : Int) - 3) ≥ 0 →
      findSlot old x old.length 0 + ((j1 : Int) - 3) < new.length →
      (updateLoop old new k city bits).getD
        (at_ old (findSlot old x old.length 0 + ((j1 : Int) - 3)).toNat) 0 = 0 := by
  intro k
  induction k with
  | zero => intro city bits x j1 h1 h2; omega
  | succ k ih =>
    intro city bits x j1 h1 h2 hch hj h3 h4
    simp only [updateLoop]
    by_cases e : x = city
    · subst e
      rw [if_pos hch]
      rcases updateLoop_mono old new
          (at_ old (findSlot old x old.length 0 + ((j1 : Int) - 3)).toNat) k (x + 1)
          (clearWindow old new (findSlot old x old.length 0) 7 0 bits) with e | e
      · rw [e]
        exact clearWindow_clears old new _ 7 0 bits j1 (Nat.zero_le _) (by omega) h3 h4
      · exact e
    · exact ih (city + 1) _ x j1 (by omega) (by omega) hch hj h3 h4

theorem findSlot_eq (tour : Tour) (city : Nat) :
    ∀ (k slot p : Nat), slot ≤ p → p < slot + k → at_ tour p = city →
      (∀ q, slot ≤ q → q < p → at_ tour q ≠ city) →
      findSlot tour city k slot = (p : Int) := by
  intro k
  induction k with
  | zero => intro slot p h1 h2; omega
  | succ k ih =>
    intro slot p h1 h2 hp hfirst
    simp only [findSlot]
    by_cases e : p = slot
    · subst e
      rw [if_pos hp]
    · rw [if_neg (hfirst slot (le_refl _) (by omega))]
      exact ih (slot + 1) p (by omega) (by omega) hp (fun q hq1 hq2 => hfirst q (by omega) hq2)

/-! ## With at most six cities the don't-look bits never skip a position -/

theorem eq_replicate_zero (bits : List Nat) (N : Nat) (hlen : bits.length = N)
    (h : ∀ c, bits.getD c 0 = 0) : bits = List.replicate N 0 := by
  apply List.ext_getElem
  · simp [hlen]
  · intro n h1 h2
    have := h n
    rw [List.getD_eq_getElem?_getD, List.getElem?_eq_getElem h1] at this
    simpa using this

theorem getD_replicate_zero (N c : Nat) : (List.replicate N 0).getD c 0 = 0 := by
  rw [List.getD_eq_getElem?_getD, List.getElem?_replicate]
  split_ifs <;> rfl

theorem validTour_city_lt (N start : Nat) (t : Tour) (hN : 1 ≤ N)
    (hv : ValidTour N start t) : ∀ p, p < N → at_ t p < N := by
  obtain ⟨hl, h0, _, hm⟩ := hv
  have hstart : start < N := by
    by_contra hc
    have hfilter : (List.range N).filter (fun c => c ≠ start) = List.range N := by
      rw [List.filter_eq_self]
      intro a ha
      have := List.mem_range.mp ha
      simp only [ne_eq, decide_not, Bool.not_eq_true', decide_eq_false_iff_not]
      omega
    have := hm.length_eq
    rw [hfilter] at this
    simp only [List.length_take, List.length_drop, List.length_range] at this
    omega
  intro p hp
  have hdec := dropLast_decomp t (by omega)
  rw [h0, show t.length - 2 = N - 1 by omega] at hdec
  have hmem : at_ t p ∈ t.dropLast := by
    have hlen : p < t.dropLast.length := by simp; omega
    have e : at_ t p = t.dropLast[p] := by
      rw [List.getElem_dropLast]
      simp only [at_eq]
      rw [List.getElem?_eq_getElem (by omega)]
      rfl
    rw [e]
    exact List.getElem_mem hlen
  rw [hdec] at hmem
  rcases List.mem_cons.mp hmem with e | hmid
  · rw [e]; exact hstart
  · have := hm.subset hmid
    rw [List.mem_filter] at this
    exact List.mem_range.mp this.1

theorem updateDontLookBits_zero (b t : Tour) (N d1 : Nat) (bits : List Nat)
    (hlb : b.length = N + 1) (hlt : t.length = N + 1) (h1 : 1 ≤ d1) (h4 : d1 ≤ 4)
    (hdN : d1 < N) (hdist : ∀ i j, i < j → j < b.length - 1 → at_ b i ≠ at_ b j)
    (hcity : at_ b (d1 - 1) < N) (hsame : ∀ p, p < d1 → at_ t p = at_ b p)
    (hdiff : at_ b d1 ≠ at_ t d1) (hbits : BitsBehind b d1 bits) :
    ∀ c, (updateDontLookBits b t bits).getD c 0 = 0 := by
  have hso : findSlot b (at_ b (d1 - 1)) b.length 0 = ((d1 - 1 : Nat) : Int) :=
    findSlot_eq b _ b.length 0 (d1 - 1) (Nat.zero_le _) (by omega) rfl
      (fun q _ hq => hdist q (d1 - 1) hq (by omega))
  have hsn : findSlot t (at_ b (d1 - 1)) t.length 0 = ((d1 - 1 : Nat) : Int) :=
    findSlot_eq t _ t.length 0 (d1 - 1) (Nat.zero_le _) (by omega) (hsame _ (by omega))
      (fun q _ hq => by
        rw [hsame q (by omega)]
        exact hdist q (d1 - 1) hq (by omega))
  have hch : neighbourChanged b t (findSlot b (at_ b (d1 - 1)) b.length 0)
      (findSlot t (at_ b (d1 - 1)) t.length 0) := by
    rw [hso, hsn]
    right
    have e : (((d1 - 1 : Nat) : Int) + 1).toNat = d1 := by omega
    rw [e]
    refine ⟨⟨by omega, by rw [hlb]; push_cast; omega⟩,
      ⟨by omega, by rw [hlt]; push_cast; omega⟩, hdiff⟩
  intro c
  unfold updateDontLookBits
  rcases updateLoop_mono b t c (b.length - 1) 0 bits with e | e
  · by_cases hz : bits.getD c 0 = 0
    · rw [e, hz]
    · obtain ⟨p, hp, hc⟩ := hbits c hz
      have hclr := updateLoop_clears b t (b.length - 1) 0 bits (at_ b (d1 - 1)) (p + 4 - d1)
        (Nat.zero_le _) (by omega) hch (by omega)
        (by rw [hso]; omega) (by rw [hso, hlt]; push_cast; omega)
      rw [hso] at hclr
      have e2 : (((d1 - 1 : Nat) : Int) + (((p + 4 - d1 : Nat) : Int) - 3)).toNat = p := by
        omega
      rw [e2, ← hc] at hclr
      exact hclr
  · exact e

theorem bitsBehind_set (b : Tour) (d1 : Nat) (bits : List Nat) (h1 : 1 ≤ d1)
    (h : BitsBehind b d1 bits) :
    BitsBehind b (d1 + 1) (bits.set (at_ b (d1 - 1)) 1) := by
  intro c hc
  by_cases e : c = at_ b (d1 - 1)
  · exact ⟨d1 - 1, by omega, e⟩
  · rw [getD_set_ne bits _ c 1 (fun h => e h.symm)] at hc
    obtain ⟨p, hp, hcp⟩ := h c hc
    exact ⟨p, by omega, hcp⟩

theorem dlbDay1_plain (fc : FlightCosts) (b : Tour) (N : Nat) (hlen : b.length = N + 1)
    (hN6 : N ≤ 6) (hdist : ∀ i j, i < j → j < b.length - 1 → at_ b i ≠ at_ b j)
    (hcity : ∀ p, p < N → at_ b p < N) (hf : Feasible fc b) :
    ∀ (k d1 : Nat) (bits : List Nat), 1 ≤ d1 → (k ≠ 0 → d1 + k + 2 ≤ b.length) →
      BitsBehind b d1 bits →
      (∀ r, dlbDay1 fc b (evalTourCost fc b) k d1 bits = .restart r →
        opt2Day1 fc (evalTourCost fc b) k d1 b = .restart (r.1, r.2.1) ∧
        r.2.2.length = bits.length ∧ ∀ c, r.2.2.getD c 0 = 0) ∧
      (∀ bits1, dlbDay1 fc b (evalTourCost fc b) k d1 bits = .next bits1 →
        opt2Day1 fc (evalTourCost fc b) k d1 b = .next b) := by
  intro k
  induction k with
  | zero =>
    intro d1 bits _ _ _
    refine ⟨fun r h => ?_, fun s _ => ?_⟩
    · simp [dlbDay1] at h
    · simp [opt2Day1]
  | succ k ih =>
    intro d1 bits h0 hk0 hbits
    have hk : d1 + (k + 1) + 2 ≤ b.length := hk0 (Nat.succ_ne_zero k)
    have hsc : Scratch b d1 (d1 + 1) b := ⟨rfl, fun _ _ => rfl⟩
    have hmir := dlbDay2_mirror fc b (evalTourCost fc b) bits d1 (at_ b d1)
      (fc (d1 - 1) (at_ b (d1 - 1)) (at_ b d1) + fc d1 (at_ b d1) (at_ b (d1 + 1)))
      (b.length - 1 - (d1 + 1)) (d1 + 1) b (by omega) (by omega)
    have hnoskip : ¬ bits.getD (at_ b (d1 - 1)) 0 = 1 := by
      intro hbit
      obtain ⟨p, hp, hc⟩ := hbits (at_ b (d1 - 1)) (by omega)
      exact hdist p (d1 - 1) (by omega) (by omega) hc.symm
    have hih := ih (d1 + 1) (bits.set (at_ b (d1 - 1)) 1) (by omega) (fun _ => by omega)
      (bitsBehind_set b d1 bits h0 hbits)
    refine ⟨fun r h => ?_, fun s h => ?_⟩
    · simp only [dlbDay1] at h
      rw [if_neg hnoskip] at h
      simp only [opt2Day1]
      split at h
      · rename_i r0 hb
        injection h with h; subst h
        obtain ⟨hopt, hupd⟩ := hmir.1 _ hb
        rw [hopt]
        refine ⟨rfl, ?_, ?_⟩
        · rw [hupd]
          exact length_updateLoop b r0.1 _ 0 bits
        · obtain ⟨d, hd1, hd2, ⟨_, _, hkind⟩, _⟩ := opt2Day2_first fc d1 b h0 hf
            (b.length - 1 - (d1 + 1)) (d1 + 1) b (by omega) (by omega) hsc _ hopt
          rw [hupd]
          have hne : at_ b d1 ≠ at_ b d := hdist d1 d (by omega) (by omega)
          rcases hkind with e | ⟨e, _⟩
          · dsimp only at e
            apply updateDontLookBits_zero b r0.1 N d1 bits hlen
              (by rw [e, length_swapAt]; exact hlen) h0 (by omega) (by omega) hdist
              (hcity _ (by omega))
            · intro p hp
              rw [e, at_swapAt b d1 d p (by omega) (by omega), if_neg (by omega),
                if_neg (by omega)]
            · rw [e, at_swapAt b d1 d d1 (by omega) (by omega), if_neg (by omega),
                if_pos rfl]
              exact hne
            · exact hbits
          · dsimp only at e
            apply updateDontLookBits_zero b r0.1 N d1 bits hlen
              (by rw [e, length_reverseSeg b d1 d (by omega) (by omega)]; exact hlen)
              h0 (by omega) (by omega) hdist (hcity _ (by omega))
            · intro p hp
              rw [e, at_reverseSeg b d1 d p (by omega) (by omega), if_neg (by omega)]
            · rw [e, at_reverseSeg b d1 d d1 (by omega) (by omega), if_pos (by omega),
                show d1 + d - d1 = d by omega]
              exact hne
            · exact hbits
      · rename_i tour1 hb
        rw [hmir.2 _ hb]
        obtain ⟨h1, h2, h3⟩ := hih.1 r h
        exact ⟨h1, by rw [h2]; simp, h3⟩
    · simp only [dlbDay1] at h
      rw [if_neg hnoskip] at h
      simp only [opt2Day1]
      split at h
      · exact absurd h (by simp)
      · rename_i tour1 hb
        rw [hmir.2 _ hb]
        exact hih.2 s h

theorem dlbLoop_plain (fc : FlightCosts) (N start : Nat) (hN : 1 ≤ N) (hN6 : N ≤ 6) :
    ∀ (fuel : Nat) (b : Tour), ValidTour N start b → Feasible fc b →
      perform2OptWithDLBsLoop fc fuel b (evalTourCost fc b) (List.replicate N 0)
        = (perform2OptLoop fc fuel b (evalTourCost fc b)).map
            (fun T => (T, List.replicate N 0)) := by
  intro fuel
  induction fuel with
  | zero => intro b _ _; rfl
  | succ fuel ih =>
    intro b hv hf
    have hlen : b.length = N + 1 := hv.1
    have hplain := dlbDay1_plain fc b N hlen hN6
      (distinct_index b (validTour_distinct N start b hN hv))
      (validTour_city_lt N start b hN hv) hf (b.length - 2 - 1) 1 (List.replicate N 0)
      (le_refl 1) (fun h => by omega)
      (by intro c hc; exact absurd (getD_replicate_zero N c) hc)
    simp only [perform2OptWithDLBsLoop, perform2OptLoop]
    cases hres : dlbDay1 fc b (evalTourCost fc b) (b.length - 2 - 1) 1 (List.replicate N 0) with
    | restart r =>
      obtain ⟨t, c, bits1⟩ := r
      obtain ⟨hopt, hl1, hz⟩ := hplain.1 _ hres
      dsimp only at hopt hl1 hz
      rw [hopt]
      dsimp only
      have hgood := (opt2Day1_spec fc _ b (b.length - 2 - 1) 1 (le_refl 1)
        (fun h => by omega)).1 _ hopt
      obtain ⟨_, hft, hc, _⟩ := feasible_of_goodRestart fc b _ (t, c) (by omega) hf rfl hgood
      dsimp only at hft hc
      have hvt := validTour_of_rearranged N start b t hN hv hgood.1
      have hb1 : bits1 = List.replicate N 0 :=
        eq_replicate_zero bits1 N (by rw [hl1]; simp) hz
      rw [hb1, hc]
      exact ih t hvt hft
    | next bits1 =>
      rw [hplain.2 _ hres]
      rfl

theorem lookAheadScan_keeps_some (fc : FlightCosts) (N start day : Nat)
    (out : Nat → Nat → List CityCost) (ctv : List Nat) :
    ∀ (flights : List CityCost) (b : Nat) (bt : Int),
      ∃ b1 bt1, lookAheadScan fc N start day out ctv flights (some b, bt) = (some b1, bt1)
  | [], b, bt => ⟨b, bt, rfl⟩
  | f :: rest, b, bt => by
    simp only [lookAheadScan]
    split_ifs
    · exact lookAheadScan_keeps_some fc N start day out ctv rest _ _
    · exact lookAheadScan_keeps_some fc N start day out ctv rest _ _
    · exact lookAheadScan_keeps_some fc N start day out ctv rest _ _

theorem lookAheadScan_none_iff (fc : FlightCosts) (N start day : Nat)
    (out : Nat → Nat → List CityCost) (ctv : List Nat) :
    ∀ (flights : List CityCost) (bt : Int),
      (lookAheadScan fc N start day out ctv flights (none, bt)).1 = none ↔
      ∀ f, f ∈ flights → ctv.getD f.city 0 ≠ 0 →
        bt ≤ f.cost + evalGreedyNNTourCost (day + 1) N f.city start ctv fc out
  | [], bt => by simp [lookAheadScan]
  | f :: rest, bt => by
    simp only [lookAheadScan]
    split_ifs with hv hlt
    · obtain ⟨b1, bt1, e⟩ := lookAheadScan_keeps_some fc N start day out ctv rest f.city
        (f.cost + evalGreedyNNTourCost (day + 1) N f.city start ctv fc out)
      rw [e]
      constructor
      · intro h; simp at h
      · intro h
        have := h f (List.mem_cons_self _ _) hv
        omega
    · rw [lookAheadScan_none_iff fc N start day out ctv rest bt]
      constructor
      · intro h g hg hgv
        rcases List.mem_cons.mp hg with e | hmem
        · subst e; omega
        · exact h g hmem hgv
      · intro h g hg hgv
        exact h g (List.mem_cons_of_mem _ hg) hgv
    · rw [lookAheadScan_none_iff fc N start day out ctv rest bt]
      constructor
      · intro h g hg hgv
        rcases List.mem_cons.mp hg with e | hmem
        · subst e; exact absurd hgv hv
        · exact h g hmem hgv
      · intro h g hg hgv
        exact h g (List.mem_cons_of_mem _ hg) hgv

theorem mem_outboundIndex_iff (fc : FlightCosts) (N : Nat) (out : Nat → Nat → List CityCost)
    (hout : IsOutboundIndex fc N out) (city day : Nat) (hc : city < N) (hd : day < N)
    (f : CityCost) :
    f ∈ out city day ↔ f.city < N ∧ fc day city f.city = f.cost ∧ 0 < f.cost := by
  rw [(hout city day hc hd).1.mem_iff]
  exact mem_outboundCandidates fc N city day f.city f.cost

/-- The scan of a day finds no city exactly when every unvisited city with a
priced flight has a total of `COST_MAX` or more. -/
theorem lookAheadScan_none_iff_table (fc : FlightCosts) (N start day curr : Nat)
    (out : Nat → Nat → List CityCost) (ctv : List Nat) (hout : IsOutboundIndex fc N out)
    (hc : curr < N) (hd : day < N) :
    (lookAheadScan fc N start day out ctv (out curr day) (none, COST_MAX)).1 = none ↔
    ∀ c, c < N → ctv.getD c 0 ≠ 0 → 0 < fc day curr c →
      COST_MAX ≤ lookAheadTotal fc N start out day curr ctv c := by
  rw [lookAheadScan_none_iff]
  unfold lookAheadTotal
  constructor
  · intro h c hcN hv hpos
    have hm : (⟨c, fc day curr c⟩ : CityCost) ∈ out curr day :=
      (mem_outboundIndex_iff fc N out hout curr day hc hd _).mpr ⟨hcN, rfl, hpos⟩
    exact h _ hm hv
  · intro h f hf hv
    obtain ⟨h1, h2, h3⟩ := (mem_outboundIndex_iff fc N out hout curr day hc hd f).mp hf
    rw [← h2]
    exact h f.city h1 hv (by rw [h2]; exact h3)

theorem lookAheadLoop_nil_iff (fc : FlightCosts) (N start : Nat)
    (out : Nat → Nat → List CityCost) (hout : IsOutboundIndex fc N out) :
    ∀ (k day : Nat) (tour ctv : List Nat) (curr : Nat), tour ≠ [] → day + k = N →
      curr < N →
      (lookAheadLoop fc N start out k day tour ctv curr = [] ↔
        ∃ s, s ∈ lookAheadStates fc N start out k day ctv curr ∧
          ((s.1 < N - 1 ∧ ∀ c, c < N → s.2.2.getD c 0 ≠ 0 → 0 < fc s.1 s.2.1 c →
              COST_MAX ≤ lookAheadTotal fc N start out s.1 s.2.1 s.2.2 c) ∨
            (s.1 = N - 1 ∧ ¬ 0 < fc s.1 s.2.1 start))) := by
  intro k
  induction k with
  | zero =>
    intro day tour ctv curr hne _ _
    simp only [lookAheadLoop, lookAheadStates]
    constructor
    · intro h; exact absurd h hne
    · rintro ⟨s, hs, _⟩; simp at hs
  | succ k ih =>
    intro day tour ctv curr hne hday hc
    simp only [lookAheadLoop, lookAheadStates]
    by_cases hlast : day = N - 1
    · rw [if_pos hlast, if_pos hlast]
      by_cases hpos : fc day curr start > 0
      · rw [if_pos hpos, if_pos hpos]
        rw [ih (day + 1) (tour ++ [start]) ctv curr (by simp) (by omega) hc]
        constructor
        · rintro ⟨s, hs, hst⟩
          exact ⟨s, List.mem_cons_of_mem _ hs, hst⟩
        · rintro ⟨s, hs, hst⟩
          rcases List.mem_cons.mp hs with e | hmem
          · subst e
            dsimp only at hst
            rcases hst with ⟨h1, _⟩ | ⟨_, h2⟩
            · omega
            · exact absurd hpos h2
          · exact ⟨s, hmem, hst⟩
      · rw [if_neg hpos, if_neg hpos]
        constructor
        · intro _
          exact ⟨(day, curr, ctv), List.mem_cons_self _ _, Or.inr ⟨hlast, hpos⟩⟩
        · intro _; rfl
    · rw [if_neg hlast, if_neg hlast]
      have htab := lookAheadScan_none_iff_table fc N start day curr out ctv hout hc (by omega)
      cases hscan : lookAheadScan fc N start day out ctv (out curr day) (none, COST_MAX) with
      | mk b bt =>
        cases b with
        | none =>
          dsimp only
          rw [hscan] at htab
          constructor
          · intro _
            exact ⟨(day, curr, ctv), List.mem_cons_self _ _,
              Or.inl ⟨by omega, htab.mp rfl⟩⟩
          · intro _; rfl
        | some best =>
          dsimp only
          rw [hscan] at htab
          have hbest : best < N := by
            have hsome : (lookAheadScan fc N start day out ctv (out curr day)
                (none, COST_MAX)).1 = some best := by rw [hscan]
            rcases lookAheadScan_some fc N start day out ctv _ _ best hsome with
              h1 | ⟨f, hfm, hfc, _⟩
            · simp at h1
            · rw [← hfc]
              exact ((mem_outboundIndex_iff fc N out hout curr day hc (by omega) f).mp hfm).1
          rw [ih (day + 1) (tour ++ [best]) (ctv.set best 0) best (by simp) (by omega) hbest]
          constructor
          · rintro ⟨s, hs, hst⟩
            exact ⟨s, List.mem_cons_of_mem _ hs, hst⟩
          · rintro ⟨s, hs, hst⟩
            rcases List.mem_cons.mp hs with e | hmem
            · subst e
              dsimp only at hst
              rcases hst with ⟨_, h2⟩ | ⟨h1, _⟩
              · have := htab.mpr h2
                simp at this
              · exact absurd h1 hlast
            · exact ⟨s, hmem, hst⟩

theorem greedyLoop_of_stuck (fc : FlightCosts) (N dst : Nat)
    (out : Nat → Nat → List CityCost) :
    ∀ (k day curr : Nat) (ctv : List Nat) (cost : Int),
      greedyStuck fc N dst out k day curr ctv = true →
      greedyLoop fc N dst out k day curr ctv cost = COST_MAX := by
  intro k
  induction k with
  | zero => intro day curr ctv cost h; simp [greedyStuck] at h
  | succ k ih =>
    intro day curr ctv cost h
    simp only [greedyStuck] at h
    simp only [greedyLoop]
    split_ifs at h with h1 h2
    · rw [if_pos h1, if_pos h2]; exact ih _ _ _ _ h
    · rw [if_pos h1, if_neg h2]
    · rw [if_neg h1]
      cases hfu : firstUnvisited (out curr day) ctv with
      | none => rfl
      | some f =>
        rw [hfu] at h
        exact ih _ _ _ _ h

theorem lookAheadScan_min (fc : FlightCosts) (N start day : Nat)
    (out : Nat → Nat → List CityCost) (ctv : List Nat) :
    ∀ (flights : List CityCost) (b : Option Nat) (bt : Int),
      (lookAheadScan fc N start day out ctv flights (b, bt)).2 ≤ bt ∧
      (∀ g, g ∈ flights → ctv.getD g.city 0 ≠ 0 →
        (lookAheadScan fc N start day out ctv flights (b, bt)).2 ≤
          g.cost + evalGreedyNNTourCost (day + 1) N g.city start ctv fc out) ∧
      (lookAheadScan fc N start day out ctv flights (b, bt) = (b, bt) ∨
        ∃ f, f ∈ flights ∧
          (lookAheadScan fc N start day out ctv flights (b, bt)).1 = some f.city ∧
          ctv.getD f.city 0 ≠ 0 ∧
          (lookAheadScan fc N start day out ctv flights (b, bt)).2 =
            f.cost + evalGreedyNNTourCost (day + 1) N f.city start ctv fc out ∧
          (lookAheadScan fc N start day out ctv flights (b, bt)).2 < bt)
  | [], b, bt => by simp [lookAheadScan]
  | f :: rest, b, bt => by
    simp only [lookAheadScan]
    split_ifs with hv hlt
    · obtain ⟨i1, i2, i3⟩ := lookAheadScan_min fc N start day out ctv rest (some f.city)
        (f.cost + evalGreedyNNTourCost (day + 1) N f.city start ctv fc out)
      refine ⟨by omega, ?_, Or.inr ?_⟩
      · intro g hg hgv
        rcases List.mem_cons.mp hg with e | hmem
        · subst e; exact i1
        · exact i2 g hmem hgv
      · rcases i3 with e | ⟨f1, hf1, h1, h2, h3, h4⟩
        · refine ⟨f, List.mem_cons_self _ _, ?_, hv, ?_, ?_⟩
          · rw [e]
          · rw [e]
          · rw [e]; exact hlt
        · exact ⟨f1, List.mem_cons_of_mem _ hf1, h1, h2, h3, by omega⟩
    · obtain ⟨i1, i2, i3⟩ := lookAheadScan_min fc N start day out ctv rest b bt
      refine ⟨i1, ?_, ?_⟩
      · intro g hg hgv
        rcases List.mem_cons.mp hg with e | hmem
        · subst e; omega
        · exact i2 g hmem hgv
      · rcases i3 with e | ⟨f1, hf1, h⟩
        · exact Or.inl e
        · exact Or.inr ⟨f1, List.mem_cons_of_mem _ hf1, h⟩
    · obtain ⟨i1, i2, i3⟩ := lookAheadScan_min fc N start day out ctv rest b bt
      refine ⟨i1, ?_, ?_⟩
      · intro g hg hgv
        rcases List.mem_cons.mp hg with e | hmem
        · subst e; exact absurd hgv hv
        · exact i2 g hmem hgv
      · rcases i3 with e | ⟨f1, hf1, h⟩
        · exact Or.inl e
        · exact Or.inr ⟨f1, List.mem_cons_of_mem _ hf1, h⟩

theorem lookAheadLoop_extends (fc : FlightCosts) (N start : Nat)
    (out : Nat → Nat → List CityCost) :
    ∀ (k day : Nat) (tour ctv : List Nat) (curr : Nat),
      lookAheadLoop fc N start out k day tour ctv curr = [] ∨
      ∃ rest, lookAheadLoop fc N start out k day tour ctv curr = tour ++ rest := by
  intro k
  induction k with
  | zero => intro day tour ctv curr; right; exact ⟨[], by simp [lookAheadLoop]⟩
  | succ k ih =>
    intro day tour ctv curr
    simp only [lookAheadLoop]
    split_ifs with h1 h2
    · rcases ih (day + 1) (tour ++ [start]) ctv curr with h | ⟨rest, h⟩
      · exact Or.inl h
      · exact Or.inr ⟨[start] ++ rest, by rw [h]; simp⟩
    · exact Or.inl rfl
    · split
      · rename_i best bt _
        rcases ih (day + 1) (tour ++ [best]) (ctv.set best 0) best with h | ⟨rest, h⟩
        · exact Or.inl h
        · exact Or.inr ⟨[best] ++ rest, by rw [h]; simp⟩
      · exact Or.inl rfl

theorem at_append_lt (a b : List Nat) (i : Nat) (h : i < a.length) :
    at_ (a ++ b) i = at_ a i := by
  simp only [at_eq, List.getElem?_append_left h]

theorem flagsAfter_append (N : Nat) (tour : List Nat) (c : Nat) :
    flagsAfter N (tour ++ [c]) = (flagsAfter N tour).set c 0 := by
  simp [flagsAfter, List.foldl_append]

theorem lookAheadLoop_choice (fc : FlightCosts) (N start : Nat)
    (out : Nat → Nat → List CityCost) (hout : IsOutboundIndex fc N out) :
    ∀ (k day : Nat) (tour ctv : List Nat) (curr : Nat), day + k = N →
      tour.length = day + 1 → at_ tour day = curr → ctv = flagsAfter N tour → curr < N →
      lookAheadLoop fc N start out k day tour ctv curr ≠ [] →
      ∀ d, day ≤ d → d < N - 1 →
        LookAheadChoice fc N start out (lookAheadLoop fc N start out k day tour ctv curr) d := by
  intro k
  induction k with
  | zero => intro day tour ctv curr hday _ _ _ _ _ d h1 h2; omega
  | succ k ih =>
    intro day tour ctv curr hday hlen hcur hctv hcN hne d hd1 hd2
    have hlast : ¬ day = N - 1 := by omega
    simp only [lookAheadLoop, if_neg hlast] at hne ⊢
    have hmin := lookAheadScan_min fc N start day out ctv (out curr day) none COST_MAX
    cases hscan : lookAheadScan fc N start day out ctv (out curr day) (none, COST_MAX) with
    | mk b bt =>
      rw [hscan] at hne hmin
      cases b with
      | none => exact absurd rfl hne
      | some best =>
        dsimp only at hne ⊢
        obtain ⟨_, hall, hsel⟩ := hmin
        rcases hsel with e | ⟨f, hfm, hf1, hfv, hf2, hf3⟩
        · simp at e
        dsimp only at hf1 hf2 hf3 hall
        simp only [Option.some.injEq] at hf1
        obtain ⟨hfN, hfc, hfpos⟩ :=
          (mem_outboundIndex_iff fc N out hout curr day hcN (by omega) f).mp hfm
        have hbN : best < N := by rw [hf1]; exact hfN
        by_cases hdd : d = day
        · subst hdd
          rcases lookAheadLoop_extends fc N start out k (d + 1) (tour ++ [best])
            (ctv.set best 0) best with h | ⟨rest, h⟩
          · exact absurd h hne
          · rw [h]
            have htake : ((tour ++ [best]) ++ rest).take (d + 1) = tour := by
              rw [List.append_assoc, List.take_left' hlen]
            have hatd : at_ ((tour ++ [best]) ++ rest) d = curr := by
              rw [List.append_assoc, at_append_lt _ _ _ (by omega)]; exact hcur
            have hatn : at_ ((tour ++ [best]) ++ rest) (d + 1) = best := by
              rw [at_append_lt _ _ _ (by simp; omega)]
              rw [← hlen]; exact at_append_last tour best
            unfold LookAheadChoice
            rw [htake, hatd, hatn, ← hctv]
            have htot : lookAheadTotal fc N start out d curr ctv best = bt := by
              unfold lookAheadTotal
              rw [hf2, hf1, hfc]
            refine ⟨hbN, by rw [hf1]; exact hfv, by rw [hf1, hfc]; exact hfpos, ?_,
              by rw [htot]; exact hf3, ?_⟩
            · by_contra hst
              have hst1 : completionStuck (d + 1) N best start ctv fc out = true := by
                cases hh : completionStuck (d + 1) N best start ctv fc out
                · exact absurd hh hst
                · rfl
              have hev := greedyLoop_of_stuck fc N start out _ _ _ _ 0 hst1
              have hev1 : evalGreedyNNTourCost (d + 1) N best start ctv fc out = COST_MAX := hev
              rw [← hf1, hev1] at hf2
              omega
            · intro c hc hv hpos
              rw [htot]
              have hm : (⟨c, fc d curr c⟩ : CityCost) ∈ out curr d :=
                (mem_outboundIndex_iff fc N out hout curr d hcN (by omega) _).mpr
                  ⟨hc, rfl, hpos⟩
              exact hall _ hm hv
        · exact ih (day + 1) (tour ++ [best]) (ctv.set best 0) best (by omega)
            (by simp; omega) (by rw [← hlen]; exact at_append_last tour best)
            (by rw [flagsAfter_append, hctv]) hbN hne d (by omega) hd2

theorem firstCheaper_some (B : Int) (ctv : List Nat) :
    ∀ (l : List CityCost) (f : CityCost), firstCheaper l ctv B = some f →
      f ∈ l ∧ ctv.getD f.city 0 ≠ 0 ∧ f.cost < B ∧
      (l.Pairwise (fun a b => a.cost ≤ b.cost) →
        ∀ g, g ∈ l → ctv.getD g.city 0 ≠ 0 → f.cost ≤ g.cost)
  | [], f, h => by simp [firstCheaper] at h
  | f0 :: rest, f, h => by
    simp only [firstCheaper] at h
    split_ifs at h with hv hlt
    · simp only [Option.some.injEq] at h
      subst h
      refine ⟨List.mem_cons_self _ _, hv, hlt, ?_⟩
      intro hp g hg _
      rcases List.mem_cons.mp hg with e | hmem
      · rw [e]
      · exact (List.pairwise_cons.mp hp).1 g hmem
    · obtain ⟨h1, h2, h3, h4⟩ := firstCheaper_some B ctv rest f h
      refine ⟨List.mem_cons_of_mem _ h1, h2, h3, ?_⟩
      intro hp g hg hgv
      rcases List.mem_cons.mp hg with e | hmem
      · subst e; omega
      · exact h4 (List.pairwise_cons.mp hp).2 g hmem hgv
    · obtain ⟨h1, h2, h3, h4⟩ := firstCheaper_some B ctv rest f h
      refine ⟨List.mem_cons_of_mem _ h1, h2, h3, ?_⟩
      intro hp g hg hgv
      rcases List.mem_cons.mp hg with e | hmem
      · subst e; exact absurd hgv hv
      · exact h4 (List.pairwise_cons.mp hp).2 g hmem hgv

theorem firstCheaper_none (B : Int) (ctv : List Nat) :
    ∀ (l : List CityCost), firstCheaper l ctv B = none →
      ∀ g, g ∈ l → ctv.getD g.city 0 ≠ 0 → B ≤ g.cost
  | [], _, g, hg, _ => by simp at hg
  | f0 :: rest, h, g, hg, hgv => by
    simp only [firstCheaper] at h
    split_ifs at h with hv hlt
    · rcases List.mem_cons.mp hg with e | hmem
      · subst e; omega
      · exact firstCheaper_none B ctv rest h g hmem hgv
    · rcases List.mem_cons.mp hg with e | hmem
      · subst e; exact absurd hgv hv
      · exact firstCheaper_none B ctv rest h g hmem hgv

theorem mem_inboundIndex_iff (fc : FlightCosts) (N : Nat) (inb : Nat → Nat → List CityCost)
    (hinb : IsInboundIndex fc N inb) (city day : Nat) (hc : city < N) (hd : day < N)
    (f : CityCost) :
    f ∈ inb city day ↔ f.city < N ∧ fc day f.city city = f.cost ∧ 0 < f.cost := by
  rw [(hinb city day hc hd).1.mem_iff]
  exact mem_inboundCandidates fc N city day f.city f.cost

theorem dennBestOut_some (fc : FlightCosts) (N : Nat) (out : Nat → Nat → List CityCost)
    (hout : IsOutboundIndex fc N out) (s : DENNState) (hb : DENNBounds N s) (f : CityCost)
    (h : dennBestOut N out s = some f) :
    CheapestOut fc N s f ∧ s.currTourEndDay ≠ N - 1 := by
  unfold dennBestOut at h
  split_ifs at h with hlast
  obtain ⟨hm, hv, hlt, hmin⟩ := firstCheaper_some _ _ _ f h
  obtain ⟨h1, h2, h3⟩ :=
    (mem_outboundIndex_iff fc N out hout _ _ hb.1 hb.2.2.1 f).mp hm
  refine ⟨⟨h1, hv, h2, h3, hlt, ?_⟩, hlast⟩
  intro c hc hcv hpos
  have hm2 : (⟨c, fc s.currTourEndDay s.currTourEndCity c⟩ : CityCost) ∈
      out s.currTourEndCity s.currTourEndDay :=
    (mem_outboundIndex_iff fc N out hout _ _ hb.1 hb.2.2.1 _).mpr ⟨hc, rfl, hpos⟩
  exact hmin (sortedByCost_le _ (hout _ _ hb.1 hb.2.2.1).2) _ hm2 hcv

theorem dennBestOut_none (fc : FlightCosts) (N : Nat) (out : Nat → Nat → List CityCost)
    (hout : IsOutboundIndex fc N out) (s : DENNState) (hb : DENNBounds N s)
    (h : dennBestOut N out s = none) : NoOut fc N s := by
  unfold dennBestOut at h
  split_ifs at h with hlast
  · exact Or.inl hlast
  · right
    intro c hc hcv hpos
    have hm2 : (⟨c, fc s.currTourEndDay s.currTourEndCity c⟩ : CityCost) ∈
        out s.currTourEndCity s.currTourEndDay :=
      (mem_outboundIndex_iff fc N out hout _ _ hb.1 hb.2.2.1 _).mpr ⟨hc, rfl, hpos⟩
    exact firstCheaper_none _ _ _ h _ hm2 hcv

theorem dennBestIn_some (fc : FlightCosts) (N : Nat) (inb : Nat → Nat → List CityCost)
    (hinb : IsInboundIndex fc N inb) (s : DENNState) (hb : DENNBounds N s) (f : CityCost)
    (h : dennBestIn inb s = some f) :
    CheapestIn fc N s f ∧ s.currTourStartDay ≠ 0 := by
  unfold dennBestIn at h
  split_ifs at h with hfirst
  obtain ⟨hm, hv, hlt, hmin⟩ := firstCheaper_some _ _ _ f h
  obtain ⟨h1, h2, h3⟩ :=
    (mem_inboundIndex_iff fc N inb hinb _ _ hb.2.1 hb.2.2.2 f).mp hm
  refine ⟨⟨h1, hv, h2, h3, hlt, ?_⟩, hfirst⟩
  intro c hc hcv hpos
  have hm2 : (⟨c, fc s.currTourStartDay c s.currTourStartCity⟩ : CityCost) ∈
      inb s.currTourStartCity s.currTourStartDay :=
    (mem_inboundIndex_iff fc N inb hinb _ _ hb.2.1 hb.2.2.2 _).mpr ⟨hc, rfl, hpos⟩
  exact hmin (sortedByCost_le _ (hinb _ _ hb.2.1 hb.2.2.2).2) _ hm2 hcv

theorem dennBestIn_none (fc : FlightCosts) (N : Nat) (inb : Nat → Nat → List CityCost)
    (hinb : IsInboundIndex fc N inb) (s : DENNState) (hb : DENNBounds N s)
    (h : dennBestIn inb s = none) : NoIn fc N s := by
  unfold dennBestIn at h
  split_ifs at h with hfirst
  · exact Or.inl hfirst
  · right
    intro c hc hcv hpos
    have hm2 : (⟨c, fc s.currTourStartDay c s.currTourStartCity⟩ : CityCost) ∈
        inb s.currTourStartCity s.currTourStartDay :=
      (mem_inboundIndex_iff fc N inb hinb _ _ hb.2.1 hb.2.2.2 _).mpr ⟨hc, rfl, hpos⟩
    exact firstCheaper_none _ _ _ h _ hm2 hcv

theorem dennBestOut_lt (N : Nat) (out : Nat → Nat → List CityCost) (s : DENNState)
    (f : CityCost) (h : dennBestOut N out s = some f) : f.cost < COST_MAX := by
  unfold dennBestOut at h
  split_ifs at h
  exact (firstCheaper_some _ _ _ f h).2.2.1

theorem dennBestIn_lt (inb : Nat → Nat → List CityCost) (s : DENNState)
    (f : CityCost) (h : dennBestIn inb s = some f) : f.cost < COST_MAX := by
  unfold dennBestIn at h
  split_ifs at h
  exact (firstCheaper_some _ _ _ f h).2.2.1

/-- One pass of the loop, in terms of the two scans. -/
theorem dennLoop_succ (fc : FlightCosts) (start N : Nat) (out inb : Nat → Nat → List CityCost)
    (fuel : Nat) (s : DENNState) :
    dennLoop fc start N out inb (fuel + 1) s =
      if s.currTourEndDay = N - 1 ∧ fc s.currTourEndDay s.currTourEndCity start < 0 then
        .returned []
      else if s.currTourStartDay = 0 ∧ fc 0 start s.currTourStartCity < 0 then .returned []
      else if s.currTourEndDay = N - 1 ∧ s.currTourStartDay = 0 then .returned s.tour
      else match dennBestOut N out s, dennBestIn inb s with
        | none, none => .returned []
        | some f, none => dennLoop fc start N out inb fuel (dennForward s f)
        | none, some g => dennLoop fc start N out inb fuel (dennBackward s g)
        | some f, some g =>
          if f.cost < g.cost then dennLoop fc start N out inb fuel (dennForward s f)
          else dennLoop fc start N out inb fuel (dennBackward s g) := by
  rw [dennLoop]
  dsimp only
  by_cases h1 : s.currTourEndDay = N - 1 ∧ fc s.currTourEndDay s.currTourEndCity start < 0
  · rw [if_pos h1, if_pos h1]
  rw [if_neg h1, if_neg h1]
  by_cases h2 : s.currTourStartDay = 0 ∧ fc 0 start s.currTourStartCity < 0
  · rw [if_pos h2, if_pos h2]
  rw [if_neg h2, if_neg h2]
  by_cases h3 : s.currTourEndDay = N - 1 ∧ s.currTourStartDay = 0
  · rw [if_pos h3, if_pos h3]
  rw [if_neg h3, if_neg h3]
  have eo : (if s.currTourEndDay = N - 1 then none
      else firstCheaper (out s.currTourEndCity s.currTourEndDay) s.citiesToVisit COST_MAX) =
      dennBestOut N out s := rfl
  have ei : (if s.currTourStartDay = 0 then none
      else firstCheaper (inb s.currTourStartCity s.currTourStartDay) s.citiesToVisit
        COST_MAX) = dennBestIn inb s := rfl
  rw [eo, ei]
  cases ho : dennBestOut N out s with
  | none =>
    cases hi : dennBestIn inb s with
    | none => simp
    | some g =>
      have hg := dennBestIn_lt inb s g hi
      simp only [reduceCtorEq, and_false, if_false]
      rw [if_neg (by omega)]
      rfl
  | some f =>
    have hf := dennBestOut_lt N out s f ho
    cases hi : dennBestIn inb s with
    | none =>
      simp only [reduceCtorEq, false_and, if_false]
      rw [if_pos hf]
      rfl
    | some g =>
      simp only [reduceCtorEq, false_and, if_false]
      rfl

theorem dennLoop_ne_placeholder (fc : FlightCosts) (start N : Nat)
    (out inb : Nat → Nat → List CityCost) :
    ∀ (fuel : Nat) (s : DENNState), dennLoop fc start N out inb fuel s ≠ .placeholder := by
  intro fuel
  induction fuel with
  | zero => intro s; simp [dennLoop]
  | succ fuel ih =>
    intro s
    rw [dennLoop_succ]
    split_ifs
    · simp
    · simp
    · simp
    · split
      · simp
      · exact ih _
      · exact ih _
      · split_ifs
        · exact ih _
        · exact ih _

theorem dennBounds_init (fromCity fromDay start N : Nat) (hc : fromCity < N)
    (hd : fromDay < N) : DENNBounds N (dennInit fromCity fromDay start N) := by
  unfold DENNBounds dennInit
  dsimp only
  omega

theorem makeDoubleEndedNNTour_eq (fromCity fromDay start N : Nat) (fc : FlightCosts)
    (out inb : Nat → Nat → List CityCost) (fuel : Nat) :
    makeDoubleEndedNNTour fromCity fromDay start N fc out inb fuel =
      dennLoop fc start N out inb fuel (dennInit fromCity fromDay start N) := rfl

/-- Claim C20, counterexample: (1) on `pinTable` with anchor city 1 on day 2
the forward frontier is on the last day and cannot extend, the backward
frontier can extend by the flight from the unvisited city 2, and the tour is
not complete, yet the first pass returns the empty tour because the entry of
the pinned flight back to the start is negative; (2) on `capTable` with anchor
city 1 on day 1 the unvisited city 2 has a priced flight from the forward
frontier, yet the empty tour is returned because the price is not below
`COST_MAX`, although the tour 0 1 2 0 is feasible. -/
theorem makeDoubleEndedNNTour_no_extension :
    (makeDoubleEndedNNTour 1 2 0 3 pinTable (sortOutboundFlights pinTable 3)
        (sortInboundFlights pinTable 3) 1 = .returned [] ∧
      (dennInit 1 2 0 3).currTourEndDay = 3 - 1 ∧
      (dennInit 1 2 0 3).currTourStartDay ≠ 0 ∧
      (dennInit 1 2 0 3).citiesToVisit.getD 2 0 ≠ 0 ∧
      0 < pinTable (dennInit 1 2 0 3).currTourStartDay 2
        (dennInit 1 2 0 3).currTourStartCity) ∧
    (makeDoubleEndedNNTour 1 1 0 3 capTable (sortOutboundFlights capTable 3)
        (sortInboundFlights capTable 3) 1 = .returned [] ∧
      (dennInit 1 1 0 3).currTourEndDay ≠ 3 - 1 ∧
      (dennInit 1 1 0 3).citiesToVisit.getD 2 0 ≠ 0 ∧
      0 < capTable (dennInit 1 1 0 3).currTourEndDay
        (dennInit 1 1 0 3).currTourEndCity 2 ∧
      0 < evalTourCost capTable [0, 1, 2, 0]) := by
  refine ⟨⟨by decide, by decide, by decide, by decide, by decide⟩,
    ⟨by decide, by decide, by decide, by decide, by decide⟩⟩

/-- Claim C20, amended: one pass of the loop of `makeDoubleEndedNNTour` from a
state whose frontiers are inside the table. If a pinned-leg test fails the
empty tour is returned; otherwise, if both frontiers are on their pinned day
the tour is returned. Otherwise, with `bestOut` a cheapest flight priced below
`COST_MAX` from the forward frontier to an unvisited city (none on day
`N - 1`) and `bestIn` a cheapest flight priced below `COST_MAX` from an
unvisited city into the backward frontier (none on day 0): if only one exists
that side is extended; if both exist the forward side is extended exactly when
`bestOut < bestIn` and the backward side otherwise; if neither exists the
empty tour is returned. The frontiers stay inside the table, the city written
is an unvisited city, and the placeholder is never written. -/
theorem dennLoop_extension_rule (fc : FlightCosts) (start N : Nat)
    (out inb : Nat → Nat → List CityCost) (hout : IsOutboundIndex fc N out)
    (hinb : IsInboundIndex fc N inb) (fuel : Nat) (s : DENNState) (hb : DENNBounds N s) :
    (PinnedLegMissing fc start N s →
      dennLoop fc start N out inb (fuel + 1) s = .returned []) ∧
    (¬ PinnedLegMissing fc start N s → DENNComplete N s →
      dennLoop fc start N out inb (fuel + 1) s = .returned s.tour) ∧
    (¬ PinnedLegMissing fc start N s → ¬ DENNComplete N s →
      (∀ f, dennBestOut N out s = some f → dennBestIn inb s = none →
        CheapestOut fc N s f ∧ NoIn fc N s ∧ DENNBounds N (dennForward s f) ∧
        dennLoop fc start N out inb (fuel + 1) s =
          dennLoop fc start N out inb fuel (dennForward s f)) ∧
      (∀ g, dennBestOut N out s = none → dennBestIn inb s = some g →
        NoOut fc N s ∧ CheapestIn fc N s g ∧ DENNBounds N (dennBackward s g) ∧
        dennLoop fc start N out inb (fuel + 1) s =
          dennLoop fc start N out inb fuel (dennBackward s g)) ∧
      (∀ f g, dennBestOut N out s = some f → dennBestIn inb s = some g →
        CheapestOut fc N s f ∧ CheapestIn fc N s g ∧
        DENNBounds N (dennForward s f) ∧ DENNBounds N (dennBackward s g) ∧
        (f.cost < g.cost → dennLoop fc start N out inb (fuel + 1) s =
          dennLoop fc start N out inb fuel (dennForward s f)) ∧
        (¬ f.cost < g.cost → dennLoop fc start N out inb (fuel + 1) s =
          dennLoop fc start N out inb fuel (dennBackward s g))) ∧
      (dennBestOut N out s = none → dennBestIn inb s = none →
        NoOut fc N s ∧ NoIn fc N s ∧
        dennLoop fc start N out inb (fuel + 1) s = .returned [])) ∧
    (∀ (fuel1 : Nat) (s1 : DENNState),
      dennLoop fc start N out inb fuel1 s1 ≠ .placeholder) := by
  have hfwd : ∀ f, dennBestOut N out s = some f → DENNBounds N (dennForward s f) := by
    intro f hf
    obtain ⟨hc, hne⟩ := dennBestOut_some fc N out hout s hb f hf
    obtain ⟨h1, h2, h3, h4⟩ := hb
    exact ⟨hc.1, h2, by show s.currTourEndDay + 1 < N; omega, h4⟩
  have hbwd : ∀ g, dennBestIn inb s = some g → DENNBounds N (dennBackward s g) := by
    intro g hg
    obtain ⟨hc, hne⟩ := dennBestIn_some fc N inb hinb s hb g hg
    obtain ⟨h1, h2, h3, h4⟩ := hb
    exact ⟨h1, hc.1, h3, by show s.currTourStartDay - 1 < N; omega⟩
  refine ⟨?_, ?_, ?_, dennLoop_ne_placeholder fc start N out inb⟩
  · intro hp
    rw [dennLoop_succ]
    rcases hp with h | h
    · rw [if_pos h]
    · split_ifs <;> rfl
  · intro hp hc
    rw [dennLoop_succ]
    have hc1 : s.currTourEndDay = N - 1 ∧ s.currTourStartDay = 0 := hc
    rw [if_neg (fun h => hp (Or.inl h)), if_neg (fun h => hp (Or.inr h)), if_pos hc1]
  · intro hp hc
    have hstep : dennLoop fc start N out inb (fuel + 1) s =
        match dennBestOut N out s, dennBestIn inb s with
        | none, none => .returned []
        | some f, none => dennLoop fc start N out inb fuel (dennForward s f)
        | none, some g => dennLoop fc start N out inb fuel (dennBackward s g)
        | some f, some g =>
          if f.cost < g.cost then dennLoop fc start N out inb fuel (dennForward s f)
          else dennLoop fc start N out inb fuel (dennBackward s g) := by
      rw [dennLoop_succ]
      have hc1 : ¬ (s.currTourEndDay = N - 1 ∧ s.currTourStartDay = 0) := hc
      rw [if_neg (fun h => hp (Or.inl h)), if_neg (fun h => hp (Or.inr h)), if_neg hc1]
    refine ⟨?_, ?_, ?_, ?_⟩
    · intro f ho hi
      refine ⟨(dennBestOut_some fc N out hout s hb f ho).1,
        dennBestIn_none fc N inb hinb s hb hi, hfwd f ho, ?_⟩
      rw [hstep, ho, hi]
    · intro g ho hi
      refine ⟨dennBestOut_none fc N out hout s hb ho,
        (dennBestIn_some fc N inb hinb s hb g hi).1, hbwd g hi, ?_⟩
      rw [hstep, ho, hi]
    · intro f g ho hi
      refine ⟨(dennBestOut_some fc N out hout s hb f ho).1,
        (dennBestIn_some fc N inb hinb s hb g hi).1, hfwd f ho, hbwd g hi, ?_, ?_⟩
      · intro hlt
        rw [hstep, ho, hi]
        exact if_pos hlt
      · intro hlt
        rw [hstep, ho, hi]
        exact if_neg hlt
    · intro ho hi
      refine ⟨dennBestOut_none fc N out hout s hb ho,
        dennBestIn_none fc N inb hinb s hb hi, ?_⟩
      rw [hstep, ho, hi]

theorem dennLoop_extension_rule_witness :
    dennBestOut 4 (sortOutboundFlights ringTable 4) (dennInit 2 2 0 4) = some ⟨3, 1⟩ ∧
    dennBestIn (sortInboundFlights ringTable 4) (dennInit 2 2 0 4) = some ⟨1, 1⟩ ∧
    dennLoop ringTable 0 4 (sortOutboundFlights ringTable 4) (sortInboundFlights ringTable 4)
        (9 + 1) (dennInit 2 2 0 4) =
      dennLoop ringTable 0 4 (sortOutboundFlights ringTable 4)
        (sortInboundFlights ringTable 4) 9 (dennBackward (dennInit 2 2 0 4) ⟨1, 1⟩) ∧
    makeDoubleEndedNNTour 2 2 0 4 ringTable (sortOutboundFlights ringTable 4)
      (sortInboundFlights ringTable 4) 10 = .returned [0, 1, 2, 3, 0] :=
  ⟨by decide, by decide,
    ((((dennLoop_extension_rule ringTable 0 4 (sortOutboundFlights ringTable 4)
      (sortInboundFlights ringTable 4) (sortOutboundFlights_isIndex ringTable 4)
      (sortInboundFlights_isIndex ringTable 4) 9 (dennInit 2 2 0 4)
      (dennBounds_init 2 2 0 4 (by decide) (by decide))).2.2.1
      (by unfold PinnedLegMissing; decide) (by unfold DENNComplete; decide)).2.2.1
      ⟨3, 1⟩ ⟨1, 1⟩ (by decide) (by decide)).2.2.2.2.2) (by decide),
    by decide⟩

/-! ## `restrictedDoubleBridgeKick` -/

theorem drawDay_range (rand : Nat → Nat) (size : Nat) (hs : 2 ≤ size) :
    ∀ (fuel : Nat) (days : List Nat) (n d n1 : Nat),
      drawDay rand size fuel days n = some (d, n1) → 1 ≤ d ∧ d ≤ size - 1 := by
  intro fuel
  induction fuel with
  | zero => intro days n d n1 h; simp [drawDay] at h
  | succ fuel ih =>
    intro days n d n1 h
    simp only [drawDay] at h
    split_ifs at h with hm
    · exact ih _ _ _ _ h
    · simp only [Option.some.injEq, Prod.mk.injEq] at h
      have hlt : rand n % (size - 1) < size - 1 := Nat.mod_lt _ (by omega)
      omega

theorem drawDays_range (rand : Nat → Nat) (size fuel : Nat) (hs : 2 ≤ size) :
    ∀ (k : Nat) (days : List Nat) (n : Nat) (ds : List Nat) (n1 : Nat),
      (∀ x, x ∈ days → 1 ≤ x ∧ x ≤ size - 1) →
      drawDays rand size fuel k days n = some (ds, n1) →
      ds.length = days.length + k ∧ ∀ x, x ∈ ds → 1 ≤ x ∧ x ≤ size - 1 := by
  intro k
  induction k with
  | zero =>
    intro days n ds n1 hin h
    simp only [drawDays, Option.some.injEq, Prod.mk.injEq] at h
    rw [← h.1]
    exact ⟨rfl, hin⟩
  | succ k ih =>
    intro days n ds n1 hin h
    simp only [drawDays] at h
    cases hd : drawDay rand size fuel days n with
    | none => rw [hd] at h; simp at h
    | some p =>
      obtain ⟨d, n2⟩ := p
      rw [hd] at h
      dsimp only at h
      have hr := drawDay_range rand size hs fuel days n d n2 hd
      obtain ⟨h1, h2⟩ := ih (days ++ [d]) n2 ds n1 (by
        intro x hx
        rcases List.mem_append.mp hx with hx1 | hx1
        · exact hin x hx1
        · simp only [List.mem_singleton] at hx1
          subst hx1; exact hr) h
      refine ⟨?_, h2⟩
      rw [h1]; simp; omega

theorem drawTuple_spec (rand : Nat → Nat) (size : Nat) (hs : 2 ≤ size) :
    ∀ (fuel n : Nat) (s : List Nat) (n1 : Nat),
      drawTuple rand size fuel n = some (s, n1) →
      1 ≤ s.getD 0 0 ∧ s.getD 0 0 + 1 < s.getD 1 0 ∧ s.getD 1 0 + 1 < s.getD 2 0 ∧
        s.getD 2 0 + 1 < s.getD 3 0 ∧ s.getD 3 0 ≤ size - 1 := by
  intro fuel
  induction fuel with
  | zero => intro n s n1 h; simp [drawTuple] at h
  | succ fuel ih =>
    intro n s n1 h
    simp only [drawTuple] at h
    cases hd : drawDays rand size (fuel + 1) 4 [] n with
    | none => rw [hd] at h; simp at h
    | some p =>
      obtain ⟨days, n2⟩ := p
      rw [hd] at h
      dsimp only at h
      split_ifs at h with hg
      · simp only [Option.some.injEq, Prod.mk.injEq] at h
        obtain ⟨hlen, hin⟩ := drawDays_range rand size (fuel + 1) hs 4 [] n days n2
          (by intro x hx; simp at hx) hd
        have hslen : s.length = 4 := by
          rw [← h.1, List.length_insertionSort, hlen]; rfl
        have hsin : ∀ x, x ∈ s → 1 ≤ x ∧ x ≤ size - 1 := by
          intro x hx
          rw [← h.1] at hx
          exact hin x ((List.perm_insertionSort _ _).subset hx)
        have hget : ∀ i, i < 4 → s.getD i 0 ∈ s := by
          intro i hi
          have := at_mem s i (by omega)
          exact this
        rw [h.1] at hg
        refine ⟨(hsin _ (hget 0 (by omega))).1, by omega, by omega, by omega,
          (hsin _ (hget 3 (by omega))).2⟩
      · exact ih _ _ _ h

theorem accept_exact (fl : ℚ → ℚ) (hmono : Monotone fl) (hint : ∀ z : ℤ, fl (z : ℚ) = (z : ℚ))
    (c : Int) (x : ℚ) (h : (c : ℚ) < fl x) : (c : ℚ) < x := by
  by_contra hx
  have h1 : fl x ≤ fl (c : ℚ) := hmono (not_lt.mp hx)
  rw [hint c] at h1
  exact absurd h (not_lt.mpr h1)

theorem kickLoop_spec (fc : FlightCosts) (t : Tour) (R : ℚ) (fl : ℚ → ℚ) (rand : Nat → Nat)
    (fuel : Nat) (hs : 2 ≤ t.length) (hmono : Monotone fl)
    (hint : ∀ z : ℤ, fl (z : ℚ) = (z : ℚ)) :
    ∀ (k n : Nat) (r : Tour), kickLoop fc t R fl rand fuel k n = some r →
      r = [] ∨ (KickOutcome fc t r ∧ 0 < evalTourCost fc r ∧ Rearranged t r ∧
        (evalTourCost fc r : ℚ) < R * (evalTourCost fc t : ℚ)) := by
  intro k
  induction k with
  | zero =>
    intro n r h
    simp only [kickLoop, Option.some.injEq] at h
    exact Or.inl h.symm
  | succ k ih =>
    intro n r h
    simp only [kickLoop] at h
    cases hd : drawTuple rand t.length fuel n with
    | none => rw [hd] at h; simp at h
    | some p =>
      obtain ⟨days, n1⟩ := p
      rw [hd] at h
      dsimp only at h
      split_ifs at h with hacc
      · simp only [Option.some.injEq] at h
        obtain ⟨h1, h2, h3, h4, h5⟩ := drawTuple_spec rand t.length hs fuel n days n1 hd
        rw [h] at hacc
        right
        refine ⟨Or.inr ⟨_, _, _, _, h1, h2, h3, h4, h5, h.symm, hacc.1⟩, hacc.1, ?_,
          accept_exact fl hmono hint _ _ hacc.2⟩
        rw [← h]
        exact rearranged_doubleBridge t _ _ _ _ h1 (by omega) (by omega) (by omega) (by omega)
      · exact ih _ _ h

theorem kickLoop_returns (fc : FlightCosts) (t : Tour) (R : ℚ) (fl : ℚ → ℚ) (rand : Nat → Nat)
    (fuel : Nat) (hT : ∀ n, (drawTuple rand t.length fuel n).isSome = true) :
    ∀ (k n : Nat), (kickLoop fc t R fl rand fuel k n).isSome = true := by
  intro k
  induction k with
  | zero => intro n; rfl
  | succ k ih =>
    intro n
    simp only [kickLoop]
    have hn := hT n
    cases hd : drawTuple rand t.length fuel n with
    | none => rw [hd] at hn; simp at hn
    | some p =>
      obtain ⟨days, n1⟩ := p
      dsimp only
      split_ifs
      · rfl
      · exact ih n1

theorem drawDay_zero_stuck (size : Nat) :
    ∀ (fuel : Nat) (days : List Nat) (n : Nat), 1 ∈ days →
      drawDay (fun _ => 0) size fuel days n = none := by
  intro fuel
  induction fuel with
  | zero => intro days n _; rfl
  | succ fuel ih =>
    intro days n h
    simp only [drawDay, Nat.zero_mod, Nat.add_zero]
    rw [if_pos h]
    exact ih days (n + 1) h

theorem drawDays_zero_stuck_of_mem (size fuel : Nat) (k : Nat) (days : List Nat) (n : Nat)
    (h : 1 ∈ days) : drawDays (fun _ => 0) size fuel (k + 1) days n = none := by
  rw [drawDays, drawDay_zero_stuck size fuel days n h]

theorem drawDays_zero_stuck (size fuel : Nat) (n : Nat) :
    drawDays (fun _ => 0) size fuel 4 [] n = none := by
  rw [drawDays]
  cases fuel with
  | zero => rfl
  | succ fuel =>
    rw [drawDay]
    simp only [Nat.zero_mod, Nat.add_zero, List.not_mem_nil, if_false, List.nil_append]
    exact drawDays_zero_stuck_of_mem size (fuel + 1) 2 [1] (n + 1) (by simp)

theorem drawTuple_zero_stuck (size : Nat) (fuel n : Nat) :
    drawTuple (fun _ => 0) size fuel n = none := by
  cases fuel with
  | zero => rfl
  | succ fuel =>
    simp only [drawTuple]
    rw [drawDays_zero_stuck]

theorem kickLoop_zero_stuck (fc : FlightCosts) (t : Tour) (R : ℚ) (fl : ℚ → ℚ)
    (fuel k n : Nat) : kickLoop fc t R fl (fun _ => 0) fuel (k + 1) n = none := by
  rw [kickLoop, drawTuple_zero_stuck]

theorem drawTuple_cycle (n : Nat) :
    (drawTuple (fun i => 2 * (i % 4)) 12 1 n).isSome = true := by
  have h4 : n % 4 = 0 ∨ n % 4 = 1 ∨ n % 4 = 2 ∨ n % 4 = 3 := by omega
  simp only [drawTuple, drawDays, drawDay]
  rcases h4 with h | h | h | h
  · have h1 : (n + 1) % 4 = 1 := by omega
    have h2 : (n + 1 + 1) % 4 = 2 := by omega
    have h3 : (n + 1 + 1 + 1) % 4 = 3 := by omega
    simp [h, h1, h2, h3]
  · have h1 : (n + 1) % 4 = 2 := by omega
    have h2 : (n + 1 + 1) % 4 = 3 := by omega
    have h3 : (n + 1 + 1 + 1) % 4 = 0 := by omega
    simp [h, h1, h2, h3]
  · have h1 : (n + 1) % 4 = 3 := by omega
    have h2 : (n + 1 + 1) % 4 = 0 := by omega
    have h3 : (n + 1 + 1 + 1) % 4 = 1 := by omega
    simp [h, h1, h2, h3]
  · have h1 : (n + 1) % 4 = 0 := by omega
    have h2 : (n + 1 + 1) % 4 = 1 := by omega
    have h3 : (n + 1 + 1 + 1) % 4 = 2 := by omega
    simp [h, h1, h2, h3]

/-- A sequence of draws on which no generation ends: when every call of
`rand()` gives 0, the second day drawn equals the first for ever, and the call
on the tour `0, 1, ..., 10, 0` has no result with any amount of fuel. -/
theorem restrictedDoubleBridgeKick_constant_draws :
    ∀ fuel : Nat, restrictedDoubleBridgeKick elevenTour unitTable (27 / 20) (fun x => x) 2000
      (fun _ => 0) fuel = none := by
  intro fuel
  exact kickLoop_zero_stuck unitTable elevenTour (27 / 20) (fun x => x) fuel 1999 0

theorem drawDay_mono (rand : Nat → Nat) (size : Nat) :
    ∀ (fuel fuel1 : Nat) (days : List Nat) (n : Nat) (r : Nat × Nat),
      drawDay rand size fuel days n = some r → fuel ≤ fuel1 →
      drawDay rand size fuel1 days n = some r := by
  intro fuel
  induction fuel with
  | zero => intro fuel1 days n r h; simp [drawDay] at h
  | succ fuel ih =>
    intro fuel1 days n r h hle
    obtain ⟨f1, rfl⟩ : ∃ f1, fuel1 = f1 + 1 := ⟨fuel1 - 1, by omega⟩
    simp only [drawDay] at h ⊢
    split_ifs at h ⊢ with hm
    · exact ih f1 days (n + 1) r h (by omega)
    · exact h

theorem drawDays_mono (rand : Nat → Nat) (size fuel fuel1 : Nat) (hle : fuel ≤ fuel1) :
    ∀ (k : Nat) (days : List Nat) (n : Nat) (r : List Nat × Nat),
      drawDays rand size fuel k days n = some r →
      drawDays rand size fuel1 k days n = some r := by
  intro k
  induction k with
  | zero => intro days n r h; simpa [drawDays] using h
  | succ k ih =>
    intro days n r h
    simp only [drawDays] at h ⊢
    cases hd : drawDay rand size fuel days n with
    | none => rw [hd] at h; simp at h
    | some p =>
      rw [hd] at h
      rw [drawDay_mono rand size fuel fuel1 days n p hd hle]
      exact ih _ _ r h

theorem drawTuple_mono (rand : Nat → Nat) (size : Nat) :
    ∀ (fuel fuel1 n : Nat) (r : List Nat × Nat),
      drawTuple rand size fuel n = some r → fuel ≤ fuel1 →
      drawTuple rand size fuel1 n = some r := by
  intro fuel
  induction fuel with
  | zero => intro fuel1 n r h; simp [drawTuple] at h
  | succ fuel ih =>
    intro fuel1 n r h hle
    obtain ⟨f1, rfl⟩ : ∃ f1, fuel1 = f1 + 1 := ⟨fuel1 - 1, by omega⟩
    simp only [drawTuple] at h ⊢
    cases hd : drawDays rand size (fuel + 1) 4 [] n with
    | none => rw [hd] at h; simp at h
    | some p =>
      rw [hd] at h
      rw [drawDays_mono rand size (fuel + 1) (f1 + 1) hle 4 [] n p hd]
      dsimp only at h ⊢
      split_ifs at h ⊢ with hc
      · exact h
      · exact ih f1 _ r h (by omega)

theorem kickLoop_mono (fc : FlightCosts) (t : Tour) (R : ℚ) (fl : ℚ → ℚ) (rand : Nat → Nat)
    (fuel fuel1 : Nat) (hle : fuel ≤ fuel1) :
    ∀ (k n : Nat) (r : Tour), kickLoop fc t R fl rand fuel k n = some r →
      kickLoop fc t R fl rand fuel1 k n = some r := by
  intro k
  induction k with
  | zero => intro n r h; simpa [kickLoop] using h
  | succ k ih =>
    intro n r h
    simp only [kickLoop] at h ⊢
    cases hd : drawTuple rand t.length fuel n with
    | none => rw [hd] at h; simp at h
    | some p =>
      rw [hd] at h
      rw [drawTuple_mono rand t.length fuel fuel1 n p hd hle]
      dsimp only at h ⊢
      split_ifs at h ⊢ with hc
      · exact h
      · exact ih _ r h

theorem kickEnds_of_returns (fc : FlightCosts) (t : Tour) (R : ℚ) (fl : ℚ → ℚ)
    (rand : Nat → Nat) (fuel : Nat) :
    ∀ (k n : Nat), (kickLoop fc t R fl rand fuel k n).isSome = true →
      KickEnds fc t R fl rand k n := by
  intro k
  induction k with
  | zero => intro n _; trivial
  | succ k ih =>
    intro n h
    simp only [kickLoop] at h
    cases hd : drawTuple rand t.length fuel n with
    | none => rw [hd] at h; simp at h
    | some p =>
      obtain ⟨days, n1⟩ := p
      rw [hd] at h
      dsimp only at h
      refine ⟨fuel, days, n1, hd, ?_⟩
      split_ifs at h with hc
      · exact Or.inl hc
      · exact Or.inr (ih n1 h)

theorem returns_of_kickEnds (fc : FlightCosts) (t : Tour) (R : ℚ) (fl : ℚ → ℚ)
    (rand : Nat → Nat) :
    ∀ (k n : Nat), KickEnds fc t R fl rand k n →
      ∃ fuel, (kickLoop fc t R fl rand fuel k n).isSome = true := by
  intro k
  induction k with
  | zero => intro n _; exact ⟨0, rfl⟩
  | succ k ih =>
    intro n h
    obtain ⟨fuel, days, n1, hd, hor⟩ := h
    rcases hor with hc | hrest
    · refine ⟨fuel, ?_⟩
      simp only [kickLoop]
      rw [hd]
      dsimp only
      rw [if_pos hc]
      rfl
    · obtain ⟨fuel2, h2⟩ := ih n1 hrest
      refine ⟨max fuel fuel2, ?_⟩
      obtain ⟨r, hr⟩ := Option.isSome_iff_exists.mp h2
      have hr2 := kickLoop_mono fc t R fl rand fuel2 (max fuel fuel2) (le_max_right _ _) k n1 r hr
      simp only [kickLoop]
      rw [drawTuple_mono rand t.length fuel (max fuel fuel2) n (days, n1) hd (le_max_left _ _)]
      dsimp only
      split_ifs
      · rfl
      · rw [hr2]; rfl

theorem drawTuple_none_of_short (rand : Nat → Nat) (size : Nat) (hs : 2 ≤ size)
    (h7 : size ≤ 7) (fuel n : Nat) : drawTuple rand size fuel n = none := by
  cases hd : drawTuple rand size fuel n with
  | none => rfl
  | some p =>
    obtain ⟨days, n1⟩ := p
    obtain ⟨h1, h2, h3, h4, h5⟩ := drawTuple_spec rand size hs fuel n days n1 hd
    omega

theorem perform2OptLoop_restarts (fc : FlightCosts) :
    ∀ (fuel : Nat) (b : Tour) (bc : Int), 2 ≤ b.length → Feasible fc b →
      bc = evalTourCost fc b → bc ≤ fuel →
      ∃ T n, perform2OptLoop fc fuel b bc = some T ∧
        perform2OptRestarts fc fuel b bc = some n ∧ (n : Int) < bc := by
  intro fuel
  induction fuel with
  | zero =>
    intro b bc hlen hf hbc hfuel
    have := (evalTourCost_pos_iff fc b hlen).mpr hf
    simp at hfuel
    omega
  | succ fuel ih =>
    intro b bc hlen hf hbc hfuel
    have hpos : 0 < bc := by rw [hbc]; exact (evalTourCost_pos_iff fc b hlen).mpr hf
    have hspec := opt2Day1_spec fc bc b (b.length - 2 - 1) 1 (le_refl 1) (fun h => by omega)
    simp only [perform2OptLoop, perform2OptRestarts]
    cases hd : opt2Day1 fc bc (b.length - 2 - 1) 1 b with
    | restart r =>
      obtain ⟨t, c⟩ := r
      obtain ⟨h1, h2, h3, h4⟩ := feasible_of_goodRestart fc b bc (t, c) hlen hf hbc
        (hspec.1 _ hd)
      dsimp only at h1 h2 h3 h4 ⊢
      obtain ⟨T, n, hT, hn, hlt⟩ := ih t c (by omega) h2 h3 (by push_cast at hfuel; omega)
      refine ⟨T, n + 1, hT, ?_, by push_cast; omega⟩
      rw [hn]; rfl
    | next s =>
      exact ⟨s, 0, rfl, rfl, by simpa using hpos⟩

theorem perform2OptWithDLBsLoop_restarts (fc : FlightCosts) :
    ∀ (fuel : Nat) (b : Tour) (bc : Int) (bits : List Nat), 2 ≤ b.length → Feasible fc b →
      bc = evalTourCost fc b → bc ≤ fuel →
      ∃ R n, perform2OptWithDLBsLoop fc fuel b bc bits = some R ∧
        perform2OptWithDLBsRestarts fc fuel b bc bits = some n ∧ (n : Int) < bc := by
  intro fuel
  induction fuel with
  | zero =>
    intro b bc bits hlen hf hbc hfuel
    have := (evalTourCost_pos_iff fc b hlen).mpr hf
    simp at hfuel
    omega
  | succ fuel ih =>
    intro b bc bits hlen hf hbc hfuel
    have hpos : 0 < bc := by rw [hbc]; exact (evalTourCost_pos_iff fc b hlen).mpr hf
    have hspec := dlbDay1_restart fc bc b (b.length - 2 - 1) 1 bits (le_refl 1)
      (fun h => by omega)
    simp only [perform2OptWithDLBsLoop, perform2OptWithDLBsRestarts]
    cases hd : dlbDay1 fc b bc (b.length - 2 - 1) 1 bits with
    | restart r =>
      obtain ⟨t, c, bits1⟩ := r
      obtain ⟨h1, h2, h3, h4⟩ := feasible_of_goodRestart fc b bc (t, c) hlen hf hbc
        (hspec _ hd)
      dsimp only at h1 h2 h3 h4 ⊢
      obtain ⟨R, n, hR, hn, hlt⟩ := ih t c bits1 (by omega) h2 h3
        (by push_cast at hfuel; omega)
      refine ⟨R, n + 1, hR, ?_, by push_cast; omega⟩
      rw [hn]; rfl
    | next s =>
      exact ⟨(b, bits), 0, rfl, rfl, by simpa using hpos⟩

/-- With the sums taken in `Int`: for every cost table and every feasible
initial tour (of length at least 2), with the deadline not firing,
`perform2Opt` and
`perform2OptWithDLBs` return once the fuel reaches the initial cost, and the
number of times `goto from_scratch` is taken is below the initial cost; in
every pass from a feasible `bestTour` with `bestCost = evalTourCost(bestTour)`
an accepted move leaves a feasible tour whose recorded cost is its evaluated
cost, is positive and is strictly below the cost before. -/
theorem localSearch_restarts_bounded (fc : FlightCosts) (numCities : Nat) (t : Tour)
    (fuel : Nat) (hlen : 2 ≤ t.length) (hf : Feasible fc t)
    (hfuel : evalTourCost fc t ≤ fuel) :
    (∃ T n, perform2Opt fc fuel t = some T ∧
      perform2OptRestarts fc fuel t (evalTourCost fc t) = some n ∧
      (n : Int) < evalTourCost fc t) ∧
    (∃ T n, perform2OptWithDLBs fc numCities fuel t = some T ∧
      perform2OptWithDLBsRestarts fc fuel t (evalTourCost fc t)
        (List.replicate numCities 0) = some n ∧
      (n : Int) < evalTourCost fc t) ∧
    (∀ (b : Tour) (r : Tour × Int), 2 ≤ b.length → Feasible fc b →
      opt2Day1 fc (evalTourCost fc b) (b.length - 2 - 1) 1 b = .restart r →
      Feasible fc r.1 ∧ r.2 = evalTourCost fc r.1 ∧ 0 < r.2 ∧ r.2 < evalTourCost fc b) ∧
    (∀ (b : Tour) (bits : List Nat) (r : Tour × Int × List Nat), 2 ≤ b.length →
      Feasible fc b →
      dlbDay1 fc b (evalTourCost fc b) (b.length - 2 - 1) 1 bits = .restart r →
      Feasible fc r.1 ∧ r.2.1 = evalTourCost fc r.1 ∧ 0 < r.2.1 ∧
        r.2.1 < evalTourCost fc b) := by
  refine ⟨?_, ?_, ?_, ?_⟩
  · exact perform2OptLoop_restarts fc fuel t _ hlen hf rfl hfuel
  · obtain ⟨R, n, hR, hn, hlt⟩ := perform2OptWithDLBsLoop_restarts fc fuel t _
      (List.replicate numCities 0) hlen hf rfl hfuel
    exact ⟨R.1, n, by simp [perform2OptWithDLBs, hR], hn, hlt⟩
  · intro b r hb hfb hd
    have hspec := opt2Day1_spec fc (evalTourCost fc b) b (b.length - 2 - 1) 1 (le_refl 1)
      (fun h => by omega)
    obtain ⟨h1, h2, h3, h4⟩ := feasible_of_goodRestart fc b _ r hb hfb rfl (hspec.1 _ hd)
    refine ⟨h2, h3, ?_, h4⟩
    rw [h3]
    exact (evalTourCost_pos_iff fc r.1 (by omega)).mpr h2
  · intro b bits r hb hfb hd
    have hspec := dlbDay1_restart fc (evalTourCost fc b) b (b.length - 2 - 1) 1 bits
      (le_refl 1) (fun h => by omega)
    obtain ⟨h1, h2, h3, h4⟩ := feasible_of_goodRestart fc b _ (r.1, r.2.1) hb hfb rfl
      (hspec _ hd)
    dsimp only at h1 h2 h3 h4
    refine ⟨h2, h3, ?_, h4⟩
    rw [h3]
    exact (evalTourCost_pos_iff fc r.1 (by omega)).mpr h2

theorem localSearch_restarts_bounded_witness :
    (2 ≤ [0, 1, 2, 3, 4, 5, 6, 7, 0].length ∧
      Feasible dlbTable [0, 1, 2, 3, 4, 5, 6, 7, 0] ∧
      evalTourCost dlbTable [0, 1, 2, 3, 4, 5, 6, 7, 0] ≤ (80 : Nat)) ∧
    (∃ T n, perform2Opt dlbTable 80 [0, 1, 2, 3, 4, 5, 6, 7, 0] = some T ∧
      perform2OptRestarts dlbTable 80 [0, 1, 2, 3, 4, 5, 6, 7, 0]
        (evalTourCost dlbTable [0, 1, 2, 3, 4, 5, 6, 7, 0]) = some n ∧
      (n : Int) < evalTourCost dlbTable [0, 1, 2, 3, 4, 5, 6, 7, 0]) ∧
    (∃ T n, perform2OptWithDLBs dlbTable 8 80 [0, 1, 2, 3, 4, 5, 6, 7, 0] = some T ∧
      perform2OptWithDLBsRestarts dlbTable 80 [0, 1, 2, 3, 4, 5, 6, 7, 0]
        (evalTourCost dlbTable [0, 1, 2, 3, 4, 5, 6, 7, 0]) (List.replicate 8 0) = some n ∧
      (n : Int) < evalTourCost dlbTable [0, 1, 2, 3, 4, 5, 6, 7, 0]) :=
  ⟨⟨by decide, by decide, by decide⟩,
    (localSearch_restarts_bounded dlbTable 8 [0, 1, 2, 3, 4, 5, 6, 7, 0] 80
      (by decide) (by decide) (by decide)).1,
    (localSearch_restarts_bounded dlbTable 8 [0, 1, 2, 3, 4, 5, 6, 7, 0] 80
      (by decide) (by decide) (by decide)).2.1⟩

/-! ## The reset window of `updateDontLookBits` -/

theorem clearWindow_frame (old new : Tour) (s : Int) (c : Nat) :
    ∀ (k j : Nat) (bits : List Nat),
      (∀ j1, j ≤ j1 → j1 < j + k → s + ((j1 : Int) - 3) ≥ 0 →
        s + ((j1 : Int) - 3) < new.length → c ≠ at_ old (s + ((j1 : Int) - 3)).toNat) →
      (clearWindow old new s k j bits).getD c 0 = bits.getD c 0 := by
  intro k
  induction k with
  | zero => intro j bits _; rfl
  | succ k ih =>
    intro j bits h
    simp only [clearWindow]
    split_ifs with ht
    · rw [ih (j + 1) _ (fun j1 h1 h2 => h j1 (by omega) (by omega))]
      rw [getD_set0, if_neg (h j (le_refl _) (by omega) ht.1 ht.2)]
    · exact ih (j + 1) _ (fun j1 h1 h2 => h j1 (by omega) (by omega))

theorem updateLoop_frame (old new : Tour) (c : Nat) :
    ∀ (k city : Nat) (bits : List Nat),
      (∀ x, city ≤ x → x < city + k →
        neighbourChanged old new (findSlot old x old.length 0) (findSlot new x new.length 0) →
        ∀ j1 : Nat, j1 < 7 → findSlot old x old.length 0 + ((j1 : Int) - 3) ≥ 0 →
          findSlot old x old.length 0 + ((j1 : Int) - 3) < new.length →
          c ≠ at_ old (findSlot old x old.length 0 + ((j1 : Int) - 3)).toNat) →
      (updateLoop old new k city bits).getD c 0 = bits.getD c 0 := by
  intro k
  induction k with
  | zero => intro city bits _; rfl
  | succ k ih =>
    intro city bits h
    simp only [updateLoop]
    rw [ih (city + 1) _ (fun x h1 h2 => h x (by omega) (by omega))]
    split_ifs with hch
    · exact clearWindow_frame old new _ c 7 0 bits
        (fun j1 _ h2 h3 h4 => h city (le_refl _) (by omega) hch j1 (by omega) h3 h4)
    · rfl

theorem at_mem_middle (N : Nat) (t : Tour) (hl : t.length = N + 1) (p : Nat) (h1 : 1 ≤ p)
    (h2 : p < N) : at_ t p ∈ (t.drop 1).take (N - 1) := by
  rw [List.mem_iff_getElem]
  refine ⟨p - 1, by simp; omega, ?_⟩
  rw [List.getElem_take, List.getElem_drop]
  simp only [at_eq]
  rw [List.getElem?_eq_getElem (by omega)]
  simp only [Option.getD_some]
  congr 1
  omega

theorem middle_mem_at (N : Nat) (t : Tour) (hl : t.length = N + 1) (x : Nat)
    (h : x ∈ (t.drop 1).take (N - 1)) : ∃ p, 1 ≤ p ∧ p < N ∧ at_ t p = x := by
  rw [List.mem_iff_getElem] at h
  obtain ⟨i, hi, e⟩ := h
  have hi2 : i < N - 1 := by simp at hi; omega
  refine ⟨i + 1, by omega, by omega, ?_⟩
  rw [List.getElem_take, List.getElem_drop] at e
  simp only [at_eq]
  rw [List.getElem?_eq_getElem (by omega)]
  simp only [Option.getD_some]
  rw [← e]
  congr 1
  omega

theorem validTour_at_ne_start (N start : Nat) (t : Tour) (hv : ValidTour N start t)
    (p : Nat) (h1 : 1 ≤ p) (h2 : p < N) : at_ t p ≠ start := by
  obtain ⟨hl, _, _, hm⟩ := hv
  have := hm.subset (at_mem_middle N t hl p h1 h2)
  simp only [List.mem_filter, List.mem_range, ne_eq, decide_not, Bool.not_eq_true',
    decide_eq_false_iff_not] at this
  exact this.2

theorem validTour_position (N start : Nat) (t : Tour) (hv : ValidTour N start t) (x : Nat)
    (hx : x < N) (hne : x ≠ start) : ∃ p, 1 ≤ p ∧ p < N ∧ at_ t p = x := by
  obtain ⟨hl, _, _, hm⟩ := hv
  apply middle_mem_at N t hl x
  apply hm.symm.subset
  simp only [List.mem_filter, List.mem_range, ne_eq, decide_not, Bool.not_eq_true',
    decide_eq_false_iff_not]
  exact ⟨hx, hne⟩

theorem validTour_findSlot (N start : Nat) (t : Tour) (hN : 1 ≤ N) (hv : ValidTour N start t)
    (p : Nat) (hp : p < N) : findSlot t (at_ t p) t.length 0 = (p : Int) := by
  have hd := distinct_index t (validTour_distinct N start t hN hv)
  have hl := hv.1
  apply findSlot_eq t (at_ t p) t.length 0 p (Nat.zero_le _) (by omega) rfl
  intro q _ hq
  exact hd q p hq (by omega)

theorem neighbourChanged_nat (old new : Tour) (p q : Nat) :
    neighbourChanged old new (p : Int) (q : Int) ↔
      (1 ≤ p ∧ 1 ≤ q ∧ at_ old (p - 1) ≠ at_ new (q - 1)) ∨
      (p + 1 < old.length ∧ q + 1 < new.length ∧ at_ old (p + 1) ≠ at_ new (q + 1)) := by
  unfold neighbourChanged
  have e1 : ((p : Int) - 1).toNat = p - 1 := by omega
  have e2 : ((q : Int) - 1).toNat = q - 1 := by omega
  have e3 : ((p : Int) + 1).toNat = p + 1 := by omega
  have e4 : ((q : Int) + 1).toNat = q + 1 := by omega
  rw [e1, e2, e3, e4]
  constructor
  · rintro (⟨h1, h2, h3⟩ | ⟨⟨_, h1⟩, ⟨_, h2⟩, h3⟩)
    · exact Or.inl ⟨by omega, by omega, h3⟩
    · exact Or.inr ⟨by omega, by omega, h3⟩
  · rintro (⟨h1, h2, h3⟩ | ⟨h1, h2, h3⟩)
    · exact Or.inl ⟨by omega, by omega, h3⟩
    · exact Or.inr ⟨⟨by omega, by omega⟩, ⟨by omega, by omega⟩, h3⟩

theorem resetWindow_of_code (N start : Nat) (old new : Tour) (hN : 1 ≤ N)
    (ho : ValidTour N start old) (hn : ValidTour N start new) (x : Nat) (hx : x < N)
    (hch : neighbourChanged old new (findSlot old x old.length 0)
      (findSlot new x new.length 0))
    (j1 : Nat) (hj : j1 < 7) (h3 : findSlot old x old.length 0 + ((j1 : Int) - 3) ≥ 0)
    (h4 : findSlot old x old.length 0 + ((j1 : Int) - 3) < new.length) :
    ResetWindow N old new (at_ old (findSlot old x old.length 0 + ((j1 : Int) - 3)).toNat) := by
  have hlo := ho.1
  have hln := hn.1
  by_cases hxs : x = start
  · have f1 : findSlot old x old.length 0 = ((0 : Nat) : Int) := by
      have := validTour_findSlot N start old hN ho 0 (by omega)
      rw [ho.2.1, ← hxs] at this
      exact this
    have f2 : findSlot new x new.length 0 = ((0 : Nat) : Int) := by
      have := validTour_findSlot N start new hN hn 0 (by omega)
      rw [hn.2.1, ← hxs] at this
      exact this
    rw [f1, f2, neighbourChanged_nat] at hch
    rw [f1] at h3 h4 ⊢
    rcases hch with ⟨h, _, _⟩ | ⟨_, _, hne⟩
    · omega
    simp only [Nat.zero_add] at hne
    have hN2 : 2 ≤ N := by
      by_contra hc
      have e : N = 1 := by omega
      apply hne
      have a := ho.2.2.1
      have b := hn.2.2.1
      rw [e] at a b
      rw [a, b]
    have hx1 : at_ old 1 ≠ start := validTour_at_ne_start N start old ho 1 (le_refl 1) (by omega)
    have hx1N : at_ old 1 < N := validTour_city_lt N start old hN ho 1 (by omega)
    obtain ⟨q, hq1, hq2, hq3⟩ := validTour_position N start new hn (at_ old 1) hx1N hx1
    have hq : q ≠ 1 := by
      intro e; rw [e] at hq3; exact hne hq3.symm
    have ht : (((0 : Nat) : Int) + ((j1 : Int) - 3)).toNat = j1 - 3 := by omega
    rw [ht]
    refine ⟨1, q, j1 - 3, le_refl 1, by omega, hq1, hq2, hq3, Or.inl ?_, ?_, by omega,
      by omega, rfl⟩
    · have a := validTour_at_ne_start N start new hn (q - 1) (by omega) (by omega)
      rw [show (1 : Nat) - 1 = 0 from rfl, ho.2.1]
      exact fun e => a e.symm
    · omega
  · obtain ⟨p, hp1, hp2, hp3⟩ := validTour_position N start old ho x hx hxs
    obtain ⟨q, hq1, hq2, hq3⟩ := validTour_position N start new hn x hx hxs
    have f1 : findSlot old x old.length 0 = (p : Int) := by
      have := validTour_findSlot N start old hN ho p hp2
      rw [hp3] at this
      exact this
    have f2 : findSlot new x new.length 0 = (q : Int) := by
      have := validTour_findSlot N start new hN hn q hq2
      rw [hq3] at this
      exact this
    rw [f1, f2, neighbourChanged_nat] at hch
    rw [f1] at h3 h4 ⊢
    have ht : ((p : Int) + ((j1 : Int) - 3)).toNat = p + j1 - 3 := by omega
    rw [ht]
    refine ⟨p, q, p + j1 - 3, hp1, hp2, hq1, hq2, by rw [hq3, hp3], ?_, ?_, by omega,
      by omega, rfl⟩
    · rcases hch with ⟨_, _, h⟩ | ⟨_, _, h⟩
      · exact Or.inl h
      · exact Or.inr h
    · omega

/-- Claim C21: for every pair of valid tours over the same cities and every
bit vector, `updateDontLookBits` keeps the length of the vector, sets the bit
of a city to 0 when the city sits at an old-tour position within distance 3
of the old position of a non-start city whose left or right neighbour differs
between the old and the new tour, and leaves every other bit as it was; so no
bit is ever set to 1. -/
theorem updateDontLookBits_window (N start : Nat) (old new : Tour) (bits : List Nat)
    (hN : 1 ≤ N) (ho : ValidTour N start old) (hn : ValidTour N start new) :
    (updateDontLookBits old new bits).length = bits.length ∧
    ∀ c, (ResetWindow N old new c → (updateDontLookBits old new bits).getD c 0 = 0) ∧
      (¬ ResetWindow N old new c →
        (updateDontLookBits old new bits).getD c 0 = bits.getD c 0) ∧
      ((updateDontLookBits old new bits).getD c 0 = 0 ∨
        (updateDontLookBits old new bits).getD c 0 = bits.getD c 0) := by
  have hlo := ho.1
  have hln := hn.1
  refine ⟨length_updateLoop old new _ 0 bits, fun c => ⟨?_, ?_, ?_⟩⟩
  · rintro ⟨p, q, t, hp1, hp2, hq1, hq2, hpq, hnb, ht1, ht2, ht3, hc⟩
    have hxN : at_ old p < N := validTour_city_lt N start old hN ho p hp2
    have f1 := validTour_findSlot N start old hN ho p hp2
    have f2 := validTour_findSlot N start new hN hn q hq2
    rw [hpq] at f2
    have hch : neighbourChanged old new (findSlot old (at_ old p) old.length 0)
        (findSlot new (at_ old p) new.length 0) := by
      rw [f1, f2, neighbourChanged_nat]
      rcases hnb with h | h
      · exact Or.inl ⟨hp1, hq1, h⟩
      · exact Or.inr ⟨by omega, by omega, h⟩
    have key := updateLoop_clears old new (old.length - 1) 0 bits (at_ old p) (t + 3 - p)
      (Nat.zero_le _) (by omega) hch (by omega) (by rw [f1]; omega)
      (by rw [f1]; omega)
    rw [f1] at key
    have ht : ((p : Int) + (((t + 3 - p : Nat) : Int) - 3)).toNat = t := by omega
    rw [ht] at key
    rw [hc]
    exact key
  · intro hnw
    apply updateLoop_frame old new c (old.length - 1) 0 bits
    intro x _ hx hch j1 hj h3 h4 hc
    apply hnw
    rw [hc]
    exact resetWindow_of_code N start old new hN ho hn x (by omega) hch j1 hj h3 h4
  · rcases updateLoop_mono old new c (old.length - 1) 0 bits with h | h
    · exact Or.inr h
    · exact Or.inl h

theorem updateDontLookBits_window_witness :
    (updateDontLookBits [0, 1, 2, 3, 4, 5, 6, 7, 8, 9, 0] [0, 2, 1, 3, 4, 5, 6, 7, 8, 9, 0]
        [1, 1, 1, 1, 1, 1, 1, 1, 1, 1]).length = [1, 1, 1, 1, 1, 1, 1, 1, 1, 1].length ∧
    ∀ c, (ResetWindow 10 [0, 1, 2, 3, 4, 5, 6, 7, 8, 9, 0] [0, 2, 1, 3, 4, 5, 6, 7, 8, 9, 0] c →
        (updateDontLookBits [0, 1, 2, 3, 4, 5, 6, 7, 8, 9, 0]
          [0, 2, 1, 3, 4, 5, 6, 7, 8, 9, 0] [1, 1, 1, 1, 1, 1, 1, 1, 1, 1]).getD c 0 = 0) ∧
      (¬ ResetWindow 10 [0, 1, 2, 3, 4, 5, 6, 7, 8, 9, 0]
          [0, 2, 1, 3, 4, 5, 6, 7, 8, 9, 0] c →
        (updateDontLookBits [0, 1, 2, 3, 4, 5, 6, 7, 8, 9, 0]
          [0, 2, 1, 3, 4, 5, 6, 7, 8, 9, 0] [1, 1, 1, 1, 1, 1, 1, 1, 1, 1]).getD c 0 =
          ([1, 1, 1, 1, 1, 1, 1, 1, 1, 1] : List Nat).getD c 0) ∧
      ((updateDontLookBits [0, 1, 2, 3, 4, 5, 6, 7, 8, 9, 0]
          [0, 2, 1, 3, 4, 5, 6, 7, 8, 9, 0] [1, 1, 1, 1, 1, 1, 1, 1, 1, 1]).getD c 0 = 0 ∨
        (updateDontLookBits [0, 1, 2, 3, 4, 5, 6, 7, 8, 9, 0]
          [0, 2, 1, 3, 4, 5, 6, 7, 8, 9, 0] [1, 1, 1, 1, 1, 1, 1, 1, 1, 1]).getD c 0 =
          ([1, 1, 1, 1, 1, 1, 1, 1, 1, 1] : List Nat).getD c 0) :=
  updateDontLookBits_window 10 0 [0, 1, 2, 3, 4, 5, 6, 7, 8, 9, 0]
    [0, 2, 1, 3, 4, 5, 6, 7, 8, 9, 0] [1, 1, 1, 1, 1, 1, 1, 1, 1, 1]
    (by decide) (by decide) (by decide)

/-! ## Flights of equal price in the flight indexes -/

theorem tieBreak_orderedInsert (a : CityCost) :
    ∀ (l : List CityCost), (∀ b, b ∈ l → a.city < b.city) → TieBreakByCity l →
      TieBreakByCity (l.orderedInsert (fun x y => x.cost ≤ y.cost) a)
  | [], _, _ => by simp [TieBreakByCity]
  | b :: l, hgt, hp => by
    unfold TieBreakByCity at hp ⊢
    rw [List.orderedInsert]
    split_ifs with hab
    · exact List.Pairwise.cons (fun y hy _ => hgt y hy) hp
    · obtain ⟨hb, hl⟩ := List.pairwise_cons.mp hp
      refine List.Pairwise.cons ?_ (tieBreak_orderedInsert a l
        (fun y hy => hgt y (List.mem_cons_of_mem _ hy)) hl)
      intro y hy hc
      rcases (List.mem_orderedInsert _).mp hy with e | hm
      · subst e; omega
      · exact hb y hm hc

theorem tieBreak_insertionSort :
    ∀ (l : List CityCost), l.Pairwise (fun a b => a.city < b.city) →
      TieBreakByCity (l.insertionSort (fun x y => x.cost ≤ y.cost))
  | [], _ => by simp [TieBreakByCity]
  | a :: l, hp => by
    obtain ⟨ha, hl⟩ := List.pairwise_cons.mp hp
    rw [List.insertionSort]
    exact tieBreak_orderedInsert a _
      (fun b hb => ha b ((List.mem_insertionSort _).mp hb)) (tieBreak_insertionSort l hl)

theorem pairwise_city_of_map (N : Nat) (l : List CityCost) (f : Nat → Bool)
    (h : l.map CityCost.city = (List.range N).filter f) :
    l.Pairwise (fun a b => a.city < b.city) := by
  have hp : ((List.range N).filter f).Pairwise (fun a b => a < b) :=
    (List.pairwise_lt_range N).filter _
  rw [← h, List.pairwise_map] at hp
  exact hp

theorem index_same_prices (l1 l2 : List CityCost) (hp : l1.Perm l2)
    (h1 : SortedByCost l1) (h2 : SortedByCost l2) :
    l1.map CityCost.cost = l2.map CityCost.cost := by
  apply List.eq_of_perm_of_sorted (r := fun a b : Int => a ≤ b) (hp.map _)
  · exact List.pairwise_map.mpr (sortedByCost_le l1 h1)
  · exact List.pairwise_map.mpr (sortedByCost_le l2 h2)

theorem index_eq_of_tieBreak (l1 l2 : List CityCost) (hp : l1.Perm l2)
    (h1 : SortedByCost l1) (h2 : SortedByCost l2) (t1 : TieBreakByCity l1)
    (t2 : TieBreakByCity l2) : l1 = l2 := by
  haveI : IsAntisymm CityCost
      (fun a b => a.cost ≤ b.cost ∧ (a.cost = b.cost → a.city ≤ b.city)) :=
    ⟨fun a b hab hba => by
      have hc : a.cost = b.cost := le_antisymm hab.1 hba.1
      have hcity : a.city = b.city := le_antisymm (hab.2 hc) (hba.2 hc.symm)
      cases a; cases b
      simp only [CityCost.mk.injEq]
      exact ⟨hcity, hc⟩⟩
  apply List.eq_of_perm_of_sorted
    (r := fun a b : CityCost => a.cost ≤ b.cost ∧ (a.cost = b.cost → a.city ≤ b.city)) hp
  · exact ((sortedByCost_le l1 h1).and t1).imp
      (fun {a b} h => ⟨h.1, fun e => le_of_lt (h.2 e)⟩)
  · exact ((sortedByCost_le l2 h2).and t2).imp
      (fun {a b} h => ⟨h.1, fun e => le_of_lt (h.2 e)⟩)

theorem tieOut_isIndex : IsOutboundIndex tieTable 3 tieOut := by
  intro city day hc hd
  by_cases h : city = 0 ∧ day = 0
  · obtain ⟨e1, e2⟩ := h
    subst e1; subst e2
    refine ⟨by decide, ?_⟩
    unfold SortedByCost
    decide
  · have := sortOutboundFlights_isIndex tieTable 3 city day hc hd
    unfold tieOut
    rw [if_neg h]
    exact this

/-- What `std::sort` promises does not fix the order of ties: on `tieTable`
the table of lists `tieOut` is a possible result of `sortOutboundFlights`
(every list is a rearrangement of the collected flights in which no entry is followed by a strictly cheaper one,
which is all that `std::sort` with the price-only `operator<` promises), and
in the list of city 0 on day 0 the two flights of price 5 stand with
destination 2 before destination 1. -/
theorem flightIndex_tie_not_by_city :
    IsOutboundIndex tieTable 3 tieOut ∧ tieOut 0 0 = [⟨2, 5⟩, ⟨1, 5⟩] ∧
    ¬ TieBreakByCity (tieOut 0 0) :=
  ⟨tieOut_isIndex, by decide, by decide⟩

/-! ## The lookahead against the plain greedy tour -/

theorem greedyLoop_shift (fc : FlightCosts) (N dst : Nat) (out : Nat → Nat → List CityCost) :
    ∀ (k day curr : Nat) (ctv : List Nat) (acc : Int),
      greedyStuck fc N dst out k day curr ctv = false →
      greedyLoop fc N dst out k day curr ctv acc =
        acc + greedyLoop fc N dst out k day curr ctv 0 := by
  intro k
  induction k with
  | zero => intro day curr ctv acc _; simp [greedyLoop]
  | succ k ih =>
    intro day curr ctv acc h
    simp only [greedyStuck] at h
    simp only [greedyLoop]
    split_ifs at h with h1 h2
    · rw [if_pos h1, if_pos h2, if_pos h1, if_pos h2]
      rw [ih _ _ _ (acc + fc day curr dst) h, ih _ _ _ (0 + fc day curr dst) h]
      omega
    · rw [if_neg h1, if_neg h1]
      cases hfu : firstUnvisited (out curr day) ctv with
      | none => rw [hfu] at h; simp at h
      | some f =>
        rw [hfu] at h
        dsimp only at h ⊢
        rw [ih _ _ _ (acc + f.cost) h, ih _ _ _ (0 + f.cost) h]
        omega

theorem greedyStuck_of_lt (fc : FlightCosts) (N dst : Nat) (out : Nat → Nat → List CityCost)
    (k day curr : Nat) (ctv : List Nat) (acc : Int)
    (h : greedyLoop fc N dst out k day curr ctv acc < COST_MAX) :
    greedyStuck fc N dst out k day curr ctv = false := by
  cases hs : greedyStuck fc N dst out k day curr ctv
  · rfl
  · rw [greedyLoop_of_stuck fc N dst out k day curr ctv acc hs] at h
    omega

theorem firstUnvisited_some (ctv : List Nat) :
    ∀ (l : List CityCost) (f : CityCost), firstUnvisited l ctv = some f →
      f ∈ l ∧ ctv.getD f.city 0 ≠ 0
  | [], f, h => by simp [firstUnvisited] at h
  | g :: rest, f, h => by
    simp only [firstUnvisited] at h
    split_ifs at h with hv
    · simp only [Option.some.injEq] at h
      subst h
      exact ⟨List.mem_cons_self _ _, hv⟩
    · obtain ⟨h1, h2⟩ := firstUnvisited_some ctv rest f h
      exact ⟨List.mem_cons_of_mem _ h1, h2⟩

/-- A greedy step before the last day: the value is the total of the first
unvisited city of the list. -/
theorem greedyLoop_step (fc : FlightCosts) (N dst : Nat) (out : Nat → Nat → List CityCost)
    (k day curr : Nat) (ctv : List Nat) (hday : day ≠ N - 1)
    (h : greedyLoop fc N dst out (k + 1) day curr ctv 0 < COST_MAX) :
    ∃ f, f ∈ out curr day ∧ ctv.getD f.city 0 ≠ 0 ∧
      greedyLoop fc N dst out (k + 1) day curr ctv 0 =
        f.cost + greedyLoop fc N dst out k (day + 1) f.city (ctv.set f.city 0) 0 := by
  have hst := greedyStuck_of_lt fc N dst out (k + 1) day curr ctv 0 h
  simp only [greedyLoop, if_neg hday] at h ⊢
  simp only [greedyStuck, if_neg hday] at hst
  cases hfu : firstUnvisited (out curr day) ctv with
  | none => rw [hfu] at h; simp at h
  | some f =>
    rw [hfu] at hst
    dsimp only at hst ⊢
    obtain ⟨hm, hv⟩ := firstUnvisited_some ctv _ f hfu
    refine ⟨f, hm, hv, ?_⟩
    rw [greedyLoop_shift fc N dst out k (day + 1) f.city _ (0 + f.cost) hst]
    omega

theorem rawSum_append (fc : FlightCosts) (tour : Tour) (c : Nat) (hne : 1 ≤ tour.length) :
    rawSum fc (tour ++ [c]) =
      rawSum fc tour + fc (tour.length - 1) (at_ tour (tour.length - 1)) c := by
  unfold rawSum
  simp only [List.length_append, List.length_singleton, Nat.add_sub_cancel]
  rw [show tour.length = (tour.length - 1) + 1 by omega, Finset.sum_range_succ]
  simp only [Nat.add_sub_cancel]
  congr 1
  · apply Finset.sum_congr rfl
    intro d hd
    have hd1 := Finset.mem_range.mp hd
    unfold leg
    rw [at_append_lt tour [c] d (by omega), at_append_lt tour [c] (d + 1) (by omega)]
  · unfold leg
    rw [at_append_lt tour [c] (tour.length - 1) (by omega)]
    rw [show tour.length - 1 + 1 = tour.length by omega, at_append_last]

theorem lookAheadLoop_greedy_bound (fc : FlightCosts) (N start : Nat)
    (out : Nat → Nat → List CityCost) (hout : IsOutboundIndex fc N out) :
    ∀ (k day : Nat) (tour ctv : List Nat) (curr : Nat), day + k = N →
      tour.length = day + 1 → at_ tour day = curr → curr < N →
      greedyLoop fc N start out k day curr ctv 0 < COST_MAX →
      lookAheadLoop fc N start out k day tour ctv curr ≠ [] ∧
      rawSum fc (lookAheadLoop fc N start out k day tour ctv curr) ≤
        rawSum fc tour + greedyLoop fc N start out k day curr ctv 0 := by
  intro k
  induction k with
  | zero =>
    intro day tour ctv curr _ hlen _ _ _
    simp only [lookAheadLoop, greedyLoop]
    refine ⟨?_, by omega⟩
    intro e; rw [e] at hlen; simp at hlen
  | succ k ih =>
    intro day tour ctv curr hday hlen hcur hcN hg
    by_cases hlast : day = N - 1
    · have hk : k = 0 := by omega
      subst hk
      simp only [greedyLoop, if_pos hlast] at hg ⊢
      simp only [lookAheadLoop, if_pos hlast]
      by_cases hpos : fc day curr start > 0
      · rw [if_pos hpos] at hg ⊢
        rw [if_pos hpos]
        refine ⟨by simp, ?_⟩
        rw [rawSum_append fc tour start (by omega)]
        rw [show tour.length - 1 = day by omega, hcur]
        omega
      · rw [if_neg hpos] at hg
        omega
    · obtain ⟨f, hfm, hfv, hfe⟩ := greedyLoop_step fc N start out k day curr ctv hlast hg
      have hmin := lookAheadScan_min fc N start day out ctv (out curr day) none COST_MAX
      obtain ⟨_, hall, hsel⟩ := hmin
      have hkN : N - (day + 1) = k := by omega
      have hle := hall f hfm hfv
      unfold evalGreedyNNTourCost at hle
      rw [hkN] at hle
      rcases hsel with e | ⟨fb, hbm, hb1, hbv, hb2, hb3⟩
      · rw [e] at hle
        dsimp only at hle
        omega
      · simp only [lookAheadLoop, if_neg hlast]
        cases hscan : lookAheadScan fc N start day out ctv (out curr day) (none, COST_MAX) with
        | mk b bt =>
          rw [hscan] at hb1 hb2 hb3 hle
          dsimp only at hb1 hb2 hb3 hle
          subst hb1
          dsimp only
          obtain ⟨hbN, hbc, hbpos⟩ :=
            (mem_outboundIndex_iff fc N out hout curr day hcN (by omega) fb).mp hbm
          unfold evalGreedyNNTourCost at hb2
          rw [hkN] at hb2
          obtain ⟨i1, i2⟩ := ih (day + 1) (tour ++ [fb.city]) (ctv.set fb.city 0) fb.city
            (by omega) (by simp; omega) (by rw [← hlen]; exact at_append_last tour fb.city)
            hbN (by omega)
          refine ⟨i1, ?_⟩
          rw [rawSum_append fc tour fb.city (by omega)] at i2
          rw [show tour.length - 1 = day by omega, hcur, hbc] at i2
          omega

/-- Once the scan of some day finds a city, the rest of the construction
does not fail. -/
theorem lookAheadLoop_after_choice (fc : FlightCosts) (N start : Nat)
    (out : Nat → Nat → List CityCost) (hout : IsOutboundIndex fc N out)
    (k day : Nat) (tour ctv : List Nat) (curr : Nat) (hday : day + (k + 1) = N)
    (hlen : tour.length = day + 1) (hcN : curr < N) (hlast : day ≠ N - 1)
    (hfound : (lookAheadScan fc N start day out ctv (out curr day) (none, COST_MAX)).1 ≠ none) :
    lookAheadLoop fc N start out (k + 1) day tour ctv curr ≠ [] := by
  obtain ⟨_, _, hsel⟩ := lookAheadScan_min fc N start day out ctv (out curr day) none COST_MAX
  rcases hsel with e | ⟨fb, hbm, hb1, hbv, hb2, hb3⟩
  · rw [e] at hfound; exact absurd rfl hfound
  · simp only [lookAheadLoop, if_neg hlast]
    cases hscan : lookAheadScan fc N start day out ctv (out curr day) (none, COST_MAX) with
    | mk b bt =>
      rw [hscan] at hb1 hb2 hb3
      dsimp only at hb1 hb2 hb3
      subst hb1
      dsimp only
      obtain ⟨hbN, hbc, hbpos⟩ :=
        (mem_outboundIndex_iff fc N out hout curr day hcN (by omega) fb).mp hbm
      unfold evalGreedyNNTourCost at hb2
      rw [show N - (day + 1) = k by omega] at hb2
      exact (lookAheadLoop_greedy_bound fc N start out hout k (day + 1) (tour ++ [fb.city])
        (ctv.set fb.city 0) fb.city (by omega) (by simp; omega)
        (by rw [← hlen]; exact at_append_last tour fb.city) hbN (by omega)).1

theorem take_succ_at (T : Tour) (d : Nat) (h : d < T.length) :
    T.take (d + 1) = T.take d ++ [at_ T d] := by
  rw [List.take_succ]
  simp only [at_eq]
  rw [List.getElem?_eq_getElem h]
  rfl

theorem bestTotalAt_step (fc : FlightCosts) (N start : Nat)
    (out : Nat → Nat → List CityCost) (hout : IsOutboundIndex fc N out) (T : Tour)
    (hlen : T.length = N + 1) (d : Nat) (hd : d + 1 < N - 1)
    (h0 : LookAheadChoice fc N start out T d) (h1 : LookAheadChoice fc N start out T (d + 1)) :
    fc d (at_ T d) (at_ T (d + 1)) + bestTotalAt fc N start out T (d + 1) ≤
      bestTotalAt fc N start out T d := by
  obtain ⟨a1, _, a3, _, a5, _⟩ := h0
  obtain ⟨_, _, _, _, _, b6⟩ := h1
  have hflags : flagsAfter N (T.take (d + 1 + 1)) =
      (flagsAfter N (T.take (d + 1))).set (at_ T (d + 1)) 0 := by
    rw [take_succ_at T (d + 1) (by omega), flagsAfter_append]
  have hk : N - (d + 1) = (N - (d + 1 + 1)) + 1 := by omega
  have hval : bestTotalAt fc N start out T d =
      fc d (at_ T d) (at_ T (d + 1)) +
        greedyLoop fc N start out ((N - (d + 1 + 1)) + 1) (d + 1) (at_ T (d + 1))
          (flagsAfter N (T.take (d + 1 + 1))) 0 := by
    unfold bestTotalAt lookAheadTotal evalGreedyNNTourCost
    rw [hflags, ← hk]
  have hg : greedyLoop fc N start out ((N - (d + 1 + 1)) + 1) (d + 1) (at_ T (d + 1))
      (flagsAfter N (T.take (d + 1 + 1))) 0 < COST_MAX := by
    unfold lookAheadTotal evalGreedyNNTourCost at a5
    rw [hflags, ← hk]
    omega
  obtain ⟨f, hfm, hfv, hfe⟩ := greedyLoop_step fc N start out (N - (d + 1 + 1)) (d + 1)
    (at_ T (d + 1)) (flagsAfter N (T.take (d + 1 + 1))) (by omega) hg
  obtain ⟨hfN, hfc, hfpos⟩ :=
    (mem_outboundIndex_iff fc N out hout (at_ T (d + 1)) (d + 1) a1 (by omega) f).mp hfm
  have hb := b6 f.city hfN hfv (by rw [hfc]; exact hfpos)
  have htot : lookAheadTotal fc N start out (d + 1) (at_ T (d + 1))
      (flagsAfter N (T.take (d + 1 + 1))) f.city =
      greedyLoop fc N start out ((N - (d + 1 + 1)) + 1) (d + 1) (at_ T (d + 1))
        (flagsAfter N (T.take (d + 1 + 1))) 0 := by
    rw [hfe]
    unfold lookAheadTotal evalGreedyNNTourCost
    rw [hfc]
  rw [htot] at hb
  rw [hval]
  unfold bestTotalAt
  omega

theorem wrap32_eq (x : Int) (h1 : -2147483648 ≤ x) (h2 : x ≤ 2147483647) : wrap32 x = x := by
  unfold wrap32
  omega

theorem evalLoop32_pos (fc : FlightCosts) (tour : Tour) :
    ∀ (k day : Nat) (acc : Int), (∀ i, i < k → 0 < leg fc tour (day + i)) → 0 ≤ acc →
      acc + ∑ i in Finset.range k, leg fc tour (day + i) ≤ INT_MAX →
      evalLoop32 fc tour k day acc = acc + ∑ i in Finset.range k, leg fc tour (day + i) := by
  intro k
  induction k with
  | zero => intro day acc _ _ _; simp [evalLoop32]
  | succ k ih =>
    intro day acc h hacc hsum
    have h0 : 0 < leg fc tour day := by simpa using h 0 (Nat.succ_pos k)
    have hrest : ∀ i, i < k → 0 < leg fc tour (day + 1 + i) := by
      intro i hi
      have := h (i + 1) (by omega)
      rwa [show day + (i + 1) = day + 1 + i by omega] at this
    have hsplit : ∑ i in Finset.range (k + 1), leg fc tour (day + i)
        = leg fc tour day + ∑ i in Finset.range k, leg fc tour (day + 1 + i) := by
      rw [Finset.sum_range_succ']
      simp only [Nat.add_zero]
      rw [add_comm]
      congr 1
      apply Finset.sum_congr rfl
      intro i _
      rw [show day + (i + 1) = day + 1 + i by omega]
    have hnn : 0 ≤ ∑ i in Finset.range k, leg fc tour (day + 1 + i) :=
      Finset.sum_nonneg (fun i hi => le_of_lt (hrest i (Finset.mem_range.mp hi)))
    rw [hsplit] at hsum ⊢
    unfold INT_MAX at hsum
    have hw : wrap32 (acc + leg fc tour day) = acc + leg fc tour day :=
      wrap32_eq _ (by omega) (by omega)
    simp only [evalLoop32]
    rw [if_pos (by simpa [leg] using h0)]
    have hleg : fc day (at_ tour day) (at_ tour (day + 1)) = leg fc tour day := rfl
    rw [hleg, hw, ih (day + 1) (acc + leg fc tour day) hrest (by omega)
      (by unfold INT_MAX; omega)]
    omega

theorem evalLoop32_neg (fc : FlightCosts) (tour : Tour) :
    ∀ (k day : Nat) (acc : Int), (∃ i, i < k ∧ leg fc tour (day + i) ≤ 0) →
      evalLoop32 fc tour k day acc = -1 := by
  intro k
  induction k with
  | zero => intro day acc h; obtain ⟨i, hi, _⟩ := h; omega
  | succ k ih =>
    intro day acc h
    obtain ⟨i, hi, hle⟩ := h
    simp only [evalLoop32]
    by_cases h0 : 0 < leg fc tour day
    · rw [if_pos (by simpa [leg] using h0)]
      apply ih
      cases i with
      | zero => simp only [Nat.add_zero] at hle; omega
      | succ j =>
        exact ⟨j, by omega, by rwa [show day + (j + 1) = day + 1 + j by omega] at hle⟩
    · rw [if_neg (by simpa [leg] using h0)]

theorem evalTourCost32_of_feasible (fc : FlightCosts) (tour : Tour) (h : Feasible fc tour)
    (hsum : rawSum fc tour ≤ INT_MAX) : evalTourCost32 fc tour = rawSum fc tour := by
  unfold evalTourCost32 rawSum
  unfold rawSum at hsum
  rw [evalLoop32_pos fc tour _ 0 0 (by intro i hi; simpa using h i hi) (le_refl 0)
    (by simpa using hsum)]
  simp

theorem evalTourCost32_of_not_feasible (fc : FlightCosts) (tour : Tour)
    (h : ¬ Feasible fc tour) : evalTourCost32 fc tour = -1 := by
  unfold evalTourCost32
  apply evalLoop32_neg
  unfold Feasible at h
  push_neg at h
  obtain ⟨d, hd, hle⟩ := h
  exact ⟨d, hd, by simpa using hle⟩

/-- The 32-bit `evalTourCost` is the exact one whenever the sum of the legs of a
feasible tour fits an `int`. -/
theorem evalTourCost32_eq (fc : FlightCosts) (tour : Tour)
    (hsum : Feasible fc tour → rawSum fc tour ≤ INT_MAX) :
    evalTourCost32 fc tour = evalTourCost fc tour := by
  by_cases hf : Feasible fc tour
  · rw [evalTourCost32_of_feasible fc tour hf (hsum hf), evalTourCost_of_feasible fc tour hf]
  · rw [evalTourCost32_of_not_feasible fc tour hf, evalTourCost_of_not_feasible fc tour hf]

theorem rawSum_le_of_priceRange (fc : FlightCosts) (P : Int)
    (hU : ∀ d a b, fc d a b ≤ P)
    (tour : Tour) : rawSum fc tour ≤ ((tour.length - 1 : Nat) : Int) * P := by
  unfold rawSum
  have h := Finset.sum_le_card_nsmul (Finset.range (tour.length - 1))
    (fun d => leg fc tour d) P (fun d _ => hU _ _ _)
  simpa using h

theorem evalTourCost32_eq_of_range (fc : FlightCosts) (P : Int) (N : Nat)
    (hU : ∀ d a b, fc d a b ≤ P) (hP : 0 ≤ P) (hfit : (N : Int) * P ≤ INT_MAX) (tour : Tour)
    (hlen : tour.length ≤ N + 1) : evalTourCost32 fc tour = evalTourCost fc tour := by
  apply evalTourCost32_eq
  intro _
  have h1 := rawSum_le_of_priceRange fc P hU tour
  have h2 : ((tour.length - 1 : Nat) : Int) * P ≤ (N : Int) * P :=
    mul_le_mul_of_nonneg_right (by exact_mod_cast (by omega : tour.length - 1 ≤ N)) hP
  omega

theorem evalTourCost_le_of_range (fc : FlightCosts) (P : Int) (N : Nat)
    (hU : ∀ d a b, fc d a b ≤ P) (hP : 0 ≤ P) (tour : Tour) (hlen : tour.length ≤ N + 1) :
    -1 ≤ evalTourCost fc tour ∧ evalTourCost fc tour ≤ (N : Int) * P := by
  by_cases hf : Feasible fc tour
  · rw [evalTourCost_of_feasible fc tour hf]
    have h1 := rawSum_le_of_priceRange fc P hU tour
    have h2 : ((tour.length - 1 : Nat) : Int) * P ≤ (N : Int) * P :=
      mul_le_mul_of_nonneg_right (by exact_mod_cast (by omega : tour.length - 1 ≤ N)) hP
    have h3 : 0 ≤ rawSum fc tour := by
      unfold rawSum
      exact Finset.sum_nonneg (fun d hd => le_of_lt (hf d (Finset.mem_range.mp hd)))
    omega
  · rw [evalTourCost_of_not_feasible fc tour hf]
    have : 0 ≤ (N : Int) * P := mul_nonneg (by exact_mod_cast Nat.zero_le N) hP
    omega

/-- Claim C2, counterexample: on `wrapTable` every leg of the tour `0, 1, 2, 0`
is priced (1431655765 each, the exact sum is 4294967295), yet the 32-bit sum of
`evalTourCost` wraps around to `-1`, the INVALID value, although no leg is
absent. -/
theorem evalTourCost32_wraps :
    [0, 1, 2, 0].length = 3 + 1 ∧
    (∀ d, d < 3 → 0 < wrapTable d (at_ [0, 1, 2, 0] d) (at_ [0, 1, 2, 0] (d + 1))) ∧
    ∑ d in Finset.range 3, wrapTable d (at_ [0, 1, 2, 0] d) (at_ [0, 1, 2, 0] (d + 1))
      = 4294967295 ∧
    evalTourCost32 wrapTable [0, 1, 2, 0] = -1 := by
  refine ⟨by decide, by decide, by decide, by decide⟩

/-- Claim C2, amended: for a tour of length `N + 1` with `N ≥ 1`, the 32-bit
`evalTourCost` is the sum of the `N` leg prices when every leg is positive and
the sum is at most `INT_MAX`, and it is `-1` when some leg is not positive; so
for a tour whose legs, when all positive, sum to at most `INT_MAX`, the result
is `-1` exactly when some leg is not positive, and any other result is
positive. -/
theorem evalTourCost32_spec (fc : FlightCosts) (N : Nat) (tour : Tour)
    (hN : 1 ≤ N) (hlen : tour.length = N + 1) :
    ((∀ d, d < N → 0 < fc d (at_ tour d) (at_ tour (d + 1))) →
      ∑ d in Finset.range N, fc d (at_ tour d) (at_ tour (d + 1)) ≤ INT_MAX →
        evalTourCost32 fc tour
          = ∑ d in Finset.range N, fc d (at_ tour d) (at_ tour (d + 1))) ∧
    ((∃ d, d < N ∧ fc d (at_ tour d) (at_ tour (d + 1)) ≤ 0) →
        evalTourCost32 fc tour = -1) ∧
    (((∀ d, d < N → 0 < fc d (at_ tour d) (at_ tour (d + 1))) →
        ∑ d in Finset.range N, fc d (at_ tour d) (at_ tour (d + 1)) ≤ INT_MAX) →
      (evalTourCost32 fc tour = -1 ↔
          ∃ d, d < N ∧ fc d (at_ tour d) (at_ tour (d + 1)) ≤ 0) ∧
      (evalTourCost32 fc tour ≠ -1 → 0 < evalTourCost32 fc tour)) := by
  have hN1 : tour.length - 1 = N := by omega
  have hfeas : Feasible fc tour ↔ ∀ d, d < N → 0 < fc d (at_ tour d) (at_ tour (d + 1)) := by
    unfold Feasible; rw [hN1]; rfl
  have hraw : rawSum fc tour = ∑ d in Finset.range N, fc d (at_ tour d) (at_ tour (d + 1)) := by
    unfold rawSum; rw [hN1]; rfl
  have hneg : (∃ d, d < N ∧ fc d (at_ tour d) (at_ tour (d + 1)) ≤ 0) → ¬ Feasible fc tour := by
    rintro ⟨d, hd, hle⟩ hf
    have := hfeas.mp hf d hd
    omega
  refine ⟨?_, ?_, ?_⟩
  · intro h hs
    rw [← hraw] at hs ⊢
    exact evalTourCost32_of_feasible fc tour (hfeas.mpr h) hs
  · intro h
    exact evalTourCost32_of_not_feasible fc tour (hneg h)
  · intro hfit
    have heq : evalTourCost32 fc tour = evalTourCost fc tour :=
      evalTourCost32_eq fc tour (fun hf => by rw [hraw]; exact hfit (hfeas.mp hf))
    rw [heq]
    constructor
    · constructor
      · intro h
        by_contra hn
        push_neg at hn
        have hf : Feasible fc tour := hfeas.mpr hn
        have := (evalTourCost_pos_iff fc tour (by omega)).mpr hf
        omega
      · intro h
        exact evalTourCost_of_not_feasible fc tour (hneg h)
    · intro hne
      by_contra hle
      have hnf : ¬ Feasible fc tour := fun hf =>
        hle ((evalTourCost_pos_iff fc tour (by omega)).mpr hf)
      exact hne (evalTourCost_of_not_feasible fc tour hnf)

theorem evalTourCost32_spec_witness :
    (1 ≤ 8 ∧ [0, 1, 2, 3, 4, 5, 6, 7, 0].length = 8 + 1) ∧
    evalTourCost32 dlbTable [0, 1, 2, 3, 4, 5, 6, 7, 0] = 80 ∧
    (((∀ d, d < 8 → 0 < dlbTable d (at_ [0, 1, 2, 3, 4, 5, 6, 7, 0] d)
          (at_ [0, 1, 2, 3, 4, 5, 6, 7, 0] (d + 1))) →
      ∑ d in Finset.range 8, dlbTable d (at_ [0, 1, 2, 3, 4, 5, 6, 7, 0] d)
          (at_ [0, 1, 2, 3, 4, 5, 6, 7, 0] (d + 1)) ≤ INT_MAX →
        evalTourCost32 dlbTable [0, 1, 2, 3, 4, 5, 6, 7, 0]
          = ∑ d in Finset.range 8, dlbTable d (at_ [0, 1, 2, 3, 4, 5, 6, 7, 0] d)
              (at_ [0, 1, 2, 3, 4, 5, 6, 7, 0] (d + 1))) ∧
    ((∃ d, d < 8 ∧ dlbTable d (at_ [0, 1, 2, 3, 4, 5, 6, 7, 0] d)
          (at_ [0, 1, 2, 3, 4, 5, 6, 7, 0] (d + 1)) ≤ 0) →
        evalTourCost32 dlbTable [0, 1, 2, 3, 4, 5, 6, 7, 0] = -1) ∧
    (((∀ d, d < 8 → 0 < dlbTable d (at_ [0, 1, 2, 3, 4, 5, 6, 7, 0] d)
          (at_ [0, 1, 2, 3, 4, 5, 6, 7, 0] (d + 1))) →
        ∑ d in Finset.range 8, dlbTable d (at_ [0, 1, 2, 3, 4, 5, 6, 7, 0] d)
          (at_ [0, 1, 2, 3, 4, 5, 6, 7, 0] (d + 1)) ≤ INT_MAX) →
      (evalTourCost32 dlbTable [0, 1, 2, 3, 4, 5, 6, 7, 0] = -1 ↔
          ∃ d, d < 8 ∧ dlbTable d (at_ [0, 1, 2, 3, 4, 5, 6, 7, 0] d)
            (at_ [0, 1, 2, 3, 4, 5, 6, 7, 0] (d + 1)) ≤ 0) ∧
      (evalTourCost32 dlbTable [0, 1, 2, 3, 4, 5, 6, 7, 0] ≠ -1 →
        0 < evalTourCost32 dlbTable [0, 1, 2, 3, 4, 5, 6, 7, 0]))) :=
  ⟨⟨by decide, rfl⟩, by decide,
    evalTourCost32_spec dlbTable 8 [0, 1, 2, 3, 4, 5, 6, 7, 0] (by decide) rfl⟩

/-! ## `solveBruteForce` with 32-bit sums -/

theorem bruteLoop32_eq (fc : FlightCosts) (s : Nat) (L : Nat)
    (heq : ∀ t : Tour, t.length = L + 2 → evalTourCost32 fc t = evalTourCost fc t) :
    ∀ (fuel : Nat) (m : List Nat) (g : Tour × Int), m.length = L →
      bruteLoop32 fc fuel (closeTour s m) g = bruteLoop fc fuel (closeTour s m) g := by
  intro fuel
  induction fuel with
  | zero => intro m g _; rfl
  | succ fuel ih =>
    intro m g hm
    obtain ⟨gt, gc⟩ := g
    have hl : (closeTour s m).length = L + 2 := by simp [closeTour, hm]
    simp only [bruteLoop32, bruteLoop, nextTour_closeTour, heq _ hl]
    cases hn : nextPerm m with
    | none => rfl
    | some m1 =>
      simp only [Option.map_some']
      exact ih m1 _ (by rw [(nextPerm_perm m m1 hn).length_eq, hm])

theorem solveBruteForce32_eq (fc : FlightCosts) (N start fuel : Nat) (P : Int)
    (hs : start < N) (hP : 0 ≤ P) (hU : ∀ d a b, fc d a b ≤ P)
    (hfit : (N : Int) * P ≤ INT_MAX) :
    solveBruteForce32 fc N start fuel = solveBruteForce fc N start fuel := by
  unfold solveBruteForce32 solveBruteForce
  have hl := length_nonStart N start hs
  exact bruteLoop32_eq fc start (N - 1)
    (fun t ht => evalTourCost32_eq_of_range fc P N hU hP hfit t (by omega)) fuel
    ((List.range N).filter (fun i => i ≠ start)) ([], COST_MAX) hl

/-- Claim C1, counterexample: (1) with two cities and two flights of price
20 000 000 the closed tour `0, 1, 0` is valid and feasible, its cost
40 000 000 fits an `int`, yet `solveBruteForce` ends with an empty
`globalBestTour` and prints nothing, because a tour is recorded only when its
cost is below `COST_MAX = 32 767 500`; (2) on `mixTable` both closed tours are
valid and feasible, `solveBruteForce` ends with the tour `0, 1, 2, 0` of cost
30, and the 32-bit `evalTourCost` of the feasible tour `0, 2, 1, 0` is `-5`,
below 30: the recorded cost is not the minimum of `evalTourCost` over the
feasible tours. -/
theorem solveBruteForce32_misses_dear_tour :
    (2 ≤ 10 ∧ ValidTour 2 0 [0, 1, 0] ∧ Feasible dearTable [0, 1, 0] ∧
      evalTourCost32 dearTable [0, 1, 0] = 40000000 ∧
      solveBruteForce32 dearTable 2 0 (Nat.factorial (2 - 1)) = some ([], COST_MAX) ∧
      emitted [] = none) ∧
    (3 ≤ 10 ∧ ValidTour 3 0 [0, 2, 1, 0] ∧ Feasible mixTable [0, 2, 1, 0] ∧
      solveBruteForce32 mixTable 3 0 (Nat.factorial (3 - 1)) = some ([0, 1, 2, 0], 30) ∧
      evalTourCost32 mixTable [0, 2, 1, 0] = -5) := by
  refine ⟨⟨by decide, by decide, by decide, by decide, by decide, by decide⟩,
    ⟨by decide, by decide, by decide, by decide, by decide⟩⟩

/-- Claim C1, amended: for `N ≥ 1` cities and every table whose entries are at
most `P` with `N * P ≤ INT_MAX` (no tour sum leaves the range of `int`),
`solveBruteForce` ends after pricing at most `(N-1)!` tours. If some valid tour
is feasible with a cost below `COST_MAX`, then `globalBestTour` is a valid
feasible tour, `globalBestCost` is its evaluated cost, no valid feasible tour
is cheaper, and the tour is printed. If no valid tour is feasible with a cost
below `COST_MAX`, `globalBestTour` stays empty and nothing is printed. -/
theorem solveBruteForce32_optimal (fc : FlightCosts) (N start fuel : Nat) (P : Int)
    (hN : 1 ≤ N) (hs : start < N) (hfuel : Nat.factorial (N - 1) ≤ fuel)
    (hP : 0 ≤ P) (hU : ∀ d a b, fc d a b ≤ P) (hfit : (N : Int) * P ≤ INT_MAX) :
    ∃ gbt gbc, solveBruteForce32 fc N start fuel = some (gbt, gbc) ∧
      ((∃ t, ValidTour N start t ∧ 0 < evalTourCost32 fc t ∧
          evalTourCost32 fc t < COST_MAX) →
        ValidTour N start gbt ∧ Feasible fc gbt ∧ gbc = evalTourCost32 fc gbt ∧
        (∀ t, ValidTour N start t → Feasible fc t → gbc ≤ evalTourCost32 fc t) ∧
        emitted gbt = some gbt) ∧
      ((¬ ∃ t, ValidTour N start t ∧ 0 < evalTourCost32 fc t ∧
          evalTourCost32 fc t < COST_MAX) →
        gbt = [] ∧ emitted gbt = none) := by
  have h32 : ∀ t, ValidTour N start t → evalTourCost32 fc t = evalTourCost fc t :=
    fun t hv => evalTourCost32_eq_of_range fc P N hU hP hfit t (by rw [hv.1])
  obtain ⟨gbt, gbc, hrun, h1, h2⟩ := solveBruteForce_optimal fc N start fuel hN hs hfuel
  refine ⟨gbt, gbc, ?_, ?_, ?_⟩
  · rw [solveBruteForce32_eq fc N start fuel P hs hP hU hfit]; exact hrun
  · rintro ⟨t, hv, hpos, hlt⟩
    rw [h32 t hv] at hpos hlt
    obtain ⟨a1, a2, a3, a4, a5⟩ := h1 ⟨t, hv, hpos, hlt⟩
    refine ⟨a1, a2, ?_, ?_, a5⟩
    · rw [h32 gbt a1]; exact a3
    · intro t1 hv1 hf1
      rw [h32 t1 hv1]
      exact a4 t1 hv1 hf1
  · intro hno
    apply h2
    rintro ⟨t, hv, hpos, hlt⟩
    apply hno
    exact ⟨t, hv, by rw [h32 t hv]; exact hpos, by rw [h32 t hv]; exact hlt⟩

theorem scenarioA_le (d a b : Nat) : scenarioA d a b ≤ 10 := by
  unfold scenarioA
  split <;> decide

theorem solveBruteForce32_optimal_witness :
    (1 ≤ 3 ∧ 0 < 3 ∧ Nat.factorial (3 - 1) ≤ 2 ∧ ((3 : Nat) : Int) * 10 ≤ INT_MAX) ∧
    ∃ gbt gbc, solveBruteForce32 scenarioA 3 0 2 = some (gbt, gbc) ∧
      ((∃ t, ValidTour 3 0 t ∧ 0 < evalTourCost32 scenarioA t ∧
          evalTourCost32 scenarioA t < COST_MAX) →
        ValidTour 3 0 gbt ∧ Feasible scenarioA gbt ∧ gbc = evalTourCost32 scenarioA gbt ∧
        (∀ t, ValidTour 3 0 t → Feasible scenarioA t → gbc ≤ evalTourCost32 scenarioA t) ∧
        emitted gbt = some gbt) ∧
      ((¬ ∃ t, ValidTour 3 0 t ∧ 0 < evalTourCost32 scenarioA t ∧
          evalTourCost32 scenarioA t < COST_MAX) →
        gbt = [] ∧ emitted gbt = none) :=
  ⟨⟨by decide, by decide, by decide, by decide⟩,
    solveBruteForce32_optimal scenarioA 3 0 2 10 (by decide) (by decide) (by decide)
      (by decide) scenarioA_le (by decide)⟩

/-! ## The local search with 32-bit sums -/

theorem swapDeltaCost32_eq (fc : FlightCosts) (P : Int) (N : Nat) (hR : PriceRange fc P)
    (hP : 0 ≤ P) (hfit : ((N : Int) + 4) * P + 4 ≤ INT_MAX) (b : Tour) (bc : Int)
    (hbc1 : -1 ≤ bc) (hbc2 : bc ≤ (N : Int) * P) (d1 d2 c1 : Nat) (cft : Int)
    (hc1 : -2 ≤ cft) (hc2 : cft ≤ 2 * P) :
    swapDeltaCost32 fc b bc d1 d2 c1 cft = swapDeltaCost fc b bc d1 d2 c1 cft := by
  unfold swapDeltaCost32 swapDeltaCost
  dsimp only
  obtain ⟨a1, a2⟩ := hR (d2 - 1) (at_ b (d2 - 1)) (at_ b d2)
  obtain ⟨b1, b2⟩ := hR d2 (at_ b d2) (at_ b (d2 + 1))
  obtain ⟨e1, e2⟩ := hR (d1 - 1) (at_ b (d1 - 1)) (at_ b d2)
  obtain ⟨f1, f2⟩ := hR d1 (at_ b d2) (at_ b (d1 + 1))
  obtain ⟨g1, g2⟩ := hR (d2 - 1) (at_ b (d2 - 1)) c1
  obtain ⟨i1, i2⟩ := hR d2 c1 (at_ b (d2 + 1))
  generalize fc (d2 - 1) (at_ b (d2 - 1)) (at_ b d2) = x1 at *
  generalize fc d2 (at_ b d2) (at_ b (d2 + 1)) = x2 at *
  generalize fc (d1 - 1) (at_ b (d1 - 1)) (at_ b d2) = x3 at *
  generalize fc d1 (at_ b d2) (at_ b (d1 + 1)) = x4 at *
  generalize fc (d2 - 1) (at_ b (d2 - 1)) c1 = x5 at *
  generalize fc d2 c1 (at_ b (d2 + 1)) = x6 at *
  unfold INT_MAX at hfit
  have hNP : (N : Int) * P + 4 * P + 4 ≤ 2147483647 := by
    have : ((N : Int) + 4) * P = (N : Int) * P + 4 * P := by ring
    omega
  have hNP0 : 0 ≤ (N : Int) * P := mul_nonneg (by exact_mod_cast Nat.zero_le N) hP
  generalize (N : Int) * P = NP at *
  rw [wrap32_eq (cft + x1) (by omega) (by omega)]
  rw [wrap32_eq (cft + x1 + x2) (by omega) (by omega)]
  rw [wrap32_eq (bc - (cft + x1 + x2)) (by omega) (by omega)]
  rw [wrap32_eq (x3 + x4) (by omega) (by omega)]
  rw [wrap32_eq (x3 + x4 + x5) (by omega) (by omega)]
  rw [wrap32_eq (x3 + x4 + x5 + x6) (by omega) (by omega)]
  rw [wrap32_eq _ (by omega) (by omega)]

theorem opt2Swap32_eq (fc : FlightCosts) (P : Int) (N : Nat) (hR : PriceRange fc P)
    (hP : 0 ≤ P) (hfit : ((N : Int) + 4) * P + 4 ≤ INT_MAX)
    (he : ∀ t : Tour, t.length ≤ N + 1 → evalTourCost32 fc t = evalTourCost fc t)
    (b : Tour) (hlen : b.length ≤ N + 1) (bc : Int)
    (hbc1 : -1 ≤ bc) (hbc2 : bc ≤ (N : Int) * P) (d1 c1 : Nat) (cft : Int)
    (hc1 : -2 ≤ cft) (hc2 : cft ≤ 2 * P) (d2 : Nat) :
    opt2Swap32 fc bc d1 c1 cft d2 b = opt2Swap fc bc d1 c1 cft d2 b := by
  unfold opt2Swap32 opt2Swap
  dsimp only
  rw [he (swapAt b d1 d2) (by rw [length_swapAt]; exact hlen),
    swapDeltaCost32_eq fc P N hR hP hfit b bc hbc1 hbc2 d1 d2 c1 cft hc1 hc2]

theorem opt2Flip32_eq (fc : FlightCosts) (N : Nat)
    (he : ∀ t : Tour, t.length ≤ N + 1 → evalTourCost32 fc t = evalTourCost fc t)
    (bc : Int) (d1 d2 : Nat) (b tour : Tour) (hlen : tour.length ≤ N + 1) :
    opt2Flip32 fc bc d1 d2 b tour = opt2Flip fc bc d1 d2 b tour := by
  unfold opt2Flip32 opt2Flip
  dsimp only
  rw [he (flipInto tour b d1 d2) (by rw [length_flipInto]; exact hlen)]

theorem opt2Swap_next_len (fc : FlightCosts) (bc : Int) (d1 c1 : Nat) (cft : Int)
    (d2 : Nat) (b b1 : Tour) (h : opt2Swap fc bc d1 c1 cft d2 b = .next b1) :
    b1.length = b.length := by
  unfold opt2Swap at h
  dsimp only at h
  split_ifs at h <;> (injection h with h; subst h; simp [length_swapAt])

theorem opt2Body_next_len (fc : FlightCosts) (bc : Int) (d1 c1 : Nat) (cft : Int)
    (d2 : Nat) (b tour : Tour) (s : Tour × Tour)
    (h : opt2Body fc bc d1 c1 cft d2 b tour = .next s) :
    s.1.length = b.length ∧ s.2.length = tour.length := by
  unfold opt2Body at h
  split at h
  · exact absurd h (by simp)
  · rename_i b1 hsw
    have hb1 := opt2Swap_next_len fc bc d1 c1 cft d2 b b1 hsw
    unfold opt2Flip at h
    dsimp only at h
    split_ifs at h
    injection h with h; subst h
    exact ⟨hb1, length_flipInto _ _ _ _⟩

theorem opt2Body32_eq (fc : FlightCosts) (P : Int) (N : Nat) (hR : PriceRange fc P)
    (hP : 0 ≤ P) (hfit : ((N : Int) + 4) * P + 4 ≤ INT_MAX)
    (he : ∀ t : Tour, t.length ≤ N + 1 → evalTourCost32 fc t = evalTourCost fc t)
    (b tour : Tour) (hlen : b.length ≤ N + 1) (hlen2 : tour.length ≤ N + 1) (bc : Int)
    (hbc1 : -1 ≤ bc) (hbc2 : bc ≤ (N : Int) * P) (d1 c1 : Nat) (cft : Int)
    (hc1 : -2 ≤ cft) (hc2 : cft ≤ 2 * P) (d2 : Nat) :
    opt2Body32 fc bc d1 c1 cft d2 b tour = opt2Body fc bc d1 c1 cft d2 b tour := by
  unfold opt2Body32 opt2Body
  rw [opt2Swap32_eq fc P N hR hP hfit he b hlen bc hbc1 hbc2 d1 c1 cft hc1 hc2 d2]
  cases opt2Swap fc bc d1 c1 cft d2 b with
  | restart r => rfl
  | next b1 => exact opt2Flip32_eq fc N he bc d1 d2 b1 tour hlen2

theorem opt2Day2_32_eq (fc : FlightCosts) (P : Int) (N : Nat) (hR : PriceRange fc P)
    (hP : 0 ≤ P) (hfit : ((N : Int) + 4) * P + 4 ≤ INT_MAX)
    (he : ∀ t : Tour, t.length ≤ N + 1 → evalTourCost32 fc t = evalTourCost fc t)
    (bc : Int) (hbc1 : -1 ≤ bc) (hbc2 : bc ≤ (N : Int) * P) (d1 c1 : Nat) (cft : Int)
    (hc1 : -2 ≤ cft) (hc2 : cft ≤ 2 * P) :
    ∀ (k d2 : Nat) (b tour : Tour), b.length ≤ N + 1 → tour.length ≤ N + 1 →
      opt2Day2_32 fc bc d1 c1 cft k d2 b tour = opt2Day2 fc bc d1 c1 cft k d2 b tour := by
  intro k
  induction k with
  | zero => intro d2 b tour _ _; rfl
  | succ k ih =>
    intro d2 b tour hlen hlen2
    simp only [opt2Day2_32, opt2Day2]
    rw [opt2Body32_eq fc P N hR hP hfit he b tour hlen hlen2 bc hbc1 hbc2 d1 c1 cft hc1 hc2 d2]
    cases hb : opt2Body fc bc d1 c1 cft d2 b tour with
    | restart r => rfl
    | next s =>
      obtain ⟨b1, t1⟩ := s
      obtain ⟨h1, h2⟩ := opt2Body_next_len fc bc d1 c1 cft d2 b tour _ hb
      dsimp only at h1 h2 ⊢
      exact ih (d2 + 1) b1 t1 (by omega) (by omega)

theorem opt2Day2_next_len (fc : FlightCosts) (bc : Int) (d1 c1 : Nat) (cft : Int) :
    ∀ (k d2 : Nat) (b tour : Tour) (s : Tour × Tour),
      opt2Day2 fc bc d1 c1 cft k d2 b tour = .next s → s.1.length = b.length := by
  intro k
  induction k with
  | zero =>
    intro d2 b tour s h
    simp only [opt2Day2] at h
    injection h with h; subst h; rfl
  | succ k ih =>
    intro d2 b tour s h
    simp only [opt2Day2] at h
    cases hb : opt2Body fc bc d1 c1 cft d2 b tour with
    | restart r => rw [hb] at h; exact absurd h (by simp)
    | next s1 =>
      obtain ⟨b1, t1⟩ := s1
      rw [hb] at h
      dsimp only at h
      obtain ⟨h1, _⟩ := opt2Body_next_len fc bc d1 c1 cft d2 b tour _ hb
      dsimp only at h1
      rw [ih (d2 + 1) b1 t1 s h, h1]

theorem costFromTo1_32_eq (fc : FlightCosts) (P : Int) (N : Nat) (hR : PriceRange fc P)
    (hP : 0 ≤ P) (hfit : ((N : Int) + 4) * P + 4 ≤ INT_MAX) (d a b d1 a1 b1 : Nat) :
    wrap32 (fc d a b + fc d1 a1 b1) = fc d a b + fc d1 a1 b1 ∧
    -2 ≤ fc d a b + fc d1 a1 b1 ∧ fc d a b + fc d1 a1 b1 ≤ 2 * P := by
  obtain ⟨x1, x2⟩ := hR d a b
  obtain ⟨y1, y2⟩ := hR d1 a1 b1
  have hNP0 : 0 ≤ (N : Int) * P := mul_nonneg (by exact_mod_cast Nat.zero_le N) hP
  have hexp : ((N : Int) + 4) * P = (N : Int) * P + 4 * P := by ring
  unfold INT_MAX at hfit
  refine ⟨wrap32_eq _ (by omega) (by omega), by omega, by omega⟩

theorem opt2Day1_32_eq (fc : FlightCosts) (P : Int) (N : Nat) (hR : PriceRange fc P)
    (hP : 0 ≤ P) (hfit : ((N : Int) + 4) * P + 4 ≤ INT_MAX)
    (he : ∀ t : Tour, t.length ≤ N + 1 → evalTourCost32 fc t = evalTourCost fc t)
    (bc : Int) (hbc1 : -1 ≤ bc) (hbc2 : bc ≤ (N : Int) * P) :
    ∀ (k d1 : Nat) (b : Tour), b.length ≤ N + 1 →
      opt2Day1_32 fc bc k d1 b = opt2Day1 fc bc k d1 b := by
  intro k
  induction k with
  | zero => intro d1 b _; rfl
  | succ k ih =>
    intro d1 b hlen
    simp only [opt2Day1_32, opt2Day1]
    obtain ⟨hw, hc1, hc2⟩ := costFromTo1_32_eq fc P N hR hP hfit (d1 - 1) (at_ b (d1 - 1))
      (at_ b d1) d1 (at_ b d1) (at_ b (d1 + 1))
    rw [hw, opt2Day2_32_eq fc P N hR hP hfit he bc hbc1 hbc2 d1 (at_ b d1) _ hc1 hc2
      _ _ b b hlen hlen]
    cases hd : opt2Day2 fc bc d1 (at_ b d1)
        (fc (d1 - 1) (at_ b (d1 - 1)) (at_ b d1) + fc d1 (at_ b d1) (at_ b (d1 + 1)))
        (b.length - 1 - (d1 + 1)) (d1 + 1) b b with
    | restart r => rfl
    | next s =>
      obtain ⟨b1, t1⟩ := s
      have h1 := opt2Day2_next_len fc bc d1 _ _ _ _ b b _ hd
      dsimp only at h1 ⊢
      exact ih (d1 + 1) b1 (by omega)

theorem dlbSwap32_eq (fc : FlightCosts) (P : Int) (N : Nat) (hR : PriceRange fc P)
    (hP : 0 ≤ P) (hfit : ((N : Int) + 4) * P + 4 ≤ INT_MAX)
    (he : ∀ t : Tour, t.length ≤ N + 1 → evalTourCost32 fc t = evalTourCost fc t)
    (b : Tour) (hlen : b.length ≤ N + 1) (bc : Int)
    (hbc1 : -1 ≤ bc) (hbc2 : bc ≤ (N : Int) * P) (bits : List Nat) (d1 c1 : Nat) (cft : Int)
    (hc1 : -2 ≤ cft) (hc2 : cft ≤ 2 * P) (d2 : Nat) :
    dlbSwap32 fc b bc bits d1 c1 cft d2 = dlbSwap fc b bc bits d1 c1 cft d2 := by
  unfold dlbSwap32 dlbSwap
  dsimp only
  rw [he (swapAt b d1 d2) (by rw [length_swapAt]; exact hlen),
    swapDeltaCost32_eq fc P N hR hP hfit b bc hbc1 hbc2 d1 d2 c1 cft hc1 hc2]

theorem dlbFlip32_eq (fc : FlightCosts) (N : Nat)
    (he : ∀ t : Tour, t.length ≤ N + 1 → evalTourCost32 fc t = evalTourCost fc t)
    (b : Tour) (bc : Int) (bits : List Nat) (d1 d2 : Nat) (tour : Tour)
    (hlen : tour.length ≤ N + 1) :
    dlbFlip32 fc b bc bits d1 d2 tour = dlbFlip fc b bc bits d1 d2 tour := by
  unfold dlbFlip32 dlbFlip
  dsimp only
  rw [he (flipInto tour b d1 d2) (by rw [length_flipInto]; exact hlen)]

theorem dlbBody_next_len (fc : FlightCosts) (b : Tour) (bc : Int) (bits : List Nat)
    (d1 c1 : Nat) (cft : Int) (d2 : Nat) (tour tour1 : Tour)
    (h : dlbBody fc b bc bits d1 c1 cft d2 tour = .next tour1) :
    tour1.length = tour.length := by
  unfold dlbBody at h
  split at h
  · exact absurd h (by simp)
  · unfold dlbFlip at h
    dsimp only at h
    split_ifs at h
    injection h with h; subst h
    exact length_flipInto _ _ _ _

theorem dlbDay2_32_eq (fc : FlightCosts) (P : Int) (N : Nat) (hR : PriceRange fc P)
    (hP : 0 ≤ P) (hfit : ((N : Int) + 4) * P + 4 ≤ INT_MAX)
    (he : ∀ t : Tour, t.length ≤ N + 1 → evalTourCost32 fc t = evalTourCost fc t)
    (b : Tour) (hlen : b.length ≤ N + 1) (bc : Int)
    (hbc1 : -1 ≤ bc) (hbc2 : bc ≤ (N : Int) * P) (bits : List Nat) (d1 c1 : Nat) (cft : Int)
    (hc1 : -2 ≤ cft) (hc2 : cft ≤ 2 * P) :
    ∀ (k d2 : Nat) (tour : Tour), tour.length ≤ N + 1 →
      dlbDay2_32 fc b bc bits d1 c1 cft k d2 tour = dlbDay2 fc b bc bits d1 c1 cft k d2 tour := by
  intro k
  induction k with
  | zero => intro d2 tour _; rfl
  | succ k ih =>
    intro d2 tour hlen2
    simp only [dlbDay2_32, dlbDay2]
    have hbody : dlbBody32 fc b bc bits d1 c1 cft d2 tour =
        dlbBody fc b bc bits d1 c1 cft d2 tour := by
      unfold dlbBody32 dlbBody
      rw [dlbSwap32_eq fc P N hR hP hfit he b hlen bc hbc1 hbc2 bits d1 c1 cft hc1 hc2 d2]
      cases dlbSwap fc b bc bits d1 c1 cft d2 with
      | restart r => rfl
      | next u => exact dlbFlip32_eq fc N he b bc bits d1 d2 tour hlen2
    rw [hbody]
    cases hb : dlbBody fc b bc bits d1 c1 cft d2 tour with
    | restart r => rfl
    | next tour1 =>
      have h1 := dlbBody_next_len fc b bc bits d1 c1 cft d2 tour tour1 hb
      exact ih (d2 + 1) tour1 (by omega)

theorem dlbDay1_32_eq (fc : FlightCosts) (P : Int) (N : Nat) (hR : PriceRange fc P)
    (hP : 0 ≤ P) (hfit : ((N : Int) + 4) * P + 4 ≤ INT_MAX)
    (he : ∀ t : Tour, t.length ≤ N + 1 → evalTourCost32 fc t = evalTourCost fc t)
    (b : Tour) (hlen : b.length ≤ N + 1) (bc : Int)
    (hbc1 : -1 ≤ bc) (hbc2 : bc ≤ (N : Int) * P) :
    ∀ (k d1 : Nat) (bits : List Nat),
      dlbDay1_32 fc b bc k d1 bits = dlbDay1 fc b bc k d1 bits := by
  intro k
  induction k with
  | zero => intro d1 bits; rfl
  | succ k ih =>
    intro d1 bits
    simp only [dlbDay1_32, dlbDay1]
    obtain ⟨hw, hc1, hc2⟩ := costFromTo1_32_eq fc P N hR hP hfit (d1 - 1) (at_ b (d1 - 1))
      (at_ b d1) d1 (at_ b d1) (at_ b (d1 + 1))
    rw [hw, dlbDay2_32_eq fc P N hR hP hfit he b hlen bc hbc1 hbc2 bits d1 (at_ b d1) _
      hc1 hc2 _ _ b hlen]
    split_ifs with hbit
    · exact ih (d1 + 1) bits
    · cases dlbDay2 fc b bc bits d1 (at_ b d1)
          (fc (d1 - 1) (at_ b (d1 - 1)) (at_ b d1) + fc d1 (at_ b d1) (at_ b (d1 + 1)))
          (b.length - 1 - (d1 + 1)) (d1 + 1) b with
      | restart r => rfl
      | next s => exact ih (d1 + 1) _

theorem fit_mul (P : Int) (N : Nat) (hP : 0 ≤ P)
    (hfit : ((N : Int) + 4) * P + 4 ≤ INT_MAX) : (N : Int) * P ≤ INT_MAX := by
  have hexp : ((N : Int) + 4) * P = (N : Int) * P + 4 * P := by ring
  omega

theorem perform2OptLoop32_spec (fc : FlightCosts) (P : Int) (N : Nat) (hN : 1 ≤ N)
    (hR : PriceRange fc P) (hP : 0 ≤ P) (hfit : ((N : Int) + 4) * P + 4 ≤ INT_MAX) :
    ∀ (fuel : Nat) (b : Tour) (bc : Int), b.length = N + 1 → Feasible fc b →
      bc = evalTourCost fc b → bc ≤ fuel →
      ∃ T n, perform2OptLoop32 fc fuel b bc = some (T, n) ∧
        perform2OptLoop fc fuel b bc = some T ∧ (n : Int) < bc := by
  have hU : ∀ d a b, fc d a b ≤ P := fun d a b => (hR d a b).2
  have he : ∀ t : Tour, t.length ≤ N + 1 → evalTourCost32 fc t = evalTourCost fc t :=
    fun t ht => evalTourCost32_eq_of_range fc P N hU hP (fit_mul P N hP hfit) t ht
  intro fuel
  induction fuel with
  | zero =>
    intro b bc hlen hf hbc hfuel
    have := (evalTourCost_pos_iff fc b (by omega)).mpr hf
    simp at hfuel
    omega
  | succ fuel ih =>
    intro b bc hlen hf hbc hfuel
    have hpos : 0 < bc := by rw [hbc]; exact (evalTourCost_pos_iff fc b (by omega)).mpr hf
    have hle : bc ≤ (N : Int) * P := by
      rw [hbc]; exact (evalTourCost_le_of_range fc P N hU hP b (by omega)).2
    have hspec := opt2Day1_spec fc bc b (b.length - 2 - 1) 1 (le_refl 1) (fun h => by omega)
    simp only [perform2OptLoop32, perform2OptLoop]
    rw [opt2Day1_32_eq fc P N hR hP hfit he bc (by omega) hle _ _ b (by omega)]
    cases hd : opt2Day1 fc bc (b.length - 2 - 1) 1 b with
    | restart r =>
      obtain ⟨t, c⟩ := r
      obtain ⟨h1, h2, h3, h4⟩ := feasible_of_goodRestart fc b bc (t, c) (by omega) hf hbc
        (hspec.1 _ hd)
      dsimp only at h1 h2 h3 h4 ⊢
      obtain ⟨T, n, hT, hT2, hlt⟩ := ih t c (by omega) h2 h3 (by push_cast at hfuel; omega)
      refine ⟨T, n + 1, ?_, hT2, by push_cast; omega⟩
      rw [hT]; rfl
    | next s =>
      exact ⟨s, 0, rfl, rfl, by simpa using hpos⟩

theorem perform2OptWithDLBsLoop32_spec (fc : FlightCosts) (P : Int) (N : Nat) (hN : 1 ≤ N)
    (hR : PriceRange fc P) (hP : 0 ≤ P) (hfit : ((N : Int) + 4) * P + 4 ≤ INT_MAX) :
    ∀ (fuel : Nat) (b : Tour) (bc : Int) (bits : List Nat), b.length = N + 1 →
      Feasible fc b → bc = evalTourCost fc b → bc ≤ fuel →
      ∃ T n, perform2OptWithDLBsLoop32 fc fuel b bc bits = some (T, n) ∧
        (perform2OptWithDLBsLoop fc fuel b bc bits).map Prod.fst = some T ∧
        (n : Int) < bc := by
  have hU : ∀ d a b, fc d a b ≤ P := fun d a b => (hR d a b).2
  have he : ∀ t : Tour, t.length ≤ N + 1 → evalTourCost32 fc t = evalTourCost fc t :=
    fun t ht => evalTourCost32_eq_of_range fc P N hU hP (fit_mul P N hP hfit) t ht
  intro fuel
  induction fuel with
  | zero =>
    intro b bc bits hlen hf hbc hfuel
    have := (evalTourCost_pos_iff fc b (by omega)).mpr hf
    simp at hfuel
    omega
  | succ fuel ih =>
    intro b bc bits hlen hf hbc hfuel
    have hpos : 0 < bc := by rw [hbc]; exact (evalTourCost_pos_iff fc b (by omega)).mpr hf
    have hle : bc ≤ (N : Int) * P := by
      rw [hbc]; exact (evalTourCost_le_of_range fc P N hU hP b (by omega)).2
    have hspec := dlbDay1_restart fc bc b (b.length - 2 - 1) 1 bits (le_refl 1)
      (fun h => by omega)
    simp only [perform2OptWithDLBsLoop32, perform2OptWithDLBsLoop]
    rw [dlbDay1_32_eq fc P N hR hP hfit he b (by omega) bc (by omega) hle _ _ bits]
    cases hd : dlbDay1 fc b bc (b.length - 2 - 1) 1 bits with
    | restart r =>
      obtain ⟨t, c, bits1⟩ := r
      obtain ⟨h1, h2, h3, h4⟩ := feasible_of_goodRestart fc b bc (t, c) (by omega) hf hbc
        (hspec _ hd)
      dsimp only at h1 h2 h3 h4 ⊢
      obtain ⟨T, n, hT, hT2, hlt⟩ := ih t c bits1 (by omega) h2 h3
        (by push_cast at hfuel; omega)
      refine ⟨T, n + 1, ?_, hT2, by push_cast; omega⟩
      rw [hT]; rfl
    | next s =>
      exact ⟨b, 0, rfl, rfl, by simpa using hpos⟩

/-- Claim C23, counterexample: on `bigSwapTable` the tour `0, 1, 2, 3, 0` is
feasible with cost 4. The first pass of `perform2Opt` prices the exchange of
days 1 and 3 by the delta formula; the four new legs cost 600 000 000 each,
the 32-bit sum wraps around to `-1894967296`, which is below 4, so the move is
taken: `bestCost` is negative afterwards, and the engine returns the tour
`0, 3, 2, 1, 0`. -/
theorem perform2Opt32_accepts_wrapped_cost :
    Feasible bigSwapTable [0, 1, 2, 3, 0] ∧
    evalTourCost32 bigSwapTable [0, 1, 2, 3, 0] = 4 ∧
    opt2Day1_32 bigSwapTable 4 ([0, 1, 2, 3, 0].length - 2 - 1) 1 [0, 1, 2, 3, 0] =
      .restart ([0, 3, 2, 1, 0], -1894967296) ∧
    ¬ (0 : Int) < -1894967296 ∧
    perform2Opt32 bigSwapTable 4 [0, 1, 2, 3, 0] = some ([0, 3, 2, 1, 0], 1) :=
  ⟨by decide, by decide, rfl, by decide, by decide⟩

/-- Claim C23, amended: for every cost table whose entries lie between `-1`
and `P` with `(N + 4) * P + 4 ≤ INT_MAX` (no sum of the engines leaves the
range of `int`) and every feasible initial tour of length `N + 1`, with the
deadline not firing, `perform2Opt` and `perform2OptWithDLBs` (32-bit sums)
return once the fuel reaches the initial cost, with the tour of the exact
engine, and the number of times `goto from_scratch` is taken is below the
initial cost; in every pass from a feasible `bestTour` with
`bestCost = evalTourCost(bestTour)` an accepted move leaves a feasible tour
whose recorded cost is its evaluated cost, is positive and is strictly below
the cost before. -/
theorem localSearch32_restarts_bounded (fc : FlightCosts) (P : Int) (N numCities : Nat)
    (t : Tour) (fuel : Nat) (hN : 1 ≤ N) (hlen : t.length = N + 1) (hf : Feasible fc t)
    (hR : PriceRange fc P) (hP : 0 ≤ P) (hfit : ((N : Int) + 4) * P + 4 ≤ INT_MAX)
    (hfuel : evalTourCost32 fc t ≤ fuel) :
    (∃ T n, perform2Opt32 fc fuel t = some (T, n) ∧ (n : Int) < evalTourCost32 fc t ∧
      perform2Opt fc fuel t = some T) ∧
    (∃ T n, perform2OptWithDLBs32 fc numCities fuel t = some (T, n) ∧
      (n : Int) < evalTourCost32 fc t ∧ perform2OptWithDLBs fc numCities fuel t = some T) ∧
    (∀ (b : Tour) (r : Tour × Int), b.length = N + 1 → Feasible fc b →
      opt2Day1_32 fc (evalTourCost32 fc b) (b.length - 2 - 1) 1 b = .restart r →
      Feasible fc r.1 ∧ r.2 = evalTourCost32 fc r.1 ∧ 0 < r.2 ∧
        r.2 < evalTourCost32 fc b) ∧
    (∀ (b : Tour) (bits : List Nat) (r : Tour × Int × List Nat), b.length = N + 1 →
      Feasible fc b →
      dlbDay1_32 fc b (evalTourCost32 fc b) (b.length - 2 - 1) 1 bits = .restart r →
      Feasible fc r.1 ∧ r.2.1 = evalTourCost32 fc r.1 ∧ 0 < r.2.1 ∧
        r.2.1 < evalTourCost32 fc b) := by
  have hU : ∀ d a b, fc d a b ≤ P := fun d a b => (hR d a b).2
  have he : ∀ t : Tour, t.length ≤ N + 1 → evalTourCost32 fc t = evalTourCost fc t :=
    fun t ht => evalTourCost32_eq_of_range fc P N hU hP (fit_mul P N hP hfit) t ht
  have het := he t (by omega)
  rw [het] at hfuel
  refine ⟨?_, ?_, ?_, ?_⟩
  · obtain ⟨T, n, h1, h2, h3⟩ := perform2OptLoop32_spec fc P N hN hR hP hfit fuel t _ hlen hf
      rfl hfuel
    refine ⟨T, n, ?_, by rw [het]; exact h3, h2⟩
    unfold perform2Opt32
    rw [het]; exact h1
  · obtain ⟨T, n, h1, h2, h3⟩ := perform2OptWithDLBsLoop32_spec fc P N hN hR hP hfit fuel t _
      (List.replicate numCities 0) hlen hf rfl hfuel
    refine ⟨T, n, ?_, by rw [het]; exact h3, h2⟩
    unfold perform2OptWithDLBs32
    rw [het]; exact h1
  · intro b r hb hfb hd
    have heb := he b (by omega)
    have hpos : 0 < evalTourCost fc b := (evalTourCost_pos_iff fc b (by omega)).mpr hfb
    have hle := (evalTourCost_le_of_range fc P N hU hP b (by omega)).2
    rw [heb, opt2Day1_32_eq fc P N hR hP hfit he _ (by omega) hle _ _ b (by omega)] at hd
    have hspec := opt2Day1_spec fc (evalTourCost fc b) b (b.length - 2 - 1) 1 (le_refl 1)
      (fun h => by omega)
    obtain ⟨h1, h2, h3, h4⟩ := feasible_of_goodRestart fc b _ r (by omega) hfb rfl
      (hspec.1 _ hd)
    have her := he r.1 (by omega)
    rw [heb, her]
    refine ⟨h2, h3, ?_, h4⟩
    rw [h3]
    exact (evalTourCost_pos_iff fc r.1 (by omega)).mpr h2
  · intro b bits r hb hfb hd
    have heb := he b (by omega)
    have hpos : 0 < evalTourCost fc b := (evalTourCost_pos_iff fc b (by omega)).mpr hfb
    have hle := (evalTourCost_le_of_range fc P N hU hP b (by omega)).2
    rw [heb, dlbDay1_32_eq fc P N hR hP hfit he b (by omega) _ (by omega) hle _ _ bits] at hd
    have hspec := dlbDay1_restart fc (evalTourCost fc b) b (b.length - 2 - 1) 1 bits
      (le_refl 1) (fun h => by omega)
    obtain ⟨h1, h2, h3, h4⟩ := feasible_of_goodRestart fc b _ (r.1, r.2.1) (by omega) hfb rfl
      (hspec _ hd)
    dsimp only at h1 h2 h3 h4
    have her := he r.1 (by omega)
    rw [heb, her]
    refine ⟨h2, h3, ?_, h4⟩
    rw [h3]
    exact (evalTourCost_pos_iff fc r.1 (by omega)).mpr h2

theorem unitTable_range : PriceRange unitTable 1 := by
  intro d a b
  unfold unitTable
  decide

theorem localSearch32_restarts_bounded_witness :
    (1 ≤ 11 ∧ elevenTour.length = 11 + 1 ∧ Feasible unitTable elevenTour ∧
      (((11 : Nat) : Int) + 4) * 1 + 4 ≤ INT_MAX ∧
      evalTourCost32 unitTable elevenTour ≤ (11 : Nat)) ∧
    (∃ T n, perform2Opt32 unitTable 11 elevenTour = some (T, n) ∧
      (n : Int) < evalTourCost32 unitTable elevenTour ∧
      perform2Opt unitTable 11 elevenTour = some T) ∧
    (∃ T n, perform2OptWithDLBs32 unitTable 11 11 elevenTour = some (T, n) ∧
      (n : Int) < evalTourCost32 unitTable elevenTour ∧
      perform2OptWithDLBs unitTable 11 11 elevenTour = some T) :=
  ⟨⟨by decide, by decide, by decide, by decide, by decide⟩,
    (localSearch32_restarts_bounded unitTable 1 11 11 elevenTour 11
      (by decide) (by decide) (by decide) unitTable_range (by decide) (by decide)
      (by decide)).1,
    (localSearch32_restarts_bounded unitTable 1 11 11 elevenTour 11
      (by decide) (by decide) (by decide) unitTable_range (by decide) (by decide)
      (by decide)).2.1⟩

/-- On a table whose sums fit an `int`, `perform2Opt` with 32-bit sums returns
the tour that it returns with exact sums. -/
theorem perform2Opt32_eq (fc : FlightCosts) (P : Int) (N : Nat) (t : Tour) (fuel : Nat)
    (hN : 1 ≤ N) (hlen : t.length = N + 1) (hf : Feasible fc t) (hR : PriceRange fc P)
    (hP : 0 ≤ P) (hfit : ((N : Int) + 4) * P + 4 ≤ INT_MAX)
    (hfuel : evalTourCost fc t ≤ fuel) :
    (perform2Opt32 fc fuel t).map Prod.fst = perform2Opt fc fuel t := by
  have het : evalTourCost32 fc t = evalTourCost fc t :=
    evalTourCost32_eq_of_range fc P N (fun d a b => (hR d a b).2) hP (fit_mul P N hP hfit) t
      (by omega)
  obtain ⟨T, n, h1, h2, -⟩ := perform2OptLoop32_spec fc P N hN hR hP hfit fuel t _ hlen hf
    rfl hfuel
  unfold perform2Opt32 perform2Opt
  rw [het, h1, h2]
  rfl

/-- On a table whose sums fit an `int`, `perform2OptWithDLBs` with 32-bit sums
returns the tour that it returns with exact sums. -/
theorem perform2OptWithDLBs32_eq (fc : FlightCosts) (P : Int) (N numCities : Nat) (t : Tour)
    (fuel : Nat) (hN : 1 ≤ N) (hlen : t.length = N + 1) (hf : Feasible fc t)
    (hR : PriceRange fc P) (hP : 0 ≤ P) (hfit : ((N : Int) + 4) * P + 4 ≤ INT_MAX)
    (hfuel : evalTourCost fc t ≤ fuel) :
    (perform2OptWithDLBs32 fc numCities fuel t).map Prod.fst =
      perform2OptWithDLBs fc numCities fuel t := by
  have het : evalTourCost32 fc t = evalTourCost fc t :=
    evalTourCost32_eq_of_range fc P N (fun d a b => (hR d a b).2) hP (fit_mul P N hP hfit) t
      (by omega)
  obtain ⟨T, n, h1, h2, -⟩ := perform2OptWithDLBsLoop32_spec fc P N hN hR hP hfit fuel t _
    (List.replicate numCities 0) hlen hf rfl hfuel
  unfold perform2OptWithDLBs32
  rw [het, h1]
  exact h2.symm

/-! ## The lookahead constructor: 32-bit sums agree with exact sums -/

theorem greedyLoop32_eq (fc : FlightCosts) (N toCity : Nat) (out : Nat → Nat → List CityCost)
    (P : Int) (hP : 0 ≤ P) (hU : ∀ d a b, fc d a b ≤ P) (hI : IndexRange out P) :
    ∀ (k day cur : Nat) (ctv : List Nat) (acc : Int), 0 ≤ acc →
      acc + (k : Int) * P ≤ INT_MAX →
      greedyLoop32 fc N toCity out k day cur ctv acc = greedyLoop fc N toCity out k day cur ctv acc
        ∧ 0 ≤ greedyLoop fc N toCity out k day cur ctv acc
        ∧ (greedyLoop fc N toCity out k day cur ctv acc ≤ acc + (k : Int) * P ∨
            greedyLoop fc N toCity out k day cur ctv acc = COST_MAX) := by
  intro k
  induction k with
  | zero =>
    intro day cur ctv acc h0 h1
    refine ⟨rfl, ?_, Or.inl ?_⟩
    · simpa [greedyLoop] using h0
    · simp [greedyLoop]
  | succ k ih =>
    intro day cur ctv acc h0 h1
    have hexp : ((k + 1 : Nat) : Int) * P = (k : Int) * P + P := by push_cast; ring
    have hkP : 0 ≤ (k : Int) * P := mul_nonneg (by exact_mod_cast Nat.zero_le k) hP
    have hcm : (0 : Int) ≤ COST_MAX := by decide
    rw [hexp] at h1 ⊢
    simp only [greedyLoop32, greedyLoop]
    by_cases hd : day = N - 1
    · rw [if_pos hd, if_pos hd]
      by_cases hp : fc day cur toCity > 0
      · rw [if_pos hp, if_pos hp]
        have hle := hU day cur toCity
        have hw : wrap32 (acc + fc day cur toCity) = acc + fc day cur toCity := by
          apply wrap32_eq <;> simp [INT_MAX] at h1 ⊢ <;> omega
        rw [hw]
        obtain ⟨e, p0, pb⟩ := ih (day + 1) cur ctv (acc + fc day cur toCity) (by omega)
          (by omega)
        refine ⟨e, p0, ?_⟩
        rcases pb with pb | pb
        · left; omega
        · right; exact pb
      · rw [if_neg hp, if_neg hp]
        exact ⟨rfl, hcm, Or.inr rfl⟩
    · rw [if_neg hd, if_neg hd]
      cases hf : firstUnvisited (out cur day) ctv with
      | none => exact ⟨rfl, hcm, Or.inr rfl⟩
      | some f =>
        dsimp only
        obtain ⟨hm, -⟩ := firstUnvisited_some ctv _ f hf
        obtain ⟨hf0, hfP⟩ := hI cur day f hm
        have hw : wrap32 (acc + f.cost) = acc + f.cost := by
          apply wrap32_eq <;> simp [INT_MAX] at h1 ⊢ <;> omega
        rw [hw]
        obtain ⟨e, p0, pb⟩ := ih (day + 1) f.city (ctv.set f.city 0) (acc + f.cost) (by omega)
          (by omega)
        refine ⟨e, p0, ?_⟩
        rcases pb with pb | pb
        · left; omega
        · right; exact pb

theorem evalGreedyNNTourCost32_eq (fc : FlightCosts) (N toCity : Nat)
    (out : Nat → Nat → List CityCost) (P : Int) (hP : 0 ≤ P) (hU : ∀ d a b, fc d a b ≤ P)
    (hI : IndexRange out P) (hfit : (N : Int) * P ≤ INT_MAX) (startDay fromCity : Nat)
    (ctv : List Nat) :
    evalGreedyNNTourCost32 startDay N fromCity toCity ctv fc out =
        evalGreedyNNTourCost startDay N fromCity toCity ctv fc out ∧
      0 ≤ evalGreedyNNTourCost startDay N fromCity toCity ctv fc out ∧
      (evalGreedyNNTourCost startDay N fromCity toCity ctv fc out ≤ (N : Int) * P ∨
        evalGreedyNNTourCost startDay N fromCity toCity ctv fc out = COST_MAX) := by
  unfold evalGreedyNNTourCost32 evalGreedyNNTourCost
  have hk : ((N - startDay : Nat) : Int) * P ≤ (N : Int) * P :=
    mul_le_mul_of_nonneg_right (by exact_mod_cast Nat.sub_le N startDay) hP
  obtain ⟨e, p0, pb⟩ := greedyLoop32_eq fc N toCity out P hP hU hI (N - startDay) startDay
    fromCity (ctv.set fromCity 0) 0 (le_refl 0) (by omega)
  refine ⟨e, p0, ?_⟩
  rcases pb with pb | pb
  · left; omega
  · right; exact pb

theorem lookAheadScan32_eq (fc : FlightCosts) (N start day : Nat)
    (out : Nat → Nat → List CityCost) (P : Int) (hP : 0 ≤ P) (hU : ∀ d a b, fc d a b ≤ P)
    (hI : IndexRange out P) (hfit : ((N : Int) + 1) * P ≤ INT_MAX)
    (hcap : P + COST_MAX ≤ INT_MAX) (ctv : List Nat) :
    ∀ (l : List CityCost) (s : Option Nat × Int), (∀ f, f ∈ l → 0 ≤ f.cost ∧ f.cost ≤ P) →
      lookAheadScan32 fc N start day out ctv l s = lookAheadScan fc N start day out ctv l s
  | [], s, _ => rfl
  | f :: rest, (b, c), hl => by
    have hNP : (N : Int) * P ≤ INT_MAX := by
      have : ((N : Int) + 1) * P = (N : Int) * P + P := by ring
      omega
    have hrest : ∀ g, g ∈ rest → 0 ≤ g.cost ∧ g.cost ≤ P :=
      fun g hg => hl g (List.mem_cons_of_mem _ hg)
    obtain ⟨hf0, hfP⟩ := hl f (List.mem_cons_self _ _)
    obtain ⟨e, p0, pb⟩ := evalGreedyNNTourCost32_eq fc N start out P hP hU hI hNP (day + 1)
      f.city ctv
    have hw : wrap32 (f.cost + evalGreedyNNTourCost (day + 1) N f.city start ctv fc out) =
        f.cost + evalGreedyNNTourCost (day + 1) N f.city start ctv fc out := by
      have hexp : ((N : Int) + 1) * P = (N : Int) * P + P := by ring
      rcases pb with pb | pb
      · apply wrap32_eq <;> simp [INT_MAX] at hfit hNP ⊢ <;> omega
      · rw [pb]
        apply wrap32_eq <;> simp [INT_MAX, COST_MAX] at hcap ⊢ <;> omega
    simp only [lookAheadScan32, lookAheadScan]
    rw [e, hw]
    split_ifs
    · exact lookAheadScan32_eq fc N start day out P hP hU hI hfit hcap ctv rest _ hrest
    · exact lookAheadScan32_eq fc N start day out P hP hU hI hfit hcap ctv rest _ hrest
    · exact lookAheadScan32_eq fc N start day out P hP hU hI hfit hcap ctv rest _ hrest

theorem lookAheadLoop32_eq (fc : FlightCosts) (N start : Nat)
    (out : Nat → Nat → List CityCost) (P : Int) (hP : 0 ≤ P) (hU : ∀ d a b, fc d a b ≤ P)
    (hI : IndexRange out P) (hfit : ((N : Int) + 1) * P ≤ INT_MAX)
    (hcap : P + COST_MAX ≤ INT_MAX) :
    ∀ (k day : Nat) (tour : Tour) (ctv : List Nat) (cur : Nat),
      lookAheadLoop32 fc N start out k day tour ctv cur =
        lookAheadLoop fc N start out k day tour ctv cur := by
  intro k
  induction k with
  | zero => intro day tour ctv cur; rfl
  | succ k ih =>
    intro day tour ctv cur
    simp only [lookAheadLoop32, lookAheadLoop]
    rw [lookAheadScan32_eq fc N start day out P hP hU hI hfit hcap ctv (out cur day) _
      (fun f hf => hI cur day f hf)]
    split_ifs
    · exact ih _ _ _ _
    · rfl
    · rcases hs : lookAheadScan fc N start day out ctv (out cur day) (none, COST_MAX) with
        ⟨b, c⟩
      cases b with
      | none => rfl
      | some b => exact ih _ _ _ _

/-- The lookahead constructor computes the same tour with 32-bit sums as with
exact sums on every table whose entries are at most `P`, with an index whose
prices lie between 0 and `P`, when `(numCities + 1) * P` and `P + COST_MAX` fit
an `int`. -/
theorem makeNNTourWithLookAhead32_eq (fc : FlightCosts) (N start : Nat)
    (out : Nat → Nat → List CityCost) (P : Int) (hP : 0 ≤ P) (hU : ∀ d a b, fc d a b ≤ P)
    (hI : IndexRange out P) (hfit : ((N : Int) + 1) * P ≤ INT_MAX)
    (hcap : P + COST_MAX ≤ INT_MAX) :
    makeNNTourWithLookAhead32 start N fc out = makeNNTourWithLookAhead start N fc out :=
  lookAheadLoop32_eq fc N start out P hP hU hI hfit hcap _ _ _ _ _

/-- The index of `sortOutboundFlights` holds prices of the table only. -/
theorem sortOutboundFlights_range (fc : FlightCosts) (N : Nat) (P : Int)
    (hU : ∀ d a b, fc d a b ≤ P) : IndexRange (sortOutboundFlights fc N) P := by
  intro city day f hf
  unfold sortOutboundFlights at hf
  split_ifs at hf with h
  · rw [(List.perm_insertionSort _ _).mem_iff] at hf
    obtain ⟨-, h2, h3⟩ := (mem_outboundCandidates fc N city day f.city f.cost).mp hf
    have := hU day city f.city
    omega
  · simp at hf

/-! ## `makeDoubleEndedNNTour` returns valid feasible tours -/

theorem dennInv_init (fc : FlightCosts) (start N fromCity fromDay : Nat)
    (hc : fromCity < N) (hne : fromCity ≠ start) (hd1 : 1 ≤ fromDay) (hd2 : fromDay < N) :
    DENNInv fc start N fromCity fromDay (dennInit fromCity fromDay start N) := by
  have hA : at_ ((((List.replicate (N + 1) 0).set fromDay fromCity).set N start).set 0 start)
      fromDay = fromCity := by
    rw [at_set _ _ _ _ (by simp), if_neg (by omega), at_set _ _ _ _ (by simp),
      if_neg (by omega), at_set _ _ _ _ (by simp; omega), if_pos rfl]
  have hC : (((List.replicate N 1).set start 0).set fromCity 0).getD fromCity 0 = 0 :=
    getD_set_zero _ _
  refine ⟨?_, ?_, ?_, ?_, ?_, ?_, ?_, ?_, ?_, ?_, ?_, ?_, ?_, ?_⟩ <;>
    simp only [dennInit]
  · simp
  · rw [at_set _ _ _ _ (by simp), if_pos rfl]
  · rw [at_set _ _ _ _ (by simp), if_neg (by omega), at_set _ _ _ _ (by simp), if_pos rfl]
  · omega
  · omega
  · rw [show fromDay - 1 + 1 = fromDay by omega]; exact hA
  · exact hA
  · omega
  · exact le_refl _
  · exact hA
  · intro d h1 h2; omega
  · intro d h1 h2
    have hd : d = fromDay := by omega
    subst hd
    rw [hA]
    exact ⟨hc, hne, hC⟩
  · intro d1 d2 h1 h2 h3; omega
  · rw [getD_set0]
    split_ifs
    · rfl
    · exact getD_set_zero _ _

theorem dennInv_bounds (fc : FlightCosts) (start N fromCity fromDay : Nat) (s : DENNState)
    (h : DENNInv fc start N fromCity fromDay s) : DENNBounds N s := by
  have h1 := h.filled s.currTourEndDay h.lt (le_refl _)
  have h2 := h.filled (s.currTourStartDay + 1) (by omega) (by have := h.lt; omega)
  rw [h.atEnd] at h1
  rw [h.atStart] at h2
  have := h.lt
  have := h.le
  exact ⟨h1.1, h2.1, by omega, by omega⟩

theorem getD_set0_of_zero (l : List Nat) (i c : Nat) (h : l.getD c 0 = 0) :
    (l.set i 0).getD c 0 = 0 := by
  rw [getD_set0]
  split_ifs
  · rfl
  · exact h

theorem dennInv_forward (fc : FlightCosts) (start N fromCity fromDay : Nat) (s : DENNState)
    (f : CityCost) (h : DENNInv fc start N fromCity fromDay s) (hf : CheapestOut fc N s f)
    (hlast : s.currTourEndDay ≠ N - 1) :
    DENNInv fc start N fromCity fromDay (dennForward s f) := by
  obtain ⟨hfN, hfv, hfc, hfpos, -, -⟩ := hf
  have hlt := h.lt
  have hle := h.le
  have hlen := h.len
  have hset : ∀ p, at_ (s.tour.set (s.currTourEndDay + 1) f.city) p =
      if p = s.currTourEndDay + 1 then f.city else at_ s.tour p :=
    fun p => at_set _ _ _ _ (by omega)
  refine ⟨?_, ?_, ?_, ?_, ?_, ?_, ?_, ?_, ?_, ?_, ?_, ?_, ?_, ?_⟩ <;>
    simp only [dennForward]
  · simpa using hlen
  · rw [hset, if_neg (by omega)]; exact h.first
  · rw [hset, if_neg (by omega)]; exact h.last
  · omega
  · omega
  · rw [hset, if_neg (by omega)]; exact h.atStart
  · rw [hset, if_pos rfl]
  · exact h.anchorLo
  · have := h.anchorHi; omega
  · rw [hset, if_neg (by have := h.anchorHi; omega)]; exact h.anchor
  · intro d h1 h2
    unfold leg
    rw [hset, hset, if_neg (by omega)]
    by_cases hd : d = s.currTourEndDay
    · subst hd
      rw [if_pos rfl, h.atEnd, hfc]
      exact hfpos
    · rw [if_neg (by omega)]
      exact h.legs d h1 (by omega)
  · intro d h1 h2
    rw [hset]
    by_cases hd : d = s.currTourEndDay + 1
    · rw [if_pos hd]
      refine ⟨hfN, ?_, getD_set_zero _ _⟩
      intro e
      rw [e] at hfv
      exact hfv h.startDone
    · rw [if_neg hd]
      obtain ⟨a, b, c⟩ := h.filled d h1 (by omega)
      exact ⟨a, b, getD_set0_of_zero _ _ _ c⟩
  · intro d1 d2 h1 h2 h3
    rw [hset, hset, if_neg (by omega)]
    by_cases hd : d2 = s.currTourEndDay + 1
    · rw [if_pos hd]
      intro e
      have := (h.filled d1 h1 (by omega)).2.2
      rw [e] at this
      exact hfv this
    · rw [if_neg hd]
      exact h.distinct d1 d2 h1 h2 (by omega)
  · exact getD_set0_of_zero _ _ _ h.startDone

theorem dennInv_backward (fc : FlightCosts) (start N fromCity fromDay : Nat) (s : DENNState)
    (g : CityCost) (h : DENNInv fc start N fromCity fromDay s) (hg : CheapestIn fc N s g)
    (hfirst : s.currTourStartDay ≠ 0) :
    DENNInv fc start N fromCity fromDay (dennBackward s g) := by
  obtain ⟨hgN, hgv, hgc, hgpos, -, -⟩ := hg
  have hlt := h.lt
  have hle := h.le
  have hlen := h.len
  have hset : ∀ p, at_ (s.tour.set s.currTourStartDay g.city) p =
      if p = s.currTourStartDay then g.city else at_ s.tour p :=
    fun p => at_set _ _ _ _ (by omega)
  refine ⟨?_, ?_, ?_, ?_, ?_, ?_, ?_, ?_, ?_, ?_, ?_, ?_, ?_, ?_⟩ <;>
    simp only [dennBackward]
  · simpa using hlen
  · rw [hset, if_neg (by omega)]; exact h.first
  · rw [hset, if_neg (by omega)]; exact h.last
  · omega
  · omega
  · rw [hset, if_pos (by omega)]
  · rw [hset, if_neg (by omega)]; exact h.atEnd
  · have := h.anchorLo; omega
  · exact h.anchorHi
  · rw [hset, if_neg (by have := h.anchorLo; omega)]; exact h.anchor
  · intro d h1 h2
    unfold leg
    rw [hset d, hset (d + 1), if_neg (by omega : ¬ d + 1 = s.currTourStartDay)]
    by_cases hd : d = s.currTourStartDay
    · subst hd
      rw [if_pos rfl, h.atStart, hgc]
      exact hgpos
    · rw [if_neg hd]
      exact h.legs d (by omega) h2
  · intro d h1 h2
    rw [hset]
    by_cases hd : d = s.currTourStartDay
    · rw [if_pos hd]
      refine ⟨hgN, ?_, getD_set_zero _ _⟩
      intro e
      rw [e] at hgv
      exact hgv h.startDone
    · rw [if_neg hd]
      obtain ⟨a, b, c⟩ := h.filled d (by omega) h2
      exact ⟨a, b, getD_set0_of_zero _ _ _ c⟩
  · intro d1 d2 h1 h2 h3
    rw [hset d1, hset d2, if_neg (by omega : ¬ d2 = s.currTourStartDay)]
    by_cases hd : d1 = s.currTourStartDay
    · rw [if_pos hd]
      intro e
      have := (h.filled d2 (by omega) h3).2.2
      rw [← e] at this
      exact hgv this
    · rw [if_neg hd]
      exact h.distinct d1 d2 (by omega) h2 h3
  · exact getD_set0_of_zero _ _ _ h.startDone

theorem at_dropLast (t : Tour) (i : Nat) (h : i < t.length - 1) :
    at_ t.dropLast i = at_ t i := by
  simp only [at_eq, List.dropLast_eq_take, List.getElem?_take, if_pos h]

theorem dennInv_complete (fc : FlightCosts) (start N fromCity fromDay : Nat) (s : DENNState)
    (hs : start < N) (h : DENNInv fc start N fromCity fromDay s)
    (hE : s.currTourEndDay = N - 1) (hS : s.currTourStartDay = 0)
    (hout : 0 < fc 0 start s.currTourStartCity)
    (hback : 0 < fc s.currTourEndDay s.currTourEndCity start) :
    ValidTour N start s.tour ∧ at_ s.tour fromDay = fromCity ∧ Feasible fc s.tour := by
  have hlt := h.lt
  have hlen := h.len
  refine ⟨?_, h.anchor, ?_⟩
  · have hat : ∀ i, i < N → 1 ≤ i → at_ s.tour i < N ∧ at_ s.tour i ≠ start :=
      fun i hi h1 => ⟨(h.filled i (by omega) (by omega)).1, (h.filled i (by omega) (by omega)).2.1⟩
    have hdl : s.tour.dropLast.length = N := by simp [hlen]
    refine validTour_of_complete N start s.tour (by omega) hs hlen h.first h.last ?_ ?_
    · rw [List.nodup_iff_getElem?_ne_getElem?]
      intro i j hij hj
      rw [hdl] at hj
      intro e
      have e2 : at_ s.tour.dropLast i = at_ s.tour.dropLast j := by
        simp only [at_eq, e]
      rw [at_dropLast _ _ (by omega), at_dropLast _ _ (by omega)] at e2
      by_cases hi : i = 0
      · subst hi
        rw [h.first] at e2
        exact (hat j hj (by omega)).2 e2.symm
      · exact h.distinct i j (by omega) hij (by omega) e2
    · intro c hc
      obtain ⟨i, hi, rfl⟩ := List.mem_iff_getElem.mp hc
      rw [hdl] at hi
      have e : s.tour.dropLast[i] = at_ s.tour.dropLast i := by
        simp only [at_eq, List.getElem?_eq_getElem (by omega : i < s.tour.dropLast.length),
          Option.getD_some]
      rw [e, at_dropLast _ _ (by omega)]
      by_cases h0 : i = 0
      · subst h0; rw [h.first]; exact hs
      · exact (hat i hi (by omega)).1
  · intro d hd
    rw [hlen] at hd
    by_cases h0 : d = 0
    · subst h0
      unfold leg
      have := h.atStart
      rw [hS] at this
      rw [h.first, this]
      exact hout
    · by_cases hN : d = N - 1
      · unfold leg
        have e := h.atEnd
        rw [hE] at e hback
        rw [hN, e, show N - 1 + 1 = N by omega, h.last]
        exact hback
      · exact h.legs d (by omega) (by omega)

theorem dennLoop_valid (fc : FlightCosts) (start N fromCity fromDay : Nat)
    (out inb : Nat → Nat → List CityCost) (hs : start < N)
    (hz : ∀ d a b, fc d a b ≠ 0) (hout : IsOutboundIndex fc N out)
    (hinb : IsInboundIndex fc N inb) :
    ∀ (fuel : Nat) (s : DENNState), DENNInv fc start N fromCity fromDay s →
      (N - 1 - s.currTourEndDay) + s.currTourStartDay < fuel →
      ∃ T, dennLoop fc start N out inb fuel s = .returned T ∧
        (T = [] ∨ (ValidTour N start T ∧ at_ T fromDay = fromCity ∧ Feasible fc T)) := by
  intro fuel
  induction fuel with
  | zero => intro s _ h; omega
  | succ fuel ih =>
    intro s hinv hfuel
    have hb := dennInv_bounds fc start N fromCity fromDay s hinv
    have hlt := hinv.lt
    have hle := hinv.le
    rw [dennLoop_succ]
    by_cases h1 : s.currTourEndDay = N - 1 ∧ fc s.currTourEndDay s.currTourEndCity start < 0
    · rw [if_pos h1]; exact ⟨[], rfl, Or.inl rfl⟩
    rw [if_neg h1]
    by_cases h2 : s.currTourStartDay = 0 ∧ fc 0 start s.currTourStartCity < 0
    · rw [if_pos h2]; exact ⟨[], rfl, Or.inl rfl⟩
    rw [if_neg h2]
    by_cases h3 : s.currTourEndDay = N - 1 ∧ s.currTourStartDay = 0
    · rw [if_pos h3]
      refine ⟨s.tour, rfl, Or.inr ?_⟩
      have z1 := hz 0 start s.currTourStartCity
      have z2 := hz s.currTourEndDay s.currTourEndCity start
      have p1 : ¬ fc 0 start s.currTourStartCity < 0 := fun e => h2 ⟨h3.2, e⟩
      have p2 : ¬ fc s.currTourEndDay s.currTourEndCity start < 0 := fun e => h1 ⟨h3.1, e⟩
      exact dennInv_complete fc start N fromCity fromDay s hs hinv h3.1 h3.2 (by omega)
        (by omega)
    rw [if_neg h3]
    have stepF : ∀ f, dennBestOut N out s = some f →
        ∃ T, dennLoop fc start N out inb fuel (dennForward s f) = .returned T ∧
          (T = [] ∨ (ValidTour N start T ∧ at_ T fromDay = fromCity ∧ Feasible fc T)) := by
      intro f ho
      obtain ⟨hc, hl⟩ := dennBestOut_some fc N out hout s hb f ho
      refine ih _ (dennInv_forward fc start N fromCity fromDay s f hinv hc hl) ?_
      simp only [dennForward]
      omega
    have stepB : ∀ g, dennBestIn inb s = some g →
        ∃ T, dennLoop fc start N out inb fuel (dennBackward s g) = .returned T ∧
          (T = [] ∨ (ValidTour N start T ∧ at_ T fromDay = fromCity ∧ Feasible fc T)) := by
      intro g hi
      obtain ⟨hc, hl⟩ := dennBestIn_some fc N inb hinb s hb g hi
      refine ih _ (dennInv_backward fc start N fromCity fromDay s g hinv hc hl) ?_
      simp only [dennBackward]
      omega
    cases ho : dennBestOut N out s with
    | none =>
      cases hi : dennBestIn inb s with
      | none => exact ⟨[], rfl, Or.inl rfl⟩
      | some g => exact stepB g hi
    | some f =>
      cases hi : dennBestIn inb s with
      | none => exact stepF f ho
      | some g =>
        dsimp only
        split_ifs
        · exact stepF f ho
        · exact stepB g hi

/-- Claim C9: for every cost table in which no entry is 0 (an entry is a
positive price or the value `-1` of an absent flight, so a leg is feasible
exactly when its entry is positive), every anchor city different from the
start city and every anchor day with `1 ≤ fromDay < numCities`,
`makeDoubleEndedNNTour` returns after at most `numCities - 1` passes of its
loop, and what it returns is the empty tour or a valid tour (length
`numCities + 1`, the start city at both ends, every other city exactly once in
between) with the anchor city on the anchor day and every leg priced, the
day-0 leg out of the start city and the leg of day `numCities - 1` back to it
included. -/
theorem makeDoubleEndedNNTour_valid (fc : FlightCosts) (start N fromCity fromDay : Nat)
    (out inb : Nat → Nat → List CityCost) (fuel : Nat) (hs : start < N)
    (hc : fromCity < N) (hne : fromCity ≠ start) (hd1 : 1 ≤ fromDay) (hd2 : fromDay < N)
    (hz : ∀ d a b, fc d a b ≠ 0) (hout : IsOutboundIndex fc N out)
    (hinb : IsInboundIndex fc N inb) (hfuel : N - 1 ≤ fuel) :
    ∃ T, makeDoubleEndedNNTour fromCity fromDay start N fc out inb fuel = .returned T ∧
      (T = [] ∨ (ValidTour N start T ∧ at_ T fromDay = fromCity ∧ Feasible fc T ∧
        0 < fc 0 start (at_ T 1) ∧ 0 < fc (N - 1) (at_ T (N - 1)) start)) := by
  rw [makeDoubleEndedNNTour_eq]
  obtain ⟨T, hT, hor⟩ := dennLoop_valid fc start N fromCity fromDay out inb hs hz hout hinb fuel
    (dennInit fromCity fromDay start N)
    (dennInv_init fc start N fromCity fromDay hc hne hd1 hd2)
    (by simp only [dennInit]; omega)
  refine ⟨T, hT, ?_⟩
  rcases hor with h | ⟨hv, ha, hf⟩
  · exact Or.inl h
  · refine Or.inr ⟨hv, ha, hf, ?_, ?_⟩
    · have := hf 0 (by rw [hv.1]; omega)
      unfold leg at this
      rw [hv.2.1] at this
      exact this
    · have := hf (N - 1) (by rw [hv.1]; omega)
      unfold leg at this
      rw [show N - 1 + 1 = N by omega, hv.2.2.1] at this
      exact this

theorem scenarioA_ne_zero (d a b : Nat) : scenarioA d a b ≠ 0 := by
  unfold scenarioA
  split <;> decide

theorem makeDoubleEndedNNTour_valid_witness :
    (0 < 3 ∧ 1 < 3 ∧ 1 ≠ 0 ∧ 1 ≤ 1 ∧ 3 - 1 ≤ 2 ∧
      IsOutboundIndex scenarioA 3 (sortOutboundFlights scenarioA 3) ∧
      IsInboundIndex scenarioA 3 (sortInboundFlights scenarioA 3)) ∧
    makeDoubleEndedNNTour 1 1 0 3 scenarioA (sortOutboundFlights scenarioA 3)
      (sortInboundFlights scenarioA 3) 2 = .returned [0, 1, 2, 0] ∧
    ∃ T, makeDoubleEndedNNTour 1 1 0 3 scenarioA (sortOutboundFlights scenarioA 3)
        (sortInboundFlights scenarioA 3) 2 = .returned T ∧
      (T = [] ∨ (ValidTour 3 0 T ∧ at_ T 1 = 1 ∧ Feasible scenarioA T ∧
        0 < scenarioA 0 0 (at_ T 1) ∧ 0 < scenarioA (3 - 1) (at_ T (3 - 1)) 0)) :=
  ⟨⟨by decide, by decide, by decide, by decide, by decide,
      sortOutboundFlights_isIndex scenarioA 3, sortInboundFlights_isIndex scenarioA 3⟩,
    by decide,
    makeDoubleEndedNNTour_valid scenarioA 0 3 1 1 (sortOutboundFlights scenarioA 3)
      (sortInboundFlights scenarioA 3) 2 (by decide) (by decide) (by decide) (by decide)
      (by decide) scenarioA_ne_zero (sortOutboundFlights_isIndex scenarioA 3)
      (sortInboundFlights_isIndex scenarioA 3) (by decide)⟩

/-! ## The insertion sort of libstdc++ is stable -/

theorem ccAt_append_length (A R : List CityCost) (x : CityCost) :
    ccAt (A ++ x :: R) A.length = x := by
  unfold ccAt
  rw [List.getD_eq_getElem?_getD, List.getElem?_append_right (le_refl _)]
  simp

theorem ccAt_append_lt (A R : List CityCost) (i : Nat) (h : i < A.length) :
    ccAt (A ++ R) i = ccAt A i := by
  unfold ccAt
  simp [List.getD_eq_getElem?_getD, List.getElem?_append_left h]

theorem set_append_length (A R : List CityCost) (x y : CityCost) :
    (A ++ x :: R).set A.length y = A ++ y :: R := by
  induction A with
  | nil => rfl
  | cons a A ih => simp [List.set, ih]

theorem ccAt_concat_last (A : List CityCost) (a : CityCost) (R : List CityCost) :
    ccAt ((A ++ [a]) ++ R) A.length = a := by
  rw [List.append_assoc]
  exact ccAt_append_length A _ a

theorem unguardedLinearInsert_spec (val : CityCost) :
    ∀ (G A R : List CityCost) (x a : CityCost) (fuel : Nat), ccLess val a = false →
      (∀ g, g ∈ G → ccLess val g = true) → G.length + 1 ≤ fuel →
      unguardedLinearInsert val fuel ((A ++ [a]) ++ G ++ x :: R) ((A ++ [a]).length + G.length)
        = some ((A ++ [a]) ++ val :: G ++ R) := by
  intro G
  induction G using List.reverseRecOn with
  | nil =>
    intro A R x a fuel ha _ hfuel
    obtain ⟨f, rfl⟩ : ∃ f, fuel = f + 1 := ⟨fuel - 1, by simp at hfuel; omega⟩
    simp only [List.append_nil, List.length_nil, Nat.add_zero]
    rw [unguardedLinearInsert, if_neg (by simp)]
    have e1 : ccAt ((A ++ [a]) ++ x :: R) ((A ++ [a]).length - 1) = a := by
      rw [show (A ++ [a]).length - 1 = A.length by simp]
      exact ccAt_concat_last A a _
    rw [e1, ha]
    simp only [Bool.false_eq_true, if_false]
    rw [set_append_length]
    simp
  | append_singleton G g ih =>
    intro A R x a fuel ha hG hfuel
    obtain ⟨f, rfl⟩ : ∃ f, fuel = f + 1 := ⟨fuel - 1, by simp at hfuel; omega⟩
    have hg : ccLess val g = true := hG g (by simp)
    have hG1 : ∀ g1, g1 ∈ G → ccLess val g1 = true := fun g1 h => hG g1 (by simp [h])
    have hlen : (A ++ [a]).length + (G ++ [g]).length =
        ((A ++ [a]) ++ G ++ [g]).length := by simp; omega
    rw [unguardedLinearInsert, if_neg (by simp)]
    have hv : (A ++ [a]) ++ (G ++ [g]) ++ x :: R = ((A ++ [a]) ++ G ++ [g]) ++ x :: R := by
      simp
    rw [hv, hlen]
    have e1 : ccAt (((A ++ [a]) ++ G ++ [g]) ++ x :: R) (((A ++ [a]) ++ G ++ [g]).length - 1)
        = g := by
      rw [show ((A ++ [a]) ++ G ++ [g]).length - 1 = ((A ++ [a]) ++ G).length by simp]
      exact ccAt_concat_last _ g _
    rw [e1, hg]
    simp only [if_true]
    rw [set_append_length]
    have hv2 : ((A ++ [a]) ++ G ++ [g]) ++ g :: R = (A ++ [a]) ++ G ++ g :: (g :: R) := by simp
    have hl2 : ((A ++ [a]) ++ G ++ [g]).length - 1 = (A ++ [a]).length + G.length := by
      simp
      omega
    rw [hv2, hl2, ih A (g :: R) g a f ha hG1 (by simp at hfuel ⊢; omega)]
    simp

theorem moveBackward_spec :
    ∀ (M R : List CityCost) (x : CityCost),
      ∃ j, moveBackward M.length (M ++ x :: R) M.length = j :: (M ++ R) := by
  intro M
  induction M using List.reverseRecOn with
  | nil => intro R x; exact ⟨x, rfl⟩
  | append_singleton M m ih =>
    intro R x
    have hl : (M ++ [m]).length = M.length + 1 := by simp
    rw [hl, moveBackward]
    have e1 : ccAt ((M ++ [m]) ++ x :: R) (M.length + 1 - 1) = m := by
      rw [show M.length + 1 - 1 = M.length by omega]
      exact ccAt_concat_last M m _
    rw [e1, ← hl, set_append_length, hl, show M.length + 1 - 1 = M.length by omega]
    have hv : (M ++ [m]) ++ m :: R = M ++ m :: (m :: R) := by simp
    rw [hv]
    obtain ⟨j, hj⟩ := ih (m :: R) m
    exact ⟨j, by rw [hj]; simp⟩

theorem dropWhile_all_less (x : CityCost) :
    ∀ (pre : List CityCost), SortedByCost pre →
      ∀ g, g ∈ pre.dropWhile (fun a => !ccLess x a) → ccLess x g = true
  | [], _, g, hg => by simp at hg
  | b :: pre, hs, g, hg => by
    obtain ⟨hb, hp⟩ := List.pairwise_cons.mp hs
    by_cases hx : ccLess x b = true
    · rw [List.dropWhile_cons_of_neg (by simp [hx])] at hg
      rcases List.mem_cons.mp hg with e | hm
      · rw [e]; exact hx
      · have h1 := hb g hm
        unfold ccLess at hx ⊢
        simp only [decide_eq_true_eq] at hx ⊢
        omega
    · rw [List.dropWhile_cons_of_pos (by simpa using hx)] at hg
      exact dropWhile_all_less x pre hp g hg

theorem sortedByCost_insertStable (x : CityCost) (pre : List CityCost)
    (hs : SortedByCost pre) : SortedByCost (insertStable x pre) := by
  unfold insertStable SortedByCost
  have hsplit := List.takeWhile_append_dropWhile (fun a => !ccLess x a) pre
  have hs2 : (pre.takeWhile (fun a => !ccLess x a) ++
      pre.dropWhile (fun a => !ccLess x a)).Pairwise (fun a b => ¬ b.cost < a.cost) := by
    rw [hsplit]; exact hs
  obtain ⟨hA, hG, hAG⟩ := List.pairwise_append.mp hs2
  have hless := dropWhile_all_less x pre hs
  rw [List.pairwise_append]
  refine ⟨hA, List.pairwise_cons.mpr ⟨?_, hG⟩, ?_⟩
  · intro g hg
    have := hless g hg
    unfold ccLess at this
    simp only [decide_eq_true_eq] at this
    omega
  · intro a ha b hb
    rcases List.mem_cons.mp hb with e | hm
    · have := List.mem_takeWhile_imp ha
      rw [e]
      unfold ccLess at this
      simpa using this
    · exact hAG a ha b hm

theorem length_insertStable (x : CityCost) (pre : List CityCost) :
    (insertStable x pre).length = pre.length + 1 := by
  unfold insertStable
  have hsplit := congrArg List.length
    (List.takeWhile_append_dropWhile (fun a => !ccLess x a) pre)
  simp only [List.length_append, List.length_cons] at hsplit ⊢
  omega

theorem perm_insertStable (x : CityCost) (pre : List CityCost) :
    (insertStable x pre).Perm (x :: pre) := by
  unfold insertStable
  have hsplit := List.takeWhile_append_dropWhile (fun a => !ccLess x a) pre
  calc (pre.takeWhile (fun a => !ccLess x a) ++ x :: pre.dropWhile (fun a => !ccLess x a)).Perm
        (x :: (pre.takeWhile (fun a => !ccLess x a) ++
          pre.dropWhile (fun a => !ccLess x a))) := List.perm_middle
    _ = x :: pre := by rw [hsplit]

theorem insertionSortLoop_spec :
    ∀ (rest pre : List CityCost), pre ≠ [] → SortedByCost pre →
      insertionSortLoop 0 rest.length (pre ++ rest) pre.length =
        some (rest.foldl (fun acc x => insertStable x acc) pre)
  | [], pre, _, _ => by simp [insertionSortLoop]
  | x :: rest, pre, hne, hs => by
    have hs1 := sortedByCost_insertStable x pre hs
    have hl1 := length_insertStable x pre
    have hne1 : insertStable x pre ≠ [] := by
      intro e; rw [e] at hl1; simp at hl1
    have ih := insertionSortLoop_spec rest (insertStable x pre) hne1 hs1
    rw [hl1] at ih
    obtain ⟨h, t, hpre⟩ := List.exists_cons_of_ne_nil hne
    have hlen : (x :: rest).length = rest.length + 1 := rfl
    have h0 : ccAt (pre ++ x :: rest) 0 = h := by rw [hpre]; rfl
    rw [hlen, insertionSortLoop, ccAt_append_length, h0, List.foldl_cons]
    by_cases hx : ccLess x h = true
    · rw [if_pos hx, Nat.sub_zero]
      obtain ⟨j, hj⟩ := moveBackward_spec pre rest x
      rw [hj]
      have hins : insertStable x pre = x :: pre := by
        unfold insertStable
        rw [hpre, List.takeWhile_cons_of_neg (by simp [hx]),
          List.dropWhile_cons_of_neg (by simp [hx])]
        rfl
      rw [hins] at ih ⊢
      simpa using ih
    · rw [if_neg hx]
      have hxf : ccLess x h = false := by simpa using hx
      have hsplit := List.takeWhile_append_dropWhile (fun a => !ccLess x a) pre
      have hAne : pre.takeWhile (fun a => !ccLess x a) ≠ [] := by
        rw [hpre, List.takeWhile_cons_of_pos (by simp [hxf])]
        simp
      obtain ⟨A, a, hA⟩ : ∃ A a, pre.takeWhile (fun a => !ccLess x a) = A ++ [a] :=
        ⟨_, _, (List.dropLast_append_getLast hAne).symm⟩
      have ha : ccLess x a = false := by
        have hm : a ∈ pre.takeWhile (fun a => !ccLess x a) := by rw [hA]; simp
        simpa using List.mem_takeWhile_imp hm
      have hG := dropWhile_all_less x pre hs
      have hins : insertStable x pre =
          (A ++ [a]) ++ x :: pre.dropWhile (fun a => !ccLess x a) := by
        unfold insertStable
        rw [hA]
      rw [hA] at hsplit
      rw [hins] at ih ⊢
      generalize pre.dropWhile (fun a => !ccLess x a) = G at hsplit hG ih ⊢
      subst hsplit
      have hl : (A ++ [a] ++ G).length = (A ++ [a]).length + G.length :=
        List.length_append _ _
      have hspec := unguardedLinearInsert_spec x G A rest x a
        ((A ++ [a]).length + G.length + 1) ha hG (by omega)
      rw [hl] at ih ⊢
      rw [hspec]
      dsimp only
      have e : A ++ [a] ++ x :: G ++ rest = A ++ [a] ++ (x :: G) ++ rest := by simp
      rw [e]
      exact ih
  termination_by rest => rest.length

theorem stdSort_small (l : List CityCost) (h16 : l.length ≤ 16) :
    stdSort l = some (l.foldl (fun acc x => insertStable x acc) []) := by
  cases l with
  | nil => rfl
  | cons h t =>
    have hlen : (h :: t).length = t.length + 1 := rfl
    unfold stdSort
    rw [if_neg (by simp), hlen, introsortLoop, if_neg (by rw [hlen] at h16; omega)]
    dsimp only
    unfold finalInsertionSort stdInsertionSort
    rw [if_neg (by rw [hlen] at h16; omega), if_neg (by omega)]
    have := insertionSortLoop_spec t [h] (by simp) (by simp [SortedByCost])
    simpa [insertStable] using this

theorem tieBreak_insertStable (x : CityCost) (pre : List CityCost) (hs : SortedByCost pre)
    (ht : TieBreakByCity pre) (hc : ∀ a, a ∈ pre → a.city < x.city) :
    TieBreakByCity (insertStable x pre) := by
  unfold insertStable TieBreakByCity
  have hsplit := List.takeWhile_append_dropWhile (fun a => !ccLess x a) pre
  have ht2 : (pre.takeWhile (fun a => !ccLess x a) ++
      pre.dropWhile (fun a => !ccLess x a)).Pairwise
        (fun a b => a.cost = b.cost → a.city < b.city) := by
    rw [hsplit]; exact ht
  obtain ⟨hA, hG, hAG⟩ := List.pairwise_append.mp ht2
  have hless := dropWhile_all_less x pre hs
  rw [List.pairwise_append]
  refine ⟨hA, List.pairwise_cons.mpr ⟨?_, hG⟩, ?_⟩
  · intro g hg e
    have := hless g hg
    unfold ccLess at this
    simp only [decide_eq_true_eq] at this
    omega
  · intro a ha b hb
    rcases List.mem_cons.mp hb with e | hm
    · intro _
      rw [e]
      exact hc a ((List.takeWhile_sublist _).subset ha)
    · exact hAG a ha b hm

theorem foldl_insertStable_spec :
    ∀ (rest pre : List CityCost), SortedByCost pre → TieBreakByCity pre →
      (∀ a, a ∈ pre → ∀ b, b ∈ rest → a.city < b.city) →
      rest.Pairwise (fun a b => a.city < b.city) →
      (rest.foldl (fun acc x => insertStable x acc) pre).Perm (pre ++ rest) ∧
      SortedByCost (rest.foldl (fun acc x => insertStable x acc) pre) ∧
      TieBreakByCity (rest.foldl (fun acc x => insertStable x acc) pre)
  | [], pre, hs, ht, _, _ => by simpa using ⟨hs, ht⟩
  | x :: rest, pre, hs, ht, hc, hp => by
    obtain ⟨hx, hp1⟩ := List.pairwise_cons.mp hp
    have hperm := perm_insertStable x pre
    have hc1 : ∀ a, a ∈ insertStable x pre → ∀ b, b ∈ rest → a.city < b.city := by
      intro a ha b hb
      rcases List.mem_cons.mp (hperm.mem_iff.mp ha) with e | hm
      · rw [e]; exact hx b hb
      · exact hc a hm b (List.mem_cons_of_mem _ hb)
    obtain ⟨p1, p2, p3⟩ := foldl_insertStable_spec rest (insertStable x pre)
      (sortedByCost_insertStable x pre hs)
      (tieBreak_insertStable x pre hs ht (fun a ha => hc a ha x (List.mem_cons_self _ _)))
      hc1 hp1
    rw [List.foldl_cons]
    refine ⟨?_, p2, p3⟩
    refine p1.trans ?_
    calc (insertStable x pre ++ rest).Perm ((x :: pre) ++ rest) := hperm.append_right rest
      _ = x :: (pre ++ rest) := rfl
      _ |>.Perm (pre ++ x :: rest) := List.perm_middle.symm

/-- On a vector of at most 16 flights listed in increasing order of the city,
the `std::sort` of libstdc++ is its insertion sort and returns the list of the
stable sort by price: flights of the same price stay in increasing order of
the city. -/
theorem stdSort_small_stable (l : List CityCost) (h16 : l.length ≤ 16)
    (hinc : l.Pairwise (fun a b => a.city < b.city)) :
    stdSort l = some (l.insertionSort (fun a b => a.cost ≤ b.cost)) := by
  rw [stdSort_small l h16]
  obtain ⟨p1, p2, p3⟩ := foldl_insertStable_spec l [] (by simp [SortedByCost])
    (by simp [TieBreakByCity]) (by simp) hinc
  rw [List.nil_append] at p1
  congr 1
  exact index_eq_of_tieBreak _ _ (p1.trans (List.perm_insertionSort _ l).symm) p2
    (sortedByCost_insertionSort l) p3 (tieBreak_insertionSort l hinc)

theorem sortOutboundFlightsStd_small (fc : FlightCosts) (N city day : Nat)
    (h16 : (outboundCandidates fc N city day).length ≤ 16) :
    sortOutboundFlightsStd fc N city day = some (sortOutboundFlights fc N city day) := by
  unfold sortOutboundFlightsStd sortOutboundFlights
  split_ifs
  · apply stdSort_small_stable _ h16
    unfold outboundCandidates
    exact pairwise_city_of_map N _ _ (map_city_filterMap N (fun x => fc day city x))
  · rfl

theorem sortInboundFlightsStd_small (fc : FlightCosts) (N city day : Nat)
    (h16 : (inboundCandidates fc N city day).length ≤ 16) :
    sortInboundFlightsStd fc N city day = some (sortInboundFlights fc N city day) := by
  unfold sortInboundFlightsStd sortInboundFlights
  split_ifs
  · apply stdSort_small_stable _ h16
    unfold inboundCandidates
    exact pairwise_city_of_map N _ _ (map_city_filterMap N (fun x => fc day x city))
  · rfl

theorem length_outboundCandidates_le (fc : FlightCosts) (N city day : Nat) :
    (outboundCandidates fc N city day).length ≤ N := by
  unfold outboundCandidates
  exact (List.length_filterMap_le _ _).trans (by simp)

theorem length_inboundCandidates_le (fc : FlightCosts) (N city day : Nat) :
    (inboundCandidates fc N city day).length ≤ N := by
  unfold inboundCandidates
  exact (List.length_filterMap_le _ _).trans (by simp)

/-- Claim C22, counterexample: with 18 cities and every flight between two
different cities priced 5, the 17 flights out of city 0 on day 0 are collected
in increasing order of the destination, and `std::sort` (libstdc++: a vector
of more than 16 elements is partitioned around a median of three before the
insertion sort) leaves them in the order 9, 17, 16, ..., 10, 1, 8, 7, ..., 2:
flights of the same price do not stand in increasing order of the destination.
(No comparison holds among equal prices, so `__move_median_to_first` swaps the
first element with the middle one, and `__unguarded_partition` then swaps the
positions 1 and 16, 2 and 15, ..., 8 and 9; the parts left are of at most 16
elements and the final insertion sort moves nothing.) The same holds for the
flights into city 0. -/
theorem stdSort_breaks_tie_rule :
    outboundCandidates flatTable 18 0 0 =
      [⟨1, 5⟩, ⟨2, 5⟩, ⟨3, 5⟩, ⟨4, 5⟩, ⟨5, 5⟩, ⟨6, 5⟩, ⟨7, 5⟩, ⟨8, 5⟩, ⟨9, 5⟩, ⟨10, 5⟩,
        ⟨11, 5⟩, ⟨12, 5⟩, ⟨13, 5⟩, ⟨14, 5⟩, ⟨15, 5⟩, ⟨16, 5⟩, ⟨17, 5⟩] ∧
    sortOutboundFlightsStd flatTable 18 0 0 =
      some [⟨9, 5⟩, ⟨17, 5⟩, ⟨16, 5⟩, ⟨15, 5⟩, ⟨14, 5⟩, ⟨13, 5⟩, ⟨12, 5⟩, ⟨11, 5⟩, ⟨10, 5⟩,
        ⟨1, 5⟩, ⟨8, 5⟩, ⟨7, 5⟩, ⟨6, 5⟩, ⟨5, 5⟩, ⟨4, 5⟩, ⟨3, 5⟩, ⟨2, 5⟩] ∧
    sortInboundFlightsStd flatTable 18 0 0 =
      some [⟨9, 5⟩, ⟨17, 5⟩, ⟨16, 5⟩, ⟨15, 5⟩, ⟨14, 5⟩, ⟨13, 5⟩, ⟨12, 5⟩, ⟨11, 5⟩, ⟨10, 5⟩,
        ⟨1, 5⟩, ⟨8, 5⟩, ⟨7, 5⟩, ⟨6, 5⟩, ⟨5, 5⟩, ⟨4, 5⟩, ⟨3, 5⟩, ⟨2, 5⟩] ∧
    ¬ TieBreakByCity [⟨9, 5⟩, ⟨17, 5⟩, ⟨16, 5⟩, ⟨15, 5⟩, ⟨14, 5⟩, ⟨13, 5⟩, ⟨12, 5⟩, ⟨11, 5⟩,
        ⟨10, 5⟩, ⟨1, 5⟩, ⟨8, 5⟩, ⟨7, 5⟩, ⟨6, 5⟩, ⟨5, 5⟩, ⟨4, 5⟩, ⟨3, 5⟩, ⟨2, 5⟩] :=
  ⟨by decide, by decide, by decide, by decide⟩

/-- Claim C22, amended: for every `(city, day)`, any two possible results of
`sortOutboundFlights` (respectively `sortInboundFlights`) hold the same flights
with the same sequence of prices, and they are the same list when in both the
flights of equal price stand in increasing order of the city index; the lists
of the stable model `sortOutboundFlights` and `sortInboundFlights` have the
flights of equal price in increasing order of the city index, and they are
the lists that the `std::sort` of libstdc++ returns when at most 16 flights
were collected. The order among flights of equal price is not fixed by the
code. -/
theorem flightIndexes_up_to_ties (fc : FlightCosts) (N : Nat)
    (out out1 inb inb1 : Nat → Nat → List CityCost)
    (hout : IsOutboundIndex fc N out) (hout1 : IsOutboundIndex fc N out1)
    (hinb : IsInboundIndex fc N inb) (hinb1 : IsInboundIndex fc N inb1)
    (city day : Nat) (hc : city < N) (hd : day < N) :
    ((out city day).Perm (out1 city day) ∧
      (out city day).map CityCost.cost = (out1 city day).map CityCost.cost ∧
      (TieBreakByCity (out city day) → TieBreakByCity (out1 city day) →
        out city day = out1 city day)) ∧
    ((inb city day).Perm (inb1 city day) ∧
      (inb city day).map CityCost.cost = (inb1 city day).map CityCost.cost ∧
      (TieBreakByCity (inb city day) → TieBreakByCity (inb1 city day) →
        inb city day = inb1 city day)) ∧
    TieBreakByCity (sortOutboundFlights fc N city day) ∧
    TieBreakByCity (sortInboundFlights fc N city day) ∧
    ((outboundCandidates fc N city day).length ≤ 16 →
      sortOutboundFlightsStd fc N city day = some (sortOutboundFlights fc N city day)) ∧
    ((inboundCandidates fc N city day).length ≤ 16 →
      sortInboundFlightsStd fc N city day = some (sortInboundFlights fc N city day)) := by
  obtain ⟨p1, s1⟩ := hout city day hc hd
  obtain ⟨p2, s2⟩ := hout1 city day hc hd
  obtain ⟨p3, s3⟩ := hinb city day hc hd
  obtain ⟨p4, s4⟩ := hinb1 city day hc hd
  refine ⟨⟨p1.trans p2.symm, index_same_prices _ _ (p1.trans p2.symm) s1 s2,
    index_eq_of_tieBreak _ _ (p1.trans p2.symm) s1 s2⟩,
    ⟨p3.trans p4.symm, index_same_prices _ _ (p3.trans p4.symm) s3 s4,
    index_eq_of_tieBreak _ _ (p3.trans p4.symm) s3 s4⟩, ?_, ?_,
    sortOutboundFlightsStd_small fc N city day, sortInboundFlightsStd_small fc N city day⟩
  · unfold sortOutboundFlights
    rw [if_pos ⟨hc, hd⟩]
    apply tieBreak_insertionSort
    unfold outboundCandidates
    exact pairwise_city_of_map N _ _ (map_city_filterMap N (fun x => fc day city x))
  · unfold sortInboundFlights
    rw [if_pos ⟨hc, hd⟩]
    apply tieBreak_insertionSort
    unfold inboundCandidates
    exact pairwise_city_of_map N _ _ (map_city_filterMap N (fun x => fc day x city))

theorem flightIndexes_up_to_ties_witness :
    ((tieOut 0 0).Perm (sortOutboundFlights tieTable 3 0 0) ∧
      (tieOut 0 0).map CityCost.cost = (sortOutboundFlights tieTable 3 0 0).map CityCost.cost ∧
      (TieBreakByCity (tieOut 0 0) → TieBreakByCity (sortOutboundFlights tieTable 3 0 0) →
        tieOut 0 0 = sortOutboundFlights tieTable 3 0 0)) ∧
    ((sortInboundFlights tieTable 3 0 0).Perm (sortInboundFlights tieTable 3 0 0) ∧
      (sortInboundFlights tieTable 3 0 0).map CityCost.cost =
        (sortInboundFlights tieTable 3 0 0).map CityCost.cost ∧
      (TieBreakByCity (sortInboundFlights tieTable 3 0 0) →
        TieBreakByCity (sortInboundFlights tieTable 3 0 0) →
        sortInboundFlights tieTable 3 0 0 = sortInboundFlights tieTable 3 0 0)) ∧
    TieBreakByCity (sortOutboundFlights tieTable 3 0 0) ∧
    TieBreakByCity (sortInboundFlights tieTable 3 0 0) ∧
    ((outboundCandidates tieTable 3 0 0).length ≤ 16 →
      sortOutboundFlightsStd tieTable 3 0 0 = some (sortOutboundFlights tieTable 3 0 0)) ∧
    ((inboundCandidates tieTable 3 0 0).length ≤ 16 →
      sortInboundFlightsStd tieTable 3 0 0 = some (sortInboundFlights tieTable 3 0 0)) :=
  flightIndexes_up_to_ties tieTable 3 tieOut (sortOutboundFlights tieTable 3)
    (sortInboundFlights tieTable 3) (sortInboundFlights tieTable 3)
    tieOut_isIndex (sortOutboundFlights_isIndex tieTable 3)
    (sortInboundFlights_isIndex tieTable 3) (sortInboundFlights_isIndex tieTable 3)
    0 0 (by decide) (by decide)

end TDTSP
